import Mathlib

/-!
# A region quadtree for polygons: embedding and verification

Shallow embedding of `src/quadtree.c` and `src/utils.c`.

Conventions of the embedding.

* C `int` and `long` values are Lean integers.  The calls are embedded twice.
  In the first embedding the arithmetic is exact: signed overflow is undefined
  behaviour in C and executions that overflow are outside it.  In the second
  (namespace `int32`, with `point_in_polygon_int32` and
  `rectangle_inside_polygon_int32`) every `int` sum, difference and product is
  reduced modulo `2^32` into the range of `int` (`int_wrap`), which is what a
  two's-complement machine computes: the sums `left + width` and
  `bottom + height` of the bounds check and the product of the loop of
  `point_in_polygon` leave the range of `int` for boxes and polygons that the
  code accepts.  The two embeddings share the tree, the payload lists,
  `quadtree_create` and `quadtree_remove`, which compute no sum of
  coordinates, and agree on the bounds check, the quadrant and the descent
  wherever the box fits in `int` (`fits`, `int32_in_bounds_of_fits`,
  `int32_find_leaf_of_fits`).  On a tree whose root box lies in the square of
  the coordinates from `-2^14` to `2^14` no operation overflows: there
  `quadtree_add` and `quadtree_query` of the two embeddings are equal and every
  tree of the second is a tree of the first (`int32_quadtree_add_eq`,
  `int32_quadtree_query_eq`, `int32_reachable_small`).  The structural
  invariants of the trees hold in both embeddings for boxes of every size
  (`int32_reachable_structure`).  The one conversion the code performs that is
  defined and does not preserve the value, `unsigned long` to `int` in
  `quadtree_create`, is embedded explicitly (`int_of_ulong`).
* C `double` values are IEEE 754 binary64 values with round-to-nearest-even
  (`c_double`, `round_binary64`).  All doubles the code computes have a
  magnitude between `2^(-130)` and `2^130` or are zero or NaN, so neither
  overflow nor subnormal numbers occur and rounding to 53 significant bits
  describes them exactly.
* A call that aborts (a failed assertion), dereferences `NULL`, or exhausts the
  recursion budget of the embedding returns `none`.
* `calloc` and `malloc` succeed, except for a negative element count.
* A linked list of `lq_polygon_node_t` is a Lean list of the payloads
  `lq_polygon_t` its nodes point to; the first list node is the head.  Two
  further embeddings of the list functions keep the list nodes: one with
  their share counters (`shares`), one with their `next` pointers and the
  cause of an abort (`links`).
* A pointer to a tree node is a `lq_quadtree_node_t`, `null` being `NULL`.
-/

namespace LQ

/-! ## Constants -/

def QUADTREE_SUCCESS : Int := 0
def QUADTREE_ERROR : Int := 1
def QUADTREE_ERROR_OUT_OF_MEMORY : Int := 2
def QUADTREE_ERROR_OUT_OF_BOUNDS : Int := 3

def NO_COLLISION : Int := 0
def COLLISION : Int := 1

def FIRST_QUADRANT : Nat := 0
def SECOND_QUADRANT : Nat := 1
def THIRD_QUADRANT : Nat := 2
def FOURTH_QUADRANT : Nat := 3

def MAX_DEPTH : Int := 15
def MIN_SIZE : Int := 4

/-! ## C arrays -/

/-- Read `a[i]` from a C array of `int`. -/
def arr (a : List Int) (i : Nat) : Int := a.getD i 0

/-! ## Doubles -/

/-- A C `double`: a finite binary64 value or NaN. -/
inductive c_double where
  | nan : c_double
  | val (q : ℚ) : c_double
deriving DecidableEq

/-- Number of binary digits of a natural number (`fuel` bounds the loop). -/
def bit_length : Nat → Nat → Nat
  | 0, _ => 0
  | fuel + 1, n => if n = 0 then 0 else bit_length fuel (n / 2) + 1

/-- The integer `e` with `2^e ≤ q < 2^(e+1)`, for a positive rational `q`. -/
def floor_log2 (q : ℚ) : Int :=
  let e0 : Int := (bit_length q.num.natAbs q.num.natAbs : Int) - (bit_length q.den q.den : Int)
  if q < (2 : ℚ) ^ e0 then e0 - 1 else e0

/-- Round a non-negative rational to the nearest integer, ties to even. -/
def round_half_even (m : ℚ) : Int :=
  let f : Int := ⌊m⌋
  let r : ℚ := m - f
  if r < 1 / 2 then f
  else if 1 / 2 < r then f + 1
  else if f % 2 = 0 then f else f + 1

/-- Round a rational to the nearest binary64 value (53 significant bits,
ties to even; the exponent range is not limited). -/
def round_binary64 (q : ℚ) : ℚ :=
  if q = 0 then 0
  else
    let a : ℚ := |q|
    let ulp : ℚ := (2 : ℚ) ^ (floor_log2 a - 52)
    let r : ℚ := (round_half_even (a / ulp) : ℚ) * ulp
    if q < 0 then -r else r

namespace c_double

/-- Conversion of a `long` (or `int`) to `double`. -/
def of_long (n : Int) : c_double := val (round_binary64 n)

/-- Sum of two doubles. -/
def add : c_double → c_double → c_double
  | val a, val b => val (round_binary64 (a + b))
  | _, _ => nan

/-- Product of two doubles. -/
def mul : c_double → c_double → c_double
  | val a, val b => val (round_binary64 (a * b))
  | _, _ => nan

/-- Quotient of two doubles.  A zero divisor gives NaN: the code divides by
zero only in `lines_intersect` with a zero dividend (see
`dot_product_zero_of_frac_zero`), and `0. / 0.` is NaN. -/
def div : c_double → c_double → c_double
  | val a, val b => if b = 0 then nan else val (round_binary64 (a / b))
  | _, _ => nan

/-- The comparison `a <= b`; false when an operand is NaN. -/
def le : c_double → c_double → Bool
  | val a, val b => decide (a ≤ b)
  | _, _ => false

/-- The comparison `a < b`; false when an operand is NaN. -/
def lt : c_double → c_double → Bool
  | val a, val b => decide (a < b)
  | _, _ => false

end c_double

/-! ## Geometry kernel (`utils.c`) -/

/-- Loop of `next_power_of_2`: `while (n) { n >>= 1; ++shifts; }`.  An
`unsigned long` has 64 bits, so 64 iterations exhaust it. -/
def next_power_of_2_loop : Nat → Nat → Nat → Nat
  | 0, _, shifts => shifts
  | fuel + 1, n, shifts =>
    if n = 0 then shifts else next_power_of_2_loop fuel (n >>> 1) (shifts + 1)

/-- Embedding of `next_power_of_2` on `unsigned long`. -/
def next_power_of_2 (n : Nat) : Nat :=
  if n = 0 then 1
  else 1 <<< next_power_of_2_loop 64 (n - 1) 0

/-- Conversion of an `unsigned long` to `int` (reduction modulo `2^32` into
the signed range). -/
def int_of_ulong (n : Nat) : Int :=
  let m : Int := (n : Int) % 2 ^ 32
  if m < 2 ^ 31 then m else m - 2 ^ 32

/-- Embedding of `cross_product`. -/
def cross_product (x1 y1 x2 y2 : Int) : Int := (x1 * y2) - (y1 * x2)

/-- Embedding of `dot_product`. -/
def dot_product (x1 y1 x2 y2 : Int) : Int := (x1 * x2) + (y1 * y2)

/-- One iteration of the loop of `point_in_polygon`; the state is
`(inside, j)`. -/
def point_in_polygon_step (px py : Int) (xs ys : List Int) (st : Bool × Nat) (i : Nat) :
    Bool × Nat :=
  let j := st.2
  if (decide (arr ys i > py) != decide (arr ys j > py)) &&
      decide (px < Int.tdiv ((arr xs j - arr xs i) * (py - arr ys i)) (arr ys j - arr ys i)
                    + arr xs i)
  then (!st.1, i) else (st.1, i)

/-- Embedding of `point_in_polygon`. -/
def point_in_polygon (px py : Int) (n : Int) (xs ys : List Int) : Bool :=
  ((List.range n.toNat).foldl (point_in_polygon_step px py xs ys) (false, (n - 1).toNat)).1

/-- Embedding of `point_in_rectangle`. -/
def point_in_rectangle (px py rx ry w h : Int) : Bool :=
  point_in_polygon px py 4 [rx, rx + w, rx + w, rx] [ry, ry, ry + h, ry + h]

/-- A segment `int line[2][2]`: start point and end point. -/
structure segment where
  x0 : Int
  y0 : Int
  x1 : Int
  y1 : Int
deriving DecidableEq

/-- Embedding of `lines_intersect`. -/
def lines_intersect (line1 line2 : segment) : Bool :=
  let line1Vector_x := line1.x1 - line1.x0
  let line1Vector_y := line1.y1 - line1.y0
  let line2Vector_x := line2.x1 - line2.x0
  let line2Vector_y := line2.y1 - line2.y0
  let diff_x := line2.x0 - line1.x0
  let diff_y := line2.y0 - line1.y0
  let zero := c_double.of_long 0
  let one := c_double.of_long 1
  let cross_product1 := cross_product line1Vector_x line1Vector_y line2Vector_x line2Vector_y
  let cross_product2 := cross_product diff_x diff_y line1Vector_x line1Vector_y
  if cross_product1 = 0 then
    if cross_product2 = 0 then
      let frac := c_double.of_long
        (dot_product line1Vector_x line1Vector_y line1Vector_x line1Vector_y)
      let lambda1 := c_double.div
        (c_double.of_long (dot_product diff_x diff_y line1Vector_x line1Vector_y)) frac
      let lambda2 := c_double.add lambda1 (c_double.div
        (c_double.of_long (dot_product line1Vector_x line1Vector_y line2Vector_x line2Vector_y))
        frac)
      (c_double.le zero lambda1 && c_double.le lambda1 one) ||
      (c_double.le zero lambda2 && c_double.le lambda2 one) ||
      (c_double.lt lambda1 zero && c_double.lt one lambda2) ||
      (c_double.lt lambda2 zero && c_double.lt one lambda1)
    else false
  else
    let frac := c_double.div one (c_double.of_long cross_product1)
    let lambda1 := c_double.mul
      (c_double.of_long (cross_product diff_x diff_y line2Vector_x line2Vector_y)) frac
    let lambda2 := c_double.mul
      (c_double.of_long (cross_product diff_x diff_y line1Vector_x line1Vector_y)) frac
    (c_double.le zero lambda1 && c_double.lt lambda1 one) &&
    (c_double.le zero lambda2 && c_double.lt lambda2 one)

/-- The array `rectangle_lines` of `collide_polygon_rectangle`. -/
def rectangle_lines (rx ry w h : Int) : List segment :=
  [ ⟨rx, ry, rx + w, ry⟩,
    ⟨rx + w, ry, rx + w, ry + h⟩,
    ⟨rx + w, ry + h, rx, ry + h⟩,
    ⟨rx, ry + h, rx, ry⟩ ]

/-- The edge loop of `collide_polygon_rectangle`, from the polygon indices
still to visit and the current `old_polygon_index`: true when some polygon
edge intersects some rectangle edge. -/
def collide_edges (xs ys : List Int) (rx ry w h : Int) : List Nat → Nat → Bool
  | [], _ => false
  | polygon_index :: rest, old_polygon_index =>
    let polygon_line : segment :=
      ⟨arr xs old_polygon_index, arr ys old_polygon_index,
       arr xs polygon_index, arr ys polygon_index⟩
    if (rectangle_lines rx ry w h).any (fun rl => lines_intersect polygon_line rl) then true
    else collide_edges xs ys rx ry w h rest polygon_index

/-- Embedding of `collide_polygon_rectangle`; `none` when `assert(n > 0)`
fails. -/
def collide_polygon_rectangle (n : Int) (xs ys : List Int) (rx ry w h : Int) : Option Int :=
  if n ≤ 0 then none
  else if collide_edges xs ys rx ry w h (List.range n.toNat) (n - 1).toNat then some COLLISION
  else if point_in_rectangle (arr xs 0) (arr ys 0) rx ry w h then some COLLISION
  else if point_in_polygon rx ry n xs ys then some COLLISION
  else some NO_COLLISION

/-- Embedding of `rectangle_inside_polygon`. -/
def rectangle_inside_polygon (rx ry w h : Int) (number_of_points : Int) (xs ys : List Int) :
    Bool :=
  point_in_polygon rx ry number_of_points xs ys &&
  point_in_polygon (rx + w - 1) ry number_of_points xs ys &&
  point_in_polygon rx (ry + h - 1) number_of_points xs ys &&
  point_in_polygon (rx + w - 1) (ry + h - 1) number_of_points xs ys

/-! ## Data model (`quadtree.c`) -/

/-- Embedding of `lq_rect_t`. -/
structure lq_rect_t where
  bottom : Int
  left : Int
  height : Int
  width : Int
deriving DecidableEq

/-- Embedding of `lq_polygon_t`, the payload shared by the tree nodes. -/
structure lq_polygon_t where
  id : Int
  number_of_points : Int
  xs : List Int
  ys : List Int
deriving DecidableEq

/-- Embedding of `lq_quadtree_node_t *`: `null`, or a node with its four
children, depth, bounding box, payload list and payload counter. -/
inductive lq_quadtree_node_t where
  | null : lq_quadtree_node_t
  | node (c0 c1 c2 c3 : lq_quadtree_node_t) (depth : Int) (bounding_box : lq_rect_t)
      (polygons : List lq_polygon_t) (number_of_polygons : Int) : lq_quadtree_node_t
deriving DecidableEq

/-- Embedding of `lq_quadtree_t`. -/
structure lq_quadtree_t where
  root : lq_quadtree_node_t
deriving DecidableEq

/-- Embedding of `quadtree_query_result_t`; `ids = none` is the `NULL`
pointer. -/
structure quadtree_query_result_t where
  number_of_ids : Int
  ids : Option (List Int)
deriving DecidableEq

/-! ## Rectangles -/

/-- Embedding of `lq_rect_point_is_in_bounds`. -/
def lq_rect_point_is_in_bounds (rect : lq_rect_t) (x y : Int) : Bool :=
  if (x < rect.left || rect.left + rect.width ≤ x) ||
     (y < rect.bottom || rect.bottom + rect.height ≤ y) then false
  else true

/-- Embedding of `lq_rect_get_quadrant`; `none` when the assertion that the
point is in bounds fails. -/
def lq_rect_get_quadrant (rect : lq_rect_t) (x y : Int) : Option Nat :=
  if lq_rect_point_is_in_bounds rect x y then
    let width_half := Int.tdiv rect.width 2
    let height_half := Int.tdiv rect.height 2
    if x < rect.left + width_half then
      if y < rect.bottom + height_half then some THIRD_QUADRANT else some SECOND_QUADRANT
    else
      if y < rect.bottom + height_half then some FOURTH_QUADRANT else some FIRST_QUADRANT
  else none

/-! ## Nodes -/

/-- Embedding of `lq_quadtree_node_allocate` followed by
 `lq_quadtree_node_initialize`: a zeroed node with its box and depth set. -/
def lq_quadtree_node_new (rx ry rw rh depth : Int) : lq_quadtree_node_t :=
  .node .null .null .null .null depth ⟨ry, rx, rh, rw⟩ [] 0

/-- Embedding of `lq_quadtree_node_add_polygon` applied to a fresh clone of
`polygon`: the clone becomes the head of the list. -/
def lq_quadtree_node_add_polygon : lq_quadtree_node_t → lq_polygon_t → Option lq_quadtree_node_t
  | .null, _ => none
  | .node c0 c1 c2 c3 depth box polygons number_of_polygons, polygon =>
    some (.node c0 c1 c2 c3 depth box (polygon :: polygons) (number_of_polygons + 1))

/-- Embedding of `lq_quadtree_node_add_polygons`: every list element is
cloned and added in turn. -/
def lq_quadtree_node_add_polygons :
    lq_quadtree_node_t → List lq_polygon_t → Option lq_quadtree_node_t
  | node, [] => some node
  | node, current :: rest =>
    match lq_quadtree_node_add_polygon node current with
    | none => none
    | some node1 => lq_quadtree_node_add_polygons node1 rest

/-- Embedding of `lq_quadtree_node_clear_polygons`; `none` when the
assertion on `number_of_polygons` fails. -/
def lq_quadtree_node_clear_polygons : lq_quadtree_node_t → Option lq_quadtree_node_t
  | .null => none
  | .node c0 c1 c2 c3 depth box polygons number_of_polygons =>
    if number_of_polygons = (polygons.length : Int) then
      some (.node c0 c1 c2 c3 depth box [] 0)
    else none

/-- Embedding of `lq_quadtree_node_populate_children` (allocation
succeeding). -/
def lq_quadtree_node_populate_children : lq_quadtree_node_t → Option lq_quadtree_node_t
  | .null => none
  | .node c0 c1 c2 c3 depth box polygons number_of_polygons =>
    let rx := box.left
    let ry := box.bottom
    let half_width := Int.tdiv box.width 2
    let half_height := Int.tdiv box.height 2
    let new_width := half_width
    let new_height := half_height
    if c0 ≠ .null then some (.node c0 c1 c2 c3 depth box polygons number_of_polygons)
    else
      match lq_quadtree_node_add_polygons
              (lq_quadtree_node_new (rx + half_width) (ry + half_height) new_width new_height
                (depth + 1)) polygons,
            lq_quadtree_node_add_polygons
              (lq_quadtree_node_new rx (ry + half_height) new_width new_height (depth + 1))
              polygons,
            lq_quadtree_node_add_polygons
              (lq_quadtree_node_new rx ry new_width new_height (depth + 1)) polygons,
            lq_quadtree_node_add_polygons
              (lq_quadtree_node_new (rx + half_width) ry new_width new_height (depth + 1))
              polygons with
      | some n0, some n1, some n2, some n3 =>
        lq_quadtree_node_clear_polygons
          (.node n0 n1 n2 n3 depth box polygons number_of_polygons)
      | _, _, _, _ => none

/-- Embedding of `lq_quadtree_node_put_polygon` (allocation succeeding), with
a recursion budget.  The result is the node after the call, the return code
being `QUADTREE_SUCCESS`; `none` when the call aborts or the budget is
exhausted. -/
def lq_quadtree_node_put_polygon :
    Nat → lq_quadtree_node_t → lq_polygon_t → Option lq_quadtree_node_t
  | 0, _, _ => none
  | _ + 1, .null, _ => none
  | fuel + 1, .node c0 c1 c2 c3 depth box polygons number_of_polygons, polygon =>
    let rx := box.left
    let ry := box.bottom
    let rw := box.width
    let rh := box.height
    match collide_polygon_rectangle polygon.number_of_points polygon.xs polygon.ys
            rx ry rw rh with
    | none => none
    | some collision =>
      if collision = 0 then
        some (.node c0 c1 c2 c3 depth box polygons number_of_polygons)
      else if depth = MAX_DEPTH || rw ≤ MIN_SIZE || rh ≤ MIN_SIZE ||
              (c0 = .null &&
               rectangle_inside_polygon rx ry rw rh polygon.number_of_points
                 polygon.xs polygon.ys) then
        lq_quadtree_node_add_polygon
          (.node c0 c1 c2 c3 depth box polygons number_of_polygons) polygon
      else
        match lq_quadtree_node_populate_children
                (.node c0 c1 c2 c3 depth box polygons number_of_polygons) with
        | some (.node d0 d1 d2 d3 depth1 box1 polygons1 number_of_polygons1) =>
          match lq_quadtree_node_put_polygon fuel d0 polygon with
          | none => none
          | some e0 =>
            match lq_quadtree_node_put_polygon fuel d1 polygon with
            | none => none
            | some e1 =>
              match lq_quadtree_node_put_polygon fuel d2 polygon with
              | none => none
              | some e2 =>
                match lq_quadtree_node_put_polygon fuel d3 polygon with
                | none => none
                | some e3 =>
                  some (.node e0 e1 e2 e3 depth1 box1 polygons1 number_of_polygons1)
        | _ => none

/-- The recursion budget that `quadtree_add` passes to
`lq_quadtree_node_put_polygon`: it exceeds the height of the tree plus the
number of times a box of this width can be halved. -/
def put_fuel : lq_quadtree_node_t → Nat
  | .null => 0
  | .node c0 c1 c2 c3 _ box _ _ =>
    max (max (put_fuel c0) (put_fuel c1)) (max (put_fuel c2) (put_fuel c3))
      + box.width.toNat + 1

/-- The list loop of `lq_quadtree_node_remove`: the list with the references
to payloads of the given id unlinked, and the updated counter. -/
def remove_loop (id : Int) : List lq_polygon_t → Int → List lq_polygon_t × Int
  | [], number_of_polygons => ([], number_of_polygons)
  | polygon :: next, number_of_polygons =>
    if polygon.id = id then remove_loop id next (number_of_polygons - 1)
    else
      let r := remove_loop id next number_of_polygons
      (polygon :: r.1, r.2)

/-- Embedding of `lq_quadtree_node_remove`; a `NULL` child is skipped. -/
def lq_quadtree_node_remove : lq_quadtree_node_t → Int → lq_quadtree_node_t
  | .null, _ => .null
  | .node c0 c1 c2 c3 depth box polygons number_of_polygons, id =>
    let r := remove_loop id polygons number_of_polygons
    .node (lq_quadtree_node_remove c0 id) (lq_quadtree_node_remove c1 id)
      (lq_quadtree_node_remove c2 id) (lq_quadtree_node_remove c3 id) depth box r.1 r.2

/-- Embedding of `lq_quadtree_node_find_leaf`; `none` when the node is
`NULL` or the assertion of `lq_rect_get_quadrant` fails. -/
def lq_quadtree_node_find_leaf : lq_quadtree_node_t → Int → Int → Option lq_quadtree_node_t
  | .null, _, _ => none
  | .node c0 c1 c2 c3 depth box polygons number_of_polygons, x, y =>
    match lq_rect_get_quadrant box x y with
    | none => none
    | some 0 =>
      if c0 ≠ .null then lq_quadtree_node_find_leaf c0 x y
      else some (.node c0 c1 c2 c3 depth box polygons number_of_polygons)
    | some 1 =>
      if c1 ≠ .null then lq_quadtree_node_find_leaf c1 x y
      else some (.node c0 c1 c2 c3 depth box polygons number_of_polygons)
    | some 2 =>
      if c2 ≠ .null then lq_quadtree_node_find_leaf c2 x y
      else some (.node c0 c1 c2 c3 depth box polygons number_of_polygons)
    | some _ =>
      if c3 ≠ .null then lq_quadtree_node_find_leaf c3 x y
      else some (.node c0 c1 c2 c3 depth box polygons number_of_polygons)

/-- Embedding of `lq_quadtree_query_result_reset` on a non-`NULL` holder. -/
def lq_quadtree_query_result_reset (_query_result : quadtree_query_result_t) :
    quadtree_query_result_t :=
  ⟨-1, none⟩

/-- The ids that the payload loop of `lq_quadtree_node_query` stores in
`tmp_ids`, in order. -/
def query_ids (x y : Int) : List lq_polygon_t → List Int
  | [] => []
  | polygon :: next =>
    if point_in_polygon x y polygon.number_of_points polygon.xs polygon.ys then
      polygon.id :: query_ids x y next
    else query_ids x y next

/-- Embedding of `lq_quadtree_node_query` (allocation succeeding): the return
code and the result holder after the call.  The holder is reset first and
both of its fields are assigned at the end.  `none` when the descent aborts
or more ids are written than `tmp_ids` has room for. -/
def lq_quadtree_node_query (node : lq_quadtree_node_t) (x y : Int)
    (query_result : quadtree_query_result_t) : Option (Int × quadtree_query_result_t) :=
  let query_result := lq_quadtree_query_result_reset query_result
  match lq_quadtree_node_find_leaf node x y with
  | some (.node _ _ _ _ _ _ polygons number_of_polygons) =>
    let ids := query_ids x y polygons
    if (ids.length : Int) ≤ number_of_polygons then
      some (QUADTREE_SUCCESS,
        { query_result with number_of_ids := (ids.length : Int), ids := some ids })
    else none
  | _ => none

/-! ## Public interface -/

/-- Embedding of `quadtree_create` (allocation succeeding); `none` is the
`NULL` handle. -/
def quadtree_create (left bottom width height : Int) : Option lq_quadtree_t :=
  if height ≤ 0 || width ≤ 0 then none
  else
    some ⟨lq_quadtree_node_new left bottom (int_of_ulong (next_power_of_2 width.toNat))
            (int_of_ulong (next_power_of_2 height.toNat)) 0⟩

/-- The vertex loop of `quadtree_add`: true when some vertex is out of
bounds. -/
def add_out_of_bounds (box : lq_rect_t) (xs ys : List Int) : List Nat → Bool
  | [] => false
  | i :: rest =>
    if !lq_rect_point_is_in_bounds box (arr xs i) (arr ys i) then true
    else add_out_of_bounds box xs ys rest

/-- Embedding of `lq_polygon_node_allocate` followed by
 `lq_polygon_node_initialize`: the payload with the first `number_of_points`
coordinates copied, or `none` when it returns
`QUADTREE_ERROR_OUT_OF_MEMORY` (a negative count cannot be allocated). -/
def lq_polygon_node_new (id : Int) (number_of_points : Int) (xs ys : List Int) :
    Option lq_polygon_t :=
  if number_of_points < 0 then none
  else
    some ⟨id, number_of_points, (List.range number_of_points.toNat).map (arr xs),
          (List.range number_of_points.toNat).map (arr ys)⟩

/-- Embedding of `quadtree_add` (allocation succeeding): the return code and
the tree after the call; `none` when the call aborts.  It aborts when
 `lq_polygon_node_initialize` fails: the share counter of the new list node
is then `NULL`, and `lq_polygon_node_free` dereferences it. -/
def quadtree_add (qt : lq_quadtree_t) (id : Int) (number_of_polygon_points : Int)
    (xs ys : List Int) : Option (Int × lq_quadtree_t) :=
  match qt.root with
  | .null => none
  | .node c0 c1 c2 c3 depth box polygons number_of_polygons =>
    if add_out_of_bounds box xs ys (List.range number_of_polygon_points.toNat) then
      some (QUADTREE_ERROR_OUT_OF_BOUNDS, qt)
    else
      match lq_polygon_node_new id number_of_polygon_points xs ys with
      | none => none
      | some polygon =>
        match lq_quadtree_node_put_polygon
                (put_fuel (.node c0 c1 c2 c3 depth box polygons number_of_polygons))
                (.node c0 c1 c2 c3 depth box polygons number_of_polygons) polygon with
        | none => none
        | some root => some (QUADTREE_SUCCESS, ⟨root⟩)

/-- Embedding of `quadtree_remove`; `none` when the root is `NULL`. -/
def quadtree_remove (qt : lq_quadtree_t) (id : Int) : Option (Int × lq_quadtree_t) :=
  match qt.root with
  | .null => none
  | .node c0 c1 c2 c3 depth box polygons number_of_polygons =>
    some (QUADTREE_SUCCESS,
      ⟨lq_quadtree_node_remove (.node c0 c1 c2 c3 depth box polygons number_of_polygons) id⟩)

/-- Embedding of `quadtree_query` (allocation succeeding): the return code
and the result holder after the call. -/
def quadtree_query (qt : lq_quadtree_t) (x y : Int) (query_result : quadtree_query_result_t) :
    Option (Int × quadtree_query_result_t) :=
  match qt.root with
  | .null => none
  | .node c0 c1 c2 c3 depth box polygons number_of_polygons =>
    if !lq_rect_point_is_in_bounds box x y then
      some (QUADTREE_ERROR_OUT_OF_BOUNDS, query_result)
    else
      lq_quadtree_node_query (.node c0 c1 c2 c3 depth box polygons number_of_polygons) x y
        query_result

/-- Embedding of `quadtree_query_result_allocate`: `calloc` zeroes the
holder. -/
def quadtree_query_result_allocate : quadtree_query_result_t := ⟨0, none⟩

/-! ## Specification vocabulary -/

/-- The bounding box of the root of a tree (a zero box for a `NULL` root). -/
def root_box (qt : lq_quadtree_t) : lq_rect_t :=
  match qt.root with
  | .null => ⟨0, 0, 0, 0⟩
  | .node _ _ _ _ _ box _ _ => box

/-- The bounding box a node pointer refers to. -/
def node_box : lq_quadtree_node_t → Option lq_rect_t
  | .null => none
  | .node _ _ _ _ _ box _ _ => some box

/-- All payload references held in the payload lists of a subtree. -/
def payloads : lq_quadtree_node_t → List lq_polygon_t
  | .null => []
  | .node c0 c1 c2 c3 _ _ polygons _ =>
    polygons ++ (payloads c0 ++ (payloads c1 ++ (payloads c2 ++ payloads c3)))

/-- The exact test the code evaluates for a stored payload. -/
def contains_point (polygon : lq_polygon_t) (x y : Int) : Bool :=
  point_in_polygon x y polygon.number_of_points polygon.xs polygon.ys

/-- A width or height that the split arithmetic halves exactly: a power of
two, or a size at which no split happens. -/
def good_size (w : Int) : Prop := w ≤ 4 ∨ ∃ k : Nat, w = 2 ^ k

/-- Structural well-formedness of a subtree: the payload counter agrees with
the payload list, and a node with children has four of them, whose boxes are
the four exact quarters of its own box. -/
def well_formed : lq_quadtree_node_t → Prop
  | .null => False
  | .node c0 c1 c2 c3 _ box polygons number_of_polygons =>
    number_of_polygons = (polygons.length : Int) ∧
    good_size box.width ∧ good_size box.height ∧
    ((c0 = .null ∧ c1 = .null ∧ c2 = .null ∧ c3 = .null) ∨
     (4 < box.width ∧ 4 < box.height ∧
      node_box c0 = some ⟨box.bottom + Int.tdiv box.height 2, box.left + Int.tdiv box.width 2,
                          Int.tdiv box.height 2, Int.tdiv box.width 2⟩ ∧
      node_box c1 = some ⟨box.bottom + Int.tdiv box.height 2, box.left,
                          Int.tdiv box.height 2, Int.tdiv box.width 2⟩ ∧
      node_box c2 = some ⟨box.bottom, box.left,
                          Int.tdiv box.height 2, Int.tdiv box.width 2⟩ ∧
      node_box c3 = some ⟨box.bottom, box.left + Int.tdiv box.width 2,
                          Int.tdiv box.height 2, Int.tdiv box.width 2⟩ ∧
      well_formed c0 ∧ well_formed c1 ∧ well_formed c2 ∧ well_formed c3))

/-- Trees obtained from `quadtree_create` by calls of `quadtree_add` and
`quadtree_remove` that return, together with the payloads inserted
successfully and not removed since (most recent first). -/
inductive reachable : lq_quadtree_t → List lq_polygon_t → Prop where
  | create (left bottom width height : Int) (qt : lq_quadtree_t) :
      quadtree_create left bottom width height = some qt → reachable qt []
  | add_success (qt qt1 : lq_quadtree_t) (live : List lq_polygon_t) (id n : Int)
      (xs ys : List Int) (polygon : lq_polygon_t) :
      reachable qt live →
      quadtree_add qt id n xs ys = some (QUADTREE_SUCCESS, qt1) →
      lq_polygon_node_new id n xs ys = some polygon →
      reachable qt1 (polygon :: live)
  | add_failure (qt qt1 : lq_quadtree_t) (live : List lq_polygon_t) (id n : Int)
      (xs ys : List Int) (code : Int) :
      reachable qt live →
      quadtree_add qt id n xs ys = some (code, qt1) →
      code ≠ QUADTREE_SUCCESS →
      reachable qt1 live
  | remove (qt qt1 : lq_quadtree_t) (live : List lq_polygon_t) (id code : Int) :
      reachable qt live →
      quadtree_remove qt id = some (code, qt1) →
      reachable qt1 (live.filter (fun p => decide (p.id ≠ id)))

/-- The relation between a subtree before and after `remove(id)` that the
specification prescribes: same nodes, boxes, depths and children, every
payload list filtered. -/
def removed_from (id : Int) : lq_quadtree_node_t → lq_quadtree_node_t → Prop
  | .null, .null => True
  | .node a0 a1 a2 a3 adepth abox apolygons _, .node b0 b1 b2 b3 bdepth bbox bpolygons _ =>
    bdepth = adepth ∧ bbox = abox ∧
    bpolygons = apolygons.filter (fun p => decide (p.id ≠ id)) ∧
    removed_from id a0 b0 ∧ removed_from id a1 b1 ∧
    removed_from id a2 b2 ∧ removed_from id a3 b3
  | _, _ => False

/-- Trees obtained from a tree by further calls that return, none of them a
`quadtree_add` under the id `k`. -/
inductive later_without_add (k : Int) : lq_quadtree_t → lq_quadtree_t → Prop where
  | refl (qt : lq_quadtree_t) : later_without_add k qt qt
  | add (qt qt1 qt2 : lq_quadtree_t) (id n : Int) (xs ys : List Int) (code : Int) :
      later_without_add k qt qt1 → id ≠ k →
      quadtree_add qt1 id n xs ys = some (code, qt2) → later_without_add k qt qt2
  | remove (qt qt1 qt2 : lq_quadtree_t) (id code : Int) :
      later_without_add k qt qt1 →
      quadtree_remove qt1 id = some (code, qt2) → later_without_add k qt qt2

/-- The tree of `quadtree_create(0, 0, 8, 8)`. -/
def tree_8 : lq_quadtree_t :=
  ⟨.node .null .null .null .null 0 ⟨0, 0, 8, 8⟩ [] 0⟩

/-- The payload of the square with corners (1,1) and (7,7) under id 5. -/
def square_5 : lq_polygon_t := ⟨5, 4, [1, 7, 7, 1], [1, 1, 7, 7]⟩

/-- The tree `tree_8` after `quadtree_add` of `square_5`. -/
def tree_8_square : lq_quadtree_t :=
  match quadtree_add tree_8 5 4 [1, 7, 7, 1] [1, 1, 7, 7] with
  | some r => r.2
  | none => tree_8

/-- The tree `tree_8_square` after `quadtree_add` of the same square under
id 6. -/
def tree_8_two_squares : lq_quadtree_t :=
  match quadtree_add tree_8_square 6 4 [1, 7, 7, 1] [1, 1, 7, 7] with
  | some r => r.2
  | none => tree_8

/-- The tree `tree_8_two_squares` after `quadtree_remove` of id 5. -/
def tree_8_one_left : lq_quadtree_t :=
  ⟨lq_quadtree_node_remove tree_8_two_squares.root 5⟩

/-- The tree of `quadtree_create(0, 0, 2^30, 2^30)`. -/
def tree_big : lq_quadtree_t :=
  ⟨.node .null .null .null .null 0 ⟨0, 0, 2 ^ 30, 2 ^ 30⟩ [] 0⟩

/-- The payload of the thin triangle with vertices `(2^29, 2^29 - 1)`,
`(2^29 - 1, 2^30 - 1)`, `(2^29, 2^29 - 2)` under id 7. -/
def sliver_7 : lq_polygon_t :=
  ⟨7, 3, [2 ^ 29, 2 ^ 29 - 1, 2 ^ 29], [2 ^ 29 - 1, 2 ^ 30 - 1, 2 ^ 29 - 2]⟩

/-- The upper left child that the first split of `tree_big` creates. -/
def tree_big_child_1 : lq_quadtree_node_t :=
  .node .null .null .null .null 1 ⟨2 ^ 29, 0, 2 ^ 29, 2 ^ 29⟩ [] 0

/-- The crossing test of the specification for the polygon edge from vertex
`j` to vertex `i`: `py` separates the two ends, and the exact rational
crossing abscissa `xs[j] + (xs[i]-xs[j])*(py-ys[j])/(ys[i]-ys[j])` is
strictly greater than `px`. -/
def spec_edge_crosses (px py : Int) (xs ys : List Int) (j i : Nat) : Bool :=
  (decide (arr ys i > py) != decide (arr ys j > py)) &&
  decide ((px : ℚ) <
    (arr xs j : ℚ) +
      ((arr xs i : ℚ) - (arr xs j : ℚ)) * ((py : ℚ) - (arr ys j : ℚ)) /
        ((arr ys i : ℚ) - (arr ys j : ℚ)))

/-- The exact even-odd ray cast of the specification: the parity of the
number of edges `(j, i)`, `j` the cyclic predecessor of `i`, that pass
`spec_edge_crosses`. -/
def spec_ray_cast (px py : Int) (n : Int) (xs ys : List Int) : Bool :=
  decide (((List.range n.toNat).filter (fun i =>
    spec_edge_crosses px py xs ys (if i = 0 then (n - 1).toNat else i - 1) i)).length % 2 = 1)

/-- The crossing test of the specification for two segments that are not
parallel: `0 ≤ cross(d,v)/c1 < 1` and `0 ≤ cross(d,u)/c1 < 1` as exact
rationals, with `u`, `v` the direction vectors, `d` the difference of the
start points and `c1 = cross(u,v)`. -/
def spec_crossing (line1 line2 : segment) : Bool :=
  let ux := line1.x1 - line1.x0
  let uy := line1.y1 - line1.y0
  let vx := line2.x1 - line2.x0
  let vy := line2.y1 - line2.y0
  let dx := line2.x0 - line1.x0
  let dy := line2.y0 - line1.y0
  let c1 : ℚ := (cross_product ux uy vx vy : ℚ)
  let lambda1 : ℚ := (cross_product dx dy vx vy : ℚ) / c1
  let lambda2 : ℚ := (cross_product dx dy ux uy : ℚ) / c1
  decide (0 ≤ lambda1 ∧ lambda1 < 1 ∧ 0 ≤ lambda2 ∧ lambda2 < 1)

/-- The overlap test of the specification for two parallel segments: they
are collinear (`cross(d,u) = 0`) and the closed interval between
`lambda1 = dot(d,u)/dot(u,u)` and `lambda2 = lambda1 + dot(u,v)/dot(u,u)`, as
exact rationals, meets `[0, 1]`. -/
def spec_collinear_overlap (line1 line2 : segment) : Bool :=
  let ux := line1.x1 - line1.x0
  let uy := line1.y1 - line1.y0
  let vx := line2.x1 - line2.x0
  let vy := line2.y1 - line2.y0
  let dx := line2.x0 - line1.x0
  let dy := line2.y0 - line1.y0
  let lambda1 : ℚ := (dot_product dx dy ux uy : ℚ) / (dot_product ux uy ux uy : ℚ)
  let lambda2 : ℚ := lambda1 + (dot_product ux uy vx vy : ℚ) / (dot_product ux uy ux uy : ℚ)
  decide (cross_product dx dy ux uy = 0) &&
  decide (min lambda1 lambda2 ≤ 1 ∧ 0 ≤ max lambda1 lambda2)

/-- The tree of `quadtree_create(0, 0, 64, 64)`. -/
def tree_64 : lq_quadtree_t :=
  ⟨.node .null .null .null .null 0 ⟨0, 0, 64, 64⟩ [] 0⟩

/-- A property of payload lists that holds for the payload list of every
node of a subtree. -/
def every_payload_list (Q : List lq_polygon_t → Prop) : lq_quadtree_node_t → Prop
  | .null => True
  | .node c0 c1 c2 c3 _ _ polygons _ =>
    Q polygons ∧ every_payload_list Q c0 ∧ every_payload_list Q c1 ∧
      every_payload_list Q c2 ∧ every_payload_list Q c3

/-- The tree `tree_8_square` after a second `quadtree_add` of the same square
under the same id 5. -/
def tree_8_square_twice : lq_quadtree_t :=
  match quadtree_add tree_8_square 5 4 [1, 7, 7, 1] [1, 1, 7, 7] with
  | some r => r.2
  | none => tree_8

/-- The result of an `int` operation on a two's-complement machine: the
exact result reduced modulo `2^32` into the range of `int`. -/
def int_wrap (z : Int) : Int :=
  let m : Int := z % 2 ^ 32
  if m < 2 ^ 31 then m else m - 2 ^ 32

/-- The loop body of `point_in_polygon` with the `int` arithmetic of a
two's-complement machine: the result of every operation is reduced by
`int_wrap`. -/
def point_in_polygon_int32_step (px py : Int) (xs ys : List Int) (st : Bool × Nat) (i : Nat) :
    Bool × Nat :=
  let j := st.2
  if (decide (arr ys i > py) != decide (arr ys j > py)) &&
      decide (px < int_wrap
        (int_wrap (Int.tdiv
          (int_wrap (int_wrap (arr xs j - arr xs i) * int_wrap (py - arr ys i)))
          (int_wrap (arr ys j - arr ys i)))
        + arr xs i))
  then (!st.1, i) else (st.1, i)

/-- Embedding of `point_in_polygon` with the `int` arithmetic of a
two's-complement machine.  It agrees with `point_in_polygon` on every
execution in which no operation overflows. -/
def point_in_polygon_int32 (px py : Int) (n : Int) (xs ys : List Int) : Bool :=
  ((List.range n.toNat).foldl (point_in_polygon_int32_step px py xs ys)
    (false, (n - 1).toNat)).1

/-- Embedding of `rectangle_inside_polygon` with the `int` arithmetic of a
two's-complement machine. -/
def rectangle_inside_polygon_int32 (rx ry w h : Int) (number_of_points : Int)
    (xs ys : List Int) : Bool :=
  point_in_polygon_int32 rx ry number_of_points xs ys &&
  point_in_polygon_int32 (int_wrap (int_wrap (rx + w) - 1)) ry number_of_points xs ys &&
  point_in_polygon_int32 rx (int_wrap (int_wrap (ry + h) - 1)) number_of_points xs ys &&
  point_in_polygon_int32 (int_wrap (int_wrap (rx + w) - 1)) (int_wrap (int_wrap (ry + h) - 1))
    number_of_points xs ys

/-- A property of nodes that holds for every node of a subtree. -/
def every_node (Q : lq_quadtree_node_t → Prop) : lq_quadtree_node_t → Prop
  | .null => True
  | .node c0 c1 c2 c3 depth box polygons cnt =>
    Q (.node c0 c1 c2 c3 depth box polygons cnt) ∧ every_node Q c0 ∧ every_node Q c1 ∧
      every_node Q c2 ∧ every_node Q c3

/-- The depth a node pointer refers to. -/
def node_depth : lq_quadtree_node_t → Option Int
  | .null => none
  | .node _ _ _ _ depth _ _ _ => some depth

/-- A node without children. -/
def is_leaf : lq_quadtree_node_t → Prop
  | .null => False
  | .node c0 c1 c2 c3 _ _ _ _ => c0 = .null ∧ c1 = .null ∧ c2 = .null ∧ c3 = .null

/-- A node with all four children. -/
def has_four_children : lq_quadtree_node_t → Prop
  | .null => False
  | .node c0 c1 c2 c3 _ _ _ _ => c0 ≠ .null ∧ c1 ≠ .null ∧ c2 ≠ .null ∧ c3 ≠ .null

/-- The box that `lq_quadtree_node_populate_children` gives to the child of
a quadrant. -/
def quadrant_box (box : lq_rect_t) (quadrant : Nat) : lq_rect_t :=
  let half_width := Int.tdiv box.width 2
  let half_height := Int.tdiv box.height 2
  if quadrant = FIRST_QUADRANT then
    ⟨box.bottom + half_height, box.left + half_width, half_height, half_width⟩
  else if quadrant = SECOND_QUADRANT then
    ⟨box.bottom + half_height, box.left, half_height, half_width⟩
  else if quadrant = THIRD_QUADRANT then
    ⟨box.bottom, box.left, half_height, half_width⟩
  else
    ⟨box.bottom, box.left + half_width, half_height, half_width⟩

/-- The subdivision invariant at one node: the depth is at most `MAX_DEPTH`,
and the node is a leaf, or it has four children one level deeper, an empty
payload list, a depth below `MAX_DEPTH` and a box wider and higher than
`MIN_SIZE`. -/
def subdivision_ok : lq_quadtree_node_t → Prop
  | .null => True
  | .node c0 c1 c2 c3 depth box polygons cnt =>
    depth ≤ MAX_DEPTH ∧
    (is_leaf (.node c0 c1 c2 c3 depth box polygons cnt) ∨
     (has_four_children (.node c0 c1 c2 c3 depth box polygons cnt) ∧ polygons = [] ∧
      depth ≠ MAX_DEPTH ∧ MIN_SIZE < box.width ∧ MIN_SIZE < box.height ∧
      node_depth c0 = some (depth + 1) ∧ node_depth c1 = some (depth + 1) ∧
      node_depth c2 = some (depth + 1) ∧ node_depth c3 = some (depth + 1)))

/-- The payload list of a node. -/
def node_polygons : lq_quadtree_node_t → List lq_polygon_t
  | .null => []
  | .node _ _ _ _ _ _ polygons _ => polygons

/-- The tiling property at one node: a node with children has a width and a
height that are powers of two (so both are even), its children are one level
deeper, the box of the child of quadrant `q` is `quadrant_box box q`, and
every point of the box of the node lies in the box of exactly one child, the
one of the quadrant that `lq_rect_get_quadrant` returns. -/
def tiling_ok : lq_quadtree_node_t → Prop
  | .null => True
  | .node c0 c1 c2 c3 depth box _ _ =>
    (c0 = .null ∧ c1 = .null ∧ c2 = .null ∧ c3 = .null) ∨
    ((∃ k : Nat, 1 ≤ k ∧ box.width = 2 ^ k) ∧ (∃ k : Nat, 1 ≤ k ∧ box.height = 2 ^ k) ∧
     (box.width % 2 = 0 ∧ box.height % 2 = 0) ∧
     (node_depth c0 = some (depth + 1) ∧ node_depth c1 = some (depth + 1) ∧
      node_depth c2 = some (depth + 1) ∧ node_depth c3 = some (depth + 1)) ∧
     (node_box c0 = some (quadrant_box box 0) ∧ node_box c1 = some (quadrant_box box 1) ∧
      node_box c2 = some (quadrant_box box 2) ∧ node_box c3 = some (quadrant_box box 3)) ∧
     ∀ x y : Int, lq_rect_point_is_in_bounds box x y = true →
       ∃ q : Nat, q < 4 ∧ lq_rect_get_quadrant box x y = some q ∧
         ∀ i : Nat, i < 4 →
           (lq_rect_point_is_in_bounds (quadrant_box box i) x y = true ↔ i = q))

/-- The tree of `quadtree_create(0, 0, 32, 32)`. -/
def tree_32 : lq_quadtree_t :=
  ⟨.node .null .null .null .null 0 ⟨0, 0, 32, 32⟩ [] 0⟩

/-- The payload of the square with corners (0,0) and (16,16) with the notch
`(3,9) x [0,5)` cut into its bottom edge, under id 1. -/
def notched_1 : lq_polygon_t :=
  ⟨1, 8, [0, 3, 3, 9, 9, 16, 16, 0], [0, 0, 5, 5, 0, 0, 16, 16]⟩

/-- The payload of the square with corners (1,1) and (2,2) under id 2. -/
def small_2 : lq_polygon_t := ⟨2, 4, [1, 2, 2, 1], [1, 1, 2, 2]⟩

/-- The lower left child of the root of `tree_32` as a leaf that holds
`notched_1`. -/
def leaf_16_notched : lq_quadtree_node_t :=
  .node .null .null .null .null 1 ⟨0, 0, 16, 16⟩ [notched_1] 1

/-- The leaf with the box `[4,8) x [0,4)` at depth 3 that holds
`notched_1`. -/
def leaf_4_notched : lq_quadtree_node_t :=
  .node .null .null .null .null 3 ⟨0, 4, 4, 4⟩ [notched_1] 1

/-- The subtree that `lq_quadtree_node_put_polygon` makes of
`leaf_16_notched` when `small_2` is inserted: the leaf is split, and so is
its lower left child. -/
def leaf_16_split : lq_quadtree_node_t :=
  .node
    (.node .null .null .null .null 2 ⟨8, 8, 8, 8⟩ [notched_1] 1)
    (.node .null .null .null .null 2 ⟨8, 0, 8, 8⟩ [notched_1] 1)
    (.node
      (.node .null .null .null .null 3 ⟨4, 4, 4, 4⟩ [notched_1] 1)
      (.node .null .null .null .null 3 ⟨4, 0, 4, 4⟩ [notched_1] 1)
      (.node .null .null .null .null 3 ⟨0, 0, 4, 4⟩ [small_2, notched_1] 2)
      leaf_4_notched
      2 ⟨0, 0, 8, 8⟩ [] 0)
    (.node .null .null .null .null 2 ⟨0, 8, 8, 8⟩ [notched_1] 1)
    1 ⟨0, 0, 16, 16⟩ [] 0

/-! ## Share counters (`ref_count`)

The embedding above represents a list node by the payload it points to.  The
definitions of this section embed the same functions once more with the list
nodes themselves and the memory of their share counters, which
`lq_polygon_node_clone` and `lq_polygon_node_free` read and write. -/

/-- A list node `lq_polygon_node_t`: the payload that `p` points to and the
address that `ref_count` points to.  A clone has the address of its
original. -/
structure lq_polygon_node_t where
  p : lq_polygon_t
  ref_count : Nat
deriving DecidableEq

/-- The share counters in memory.  `counter a` is `some k` while the counter
at address `a` is allocated and holds `k`; it is `none` before the counter is
allocated and after it has been freed together with its payload.  `next` is
the address that the next allocation of a counter returns. -/
structure share_heap where
  counter : Nat → Option Int
  next : Nat

/-- A store to the counter at address `a`, or its release (`none`). -/
def share_heap.store (h : share_heap) (a : Nat) (v : Option Int) : share_heap :=
  ⟨fun b => if b = a then v else h.counter b, h.next⟩

namespace shares

/-- A tree node whose payload list is a list of list nodes; `null` is
`NULL`. -/
inductive lq_quadtree_node_t where
  | null : lq_quadtree_node_t
  | node (c0 c1 c2 c3 : lq_quadtree_node_t) (depth : Int) (bounding_box : lq_rect_t)
      (polygons : List lq_polygon_node_t) (number_of_polygons : Int) : lq_quadtree_node_t
deriving DecidableEq

/-- The handle `lq_quadtree_t`. -/
structure lq_quadtree_t where
  root : lq_quadtree_node_t
deriving DecidableEq

/-- Embedding of `lq_polygon_node_clone` (allocation succeeding): the counter
is incremented and the clone points to the same payload and counter; `none`
when the counter has been freed. -/
def lq_polygon_node_clone (h : share_heap) (polygon : lq_polygon_node_t) :
    Option (share_heap × lq_polygon_node_t) :=
  match h.counter polygon.ref_count with
  | none => none
  | some k => some (h.store polygon.ref_count (some (k + 1)), ⟨polygon.p, polygon.ref_count⟩)

/-- Embedding of `lq_polygon_node_free` on a list node: the counter is
decremented, and when it is zero the payload and the counter are freed;
`none` when the counter has been freed before. -/
def lq_polygon_node_free (h : share_heap) (polygon : lq_polygon_node_t) : Option share_heap :=
  match h.counter polygon.ref_count with
  | none => none
  | some k =>
    if k - 1 = 0 then some (h.store polygon.ref_count none)
    else some (h.store polygon.ref_count (some (k - 1)))

/-- Embedding of `lq_quadtree_node_allocate` followed by
 `lq_quadtree_node_initialize`. -/
def lq_quadtree_node_new (rx ry rw rh depth : Int) : lq_quadtree_node_t :=
  .node .null .null .null .null depth ⟨ry, rx, rh, rw⟩ [] 0

/-- Embedding of `lq_quadtree_node_add_polygon`: the list node becomes the
head of the list. -/
def lq_quadtree_node_add_polygon :
    lq_quadtree_node_t → lq_polygon_node_t → Option lq_quadtree_node_t
  | .null, _ => none
  | .node c0 c1 c2 c3 depth box polygons number_of_polygons, polygon =>
    some (.node c0 c1 c2 c3 depth box (polygon :: polygons) (number_of_polygons + 1))

/-- Embedding of `lq_quadtree_node_add_polygons`: every list node is cloned
and the clone is added. -/
def lq_quadtree_node_add_polygons :
    share_heap → lq_quadtree_node_t → List lq_polygon_node_t →
      Option (share_heap × lq_quadtree_node_t)
  | h, node, [] => some (h, node)
  | h, node, current :: rest =>
    match lq_polygon_node_clone h current with
    | none => none
    | some (h1, clone) =>
      match lq_quadtree_node_add_polygon node clone with
      | none => none
      | some node1 => lq_quadtree_node_add_polygons h1 node1 rest

/-- The loop of `lq_quadtree_node_clear_polygons`: every list node is
freed. -/
def clear_loop : share_heap → List lq_polygon_node_t → Option share_heap
  | h, [] => some h
  | h, polygon :: next =>
    match lq_polygon_node_free h polygon with
    | none => none
    | some h1 => clear_loop h1 next

/-- Embedding of `lq_quadtree_node_clear_polygons`; `none` when a counter
has been freed before or the assertion on `number_of_polygons` fails. -/
def lq_quadtree_node_clear_polygons :
    share_heap → lq_quadtree_node_t → Option (share_heap × lq_quadtree_node_t)
  | _, .null => none
  | h, .node c0 c1 c2 c3 depth box polygons number_of_polygons =>
    match clear_loop h polygons with
    | none => none
    | some h1 =>
      if number_of_polygons = (polygons.length : Int) then
        some (h1, .node c0 c1 c2 c3 depth box [] 0)
      else none

/-- Embedding of `lq_quadtree_node_populate_children` (allocation
succeeding). -/
def lq_quadtree_node_populate_children :
    share_heap → lq_quadtree_node_t → Option (share_heap × lq_quadtree_node_t)
  | _, .null => none
  | h, .node c0 c1 c2 c3 depth box polygons number_of_polygons =>
    let rx := box.left
    let ry := box.bottom
    let half_width := Int.tdiv box.width 2
    let half_height := Int.tdiv box.height 2
    let new_width := half_width
    let new_height := half_height
    if c0 ≠ .null then some (h, .node c0 c1 c2 c3 depth box polygons number_of_polygons)
    else
      match lq_quadtree_node_add_polygons h
              (lq_quadtree_node_new (rx + half_width) (ry + half_height) new_width new_height
                (depth + 1)) polygons with
      | none => none
      | some (h0, n0) =>
        match lq_quadtree_node_add_polygons h0
                (lq_quadtree_node_new rx (ry + half_height) new_width new_height (depth + 1))
                polygons with
        | none => none
        | some (h1, n1) =>
          match lq_quadtree_node_add_polygons h1
                  (lq_quadtree_node_new rx ry new_width new_height (depth + 1)) polygons with
          | none => none
          | some (h2, n2) =>
            match lq_quadtree_node_add_polygons h2
                    (lq_quadtree_node_new (rx + half_width) ry new_width new_height
                      (depth + 1)) polygons with
            | none => none
            | some (h3, n3) =>
              lq_quadtree_node_clear_polygons h3
                (.node n0 n1 n2 n3 depth box polygons number_of_polygons)

/-- Embedding of `lq_quadtree_node_put_polygon` (allocation succeeding), with
a recursion budget. -/
def lq_quadtree_node_put_polygon :
    Nat → share_heap → lq_quadtree_node_t → lq_polygon_node_t →
      Option (share_heap × lq_quadtree_node_t)
  | 0, _, _, _ => none
  | _ + 1, _, .null, _ => none
  | fuel + 1, h, .node c0 c1 c2 c3 depth box polygons number_of_polygons, polygon =>
    let rx := box.left
    let ry := box.bottom
    let rw := box.width
    let rh := box.height
    match collide_polygon_rectangle polygon.p.number_of_points polygon.p.xs polygon.p.ys
            rx ry rw rh with
    | none => none
    | some collision =>
      if collision = 0 then
        some (h, .node c0 c1 c2 c3 depth box polygons number_of_polygons)
      else if depth = MAX_DEPTH || rw ≤ MIN_SIZE || rh ≤ MIN_SIZE ||
              (c0 = .null &&
               rectangle_inside_polygon rx ry rw rh polygon.p.number_of_points
                 polygon.p.xs polygon.p.ys) then
        match lq_polygon_node_clone h polygon with
        | none => none
        | some (h1, clone) =>
          match lq_quadtree_node_add_polygon
                  (.node c0 c1 c2 c3 depth box polygons number_of_polygons) clone with
          | none => none
          | some node1 => some (h1, node1)
      else
        match lq_quadtree_node_populate_children h
                (.node c0 c1 c2 c3 depth box polygons number_of_polygons) with
        | some (h0, .node d0 d1 d2 d3 depth1 box1 polygons1 number_of_polygons1) =>
          match lq_quadtree_node_put_polygon fuel h0 d0 polygon with
          | none => none
          | some (h1, e0) =>
            match lq_quadtree_node_put_polygon fuel h1 d1 polygon with
            | none => none
            | some (h2, e1) =>
              match lq_quadtree_node_put_polygon fuel h2 d2 polygon with
              | none => none
              | some (h3, e2) =>
                match lq_quadtree_node_put_polygon fuel h3 d3 polygon with
                | none => none
                | some (h4, e3) =>
                  some (h4, .node e0 e1 e2 e3 depth1 box1 polygons1 number_of_polygons1)
        | _ => none

/-- The recursion budget that `quadtree_add` passes to
`lq_quadtree_node_put_polygon`. -/
def put_fuel : lq_quadtree_node_t → Nat
  | .null => 0
  | .node c0 c1 c2 c3 _ box _ _ =>
    max (max (put_fuel c0) (put_fuel c1)) (max (put_fuel c2) (put_fuel c3))
      + box.width.toNat + 1

/-- The list loop of `lq_quadtree_node_remove`: the list nodes of payload id
`id` are unlinked and freed. -/
def remove_loop (id : Int) :
    share_heap → List lq_polygon_node_t → Int →
      Option (share_heap × List lq_polygon_node_t × Int)
  | h, [], number_of_polygons => some (h, [], number_of_polygons)
  | h, polygon :: next, number_of_polygons =>
    if polygon.p.id = id then
      match lq_polygon_node_free h polygon with
      | none => none
      | some h1 => remove_loop id h1 next (number_of_polygons - 1)
    else
      match remove_loop id h next number_of_polygons with
      | none => none
      | some (h1, r, cnt) => some (h1, polygon :: r, cnt)

/-- Embedding of `lq_quadtree_node_remove`; a `NULL` child is skipped. -/
def lq_quadtree_node_remove :
    share_heap → lq_quadtree_node_t → Int → Option (share_heap × lq_quadtree_node_t)
  | h, .null, _ => some (h, .null)
  | h, .node c0 c1 c2 c3 depth box polygons number_of_polygons, id =>
    match lq_quadtree_node_remove h c0 id with
    | none => none
    | some (h0, r0) =>
      match lq_quadtree_node_remove h0 c1 id with
      | none => none
      | some (h1, r1) =>
        match lq_quadtree_node_remove h1 c2 id with
        | none => none
        | some (h2, r2) =>
          match lq_quadtree_node_remove h2 c3 id with
          | none => none
          | some (h3, r3) =>
            match remove_loop id h3 polygons number_of_polygons with
            | none => none
            | some (h4, l, cnt) => some (h4, .node r0 r1 r2 r3 depth box l cnt)

/-- Embedding of `quadtree_create` (allocation succeeding); no counter is
allocated. -/
def quadtree_create (left bottom width height : Int) : Option lq_quadtree_t :=
  if height ≤ 0 || width ≤ 0 then none
  else
    some ⟨lq_quadtree_node_new left bottom (int_of_ulong (next_power_of_2 width.toNat))
            (int_of_ulong (next_power_of_2 height.toNat)) 0⟩

/-- Embedding of `quadtree_add` (allocation succeeding): the return code, the
counters and the tree after the call.  `lq_polygon_node_initialize`
allocates the counter of the new payload and sets it to 1; the list node of
the caller is freed at the end. -/
def quadtree_add (h : share_heap) (qt : lq_quadtree_t) (id : Int)
    (number_of_polygon_points : Int) (xs ys : List Int) :
    Option (Int × share_heap × lq_quadtree_t) :=
  match qt.root with
  | .null => none
  | .node c0 c1 c2 c3 depth box polygons number_of_polygons =>
    if add_out_of_bounds box xs ys (List.range number_of_polygon_points.toNat) then
      some (QUADTREE_ERROR_OUT_OF_BOUNDS, h, qt)
    else
      match lq_polygon_node_new id number_of_polygon_points xs ys with
      | none => none
      | some p =>
        let polygon : lq_polygon_node_t := ⟨p, h.next⟩
        let h1 : share_heap := ⟨fun b => if b = h.next then some 1 else h.counter b, h.next + 1⟩
        match lq_quadtree_node_put_polygon
                (put_fuel (.node c0 c1 c2 c3 depth box polygons number_of_polygons)) h1
                (.node c0 c1 c2 c3 depth box polygons number_of_polygons) polygon with
        | none => none
        | some (h2, root) =>
          match lq_polygon_node_free h2 polygon with
          | none => none
          | some h3 => some (QUADTREE_SUCCESS, h3, ⟨root⟩)

/-- Embedding of `quadtree_remove`; `none` when the root is `NULL`. -/
def quadtree_remove (h : share_heap) (qt : lq_quadtree_t) (id : Int) :
    Option (Int × share_heap × lq_quadtree_t) :=
  match qt.root with
  | .null => none
  | .node c0 c1 c2 c3 depth box polygons number_of_polygons =>
    match lq_quadtree_node_remove h
            (.node c0 c1 c2 c3 depth box polygons number_of_polygons) id with
    | none => none
    | some (h1, root) => some (QUADTREE_SUCCESS, h1, ⟨root⟩)

/-- The number of list nodes in the payload lists of a subtree whose counter
is at address `a`. -/
def references (a : Nat) : lq_quadtree_node_t → Nat
  | .null => 0
  | .node c0 c1 c2 c3 _ _ polygons _ =>
    polygons.countP (fun c => decide (c.ref_count = a)) +
      (references a c0 + (references a c1 + (references a c2 + references a c3)))

/-- The shape that `lq_quadtree_node_populate_children` relies on when it
tests the first child only: a node without a first child has no child. -/
def split_shape : lq_quadtree_node_t → Prop
  | .null => True
  | .node c0 c1 c2 c3 _ _ _ _ =>
    (c0 = .null → c1 = .null ∧ c2 = .null ∧ c3 = .null) ∧
      split_shape c0 ∧ split_shape c1 ∧ split_shape c2 ∧ split_shape c3

/-- The tree of the first embedding that a tree with list nodes stands for:
every list node is replaced by its payload. -/
def payload_tree : lq_quadtree_node_t → LQ.lq_quadtree_node_t
  | .null => .null
  | .node c0 c1 c2 c3 depth box polygons number_of_polygons =>
    .node (payload_tree c0) (payload_tree c1) (payload_tree c2) (payload_tree c3) depth box
      (polygons.map lq_polygon_node_t.p) number_of_polygons

/-- The states reached from `quadtree_create` by calls of `quadtree_add` and
`quadtree_remove` that return: the counters and the tree. -/
inductive reachable : share_heap → lq_quadtree_t → Prop where
  | create (left bottom width height : Int) (qt : lq_quadtree_t) :
      quadtree_create left bottom width height = some qt →
      reachable ⟨fun _ => none, 0⟩ qt
  | add (h h1 : share_heap) (qt qt1 : lq_quadtree_t) (id n : Int) (xs ys : List Int)
      (code : Int) :
      reachable h qt →
      quadtree_add h qt id n xs ys = some (code, h1, qt1) →
      reachable h1 qt1
  | remove (h h1 : share_heap) (qt qt1 : lq_quadtree_t) (id code : Int) :
      reachable h qt →
      quadtree_remove h qt id = some (code, h1, qt1) →
      reachable h1 qt1

end shares

/-- The counters agree with a count `total` of list nodes: an allocated
counter holds the positive number `total a`, `total a` is zero for every
other address, and no counter is allocated at an address that the next
allocation can return. -/
def counts_ok (h : share_heap) (total : Nat → Int) : Prop :=
  (∀ a : Nat, (h.counter a = none → total a = 0) ∧
    ∀ k : Int, h.counter a = some k → k = total a ∧ 0 < k) ∧
  ∀ a : Nat, h.next ≤ a → h.counter a = none

namespace links

/-- The ways in which a call does not return: the assertion "poly has
unexpected next" fails; the assertion "unexpected number of polygons" fails;
the call aborts otherwise (`assert(n > 0)` fails or a `NULL` pointer is
dereferenced); the recursion budget of the embedding is exhausted. -/
inductive abort_t where
  | unexpected_next : abort_t
  | unexpected_number_of_polygons : abort_t
  | aborted : abort_t
  | out_of_budget : abort_t
deriving DecidableEq

/-- A pointer `lq_polygon_node_t *`: `null`, or a list node with its payload
`p` and its pointer `next`. -/
inductive lq_polygon_node_t where
  | null : lq_polygon_node_t
  | cell (p : lq_polygon_t) (next : lq_polygon_node_t) : lq_polygon_node_t
deriving DecidableEq

/-- A tree node whose payload list is the pointer to its first list node;
`null` is `NULL`. -/
inductive lq_quadtree_node_t where
  | null : lq_quadtree_node_t
  | node (c0 c1 c2 c3 : lq_quadtree_node_t) (depth : Int) (bounding_box : lq_rect_t)
      (polygons : lq_polygon_node_t) (number_of_polygons : Int) : lq_quadtree_node_t
deriving DecidableEq

/-- The handle `lq_quadtree_t`. -/
structure lq_quadtree_t where
  root : lq_quadtree_node_t
deriving DecidableEq

/-- Embedding of `lq_polygon_node_clone` (allocation succeeding): the clone
has the payload of the original and `next` set to `NULL`. -/
def lq_polygon_node_clone : lq_polygon_node_t → Except abort_t lq_polygon_node_t
  | .null => .error .aborted
  | .cell p _ => .ok (.cell p .null)

/-- Embedding of `lq_quadtree_node_allocate` followed by
 `lq_quadtree_node_initialize`. -/
def lq_quadtree_node_new (rx ry rw rh depth : Int) : lq_quadtree_node_t :=
  .node .null .null .null .null depth ⟨ry, rx, rh, rw⟩ .null 0

/-- Embedding of `lq_quadtree_node_add_polygon`: after the assertion
`polygon->next == NULL` the list node becomes the head of the list. -/
def lq_quadtree_node_add_polygon :
    lq_quadtree_node_t → lq_polygon_node_t → Except abort_t lq_quadtree_node_t
  | _, .null => .error .aborted
  | .null, .cell _ _ => .error .aborted
  | .node c0 c1 c2 c3 depth box polygons number_of_polygons, .cell p next =>
    if next ≠ .null then .error .unexpected_next
    else .ok (.node c0 c1 c2 c3 depth box (.cell p polygons) (number_of_polygons + 1))

/-- Embedding of `lq_quadtree_node_add_polygons`: the list is walked along
`next`; every list node is cloned and the clone is added. -/
def lq_quadtree_node_add_polygons :
    lq_quadtree_node_t → lq_polygon_node_t → Except abort_t lq_quadtree_node_t
  | node, .null => .ok node
  | node, .cell p next =>
    match lq_polygon_node_clone (.cell p next) with
    | .error e => .error e
    | .ok clone =>
      match lq_quadtree_node_add_polygon node clone with
      | .error e => .error e
      | .ok node1 => lq_quadtree_node_add_polygons node1 next

/-- The loop of `lq_quadtree_node_clear_polygons`: the value of the counter
`i` after the list has been walked and freed. -/
def clear_loop : lq_polygon_node_t → Int → Int
  | .null, i => i
  | .cell _ next, i => clear_loop next (i + 1)

/-- Embedding of `lq_quadtree_node_clear_polygons`, with the assertion on
`number_of_polygons`. -/
def lq_quadtree_node_clear_polygons : lq_quadtree_node_t → Except abort_t lq_quadtree_node_t
  | .null => .error .aborted
  | .node c0 c1 c2 c3 depth box polygons number_of_polygons =>
    if number_of_polygons = clear_loop polygons 0 then
      .ok (.node c0 c1 c2 c3 depth box .null 0)
    else .error .unexpected_number_of_polygons

/-- Embedding of `lq_quadtree_node_populate_children` (allocation
succeeding). -/
def lq_quadtree_node_populate_children : lq_quadtree_node_t → Except abort_t lq_quadtree_node_t
  | .null => .error .aborted
  | .node c0 c1 c2 c3 depth box polygons number_of_polygons =>
    let rx := box.left
    let ry := box.bottom
    let half_width := Int.tdiv box.width 2
    let half_height := Int.tdiv box.height 2
    let new_width := half_width
    let new_height := half_height
    if c0 ≠ .null then .ok (.node c0 c1 c2 c3 depth box polygons number_of_polygons)
    else
      match lq_quadtree_node_add_polygons
              (lq_quadtree_node_new (rx + half_width) (ry + half_height) new_width new_height
                (depth + 1)) polygons with
      | .error e => .error e
      | .ok n0 =>
        match lq_quadtree_node_add_polygons
                (lq_quadtree_node_new rx (ry + half_height) new_width new_height (depth + 1))
                polygons with
        | .error e => .error e
        | .ok n1 =>
          match lq_quadtree_node_add_polygons
                  (lq_quadtree_node_new rx ry new_width new_height (depth + 1)) polygons with
          | .error e => .error e
          | .ok n2 =>
            match lq_quadtree_node_add_polygons
                    (lq_quadtree_node_new (rx + half_width) ry new_width new_height
                      (depth + 1)) polygons with
            | .error e => .error e
            | .ok n3 =>
              lq_quadtree_node_clear_polygons
                (.node n0 n1 n2 n3 depth box polygons number_of_polygons)

/-- Embedding of `lq_quadtree_node_put_polygon` (allocation succeeding), with
a recursion budget; the result is the node after the call. -/
def lq_quadtree_node_put_polygon :
    Nat → lq_quadtree_node_t → lq_polygon_node_t → Except abort_t lq_quadtree_node_t
  | 0, _, _ => .error .out_of_budget
  | _ + 1, .null, _ => .error .aborted
  | _ + 1, .node _ _ _ _ _ _ _ _, .null => .error .aborted
  | fuel + 1, .node c0 c1 c2 c3 depth box polygons number_of_polygons, .cell p next =>
    let rx := box.left
    let ry := box.bottom
    let rw := box.width
    let rh := box.height
    match collide_polygon_rectangle p.number_of_points p.xs p.ys rx ry rw rh with
    | none => .error .aborted
    | some collision =>
      if collision = 0 then
        .ok (.node c0 c1 c2 c3 depth box polygons number_of_polygons)
      else if depth = MAX_DEPTH || rw ≤ MIN_SIZE || rh ≤ MIN_SIZE ||
              (c0 = .null &&
               rectangle_inside_polygon rx ry rw rh p.number_of_points p.xs p.ys) then
        match lq_polygon_node_clone (.cell p next) with
        | .error e => .error e
        | .ok clone =>
          lq_quadtree_node_add_polygon
            (.node c0 c1 c2 c3 depth box polygons number_of_polygons) clone
      else
        match lq_quadtree_node_populate_children
                (.node c0 c1 c2 c3 depth box polygons number_of_polygons) with
        | .error e => .error e
        | .ok .null => .error .aborted
        | .ok (.node d0 d1 d2 d3 depth1 box1 polygons1 number_of_polygons1) =>
          match lq_quadtree_node_put_polygon fuel d0 (.cell p next) with
          | .error e => .error e
          | .ok e0 =>
            match lq_quadtree_node_put_polygon fuel d1 (.cell p next) with
            | .error e => .error e
            | .ok e1 =>
              match lq_quadtree_node_put_polygon fuel d2 (.cell p next) with
              | .error e => .error e
              | .ok e2 =>
                match lq_quadtree_node_put_polygon fuel d3 (.cell p next) with
                | .error e => .error e
                | .ok e3 =>
                  .ok (.node e0 e1 e2 e3 depth1 box1 polygons1 number_of_polygons1)

/-- The recursion budget that `quadtree_add` passes to
`lq_quadtree_node_put_polygon`, as in the first embedding. -/
def put_fuel : lq_quadtree_node_t → Nat
  | .null => 0
  | .node c0 c1 c2 c3 _ box _ _ =>
    max (max (put_fuel c0) (put_fuel c1)) (max (put_fuel c2) (put_fuel c3))
      + box.width.toNat + 1

/-- The list loop of `lq_quadtree_node_remove`: the list nodes of payload id
`id` are unlinked and freed, and the counter is decremented for each. -/
def remove_loop (id : Int) : lq_polygon_node_t → Int → lq_polygon_node_t × Int
  | .null, number_of_polygons => (.null, number_of_polygons)
  | .cell p next, number_of_polygons =>
    if p.id = id then remove_loop id next (number_of_polygons - 1)
    else
      let r := remove_loop id next number_of_polygons
      (.cell p r.1, r.2)

/-- Embedding of `lq_quadtree_node_remove`; a `NULL` child is skipped. -/
def lq_quadtree_node_remove : lq_quadtree_node_t → Int → lq_quadtree_node_t
  | .null, _ => .null
  | .node c0 c1 c2 c3 depth box polygons number_of_polygons, id =>
    let r := remove_loop id polygons number_of_polygons
    .node (lq_quadtree_node_remove c0 id) (lq_quadtree_node_remove c1 id)
      (lq_quadtree_node_remove c2 id) (lq_quadtree_node_remove c3 id) depth box r.1 r.2

/-- Embedding of `quadtree_create` (allocation succeeding); `none` is the
`NULL` handle. -/
def quadtree_create (left bottom width height : Int) : Option lq_quadtree_t :=
  if height ≤ 0 || width ≤ 0 then none
  else
    some ⟨lq_quadtree_node_new left bottom (int_of_ulong (next_power_of_2 width.toNat))
            (int_of_ulong (next_power_of_2 height.toNat)) 0⟩

/-- Embedding of `quadtree_add` (allocation succeeding): the return code and
the tree after the call.  The new list node comes from `calloc` and
 `lq_polygon_node_initialize` sets its `next` to `NULL`; the call aborts when
the initialization fails (see the first embedding). -/
def quadtree_add (qt : lq_quadtree_t) (id : Int) (number_of_polygon_points : Int)
    (xs ys : List Int) : Except abort_t (Int × lq_quadtree_t) :=
  match qt.root with
  | .null => .error .aborted
  | .node c0 c1 c2 c3 depth box polygons number_of_polygons =>
    if add_out_of_bounds box xs ys (List.range number_of_polygon_points.toNat) then
      .ok (QUADTREE_ERROR_OUT_OF_BOUNDS, qt)
    else
      match lq_polygon_node_new id number_of_polygon_points xs ys with
      | none => .error .aborted
      | some p =>
        match lq_quadtree_node_put_polygon
                (put_fuel (.node c0 c1 c2 c3 depth box polygons number_of_polygons))
                (.node c0 c1 c2 c3 depth box polygons number_of_polygons) (.cell p .null) with
        | .error e => .error e
        | .ok root => .ok (QUADTREE_SUCCESS, ⟨root⟩)

/-- Embedding of `quadtree_remove`. -/
def quadtree_remove (qt : lq_quadtree_t) (id : Int) : Except abort_t (Int × lq_quadtree_t) :=
  match qt.root with
  | .null => .error .aborted
  | .node c0 c1 c2 c3 depth box polygons number_of_polygons =>
    .ok (QUADTREE_SUCCESS,
      ⟨lq_quadtree_node_remove (.node c0 c1 c2 c3 depth box polygons number_of_polygons) id⟩)

/-- The payloads of a list, in list order. -/
def payload_list : lq_polygon_node_t → List lq_polygon_t
  | .null => []
  | .cell p next => p :: payload_list next

/-- The tree of the first embedding that a tree of list nodes stands for. -/
def payload_tree : lq_quadtree_node_t → LQ.lq_quadtree_node_t
  | .null => .null
  | .node c0 c1 c2 c3 depth box polygons number_of_polygons =>
    .node (payload_tree c0) (payload_tree c1) (payload_tree c2) (payload_tree c3) depth box
      (payload_list polygons) number_of_polygons

/-- Trees obtained from `quadtree_create` by calls of `quadtree_add` and
`quadtree_remove` that return. -/
inductive reachable : lq_quadtree_t → Prop where
  | create (left bottom width height : Int) (qt : lq_quadtree_t) :
      quadtree_create left bottom width height = some qt → reachable qt
  | add (qt qt1 : lq_quadtree_t) (id n : Int) (xs ys : List Int) (code : Int) :
      reachable qt → quadtree_add qt id n xs ys = .ok (code, qt1) → reachable qt1
  | remove (qt qt1 : lq_quadtree_t) (id code : Int) :
      reachable qt → quadtree_remove qt id = .ok (code, qt1) → reachable qt1

end links

/-- The values of the C type `int`. -/
def is_int (z : Int) : Prop := -(2 ^ 31) ≤ z ∧ z < 2 ^ 31

/-- A box whose four fields hold `int` values. -/
def int_box (box : lq_rect_t) : Prop :=
  is_int box.left ∧ is_int box.bottom ∧ is_int box.width ∧ is_int box.height

/-- A box with positive sides that ends below `2^31` on both axes: the sums
`left + width` and `bottom + height` do not overflow. -/
def fits (box : lq_rect_t) : Prop :=
  -(2 ^ 31) ≤ box.left ∧ -(2 ^ 31) ≤ box.bottom ∧ 0 < box.width ∧ 0 < box.height ∧
  box.left + box.width < 2 ^ 31 ∧ box.bottom + box.height < 2 ^ 31

namespace int32

/-- Embedding of `lq_rect_point_is_in_bounds` with `int` arithmetic. -/
def lq_rect_point_is_in_bounds (rect : lq_rect_t) (x y : Int) : Bool :=
  if (x < rect.left || int_wrap (rect.left + rect.width) ≤ x) ||
     (y < rect.bottom || int_wrap (rect.bottom + rect.height) ≤ y) then false
  else true

/-- Embedding of `lq_rect_get_quadrant` with `int` arithmetic; `none` when
the assertion that the point is in bounds fails. -/
def lq_rect_get_quadrant (rect : lq_rect_t) (x y : Int) : Option Nat :=
  if lq_rect_point_is_in_bounds rect x y then
    let width_half := Int.tdiv rect.width 2
    let height_half := Int.tdiv rect.height 2
    if x < int_wrap (rect.left + width_half) then
      if y < int_wrap (rect.bottom + height_half) then some THIRD_QUADRANT
      else some SECOND_QUADRANT
    else
      if y < int_wrap (rect.bottom + height_half) then some FOURTH_QUADRANT
      else some FIRST_QUADRANT
  else none

/-- The result of a `long` operation on a two's-complement machine: the
exact result reduced modulo `2^64` into the range of `long`. -/
def long_wrap (z : Int) : Int :=
  let m : Int := z % 2 ^ 64
  if m < 2 ^ 63 then m else m - 2 ^ 64

/-- Embedding of `cross_product` with `long` arithmetic. -/
def cross_product (x1 y1 x2 y2 : Int) : Int :=
  long_wrap (long_wrap (x1 * y2) - long_wrap (y1 * x2))

/-- Embedding of `dot_product` with `long` arithmetic. -/
def dot_product (x1 y1 x2 y2 : Int) : Int :=
  long_wrap (long_wrap (x1 * x2) + long_wrap (y1 * y2))

/-- Embedding of `point_in_rectangle` with `int` arithmetic. -/
def point_in_rectangle (px py rx ry w h : Int) : Bool :=
  point_in_polygon_int32 px py 4 [rx, int_wrap (rx + w), int_wrap (rx + w), rx]
    [ry, ry, int_wrap (ry + h), int_wrap (ry + h)]

/-- Embedding of `lines_intersect` with `int` arithmetic: the six
differences are `int` values, the products are computed in `long`
(`int32.cross_product`, `int32.dot_product`) and the quotients in `double`. -/
def lines_intersect (line1 line2 : segment) : Bool :=
  let line1Vector_x := int_wrap (line1.x1 - line1.x0)
  let line1Vector_y := int_wrap (line1.y1 - line1.y0)
  let line2Vector_x := int_wrap (line2.x1 - line2.x0)
  let line2Vector_y := int_wrap (line2.y1 - line2.y0)
  let diff_x := int_wrap (line2.x0 - line1.x0)
  let diff_y := int_wrap (line2.y0 - line1.y0)
  let zero := c_double.of_long 0
  let one := c_double.of_long 1
  let cross_product1 := cross_product line1Vector_x line1Vector_y line2Vector_x line2Vector_y
  let cross_product2 := cross_product diff_x diff_y line1Vector_x line1Vector_y
  if cross_product1 = 0 then
    if cross_product2 = 0 then
      let frac := c_double.of_long
        (dot_product line1Vector_x line1Vector_y line1Vector_x line1Vector_y)
      let lambda1 := c_double.div
        (c_double.of_long (dot_product diff_x diff_y line1Vector_x line1Vector_y)) frac
      let lambda2 := c_double.add lambda1 (c_double.div
        (c_double.of_long (dot_product line1Vector_x line1Vector_y line2Vector_x line2Vector_y))
        frac)
      (c_double.le zero lambda1 && c_double.le lambda1 one) ||
      (c_double.le zero lambda2 && c_double.le lambda2 one) ||
      (c_double.lt lambda1 zero && c_double.lt one lambda2) ||
      (c_double.lt lambda2 zero && c_double.lt one lambda1)
    else false
  else
    let frac := c_double.div one (c_double.of_long cross_product1)
    let lambda1 := c_double.mul
      (c_double.of_long (cross_product diff_x diff_y line2Vector_x line2Vector_y)) frac
    let lambda2 := c_double.mul
      (c_double.of_long (cross_product diff_x diff_y line1Vector_x line1Vector_y)) frac
    (c_double.le zero lambda1 && c_double.lt lambda1 one) &&
    (c_double.le zero lambda2 && c_double.lt lambda2 one)

/-- The array `rectangle_lines` of `collide_polygon_rectangle` with `int`
arithmetic. -/
def rectangle_lines (rx ry w h : Int) : List segment :=
  [ ⟨rx, ry, int_wrap (rx + w), ry⟩,
    ⟨int_wrap (rx + w), ry, int_wrap (rx + w), int_wrap (ry + h)⟩,
    ⟨int_wrap (rx + w), int_wrap (ry + h), rx, int_wrap (ry + h)⟩,
    ⟨rx, int_wrap (ry + h), rx, ry⟩ ]

/-- The edge loop of `collide_polygon_rectangle` with `int` arithmetic. -/
def collide_edges (xs ys : List Int) (rx ry w h : Int) : List Nat → Nat → Bool
  | [], _ => false
  | polygon_index :: rest, old_polygon_index =>
    let polygon_line : segment :=
      ⟨arr xs old_polygon_index, arr ys old_polygon_index,
       arr xs polygon_index, arr ys polygon_index⟩
    if (rectangle_lines rx ry w h).any (fun rl => lines_intersect polygon_line rl) then true
    else collide_edges xs ys rx ry w h rest polygon_index

/-- Embedding of `collide_polygon_rectangle` with `int` arithmetic; `none`
when `assert(n > 0)` fails. -/
def collide_polygon_rectangle (n : Int) (xs ys : List Int) (rx ry w h : Int) : Option Int :=
  if n ≤ 0 then none
  else if collide_edges xs ys rx ry w h (List.range n.toNat) (n - 1).toNat then some COLLISION
  else if point_in_rectangle (arr xs 0) (arr ys 0) rx ry w h then some COLLISION
  else if point_in_polygon_int32 rx ry n xs ys then some COLLISION
  else some NO_COLLISION

/-- Embedding of `lq_quadtree_node_populate_children` (allocation
succeeding) with `int` arithmetic. -/
def lq_quadtree_node_populate_children : lq_quadtree_node_t → Option lq_quadtree_node_t
  | .null => none
  | .node c0 c1 c2 c3 depth box polygons number_of_polygons =>
    let rx := box.left
    let ry := box.bottom
    let half_width := Int.tdiv box.width 2
    let half_height := Int.tdiv box.height 2
    let new_width := half_width
    let new_height := half_height
    if c0 ≠ .null then some (.node c0 c1 c2 c3 depth box polygons number_of_polygons)
    else
      match lq_quadtree_node_add_polygons
              (lq_quadtree_node_new (int_wrap (rx + half_width)) (int_wrap (ry + half_height))
                new_width new_height (int_wrap (depth + 1))) polygons,
            lq_quadtree_node_add_polygons
              (lq_quadtree_node_new rx (int_wrap (ry + half_height)) new_width new_height
                (int_wrap (depth + 1))) polygons,
            lq_quadtree_node_add_polygons
              (lq_quadtree_node_new rx ry new_width new_height (int_wrap (depth + 1)))
              polygons,
            lq_quadtree_node_add_polygons
              (lq_quadtree_node_new (int_wrap (rx + half_width)) ry new_width new_height
                (int_wrap (depth + 1))) polygons with
      | some n0, some n1, some n2, some n3 =>
        lq_quadtree_node_clear_polygons
          (.node n0 n1 n2 n3 depth box polygons number_of_polygons)
      | _, _, _, _ => none

/-- Embedding of `lq_quadtree_node_put_polygon` (allocation succeeding) with
`int` arithmetic and a recursion budget. -/
def lq_quadtree_node_put_polygon :
    Nat → lq_quadtree_node_t → lq_polygon_t → Option lq_quadtree_node_t
  | 0, _, _ => none
  | _ + 1, .null, _ => none
  | fuel + 1, .node c0 c1 c2 c3 depth box polygons number_of_polygons, polygon =>
    let rx := box.left
    let ry := box.bottom
    let rw := box.width
    let rh := box.height
    match collide_polygon_rectangle polygon.number_of_points polygon.xs polygon.ys
            rx ry rw rh with
    | none => none
    | some collision =>
      if collision = 0 then
        some (.node c0 c1 c2 c3 depth box polygons number_of_polygons)
      else if depth = MAX_DEPTH || rw ≤ MIN_SIZE || rh ≤ MIN_SIZE ||
              (c0 = .null &&
               rectangle_inside_polygon_int32 rx ry rw rh polygon.number_of_points
                 polygon.xs polygon.ys) then
        lq_quadtree_node_add_polygon
          (.node c0 c1 c2 c3 depth box polygons number_of_polygons) polygon
      else
        match lq_quadtree_node_populate_children
                (.node c0 c1 c2 c3 depth box polygons number_of_polygons) with
        | some (.node d0 d1 d2 d3 depth1 box1 polygons1 number_of_polygons1) =>
          match lq_quadtree_node_put_polygon fuel d0 polygon with
          | none => none
          | some e0 =>
            match lq_quadtree_node_put_polygon fuel d1 polygon with
            | none => none
            | some e1 =>
              match lq_quadtree_node_put_polygon fuel d2 polygon with
              | none => none
              | some e2 =>
                match lq_quadtree_node_put_polygon fuel d3 polygon with
                | none => none
                | some e3 =>
                  some (.node e0 e1 e2 e3 depth1 box1 polygons1 number_of_polygons1)
        | _ => none

/-- Embedding of `lq_quadtree_node_find_leaf` with `int` arithmetic. -/
def lq_quadtree_node_find_leaf : lq_quadtree_node_t → Int → Int → Option lq_quadtree_node_t
  | .null, _, _ => none
  | .node c0 c1 c2 c3 depth box polygons number_of_polygons, x, y =>
    match lq_rect_get_quadrant box x y with
    | none => none
    | some 0 =>
      if c0 ≠ .null then lq_quadtree_node_find_leaf c0 x y
      else some (.node c0 c1 c2 c3 depth box polygons number_of_polygons)
    | some 1 =>
      if c1 ≠ .null then lq_quadtree_node_find_leaf c1 x y
      else some (.node c0 c1 c2 c3 depth box polygons number_of_polygons)
    | some 2 =>
      if c2 ≠ .null then lq_quadtree_node_find_leaf c2 x y
      else some (.node c0 c1 c2 c3 depth box polygons number_of_polygons)
    | some _ =>
      if c3 ≠ .null then lq_quadtree_node_find_leaf c3 x y
      else some (.node c0 c1 c2 c3 depth box polygons number_of_polygons)

/-- The ids that the payload loop of `lq_quadtree_node_query` stores, in
order, with the `int` arithmetic of `point_in_polygon`. -/
def query_ids (x y : Int) : List lq_polygon_t → List Int
  | [] => []
  | polygon :: next =>
    if point_in_polygon_int32 x y polygon.number_of_points polygon.xs polygon.ys then
      polygon.id :: query_ids x y next
    else query_ids x y next

/-- Embedding of `lq_quadtree_node_query` (allocation succeeding) with `int`
arithmetic. -/
def lq_quadtree_node_query (node : lq_quadtree_node_t) (x y : Int)
    (query_result : quadtree_query_result_t) : Option (Int × quadtree_query_result_t) :=
  let query_result := lq_quadtree_query_result_reset query_result
  match lq_quadtree_node_find_leaf node x y with
  | some (.node _ _ _ _ _ _ polygons number_of_polygons) =>
    let ids := query_ids x y polygons
    if (ids.length : Int) ≤ number_of_polygons then
      some (QUADTREE_SUCCESS,
        { query_result with number_of_ids := (ids.length : Int), ids := some ids })
    else none
  | _ => none

/-- The vertex loop of `quadtree_add` with `int` arithmetic. -/
def add_out_of_bounds (box : lq_rect_t) (xs ys : List Int) : List Nat → Bool
  | [] => false
  | i :: rest =>
    if !lq_rect_point_is_in_bounds box (arr xs i) (arr ys i) then true
    else add_out_of_bounds box xs ys rest

/-- Embedding of `quadtree_add` (allocation succeeding) with `int`
arithmetic. -/
def quadtree_add (qt : lq_quadtree_t) (id : Int) (number_of_polygon_points : Int)
    (xs ys : List Int) : Option (Int × lq_quadtree_t) :=
  match qt.root with
  | .null => none
  | .node c0 c1 c2 c3 depth box polygons number_of_polygons =>
    if add_out_of_bounds box xs ys (List.range number_of_polygon_points.toNat) then
      some (QUADTREE_ERROR_OUT_OF_BOUNDS, qt)
    else
      match lq_polygon_node_new id number_of_polygon_points xs ys with
      | none => none
      | some polygon =>
        match lq_quadtree_node_put_polygon
                (put_fuel (.node c0 c1 c2 c3 depth box polygons number_of_polygons))
                (.node c0 c1 c2 c3 depth box polygons number_of_polygons) polygon with
        | none => none
        | some root => some (QUADTREE_SUCCESS, ⟨root⟩)

/-- Embedding of `quadtree_query` (allocation succeeding) with `int`
arithmetic. -/
def quadtree_query (qt : lq_quadtree_t) (x y : Int) (query_result : quadtree_query_result_t) :
    Option (Int × quadtree_query_result_t) :=
  match qt.root with
  | .null => none
  | .node c0 c1 c2 c3 depth box polygons number_of_polygons =>
    if !lq_rect_point_is_in_bounds box x y then
      some (QUADTREE_ERROR_OUT_OF_BOUNDS, query_result)
    else
      lq_quadtree_node_query (.node c0 c1 c2 c3 depth box polygons number_of_polygons) x y
        query_result

/-- Trees obtained from `quadtree_create`, called with `int` arguments, by
calls of `quadtree_add` and `quadtree_remove` that return, together with the
payloads inserted successfully and not removed since (most recent first). -/
inductive reachable : lq_quadtree_t → List lq_polygon_t → Prop where
  | create (left bottom width height : Int) (qt : lq_quadtree_t) :
      is_int left → is_int bottom → is_int width → is_int height →
      quadtree_create left bottom width height = some qt → reachable qt []
  | add_success (qt qt1 : lq_quadtree_t) (live : List lq_polygon_t) (id n : Int)
      (xs ys : List Int) (polygon : lq_polygon_t) :
      reachable qt live →
      quadtree_add qt id n xs ys = some (QUADTREE_SUCCESS, qt1) →
      lq_polygon_node_new id n xs ys = some polygon →
      reachable qt1 (polygon :: live)
  | add_failure (qt qt1 : lq_quadtree_t) (live : List lq_polygon_t) (id n : Int)
      (xs ys : List Int) (code : Int) :
      reachable qt live →
      quadtree_add qt id n xs ys = some (code, qt1) →
      code ≠ QUADTREE_SUCCESS →
      reachable qt1 live
  | remove (qt qt1 : lq_quadtree_t) (live : List lq_polygon_t) (id code : Int) :
      reachable qt live →
      quadtree_remove qt id = some (code, qt1) →
      reachable qt1 (live.filter (fun p => decide (p.id ≠ id)))

end int32

/-- The depth of a node is not negative. -/
def depth_nonneg : lq_quadtree_node_t → Prop
  | .null => True
  | .node _ _ _ _ depth _ _ _ => 0 ≤ depth

namespace int32

/-- Trees obtained from a tree by further calls that return, with `int`
arithmetic, none of them a `quadtree_add` under the id `k`. -/
inductive later_without_add (k : Int) : lq_quadtree_t → lq_quadtree_t → Prop where
  | refl (qt : lq_quadtree_t) : later_without_add k qt qt
  | add (qt qt1 qt2 : lq_quadtree_t) (id n : Int) (xs ys : List Int) (code : Int) :
      later_without_add k qt qt1 → id ≠ k →
      quadtree_add qt1 id n xs ys = some (code, qt2) → later_without_add k qt qt2
  | remove (qt qt1 qt2 : lq_quadtree_t) (id code : Int) :
      later_without_add k qt qt1 →
      quadtree_remove qt1 id = some (code, qt2) → later_without_add k qt qt2

end int32

/-- A box that lies in the square of the coordinates from `-2^14` to
`2^14`. -/
def small_box (box : lq_rect_t) : Prop :=
  -(2 ^ 14) ≤ box.left ∧ -(2 ^ 14) ≤ box.bottom ∧ 0 ≤ box.width ∧ 0 ≤ box.height ∧
  box.left + box.width ≤ 2 ^ 14 ∧ box.bottom + box.height ≤ 2 ^ 14

/-- A node with a small box and a depth from 0 to `MAX_DEPTH`. -/
def small_node : lq_quadtree_node_t → Prop
  | .null => True
  | .node _ _ _ _ depth box _ _ => small_box box ∧ 0 ≤ depth ∧ depth ≤ MAX_DEPTH

/-- A payload whose vertices have coordinates from `-2^14` to `2^14`. -/
def small_polygon (p : lq_polygon_t) : Prop :=
  ∀ i : Nat, i < p.number_of_points.toNat →
    -(2 ^ 14) ≤ arr p.xs i ∧ arr p.xs i ≤ 2 ^ 14 ∧ -(2 ^ 14) ≤ arr p.ys i ∧ arr p.ys i ≤ 2 ^ 14

/-! # Theorems -/

/-! ## Bounds checks -/

theorem add_out_of_bounds_eq_true (box : lq_rect_t) (xs ys : List Int) (l : List Nat) :
    add_out_of_bounds box xs ys l = true ↔
      ∃ i ∈ l, lq_rect_point_is_in_bounds box (arr xs i) (arr ys i) = false := by
  induction l with
  | nil => simp [add_out_of_bounds]
  | cons i rest ih =>
    simp only [add_out_of_bounds, List.mem_cons, exists_eq_or_imp]
    by_cases hb : lq_rect_point_is_in_bounds box (arr xs i) (arr ys i) = true
    · simp [hb, ih]
    · simp at hb
      simp [hb]

theorem lq_rect_point_is_in_bounds_iff (box : lq_rect_t) (x y : Int) :
    lq_rect_point_is_in_bounds box x y = true ↔
      (box.left ≤ x ∧ x < box.left + box.width ∧ box.bottom ≤ y ∧ y < box.bottom + box.height) := by
  unfold lq_rect_point_is_in_bounds
  by_cases h1 : x < box.left <;> by_cases h2 : box.left + box.width ≤ x <;>
    by_cases h3 : y < box.bottom <;> by_cases h4 : box.bottom + box.height ≤ y <;>
    (simp [h1, h2, h3, h4]; try omega)

/-! ## Payload lists -/

theorem add_polygons_eq (c0 c1 c2 c3 : lq_quadtree_node_t) (depth : Int) (box : lq_rect_t)
    (l polygons : List lq_polygon_t) (cnt : Int) :
    lq_quadtree_node_add_polygons (.node c0 c1 c2 c3 depth box polygons cnt) l =
      some (.node c0 c1 c2 c3 depth box (l.reverse ++ polygons) (cnt + (l.length : Int))) := by
  induction l generalizing polygons cnt with
  | nil => simp [lq_quadtree_node_add_polygons]
  | cons p rest ih =>
    simp only [lq_quadtree_node_add_polygons, lq_quadtree_node_add_polygon]
    rw [ih]
    simp only [List.reverse_cons, List.append_assoc, List.singleton_append, List.length_cons,
      Nat.cast_add, Nat.cast_one]
    congr 2
    omega

theorem populate_children_internal (c0 c1 c2 c3 : lq_quadtree_node_t) (depth : Int)
    (box : lq_rect_t) (polygons : List lq_polygon_t) (cnt : Int) (h : c0 ≠ .null) :
    lq_quadtree_node_populate_children (.node c0 c1 c2 c3 depth box polygons cnt)
      = some (.node c0 c1 c2 c3 depth box polygons cnt) := by
  simp [lq_quadtree_node_populate_children, h]

theorem populate_children_leaf (c1 c2 c3 : lq_quadtree_node_t) (depth : Int)
    (box : lq_rect_t) (polygons : List lq_polygon_t) (cnt : Int) :
    lq_quadtree_node_populate_children (.node .null c1 c2 c3 depth box polygons cnt)
      = if cnt = (polygons.length : Int) then
          some (.node
            (.node .null .null .null .null (depth + 1)
              ⟨box.bottom + Int.tdiv box.height 2, box.left + Int.tdiv box.width 2,
               Int.tdiv box.height 2, Int.tdiv box.width 2⟩ polygons.reverse polygons.length)
            (.node .null .null .null .null (depth + 1)
              ⟨box.bottom + Int.tdiv box.height 2, box.left,
               Int.tdiv box.height 2, Int.tdiv box.width 2⟩ polygons.reverse polygons.length)
            (.node .null .null .null .null (depth + 1)
              ⟨box.bottom, box.left,
               Int.tdiv box.height 2, Int.tdiv box.width 2⟩ polygons.reverse polygons.length)
            (.node .null .null .null .null (depth + 1)
              ⟨box.bottom, box.left + Int.tdiv box.width 2,
               Int.tdiv box.height 2, Int.tdiv box.width 2⟩ polygons.reverse polygons.length)
            depth box [] 0)
        else none := by
  simp [lq_quadtree_node_populate_children, lq_quadtree_node_new, add_polygons_eq,
    lq_quadtree_node_clear_polygons]

theorem put_cases (fuel : Nat) (c0 c1 c2 c3 : lq_quadtree_node_t) (depth : Int)
    (box : lq_rect_t) (polygons : List lq_polygon_t) (cnt : Int) (polygon : lq_polygon_t)
    (r : lq_quadtree_node_t)
    (h : lq_quadtree_node_put_polygon (fuel + 1) (.node c0 c1 c2 c3 depth box polygons cnt)
          polygon = some r) :
    ∃ collision, collide_polygon_rectangle polygon.number_of_points polygon.xs polygon.ys
        box.left box.bottom box.width box.height = some collision ∧
      ((collision = 0 ∧ r = .node c0 c1 c2 c3 depth box polygons cnt) ∨
       (collision ≠ 0 ∧
        (depth = MAX_DEPTH ∨ box.width ≤ MIN_SIZE ∨ box.height ≤ MIN_SIZE ∨
          (c0 = .null ∧ rectangle_inside_polygon box.left box.bottom box.width box.height
              polygon.number_of_points polygon.xs polygon.ys = true)) ∧
        r = .node c0 c1 c2 c3 depth box (polygon :: polygons) (cnt + 1)) ∨
       (collision ≠ 0 ∧
        ¬ (depth = MAX_DEPTH ∨ box.width ≤ MIN_SIZE ∨ box.height ≤ MIN_SIZE ∨
          (c0 = .null ∧ rectangle_inside_polygon box.left box.bottom box.width box.height
              polygon.number_of_points polygon.xs polygon.ys = true)) ∧
        ∃ d0 d1 d2 d3 depth1 box1 polygons1 cnt1 e0 e1 e2 e3,
          lq_quadtree_node_populate_children (.node c0 c1 c2 c3 depth box polygons cnt)
            = some (.node d0 d1 d2 d3 depth1 box1 polygons1 cnt1) ∧
          lq_quadtree_node_put_polygon fuel d0 polygon = some e0 ∧
          lq_quadtree_node_put_polygon fuel d1 polygon = some e1 ∧
          lq_quadtree_node_put_polygon fuel d2 polygon = some e2 ∧
          lq_quadtree_node_put_polygon fuel d3 polygon = some e3 ∧
          r = .node e0 e1 e2 e3 depth1 box1 polygons1 cnt1)) := by
  rw [lq_quadtree_node_put_polygon] at h
  split at h
  · exact absurd h (by simp)
  · rename_i collision hc
    refine ⟨collision, hc, ?_⟩
    by_cases h0 : collision = 0
    · left
      simp only [h0, if_true, Option.some.injEq] at h
      exact ⟨h0, h.symm⟩
    · right
      simp only [h0, if_false] at h
      split at h
      · rename_i hcond
        left
        refine ⟨h0, ?_, ?_⟩
        · simpa [Bool.or_eq_true, Bool.and_eq_true, decide_eq_true_eq, or_assoc] using hcond
        · simp only [lq_quadtree_node_add_polygon, Option.some.injEq] at h
          exact h.symm
      · rename_i hcond
        right
        refine ⟨h0, ?_, ?_⟩
        · simpa [Bool.or_eq_true, Bool.and_eq_true, decide_eq_true_eq, or_assoc] using hcond
        · split at h
          · rename_i d0 d1 d2 d3 depth1 box1 polygons1 cnt1 hpop
            cases hp0 : lq_quadtree_node_put_polygon fuel d0 polygon with
            | none => simp [hp0] at h
            | some e0 =>
              cases hp1 : lq_quadtree_node_put_polygon fuel d1 polygon with
              | none => simp [hp0, hp1] at h
              | some e1 =>
                cases hp2 : lq_quadtree_node_put_polygon fuel d2 polygon with
                | none => simp [hp0, hp1, hp2] at h
                | some e2 =>
                  cases hp3 : lq_quadtree_node_put_polygon fuel d3 polygon with
                  | none => simp [hp0, hp1, hp2, hp3] at h
                  | some e3 =>
                    simp only [hp0, hp1, hp2, hp3, Option.some.injEq] at h
                    exact ⟨d0, d1, d2, d3, depth1, box1, polygons1, cnt1, e0, e1, e2, e3,
                      hpop, hp0, hp1, hp2, hp3, h.symm⟩
          · exact absurd h (by simp)

theorem populate_children_cases (c0 c1 c2 c3 : lq_quadtree_node_t) (depth : Int)
    (box : lq_rect_t) (polygons : List lq_polygon_t) (cnt : Int)
    (d0 d1 d2 d3 : lq_quadtree_node_t) (depth1 : Int) (box1 : lq_rect_t)
    (polygons1 : List lq_polygon_t) (cnt1 : Int)
    (h : lq_quadtree_node_populate_children (.node c0 c1 c2 c3 depth box polygons cnt)
          = some (.node d0 d1 d2 d3 depth1 box1 polygons1 cnt1)) :
    depth1 = depth ∧ box1 = box ∧
    ((c0 ≠ .null ∧ d0 = c0 ∧ d1 = c1 ∧ d2 = c2 ∧ d3 = c3 ∧ polygons1 = polygons ∧ cnt1 = cnt) ∨
     (c0 = .null ∧ cnt = (polygons.length : Int) ∧ polygons1 = [] ∧ cnt1 = 0 ∧
      d0 = .node .null .null .null .null (depth + 1)
              ⟨box.bottom + Int.tdiv box.height 2, box.left + Int.tdiv box.width 2,
               Int.tdiv box.height 2, Int.tdiv box.width 2⟩ polygons.reverse polygons.length ∧
      d1 = .node .null .null .null .null (depth + 1)
              ⟨box.bottom + Int.tdiv box.height 2, box.left,
               Int.tdiv box.height 2, Int.tdiv box.width 2⟩ polygons.reverse polygons.length ∧
      d2 = .node .null .null .null .null (depth + 1)
              ⟨box.bottom, box.left,
               Int.tdiv box.height 2, Int.tdiv box.width 2⟩ polygons.reverse polygons.length ∧
      d3 = .node .null .null .null .null (depth + 1)
              ⟨box.bottom, box.left + Int.tdiv box.width 2,
               Int.tdiv box.height 2, Int.tdiv box.width 2⟩ polygons.reverse polygons.length)) := by
  by_cases hc : c0 = .null
  · subst hc
    rw [populate_children_leaf] at h
    by_cases hcnt : cnt = (polygons.length : Int)
    · simp only [hcnt, if_true, Option.some.injEq, lq_quadtree_node_t.node.injEq] at h
      obtain ⟨h0, h1, h2, h3, h4, h5, h6, h7⟩ := h
      exact ⟨h4.symm, h5.symm, Or.inr ⟨rfl, hcnt, h6.symm, h7.symm, h0.symm, h1.symm, h2.symm,
        h3.symm⟩⟩
    · simp [hcnt] at h
  · rw [populate_children_internal _ _ _ _ _ _ _ _ hc] at h
    simp only [Option.some.injEq, lq_quadtree_node_t.node.injEq] at h
    obtain ⟨h0, h1, h2, h3, h4, h5, h6, h7⟩ := h
    exact ⟨h4.symm, h5.symm, Or.inl ⟨hc, h0.symm, h1.symm, h2.symm, h3.symm, h6.symm, h7.symm⟩⟩

theorem put_ne_null (fuel : Nat) (node : lq_quadtree_node_t) (polygon : lq_polygon_t)
    (r : lq_quadtree_node_t) (h : lq_quadtree_node_put_polygon fuel node polygon = some r) :
    node ≠ .null := by
  intro hn
  subst hn
  cases fuel <;> simp [lq_quadtree_node_put_polygon] at h

theorem put_node_box (fuel : Nat) (node : lq_quadtree_node_t) (polygon : lq_polygon_t)
    (r : lq_quadtree_node_t) (h : lq_quadtree_node_put_polygon fuel node polygon = some r) :
    node_box r = node_box node := by
  cases fuel with
  | zero => simp [lq_quadtree_node_put_polygon] at h
  | succ fuel =>
    cases node with
    | null => simp [lq_quadtree_node_put_polygon] at h
    | node c0 c1 c2 c3 depth box polygons cnt =>
      obtain ⟨collision, -, hcase⟩ := put_cases fuel c0 c1 c2 c3 depth box polygons cnt polygon r h
      rcases hcase with ⟨-, hr⟩ | ⟨-, -, hr⟩ | ⟨-, -, d0, d1, d2, d3, depth1, box1, polygons1,
        cnt1, e0, e1, e2, e3, hpop, -, -, -, -, hr⟩
      · rw [hr]
      · rw [hr]; rfl
      · rw [hr]
        have := (populate_children_cases _ _ _ _ _ _ _ _ _ _ _ _ _ _ _ _ hpop).2.1
        simp [node_box, this]

theorem put_payloads (fuel : Nat) : ∀ (node : lq_quadtree_node_t) (polygon : lq_polygon_t)
    (r : lq_quadtree_node_t), lq_quadtree_node_put_polygon fuel node polygon = some r →
    ∀ q ∈ payloads r, q = polygon ∨ q ∈ payloads node := by
  induction fuel with
  | zero => intro node polygon r h; simp [lq_quadtree_node_put_polygon] at h
  | succ fuel ih =>
    intro node polygon r h q hq
    cases node with
    | null => simp [lq_quadtree_node_put_polygon] at h
    | node c0 c1 c2 c3 depth box polygons cnt =>
      obtain ⟨collision, -, hcase⟩ := put_cases fuel c0 c1 c2 c3 depth box polygons cnt polygon r h
      rcases hcase with ⟨-, hr⟩ | ⟨-, -, hr⟩ | ⟨-, -, d0, d1, d2, d3, depth1, box1, polygons1,
        cnt1, e0, e1, e2, e3, hpop, hp0, hp1, hp2, hp3, hr⟩
      · subst hr; exact Or.inr hq
      · subst hr
        simp only [payloads, List.cons_append, List.mem_cons] at hq
        rcases hq with hq | hq
        · exact Or.inl hq
        · exact Or.inr (by simpa [payloads] using hq)
      · subst hr
        have hd : ∀ q, (q ∈ polygons1 ∨ q ∈ payloads d0 ∨ q ∈ payloads d1 ∨ q ∈ payloads d2 ∨
            q ∈ payloads d3) → q ∈ payloads (.node c0 c1 c2 c3 depth box polygons cnt) := by
          intro q hq
          obtain ⟨-, -, hcs⟩ := populate_children_cases _ _ _ _ _ _ _ _ _ _ _ _ _ _ _ _ hpop
          rcases hcs with ⟨-, r0, r1, r2, r3, r4, -⟩ | ⟨-, -, r4, -, r0, r1, r2, r3⟩
          · subst r0 r1 r2 r3 r4
            simpa [payloads] using hq
          · subst r0 r1 r2 r3 r4
            simp only [payloads, List.append_nil, List.mem_reverse, List.not_mem_nil, false_or,
              or_self] at hq
            simp [payloads, hq]
        simp only [payloads, List.mem_append] at hq
        rcases hq with hq | hq | hq | hq | hq
        · exact Or.inr (hd q (Or.inl hq))
        · rcases ih d0 polygon e0 hp0 q hq with h1 | h1
          · exact Or.inl h1
          · exact Or.inr (hd q (Or.inr (Or.inl h1)))
        · rcases ih d1 polygon e1 hp1 q hq with h1 | h1
          · exact Or.inl h1
          · exact Or.inr (hd q (Or.inr (Or.inr (Or.inl h1))))
        · rcases ih d2 polygon e2 hp2 q hq with h1 | h1
          · exact Or.inl h1
          · exact Or.inr (hd q (Or.inr (Or.inr (Or.inr (Or.inl h1)))))
        · rcases ih d3 polygon e3 hp3 q hq with h1 | h1
          · exact Or.inl h1
          · exact Or.inr (hd q (Or.inr (Or.inr (Or.inr (Or.inr h1)))))

/-! ## Well-formedness -/

theorem good_size_half (w : Int) (h4 : 4 < w) (hg : good_size w) :
    w = 2 * Int.tdiv w 2 ∧ good_size (Int.tdiv w 2) := by
  rcases hg with hg | ⟨k, hk⟩
  · omega
  · cases k with
    | zero => simp at hk; omega
    | succ j =>
      have hw : w = 2 * (2 : Int) ^ j := by rw [hk, pow_succ]; ring
      have ht : Int.tdiv w 2 = (2 : Int) ^ j := by
        rw [hw]; exact Int.mul_tdiv_cancel_left _ (by norm_num)
      rw [ht]
      exact ⟨hw, Or.inr ⟨j, rfl⟩⟩

theorem well_formed_leaf (depth : Int) (box : lq_rect_t) (polygons : List lq_polygon_t)
    (hw : good_size box.width) (hh : good_size box.height) :
    well_formed (.node .null .null .null .null depth box polygons polygons.length) := by
  simp [well_formed, hw, hh]

theorem put_well_formed (fuel : Nat) : ∀ (node : lq_quadtree_node_t) (polygon : lq_polygon_t)
    (r : lq_quadtree_node_t), lq_quadtree_node_put_polygon fuel node polygon = some r →
    well_formed node → well_formed r := by
  induction fuel with
  | zero => intro node polygon r h; simp [lq_quadtree_node_put_polygon] at h
  | succ fuel ih =>
    intro node polygon r h hwf
    cases node with
    | null => simp [lq_quadtree_node_put_polygon] at h
    | node c0 c1 c2 c3 depth box polygons cnt =>
      obtain ⟨collision, -, hcase⟩ := put_cases fuel c0 c1 c2 c3 depth box polygons cnt polygon r h
      rcases hcase with ⟨-, hr⟩ | ⟨-, -, hr⟩ | ⟨-, hncond, d0, d1, d2, d3, depth1, box1,
        polygons1, cnt1, e0, e1, e2, e3, hpop, hp0, hp1, hp2, hp3, hr⟩
      · subst hr; exact hwf
      · subst hr
        simp only [well_formed] at hwf ⊢
        obtain ⟨hcnt, hgw, hgh, hch⟩ := hwf
        refine ⟨?_, hgw, hgh, hch⟩
        simp [hcnt]
      · subst hr
        simp only [well_formed] at hwf
        obtain ⟨hcnt, hgw, hgh, hch⟩ := hwf
        have hbig : 4 < box.width ∧ 4 < box.height := by
          simp only [MIN_SIZE, not_or] at hncond
          omega
        obtain ⟨hdep, hbox, hcs⟩ := populate_children_cases _ _ _ _ _ _ _ _ _ _ _ _ _ _ _ _ hpop
        subst hdep hbox
        have hb0 := put_node_box _ _ _ _ hp0
        have hb1 := put_node_box _ _ _ _ hp1
        have hb2 := put_node_box _ _ _ _ hp2
        have hb3 := put_node_box _ _ _ _ hp3
        rcases hcs with ⟨hc0, r0, r1, r2, r3, r4, r5⟩ | ⟨hc0, -, r4, r5, r0, r1, r2, r3⟩
        · subst r0 r1 r2 r3 r4 r5
          rcases hch with ⟨hn, -⟩ | ⟨hw4, hh4, b0, b1, b2, b3, w0, w1, w2, w3⟩
          · exact absurd hn hc0
          · simp only [well_formed]
            refine ⟨hcnt, hgw, hgh, Or.inr ⟨hw4, hh4, ?_, ?_, ?_, ?_, ih _ _ _ hp0 w0,
              ih _ _ _ hp1 w1, ih _ _ _ hp2 w2, ih _ _ _ hp3 w3⟩⟩
            · rw [hb0]; exact b0
            · rw [hb1]; exact b1
            · rw [hb2]; exact b2
            · rw [hb3]; exact b3
        · have hgw2 := (good_size_half _ hbig.1 hgw).2
          have hgh2 := (good_size_half _ hbig.2 hgh).2
          have wl : ∀ (b l : Int), well_formed (.node .null .null .null .null (depth1 + 1)
              ⟨b, l, Int.tdiv box1.height 2, Int.tdiv box1.width 2⟩ polygons.reverse
                polygons.length) := by
            intro b l
            simp [well_formed, hgw2, hgh2]
          subst r0 r1 r2 r3 r4 r5
          simp only [well_formed]
          refine ⟨by simp, hgw, hgh, Or.inr ⟨hbig.1, hbig.2, ?_, ?_, ?_, ?_, ih _ _ _ hp0 (wl _ _),
              ih _ _ _ hp1 (wl _ _), ih _ _ _ hp2 (wl _ _), ih _ _ _ hp3 (wl _ _)⟩⟩
          · rw [hb0]; rfl
          · rw [hb1]; rfl
          · rw [hb2]; rfl
          · rw [hb3]; rfl

theorem remove_loop_spec (id : Int) (polygons : List lq_polygon_t) (cnt : Int) :
    (remove_loop id polygons cnt).1 = polygons.filter (fun p => decide (p.id ≠ id)) ∧
    (remove_loop id polygons cnt).2 =
      cnt - ((polygons.filter (fun p => decide (p.id = id))).length : Int) := by
  induction polygons generalizing cnt with
  | nil => simp [remove_loop]
  | cons p rest ih =>
    by_cases hp : p.id = id
    · simp only [remove_loop, hp, if_true]
      rw [(ih (cnt - 1)).1, (ih (cnt - 1)).2]
      simp [hp]
      omega
    · simp only [remove_loop, hp, if_false]
      rw [(ih cnt).1, (ih cnt).2]
      simp [hp]

theorem filter_length_split (id : Int) (polygons : List lq_polygon_t) :
    ((polygons.filter (fun p => decide (p.id ≠ id))).length : Int) =
      (polygons.length : Int) - ((polygons.filter (fun p => decide (p.id = id))).length : Int) := by
  induction polygons with
  | nil => simp
  | cons p rest ih =>
    rw [List.filter_cons, List.filter_cons]
    by_cases hp : p.id = id
    · have h1 : decide (p.id ≠ id) = false := by simp [hp]
      have h2 : decide (p.id = id) = true := by simp [hp]
      rw [h1, h2]
      simp only [Bool.false_eq_true, if_false, if_true, List.length_cons, Nat.cast_add,
        Nat.cast_one]
      omega
    · have h1 : decide (p.id ≠ id) = true := by simp [hp]
      have h2 : decide (p.id = id) = false := by simp [hp]
      rw [h1, h2]
      simp only [Bool.false_eq_true, if_false, if_true, List.length_cons, Nat.cast_add,
        Nat.cast_one]
      omega

theorem remove_node_box (node : lq_quadtree_node_t) (id : Int) :
    node_box (lq_quadtree_node_remove node id) = node_box node := by
  cases node <;> simp [lq_quadtree_node_remove, node_box]

theorem remove_eq_null (node : lq_quadtree_node_t) (id : Int) :
    lq_quadtree_node_remove node id = .null ↔ node = .null := by
  cases node <;> simp [lq_quadtree_node_remove]

theorem remove_well_formed (node : lq_quadtree_node_t) (id : Int) (h : well_formed node) :
    well_formed (lq_quadtree_node_remove node id) := by
  induction node with
  | null => exact h
  | node c0 c1 c2 c3 depth box polygons cnt ih0 ih1 ih2 ih3 =>
    simp only [well_formed] at h
    obtain ⟨hcnt, hgw, hgh, hch⟩ := h
    simp only [lq_quadtree_node_remove, well_formed, remove_node_box, remove_eq_null]
    refine ⟨?_, hgw, hgh, ?_⟩
    · rw [(remove_loop_spec id polygons cnt).1, (remove_loop_spec id polygons cnt).2,
        filter_length_split, hcnt]
    · rcases hch with hn | ⟨hw4, hh4, b0, b1, b2, b3, w0, w1, w2, w3⟩
      · exact Or.inl hn
      · exact Or.inr ⟨hw4, hh4, b0, b1, b2, b3, ih0 w0, ih1 w1, ih2 w2, ih3 w3⟩

theorem remove_payloads (node : lq_quadtree_node_t) (id : Int) (q : lq_polygon_t) :
    q ∈ payloads (lq_quadtree_node_remove node id) ↔ q ∈ payloads node ∧ q.id ≠ id := by
  induction node with
  | null => simp [lq_quadtree_node_remove, payloads]
  | node c0 c1 c2 c3 depth box polygons cnt ih0 ih1 ih2 ih3 =>
    have hl : q ∈ (remove_loop id polygons cnt).1 ↔ q ∈ polygons ∧ q.id ≠ id := by
      rw [(remove_loop_spec id polygons cnt).1, List.mem_filter, decide_eq_true_eq]
    have hm : ∀ (l0 l1 l2 l3 l4 : List lq_polygon_t),
        q ∈ l0 ++ (l1 ++ (l2 ++ (l3 ++ l4))) ↔ (q ∈ l0 ∨ q ∈ l1 ∨ q ∈ l2 ∨ q ∈ l3 ∨ q ∈ l4) := by
      intro l0 l1 l2 l3 l4
      simp only [List.mem_append]
    unfold lq_quadtree_node_remove payloads
    rw [hm, hm, hl, ih0, ih1, ih2, ih3]
    constructor
    · rintro (⟨a, b⟩ | ⟨a, b⟩ | ⟨a, b⟩ | ⟨a, b⟩ | ⟨a, b⟩)
      · exact ⟨Or.inl a, b⟩
      · exact ⟨Or.inr (Or.inl a), b⟩
      · exact ⟨Or.inr (Or.inr (Or.inl a)), b⟩
      · exact ⟨Or.inr (Or.inr (Or.inr (Or.inl a))), b⟩
      · exact ⟨Or.inr (Or.inr (Or.inr (Or.inr a))), b⟩
    · rintro ⟨a | a | a | a | a, b⟩
      · exact Or.inl ⟨a, b⟩
      · exact Or.inr (Or.inl ⟨a, b⟩)
      · exact Or.inr (Or.inr (Or.inl ⟨a, b⟩))
      · exact Or.inr (Or.inr (Or.inr (Or.inl ⟨a, b⟩)))
      · exact Or.inr (Or.inr (Or.inr (Or.inr ⟨a, b⟩)))

/-! ## Descent to a leaf -/

theorem find_leaf_payloads (node : lq_quadtree_node_t) (x y : Int) :
    ∀ c0 c1 c2 c3 depth box polygons cnt,
      lq_quadtree_node_find_leaf node x y = some (.node c0 c1 c2 c3 depth box polygons cnt) →
      ∀ q ∈ polygons, q ∈ payloads node := by
  induction node with
  | null => intro c0 c1 c2 c3 depth box polygons cnt h; simp [lq_quadtree_node_find_leaf] at h
  | node a0 a1 a2 a3 adepth abox apolygons acnt ih0 ih1 ih2 ih3 =>
    intro c0 c1 c2 c3 depth box polygons cnt h q hq
    have here : ∀ {n : lq_quadtree_node_t},
        (some (lq_quadtree_node_t.node a0 a1 a2 a3 adepth abox apolygons acnt) =
          some (.node c0 c1 c2 c3 depth box polygons cnt)) →
        q ∈ payloads (.node a0 a1 a2 a3 adepth abox apolygons acnt) := by
      intro _ he
      simp only [Option.some.injEq, lq_quadtree_node_t.node.injEq] at he
      obtain ⟨-, -, -, -, -, -, hp, -⟩ := he
      subst hp
      simp [payloads, hq]
    rw [lq_quadtree_node_find_leaf] at h
    split at h
    · simp at h
    · split at h
      · have := ih0 _ _ _ _ _ _ _ _ h q hq
        simp [payloads, this]
      · exact here (n := a0) h
    · split at h
      · have := ih1 _ _ _ _ _ _ _ _ h q hq
        simp [payloads, this]
      · exact here (n := a0) h
    · split at h
      · have := ih2 _ _ _ _ _ _ _ _ h q hq
        simp [payloads, this]
      · exact here (n := a0) h
    · split at h
      · have := ih3 _ _ _ _ _ _ _ _ h q hq
        simp [payloads, this]
      · exact here (n := a0) h

theorem find_leaf_well_formed (node : lq_quadtree_node_t) :
    well_formed node → ∀ x y box, node_box node = some box →
      lq_rect_point_is_in_bounds box x y = true →
      ∃ c0 c1 c2 c3 depth lbox polygons,
        lq_quadtree_node_find_leaf node x y =
          some (.node c0 c1 c2 c3 depth lbox polygons polygons.length) := by
  induction node with
  | null => intro h; exact absurd h (by simp [well_formed])
  | node a0 a1 a2 a3 adepth abox apolygons acnt ih0 ih1 ih2 ih3 =>
    intro hwf x y box hbox hin
    simp only [node_box, Option.some.injEq] at hbox
    subst hbox
    simp only [well_formed] at hwf
    obtain ⟨hcnt, hgw, hgh, hch⟩ := hwf
    have hin2 := (lq_rect_point_is_in_bounds_iff abox x y).1 hin
    rw [lq_quadtree_node_find_leaf]
    rcases hch with ⟨h0, h1, h2, h3⟩ | ⟨hw4, hh4, b0, b1, b2, b3, w0, w1, w2, w3⟩
    · subst h0 h1 h2 h3 hcnt
      simp only [lq_rect_get_quadrant, hin, if_true, FIRST_QUADRANT, SECOND_QUADRANT,
        THIRD_QUADRANT, FOURTH_QUADRANT]
      split_ifs with i1 i2 i3 i4 i5 i6 <;> first | exact absurd rfl ‹lq_quadtree_node_t.null ≠ lq_quadtree_node_t.null› | exact ⟨_, _, _, _, _, _, _, rfl⟩
    · have hw := (good_size_half _ hw4 hgw).1
      have hh := (good_size_half _ hh4 hgh).1
      have n0 : a0 ≠ .null := by intro h; simp [h, node_box] at b0
      have n1 : a1 ≠ .null := by intro h; simp [h, node_box] at b1
      have n2 : a2 ≠ .null := by intro h; simp [h, node_box] at b2
      have n3 : a3 ≠ .null := by intro h; simp [h, node_box] at b3
      simp only [lq_rect_get_quadrant, hin, if_true, FIRST_QUADRANT, SECOND_QUADRANT,
        THIRD_QUADRANT, FOURTH_QUADRANT]
      by_cases hx : x < abox.left + Int.tdiv abox.width 2
      · by_cases hy : y < abox.bottom + Int.tdiv abox.height 2
        · simp only [hx, hy, if_true, n2, ne_eq, not_false_eq_true]
          exact ih2 w2 x y _ b2 (by rw [lq_rect_point_is_in_bounds_iff]; simp only; omega)
        · simp only [hx, hy, if_true, if_false, n1, ne_eq, not_false_eq_true]
          exact ih1 w1 x y _ b1 (by rw [lq_rect_point_is_in_bounds_iff]; simp only; omega)
      · by_cases hy : y < abox.bottom + Int.tdiv abox.height 2
        · simp only [hx, hy, if_true, if_false, n3, ne_eq, not_false_eq_true]
          exact ih3 w3 x y _ b3 (by rw [lq_rect_point_is_in_bounds_iff]; simp only; omega)
        · simp only [hx, hy, if_false, n0, ne_eq, not_false_eq_true, if_true]
          exact ih0 w0 x y _ b0 (by rw [lq_rect_point_is_in_bounds_iff]; simp only; omega)

theorem query_ids_mem (x y : Int) (polygons : List lq_polygon_t) (k : Int) :
    k ∈ query_ids x y polygons ↔
      ∃ p ∈ polygons, p.id = k ∧ contains_point p x y = true := by
  induction polygons with
  | nil => simp [query_ids]
  | cons p rest ih =>
    simp only [query_ids, List.mem_cons, exists_eq_or_imp, contains_point]
    by_cases hp : point_in_polygon x y p.number_of_points p.xs p.ys = true
    · simp only [hp, if_true, List.mem_cons, ih, and_true, contains_point]
      constructor
      · rintro (h | h)
        · exact Or.inl h.symm
        · exact Or.inr h
      · rintro (h | h)
        · exact Or.inl h.symm
        · exact Or.inr h
    · have hp2 : point_in_polygon x y p.number_of_points p.xs p.ys = false := by
        simpa using hp
      simp only [hp2, Bool.false_eq_true, if_false, ih, and_false, false_or, contains_point]

theorem query_ids_length_le (x y : Int) (polygons : List lq_polygon_t) :
    (query_ids x y polygons).length ≤ polygons.length := by
  induction polygons with
  | nil => simp [query_ids]
  | cons p rest ih =>
    simp only [query_ids]
    split
    · simp only [List.length_cons]; omega
    · simp only [List.length_cons]; omega

/-! ## Creation and reachable trees -/

theorem next_power_of_2_eq_pow (n : Nat) : ∃ s : Nat, next_power_of_2 n = 2 ^ s := by
  unfold next_power_of_2
  by_cases h : n = 0
  · exact ⟨0, by simp [h]⟩
  · exact ⟨next_power_of_2_loop 64 (n - 1) 0, by simp [h, Nat.one_shiftLeft]⟩

theorem good_size_int_of_ulong_pow (s : Nat) : good_size (int_of_ulong (2 ^ s)) := by
  unfold int_of_ulong good_size
  simp only
  by_cases hs : s < 31
  · right
    refine ⟨s, ?_⟩
    have h1 : (2 : Int) ^ s < 2 ^ 31 := pow_lt_pow_right₀ (by norm_num) hs
    have h0 : (0 : Int) ≤ 2 ^ s := by positivity
    have hm : ((2 ^ s : Nat) : Int) % 2 ^ 32 = 2 ^ s := by
      push_cast
      exact Int.emod_eq_of_lt h0 (by omega)
    rw [hm, if_pos h1]
  · left
    by_cases h31 : s = 31
    · subst h31
      norm_num
    · have hdvd : (2 : Int) ^ 32 ∣ ((2 ^ s : Nat) : Int) := by
        push_cast
        have h32 : 32 ≤ s := by omega
        exact pow_dvd_pow 2 h32
      have hm : ((2 ^ s : Nat) : Int) % 2 ^ 32 = 0 := Int.emod_eq_zero_of_dvd hdvd
      rw [hm]
      norm_num

theorem quadtree_create_eq_some (left bottom width height : Int) (qt : lq_quadtree_t)
    (h : quadtree_create left bottom width height = some qt) :
    0 < width ∧ 0 < height ∧
    qt = ⟨.node .null .null .null .null 0
            ⟨bottom, left, int_of_ulong (next_power_of_2 height.toNat),
              int_of_ulong (next_power_of_2 width.toNat)⟩ [] 0⟩ := by
  unfold quadtree_create at h
  by_cases hc : (decide (height ≤ 0) || decide (width ≤ 0)) = true
  · simp [hc] at h
  · simp only [hc, Bool.false_eq_true, if_false, Option.some.injEq, lq_quadtree_node_new] at h
    simp only [Bool.or_eq_true, decide_eq_true_eq, not_or, not_le] at hc
    exact ⟨hc.2, hc.1, h.symm⟩

theorem quadtree_create_eq_none_iff (left bottom width height : Int) :
    quadtree_create left bottom width height = none ↔ width ≤ 0 ∨ height ≤ 0 := by
  unfold quadtree_create
  by_cases hc : (decide (height ≤ 0) || decide (width ≤ 0)) = true
  · simp only [hc, if_true, true_iff]
    simp only [Bool.or_eq_true, decide_eq_true_eq] at hc
    tauto
  · simp only [hc, Bool.false_eq_true, if_false, false_iff]
    simp only [Bool.or_eq_true, decide_eq_true_eq] at hc
    simp only [reduceCtorEq, false_iff]
    tauto

theorem next_power_of_2_loop_le (fuel : Nat) : ∀ (n shifts k : Nat), n < 2 ^ k →
    next_power_of_2_loop fuel n shifts ≤ shifts + k := by
  induction fuel with
  | zero => intro n shifts k _; simp [next_power_of_2_loop]
  | succ fuel ih =>
    intro n shifts k hk
    simp only [next_power_of_2_loop]
    split_ifs with h0
    · omega
    · cases k with
      | zero => simp at hk; omega
      | succ j =>
        have hlt : n >>> 1 < 2 ^ j := by
          rw [Nat.shiftRight_eq_div_pow, pow_one]
          rw [pow_succ] at hk
          omega
        have := ih (n >>> 1) (shifts + 1) j hlt
        omega

theorem int_of_ulong_next_power_of_2 (n : Nat) (hn : n ≤ 2 ^ 30) :
    int_of_ulong (next_power_of_2 n) = (next_power_of_2 n : Int) := by
  have hle : next_power_of_2 n ≤ 2 ^ 30 := by
    unfold next_power_of_2
    split_ifs with h0
    · norm_num
    · rw [Nat.one_shiftLeft]
      have hlt : n - 1 < 2 ^ 30 := by omega
      have := next_power_of_2_loop_le 64 (n - 1) 0 30 hlt
      exact Nat.pow_le_pow_right (by norm_num) (by omega)
  unfold int_of_ulong
  simp only
  have h1 : ((next_power_of_2 n : Nat) : Int) ≤ 2 ^ 30 := by exact_mod_cast hle
  have h0 : (0 : Int) ≤ (next_power_of_2 n : Nat) := Int.natCast_nonneg _
  have hm : ((next_power_of_2 n : Nat) : Int) % 2 ^ 32 = (next_power_of_2 n : Nat) :=
    Int.emod_eq_of_lt h0 (by omega)
  rw [hm, if_pos (by omega)]

theorem quadtree_create_box (left bottom width height : Int)
    (hw : 0 < width) (hw2 : width ≤ 2 ^ 30) (hh : 0 < height) (hh2 : height ≤ 2 ^ 30) :
    quadtree_create left bottom width height =
      some ⟨.node .null .null .null .null 0
        ⟨bottom, left, (next_power_of_2 height.toNat : Int),
          (next_power_of_2 width.toNat : Int)⟩ [] 0⟩ := by
  unfold quadtree_create
  have hc : (decide (height ≤ 0) || decide (width ≤ 0)) = false := by
    simp only [Bool.or_eq_false_iff, decide_eq_false_iff_not, not_le]
    exact ⟨hh, hw⟩
  rw [hc]
  simp only [Bool.false_eq_true, if_false, lq_quadtree_node_new]
  rw [int_of_ulong_next_power_of_2 _ (by omega), int_of_ulong_next_power_of_2 _ (by omega)]

theorem quadtree_create_well_formed (left bottom width height : Int) (qt : lq_quadtree_t)
    (h : quadtree_create left bottom width height = some qt) :
    well_formed qt.root ∧ payloads qt.root = [] := by
  obtain ⟨-, -, hq⟩ := quadtree_create_eq_some _ _ _ _ _ h
  subst hq
  obtain ⟨s, hs⟩ := next_power_of_2_eq_pow width.toNat
  obtain ⟨t, ht⟩ := next_power_of_2_eq_pow height.toNat
  simp only [well_formed, payloads, hs, ht]
  refine ⟨⟨by simp, good_size_int_of_ulong_pow s, good_size_int_of_ulong_pow t, ?_⟩, by simp⟩
  simp

theorem quadtree_add_cases (qt qt1 : lq_quadtree_t) (id n : Int) (xs ys : List Int) (code : Int)
    (h : quadtree_add qt id n xs ys = some (code, qt1)) :
    (code ≠ QUADTREE_SUCCESS ∧ qt1 = qt) ∨
    (code = QUADTREE_SUCCESS ∧ ∃ polygon, lq_polygon_node_new id n xs ys = some polygon ∧
      lq_quadtree_node_put_polygon (put_fuel qt.root) qt.root polygon = some qt1.root) := by
  unfold quadtree_add at h
  split at h
  · simp at h
  · rename_i c0 c1 c2 c3 depth box polygons cnt hroot
    split at h
    · simp only [Option.some.injEq, Prod.mk.injEq] at h
      left
      exact ⟨by rw [← h.1]; decide, h.2.symm⟩
    · split at h
      · exact absurd h (by simp)
      · rename_i polygon hnew
        split at h
        · simp at h
        · rename_i root hput
          simp only [Option.some.injEq, Prod.mk.injEq] at h
          right
          refine ⟨h.1.symm, polygon, hnew, ?_⟩
          rw [hroot, ← h.2]
          exact hput

theorem quadtree_remove_cases (qt qt1 : lq_quadtree_t) (id code : Int)
    (h : quadtree_remove qt id = some (code, qt1)) :
    qt.root ≠ .null ∧ code = QUADTREE_SUCCESS ∧
      qt1 = ⟨lq_quadtree_node_remove qt.root id⟩ := by
  unfold quadtree_remove at h
  split at h
  · simp at h
  · rename_i c0 c1 c2 c3 depth box polygons cnt hroot
    simp only [Option.some.injEq, Prod.mk.injEq] at h
    refine ⟨by rw [hroot]; simp, h.1.symm, ?_⟩
    rw [hroot, ← h.2]

theorem reachable_invariant (qt : lq_quadtree_t) (live : List lq_polygon_t)
    (h : reachable qt live) :
    well_formed qt.root ∧ ∀ q ∈ payloads qt.root, q ∈ live := by
  induction h with
  | create left bottom width height qt hc =>
    obtain ⟨hw, hp⟩ := quadtree_create_well_formed _ _ _ _ _ hc
    exact ⟨hw, by simp [hp]⟩
  | add_success qt qt1 live id n xs ys polygon _ hadd hnew ih =>
    rcases quadtree_add_cases _ _ _ _ _ _ _ hadd with ⟨hne, -⟩ | ⟨-, polygon1, hnew1, hput⟩
    · exact absurd rfl hne
    · rw [hnew] at hnew1
      simp only [Option.some.injEq] at hnew1
      subst hnew1
      refine ⟨put_well_formed _ _ _ _ hput ih.1, ?_⟩
      intro q hq
      rcases put_payloads _ _ _ _ hput q hq with h1 | h1
      · simp [h1]
      · exact List.mem_cons_of_mem _ (ih.2 q h1)
  | add_failure qt qt1 live id n xs ys code _ hadd hne ih =>
    rcases quadtree_add_cases _ _ _ _ _ _ _ hadd with ⟨-, heq⟩ | ⟨hs, -⟩
    · rw [heq]; exact ih
    · exact absurd hs hne
  | remove qt qt1 live id code _ hrem ih =>
    obtain ⟨-, -, heq⟩ := quadtree_remove_cases _ _ _ _ hrem
    subst heq
    refine ⟨remove_well_formed _ _ ih.1, ?_⟩
    intro q hq
    rw [remove_payloads] at hq
    rw [List.mem_filter]
    exact ⟨ih.2 q hq.1, by simpa using hq.2⟩

/-! ## Queries -/

theorem quadtree_query_success (qt : lq_quadtree_t) (x y : Int)
    (holder result : quadtree_query_result_t) (code : Int)
    (h : quadtree_query qt x y holder = some (code, result)) (hc : code = QUADTREE_SUCCESS) :
    ∃ c0 c1 c2 c3 depth box polygons cnt,
      lq_quadtree_node_find_leaf qt.root x y = some (.node c0 c1 c2 c3 depth box polygons cnt) ∧
      result = ⟨((query_ids x y polygons).length : Int), some (query_ids x y polygons)⟩ := by
  unfold quadtree_query at h
  split at h
  · simp at h
  · rename_i a0 a1 a2 a3 adepth abox apolygons acnt hroot
    split at h
    · simp only [Option.some.injEq, Prod.mk.injEq] at h
      rw [hc] at h
      exact absurd h.1 (by decide)
    · unfold lq_quadtree_node_query at h
      simp only at h
      rw [hroot]
      split at h
      · rename_i c0 c1 c2 c3 depth box polygons cnt hleaf
        split at h
        · simp only [Option.some.injEq, Prod.mk.injEq] at h
          exact ⟨c0, c1, c2, c3, depth, box, polygons, cnt, hleaf, h.2.symm⟩
        · simp at h
      · simp at h

theorem quadtree_query_ids (qt : lq_quadtree_t) (x y : Int)
    (holder result : quadtree_query_result_t) (ids : List Int)
    (h : quadtree_query qt x y holder = some (QUADTREE_SUCCESS, result))
    (hids : result.ids = some ids) :
    ∀ k ∈ ids, ∃ p ∈ payloads qt.root, p.id = k ∧ contains_point p x y = true := by
  obtain ⟨c0, c1, c2, c3, depth, box, polygons, cnt, hleaf, hres⟩ :=
    quadtree_query_success qt x y holder result _ h rfl
  subst hres
  simp only [Option.some.injEq] at hids
  subst hids
  intro k hk
  obtain ⟨p, hp, hid, hin⟩ := (query_ids_mem x y polygons k).1 hk
  exact ⟨p, find_leaf_payloads _ _ _ _ _ _ _ _ _ _ _ hleaf p hp, hid, hin⟩

theorem polygon_node_new_id (id n : Int) (xs ys : List Int) (polygon : lq_polygon_t)
    (h : lq_polygon_node_new id n xs ys = some polygon) : polygon.id = id := by
  unfold lq_polygon_node_new at h
  split at h
  · simp at h
  · simp only [Option.some.injEq] at h
    rw [← h]

theorem later_without_add_no_id (k : Int) (qt qt2 : lq_quadtree_t)
    (h : later_without_add k qt qt2) (h0 : ∀ q ∈ payloads qt.root, q.id ≠ k) :
    ∀ q ∈ payloads qt2.root, q.id ≠ k := by
  induction h with
  | refl => exact h0
  | add qt1 qt2 id n xs ys code _ hid hadd ih =>
    rcases quadtree_add_cases _ _ _ _ _ _ _ hadd with ⟨-, heq⟩ | ⟨-, polygon, hnew, hput⟩
    · rw [heq]; exact ih
    · intro q hq
      rcases put_payloads _ _ _ _ hput q hq with h1 | h1
      · rw [h1, polygon_node_new_id _ _ _ _ _ hnew]; exact hid
      · exact ih q h1
  | remove qt1 qt2 id code _ hrem ih =>
    obtain ⟨-, -, heq⟩ := quadtree_remove_cases _ _ _ _ hrem
    subst heq
    intro q hq
    rw [remove_payloads] at hq
    exact ih q hq.1

theorem remove_loop_no_match (id : Int) (polygons : List lq_polygon_t) (cnt : Int)
    (h : ∀ q ∈ polygons, q.id ≠ id) : remove_loop id polygons cnt = (polygons, cnt) := by
  induction polygons generalizing cnt with
  | nil => rfl
  | cons p rest ih =>
    have hp : p.id ≠ id := h p (by simp)
    simp only [remove_loop, hp, if_false]
    rw [ih cnt (fun q hq => h q (by simp [hq]))]

theorem remove_no_match (node : lq_quadtree_node_t) (id : Int)
    (h : ∀ q ∈ payloads node, q.id ≠ id) : lq_quadtree_node_remove node id = node := by
  induction node with
  | null => rfl
  | node c0 c1 c2 c3 depth box polygons cnt ih0 ih1 ih2 ih3 =>
    simp only [payloads, List.mem_append] at h
    simp only [lq_quadtree_node_remove]
    rw [ih0 (fun q hq => h q (Or.inr (Or.inl hq))),
      ih1 (fun q hq => h q (Or.inr (Or.inr (Or.inl hq)))),
      ih2 (fun q hq => h q (Or.inr (Or.inr (Or.inr (Or.inl hq))))),
      ih3 (fun q hq => h q (Or.inr (Or.inr (Or.inr (Or.inr hq))))),
      remove_loop_no_match id polygons cnt (fun q hq => h q (Or.inl hq))]

theorem remove_removed_from (node : lq_quadtree_node_t) (id : Int) :
    removed_from id node (lq_quadtree_node_remove node id) := by
  induction node with
  | null => simp [lq_quadtree_node_remove, removed_from]
  | node c0 c1 c2 c3 depth box polygons cnt ih0 ih1 ih2 ih3 =>
    simp only [lq_quadtree_node_remove, removed_from]
    exact ⟨trivial, trivial, (remove_loop_spec id polygons cnt).1, ih0, ih1, ih2, ih3⟩

theorem reachable_tree_8_square : reachable tree_8_square [square_5] :=
  reachable.add_success tree_8 tree_8_square [] 5 4 [1, 7, 7, 1] [1, 1, 7, 7] square_5
    (reachable.create 0 0 8 8 tree_8 (by decide!)) (by decide!) (by decide!)

/-! ## Totality of the insertion -/

theorem collide_some (n : Int) (xs ys : List Int) (rx ry w h : Int) (hn : 0 < n) :
    ∃ c, collide_polygon_rectangle n xs ys rx ry w h = some c := by
  unfold collide_polygon_rectangle
  rw [if_neg (by omega)]
  split_ifs <;> exact ⟨_, rfl⟩

theorem put_fuel_pos (c0 c1 c2 c3 : lq_quadtree_node_t) (depth : Int) (box : lq_rect_t)
    (polygons : List lq_polygon_t) (cnt : Int) :
    put_fuel (.node c0 c1 c2 c3 depth box polygons cnt) =
      max (max (put_fuel c0) (put_fuel c1)) (max (put_fuel c2) (put_fuel c3))
        + box.width.toNat + 1 := rfl

theorem put_total (fuel : Nat) : ∀ (node : lq_quadtree_node_t) (polygon : lq_polygon_t),
    well_formed node → 0 < polygon.number_of_points → put_fuel node ≤ fuel →
    ∃ r, lq_quadtree_node_put_polygon fuel node polygon = some r := by
  induction fuel with
  | zero =>
    intro node polygon hwf _ hfuel
    cases node with
    | null => exact absurd hwf (by simp [well_formed])
    | node c0 c1 c2 c3 depth box polygons cnt => rw [put_fuel_pos] at hfuel; omega
  | succ fuel ih =>
    intro node polygon hwf hn hfuel
    cases node with
    | null => exact absurd hwf (by simp [well_formed])
    | node c0 c1 c2 c3 depth box polygons cnt =>
      obtain ⟨collision, hcol⟩ := collide_some polygon.number_of_points polygon.xs polygon.ys
        box.left box.bottom box.width box.height hn
      rw [lq_quadtree_node_put_polygon]
      simp only [hcol]
      by_cases h0 : collision = 0
      · exact ⟨_, by rw [if_pos h0]⟩
      · rw [if_neg h0]
        split_ifs with hcond
        · exact ⟨_, rfl⟩
        · have hbig : 4 < box.width ∧ 4 < box.height := by
            simp only [Bool.or_eq_true, decide_eq_true_eq, MIN_SIZE, not_or] at hcond
            omega
          simp only [well_formed] at hwf
          obtain ⟨hcnt, hgw, hgh, hch⟩ := hwf
          rw [put_fuel_pos] at hfuel
          by_cases hc0 : c0 = .null
          · subst hc0
            rw [populate_children_leaf, if_pos hcnt]
            simp only
            obtain ⟨hw2, hgw2⟩ := good_size_half _ hbig.1 hgw
            obtain ⟨-, hgh2⟩ := good_size_half _ hbig.2 hgh
            have hfresh : ∀ (b l : Int),
                ∃ r, lq_quadtree_node_put_polygon fuel
                  (.node .null .null .null .null (depth + 1)
                    ⟨b, l, Int.tdiv box.height 2, Int.tdiv box.width 2⟩ polygons.reverse
                    polygons.length) polygon = some r := by
              intro b l
              apply ih _ _ _ hn
              · rw [put_fuel_pos]
                simp only [put_fuel, Nat.max_self, Nat.zero_add]
                omega
              · have := well_formed_leaf (depth + 1)
                  ⟨b, l, Int.tdiv box.height 2, Int.tdiv box.width 2⟩ polygons.reverse hgw2 hgh2
                simpa using this
            obtain ⟨e0, he0⟩ := hfresh (box.bottom + Int.tdiv box.height 2)
              (box.left + Int.tdiv box.width 2)
            obtain ⟨e1, he1⟩ := hfresh (box.bottom + Int.tdiv box.height 2) box.left
            obtain ⟨e2, he2⟩ := hfresh box.bottom box.left
            obtain ⟨e3, he3⟩ := hfresh box.bottom (box.left + Int.tdiv box.width 2)
            simp only [he0, he1, he2, he3]
            exact ⟨_, rfl⟩
          · rw [populate_children_internal _ _ _ _ _ _ _ _ hc0]
            simp only
            rcases hch with ⟨hn0, -⟩ | ⟨-, -, -, -, -, -, w0, w1, w2, w3⟩
            · exact absurd hn0 hc0
            · obtain ⟨e0, he0⟩ := ih c0 polygon w0 hn (by omega)
              obtain ⟨e1, he1⟩ := ih c1 polygon w1 hn (by omega)
              obtain ⟨e2, he2⟩ := ih c2 polygon w2 hn (by omega)
              obtain ⟨e3, he3⟩ := ih c3 polygon w3 hn (by omega)
              simp only [he0, he1, he2, he3]
              exact ⟨_, rfl⟩

theorem quadtree_add_total (qt : lq_quadtree_t) (id n : Int) (xs ys : List Int)
    (hwf : well_formed qt.root) (hn : 0 < n)
    (hin : add_out_of_bounds (root_box qt) xs ys (List.range n.toNat) = false) :
    ∃ qt1, quadtree_add qt id n xs ys = some (QUADTREE_SUCCESS, qt1) := by
  obtain ⟨root⟩ := qt
  cases root with
  | null => exact absurd hwf (by simp [well_formed])
  | node c0 c1 c2 c3 depth box polygons cnt =>
    simp only [root_box] at hin
    have hnew : lq_polygon_node_new id n xs ys =
        some ⟨id, n, (List.range n.toNat).map (arr xs), (List.range n.toNat).map (arr ys)⟩ := by
      unfold lq_polygon_node_new
      rw [if_neg (by omega)]
    obtain ⟨r, hr⟩ := put_total _ _ ⟨id, n, (List.range n.toNat).map (arr xs),
      (List.range n.toNat).map (arr ys)⟩ hwf hn (le_refl _)
    exact ⟨⟨r⟩, by simp only [quadtree_add, hin, hnew, hr, Bool.false_eq_true, if_false]⟩

theorem find_leaf_quadrant_1 (c0 c1 c2 c3 : lq_quadtree_node_t) (depth : Int)
    (box : lq_rect_t) (polygons : List lq_polygon_t) (cnt : Int) (x y : Int)
    (hq : lq_rect_get_quadrant box x y = some 1) (hc : c1 ≠ .null) :
    lq_quadtree_node_find_leaf (.node c0 c1 c2 c3 depth box polygons cnt) x y =
      lq_quadtree_node_find_leaf c1 x y := by
  rw [lq_quadtree_node_find_leaf]
  simp only [hq, hc, ne_eq, not_false_eq_true, if_true]

theorem quadtree_query_of_leaf (qt : lq_quadtree_t) (x y : Int)
    (holder : quadtree_query_result_t) (c0 c1 c2 c3 : lq_quadtree_node_t) (depth : Int)
    (box : lq_rect_t) (polygons : List lq_polygon_t) (cnt : Int)
    (hin : lq_rect_point_is_in_bounds (root_box qt) x y = true)
    (hleaf : lq_quadtree_node_find_leaf qt.root x y =
      some (.node c0 c1 c2 c3 depth box polygons cnt))
    (hcnt : ((query_ids x y polygons).length : Int) ≤ cnt) :
    quadtree_query qt x y holder =
      some (QUADTREE_SUCCESS,
        ⟨((query_ids x y polygons).length : Int), some (query_ids x y polygons)⟩) := by
  obtain ⟨root⟩ := qt
  cases root with
  | null => simp [lq_quadtree_node_find_leaf] at hleaf
  | node a0 a1 a2 a3 adepth abox apolygons acnt =>
    simp only [root_box] at hin
    simp only at hleaf
    simp only [quadtree_query, hin, Bool.not_true, Bool.false_eq_true, if_false,
      lq_quadtree_node_query, hleaf]
    rw [if_pos hcnt]

theorem sliver_insert_misses_child_1 (qt1 : lq_quadtree_t)
    (hadd : quadtree_add tree_big 7 3 [2 ^ 29, 2 ^ 29 - 1, 2 ^ 29]
      [2 ^ 29 - 1, 2 ^ 30 - 1, 2 ^ 29 - 2] = some (QUADTREE_SUCCESS, qt1)) :
    ∃ e0 e2 e3, qt1.root = .node e0 tree_big_child_1 e2 e3 0 ⟨0, 0, 2 ^ 30, 2 ^ 30⟩ [] 0 := by
  rcases quadtree_add_cases _ _ _ _ _ _ _ hadd with ⟨hne, -⟩ | ⟨-, polygon, hnew, hput⟩
  · exact absurd rfl hne
  · have hp : polygon = sliver_7 := by
      have : lq_polygon_node_new 7 3 [2 ^ 29, 2 ^ 29 - 1, 2 ^ 29]
          [2 ^ 29 - 1, 2 ^ 30 - 1, 2 ^ 29 - 2] = some sliver_7 := by decide!
      rw [this] at hnew
      exact (Option.some.inj hnew).symm
    subst hp
    have hfuel : put_fuel tree_big.root = 2 ^ 30 + 1 := by decide!
    rw [hfuel] at hput
    obtain ⟨collision, hcol, hcase⟩ := put_cases _ _ _ _ _ _ _ _ _ _ _ hput
    have hcol1 : collide_polygon_rectangle sliver_7.number_of_points sliver_7.xs sliver_7.ys
        0 0 (2 ^ 30) (2 ^ 30) = some COLLISION := by decide!
    rw [hcol1] at hcol
    have hc : collision = 1 := (Option.some.inj hcol).symm
    have hrip : rectangle_inside_polygon 0 0 (2 ^ 30) (2 ^ 30) sliver_7.number_of_points
        sliver_7.xs sliver_7.ys = false := by decide!
    rcases hcase with ⟨h0, -⟩ | ⟨-, hcond, -⟩ | ⟨-, -, d0, d1, d2, d3, depth1, box1, polygons1,
      cnt1, e0, e1, e2, e3, hpop, -, hp1, -, -, hr⟩
    · rw [hc] at h0; exact absurd h0 (by decide)
    · exfalso
      rcases hcond with h | h | h | ⟨-, h⟩
      · exact absurd h (by decide)
      · exact absurd h (by decide)
      · exact absurd h (by decide)
      · rw [hrip] at h; exact absurd h (by decide)
    · obtain ⟨hdepth, hbox, hcs⟩ := populate_children_cases _ _ _ _ _ _ _ _ _ _ _ _ _ _ _ _ hpop
      rcases hcs with ⟨hnn, -⟩ | ⟨-, -, hpoly, hcnt1, -, hd1, -, -⟩
      · exact absurd rfl hnn
      · have hd1b : d1 = tree_big_child_1 := by rw [hd1]; decide!
        subst hdepth hbox hpoly hcnt1
        rw [hd1b] at hp1
        have hfuel1 : (2 : Nat) ^ 30 = (2 ^ 30 - 1) + 1 := by norm_num
        rw [hfuel1] at hp1
        obtain ⟨collision1, hcolc, hcase1⟩ := put_cases _ _ _ _ _ _ _ _ _ _ _ hp1
        have hcol2 : collide_polygon_rectangle sliver_7.number_of_points sliver_7.xs
            sliver_7.ys 0 (2 ^ 29) (2 ^ 29) (2 ^ 29) = some NO_COLLISION := by decide!
        rw [hcol2] at hcolc
        have hc1 : collision1 = 0 := (Option.some.inj hcolc).symm
        rcases hcase1 with ⟨-, he1⟩ | ⟨hne, -⟩ | ⟨hne, -⟩
        · exact ⟨e0, e2, e3, by rw [hr, he1]; rfl⟩
        · exact absurd hc1 hne
        · exact absurd hc1 hne

/-! ## Rounding to binary64 -/

theorem bit_length_spec (fuel : Nat) : ∀ n : Nat, n ≤ fuel → 0 < n →
    2 ^ (bit_length fuel n - 1) ≤ n ∧ n < 2 ^ bit_length fuel n := by
  induction fuel with
  | zero => intro n h1 h2; omega
  | succ fuel ih =>
    intro n h1 h2
    have hn : n ≠ 0 := by omega
    simp only [bit_length, hn, if_false]
    by_cases h : n / 2 = 0
    · have hn1 : n = 1 := by omega
      subst hn1
      have : bit_length fuel (1 / 2) = 0 := by
        cases fuel <;> simp [bit_length]
      rw [this]
      simp
    · have hpos : 0 < n / 2 := Nat.pos_of_ne_zero h
      have hle : n / 2 ≤ fuel := by omega
      obtain ⟨l, u⟩ := ih (n / 2) hle hpos
      have hb : 1 ≤ bit_length fuel (n / 2) := by
        by_contra hc
        have : bit_length fuel (n / 2) = 0 := by omega
        rw [this] at u
        simp at u
        omega
      constructor
      · have : bit_length fuel (n / 2) + 1 - 1 = (bit_length fuel (n / 2) - 1) + 1 := by omega
        rw [this, pow_succ]
        omega
      · rw [pow_succ]
        omega

theorem floor_log2_le (a : ℚ) (ha : 0 < a) : (2 : ℚ) ^ (floor_log2 a) ≤ a := by
  unfold floor_log2
  simp only
  split_ifs with h
  · have hnum : 0 < a.num := Rat.num_pos.2 ha
    set n := a.num.natAbs with hn
    set d := a.den with hd
    have hnpos : 0 < n := by rw [hn]; omega
    have hdpos : 0 < d := a.den_pos
    obtain ⟨ln, -⟩ := bit_length_spec n n (le_refl _) hnpos
    obtain ⟨-, ud⟩ := bit_length_spec d d (le_refl _) hdpos
    have hbn : 1 ≤ bit_length n n := by
      cases hnn : n with
      | zero => omega
      | succ m => simp [bit_length]
    have ha_eq : a = (n : ℚ) / (d : ℚ) := by
      have h1 : (a.num : ℚ) = (n : ℚ) := by
        rw [hn]
        have h0 : (a.num.natAbs : Int) = a.num := Int.natAbs_of_nonneg (le_of_lt hnum)
        have h00 : ((a.num.natAbs : Int) : ℚ) = (a.num : ℚ) := by rw [h0]
        rw [← h00]
        exact Int.cast_natCast _
      rw [← h1, hd]
      exact (Rat.num_div_den a).symm
    have e1 : ((bit_length n n : Int) - (bit_length d d : Int) - 1) =
        (((bit_length n n - 1 : Nat) : Int) - ((bit_length d d : Nat) : Int)) := by
      omega
    rw [e1, zpow_sub₀ (by norm_num : (2 : ℚ) ≠ 0), zpow_natCast, zpow_natCast, ha_eq]
    have h2n : ((2 : ℚ) ^ (bit_length n n - 1)) ≤ (n : ℚ) := by exact_mod_cast ln
    have h2d : (d : ℚ) ≤ (2 : ℚ) ^ (bit_length d d) := by exact_mod_cast le_of_lt ud
    have hdq : (0 : ℚ) < d := by exact_mod_cast hdpos
    exact div_le_div₀ (by positivity) h2n hdq h2d
  · exact not_lt.1 h

theorem round_half_even_error (m : ℚ) :
    |((round_half_even m : Int) : ℚ) - m| ≤ 1 / 2 := by
  unfold round_half_even
  simp only
  have h1 : ((⌊m⌋ : Int) : ℚ) ≤ m := Int.floor_le m
  have h2 : m < ((⌊m⌋ : Int) : ℚ) + 1 := Int.lt_floor_add_one m
  split_ifs with a b c
  · rw [abs_le]; constructor <;> linarith
  · push_cast; rw [abs_le]; constructor <;> linarith
  · rw [abs_le]; constructor <;> linarith
  · push_cast; rw [abs_le]; constructor <;> linarith

theorem round_binary64_abs_error (a : ℚ) (ha : 0 < a) :
    |((round_half_even (a / (2 : ℚ) ^ (floor_log2 a - 52)) : Int) : ℚ)
        * (2 : ℚ) ^ (floor_log2 a - 52) - a| ≤ a * (1 / 2 ^ 53) := by
  set e := floor_log2 a with he
  have hulp : (0 : ℚ) < (2 : ℚ) ^ (e - 52) := by positivity
  have hr := round_half_even_error (a / (2 : ℚ) ^ (e - 52))
  have hle := floor_log2_le a ha
  rw [← he] at hle
  have e1 : ((round_half_even (a / (2 : ℚ) ^ (e - 52)) : Int) : ℚ) * (2 : ℚ) ^ (e - 52)
      - a = (((round_half_even (a / (2 : ℚ) ^ (e - 52)) : Int) : ℚ)
        - a / (2 : ℚ) ^ (e - 52)) * (2 : ℚ) ^ (e - 52) := by
    field_simp
  rw [e1, abs_mul, abs_of_pos hulp]
  have e2 : (2 : ℚ) ^ (e - 52) = (2 : ℚ) ^ e * (1 / 2 ^ 52) := by
    rw [zpow_sub₀ (by norm_num : (2 : ℚ) ≠ 0)]
    norm_num
    ring
  calc |((round_half_even (a / (2 : ℚ) ^ (e - 52)) : Int) : ℚ)
          - a / (2 : ℚ) ^ (e - 52)| * (2 : ℚ) ^ (e - 52)
      ≤ (1 / 2) * (2 : ℚ) ^ (e - 52) := mul_le_mul_of_nonneg_right hr (le_of_lt hulp)
    _ = (2 : ℚ) ^ e * (1 / 2 ^ 53) := by rw [e2]; ring
    _ ≤ a * (1 / 2 ^ 53) := mul_le_mul_of_nonneg_right hle (by positivity)

theorem round_binary64_error (q : ℚ) :
    |round_binary64 q - q| ≤ |q| * (1 / 2 ^ 53) := by
  unfold round_binary64
  by_cases hq : q = 0
  · simp [hq]
  · rw [if_neg hq]
    simp only
    have ha : 0 < |q| := abs_pos.2 hq
    have key := round_binary64_abs_error (abs q) ha
    split_ifs with hneg
    · have habs : |q| = -q := abs_of_neg hneg
      rw [habs] at key ⊢
      have e3 : -(((round_half_even (-q / (2 : ℚ) ^ (floor_log2 (-q) - 52)) : Int) : ℚ)
          * (2 : ℚ) ^ (floor_log2 (-q) - 52)) - q =
          -((((round_half_even (-q / (2 : ℚ) ^ (floor_log2 (-q) - 52)) : Int) : ℚ)
            * (2 : ℚ) ^ (floor_log2 (-q) - 52)) - -q) := by
        ring
      rw [e3, abs_neg]
      exact key
    · have hpos : 0 < q := lt_of_le_of_ne (not_lt.1 hneg) (Ne.symm hq)
      have habs : |q| = q := abs_of_pos hpos
      rw [habs] at key ⊢
      exact key

theorem round_binary64_neg (q : ℚ) : round_binary64 (-q) = -round_binary64 q := by
  unfold round_binary64
  by_cases hq : q = 0
  · simp [hq]
  · have hq2 : -q ≠ 0 := neg_ne_zero.2 hq
    rw [if_neg hq, if_neg hq2]
    simp only [abs_neg]
    rcases lt_or_gt_of_ne hq with h | h
    · have h2 : ¬ (-q < 0) := by linarith
      rw [if_pos h, if_neg h2]
      simp
    · have h2 : ¬ (q < 0) := by linarith
      have h3 : -q < 0 := by linarith
      rw [if_pos h3, if_neg h2]

theorem round_binary64_bounds (q : ℚ) (hq : 0 ≤ q) :
    q * (1 - 1 / 2 ^ 53) ≤ round_binary64 q ∧ round_binary64 q ≤ q * (1 + 1 / 2 ^ 53) := by
  have h := round_binary64_error q
  rw [abs_of_nonneg hq, abs_le] at h
  constructor <;> linarith [h.1, h.2]

theorem round_binary64_one : round_binary64 1 = 1 := by decide!

theorem round_binary64_zero : round_binary64 0 = 0 := by simp [round_binary64]

theorem lambda_bounds_pos (N C : ℚ) (hC : 0 < C) (hN : 0 ≤ N)
    (h : N * 2 ^ 40 ≤ C * (2 ^ 40 - 1)) :
    round_binary64 C ≠ 0 ∧
    0 ≤ round_binary64 (round_binary64 N * round_binary64 (1 / round_binary64 C)) ∧
    round_binary64 (round_binary64 N * round_binary64 (1 / round_binary64 C)) < 1 := by
  obtain ⟨c1, c2⟩ := round_binary64_bounds C (le_of_lt hC)
  obtain ⟨n1, n2⟩ := round_binary64_bounds N hN
  set c := round_binary64 C with hc
  set n := round_binary64 N with hn
  have hcpos : 0 < c := by
    have : 0 < C * (1 - 1 / 2 ^ 53) := mul_pos hC (by norm_num)
    linarith
  have hnpos : 0 ≤ n := by
    have : 0 ≤ N * (1 - 1 / 2 ^ 53) := mul_nonneg hN (by norm_num)
    linarith
  have hinv : 0 < 1 / c := by positivity
  obtain ⟨f1, f2⟩ := round_binary64_bounds (1 / c) (le_of_lt hinv)
  set F := round_binary64 (1 / c) with hF
  have hFpos : 0 < F := by
    have : 0 < 1 / c * (1 - 1 / 2 ^ 53) := mul_pos hinv (by norm_num)
    linarith
  have hnF : 0 ≤ n * F := mul_nonneg hnpos (le_of_lt hFpos)
  obtain ⟨l1, l2⟩ := round_binary64_bounds (n * F) hnF
  refine ⟨ne_of_gt hcpos, ?_, ?_⟩
  · have : 0 ≤ n * F * (1 - 1 / 2 ^ 53) := mul_nonneg hnF (by norm_num)
    linarith
  · -- c * F ≤ 1 + ε
    have hcF : c * F ≤ 1 + 1 / 2 ^ 53 := by
      have := mul_le_mul_of_nonneg_left f2 (le_of_lt hcpos)
      have e : c * (1 / c * (1 + 1 / 2 ^ 53)) = 1 + 1 / 2 ^ 53 := by
        rw [← mul_assoc, mul_one_div_cancel (ne_of_gt hcpos), one_mul]
      linarith
    -- n * (c * F) ≤ N (1+ε)^2
    have h1 : n * (c * F) ≤ N * (1 + 1 / 2 ^ 53) * (1 + 1 / 2 ^ 53) := by
      calc n * (c * F) ≤ n * (1 + 1 / 2 ^ 53) := mul_le_mul_of_nonneg_left hcF hnpos
        _ ≤ N * (1 + 1 / 2 ^ 53) * (1 + 1 / 2 ^ 53) :=
            mul_le_mul_of_nonneg_right n2 (by norm_num)
    -- N (1+ε)^3 < C (1-ε)
    have h2 : N * (1 + 1 / 2 ^ 53) * (1 + 1 / 2 ^ 53) * (1 + 1 / 2 ^ 53) < C * (1 - 1 / 2 ^ 53) := by
      have hN2 : N ≤ C * ((2 ^ 40 - 1) / 2 ^ 40) := by
        rw [mul_div_assoc', le_div_iff₀ (by positivity)]
        exact h
      calc N * (1 + 1 / 2 ^ 53) * (1 + 1 / 2 ^ 53) * (1 + 1 / 2 ^ 53)
          ≤ C * ((2 ^ 40 - 1) / 2 ^ 40) * (1 + 1 / 2 ^ 53) * (1 + 1 / 2 ^ 53)
              * (1 + 1 / 2 ^ 53) := by
            have p : (0 : ℚ) ≤ (1 + 1 / 2 ^ 53) := by norm_num
            exact mul_le_mul_of_nonneg_right (mul_le_mul_of_nonneg_right
              (mul_le_mul_of_nonneg_right hN2 p) p) p
        _ = C * (((2 ^ 40 - 1) / 2 ^ 40) * (1 + 1 / 2 ^ 53) * (1 + 1 / 2 ^ 53)
              * (1 + 1 / 2 ^ 53)) := by ring
        _ < C * (1 - 1 / 2 ^ 53) := by
            apply mul_lt_mul_of_pos_left _ hC
            norm_num
    -- (n * F) (1+ε) * c < c
    have h3 : n * F * (1 + 1 / 2 ^ 53) * c < 1 * c := by
      calc n * F * (1 + 1 / 2 ^ 53) * c = n * (c * F) * (1 + 1 / 2 ^ 53) := by ring
        _ ≤ N * (1 + 1 / 2 ^ 53) * (1 + 1 / 2 ^ 53) * (1 + 1 / 2 ^ 53) :=
            mul_le_mul_of_nonneg_right h1 (by norm_num)
        _ < C * (1 - 1 / 2 ^ 53) := h2
        _ ≤ c := c1
        _ = 1 * c := by ring
    have h4 : n * F * (1 + 1 / 2 ^ 53) < 1 := lt_of_mul_lt_mul_right h3 (le_of_lt hcpos)
    linarith

theorem lambda_in_range (N C : Int)
    (h : (0 < C ∧ 0 ≤ N ∧ N * 2 ^ 40 ≤ C * (2 ^ 40 - 1)) ∨
         (C < 0 ∧ N ≤ 0 ∧ (-N) * 2 ^ 40 ≤ (-C) * (2 ^ 40 - 1))) :
    c_double.le (c_double.of_long 0)
      (c_double.mul (c_double.of_long N)
        (c_double.div (c_double.of_long 1) (c_double.of_long C))) = true ∧
    c_double.lt
      (c_double.mul (c_double.of_long N)
        (c_double.div (c_double.of_long 1) (c_double.of_long C)))
      (c_double.of_long 1) = true := by
  have main : ∀ (N C : ℚ), 0 < C → 0 ≤ N → N * 2 ^ 40 ≤ C * (2 ^ 40 - 1) →
      c_double.le (c_double.val 0)
        (c_double.mul (c_double.val (round_binary64 N))
          (c_double.div (c_double.val 1) (c_double.val (round_binary64 C)))) = true ∧
      c_double.lt
        (c_double.mul (c_double.val (round_binary64 N))
          (c_double.div (c_double.val 1) (c_double.val (round_binary64 C))))
        (c_double.val 1) = true := by
    intro N C hC hN hb
    obtain ⟨h0, h1, h2⟩ := lambda_bounds_pos N C hC hN hb
    simp only [c_double.div, h0, if_false, c_double.mul, c_double.le, c_double.lt,
      decide_eq_true_eq]
    exact ⟨h1, h2⟩
  simp only [c_double.of_long, Int.cast_zero, Int.cast_one, round_binary64_zero,
    round_binary64_one]
  rcases h with ⟨hC, hN, hb⟩ | ⟨hC, hN, hb⟩
  · exact main N C (by exact_mod_cast hC) (by exact_mod_cast hN) (by exact_mod_cast hb)
  · have m := main (-N : Int) (-C : Int) (by exact_mod_cast (by omega : (0 : Int) < -C))
      (by exact_mod_cast (by omega : (0 : Int) ≤ -N)) (by exact_mod_cast hb)
    have eN : round_binary64 ((N : Int) : ℚ) = -round_binary64 (((-N : Int)) : ℚ) := by
      rw [← round_binary64_neg]; push_cast; ring_nf
    have eC : round_binary64 ((C : Int) : ℚ) = -round_binary64 (((-C : Int)) : ℚ) := by
      rw [← round_binary64_neg]; push_cast; ring_nf
    rw [eN, eC]
    have hnz : round_binary64 (((-C : Int)) : ℚ) ≠ 0 :=
      (lambda_bounds_pos ((-N : Int) : ℚ) ((-C : Int) : ℚ)
        (by exact_mod_cast (by omega : (0 : Int) < -C))
        (by exact_mod_cast (by omega : (0 : Int) ≤ -N)) (by exact_mod_cast hb)).1
    simp only [c_double.div, hnz, neg_eq_zero, if_false, c_double.mul, c_double.le, c_double.lt,
      decide_eq_true_eq] at m ⊢
    have e1 : (1 : ℚ) / -round_binary64 (((-C : Int)) : ℚ) =
        -(1 / round_binary64 (((-C : Int)) : ℚ)) := by
      rw [div_neg]
    rw [e1, round_binary64_neg, neg_mul_neg]
    exact m

theorem round_binary64_eq_zero (q : ℚ) (h : round_binary64 q = 0) : q = 0 := by
  have he := round_binary64_error q
  rw [h, zero_sub, abs_neg] at he
  by_contra hq
  have hpos : 0 < |q| := abs_pos.2 hq
  have : |q| * (1 / 2 ^ 53) < |q| * 1 := mul_lt_mul_of_pos_left (by norm_num) hpos
  linarith

/-- The divisions of the collinear branch of `lines_intersect` have a zero
divisor only when the first segment has length zero, and then both dividends
are zero as well. -/
theorem dot_product_zero_of_frac_zero (ux uy dx dy vx vy : Int)
    (h : round_binary64 ((dot_product ux uy ux uy : Int) : ℚ) = 0) :
    dot_product dx dy ux uy = 0 ∧ dot_product ux uy vx vy = 0 := by
  have h0 : ((dot_product ux uy ux uy : Int) : ℚ) = 0 := round_binary64_eq_zero _ h
  have h1 : dot_product ux uy ux uy = 0 := by exact_mod_cast h0
  unfold dot_product at h1 ⊢
  have hx : ux = 0 := by nlinarith [sq_nonneg ux, sq_nonneg uy]
  have hy : uy = 0 := by nlinarith [sq_nonneg ux, sq_nonneg uy]
  subst hx hy
  simp

/-! ## Axis-aligned rectangles -/

theorem point_in_polygon_rectangle (px py x0 x1 y0 y1 : Int) (hx : x0 < x1) (hy : y0 < y1) :
    point_in_polygon px py 4 [x0, x1, x1, x0] [y0, y0, y1, y1] =
      decide (x0 ≤ px ∧ px < x1 ∧ y0 ≤ py ∧ py < y1) := by
  have hr : List.range (4 : Int).toNat = [0, 1, 2, 3] := by decide
  have h3 : ((4 : Int) - 1).toNat = 3 := by decide
  unfold point_in_polygon
  rw [hr, h3]
  simp only [List.foldl, point_in_polygon_step, arr, List.getD_cons_zero, List.getD_cons_succ,
    sub_self, zero_mul, Int.zero_tdiv, zero_add]
  by_cases a1 : y0 > py <;> by_cases a2 : y1 > py <;> by_cases a3 : px < x0 <;>
    by_cases a4 : px < x1 <;> simp [a1, a2, a3, a4] <;> omega

theorem ratio_helper (a L k : Int) (hl : a + 1 ≤ L) (hL : L ≤ 2 ^ 40)
    (hk : 0 < k) : (a * k) * 2 ^ 40 ≤ (L * k) * (2 ^ 40 - 1) := by
  have h1 : a * 2 ^ 40 ≤ L * (2 ^ 40 - 1) := by omega
  calc (a * k) * 2 ^ 40 = (a * 2 ^ 40) * k := by ring
    _ ≤ (L * (2 ^ 40 - 1)) * k := mul_le_mul_of_nonneg_right h1 (le_of_lt hk)
    _ = (L * k) * (2 ^ 40 - 1) := by ring

theorem lines_intersect_of_params (line1 line2 : segment)
    (h1 : (0 < cross_product (line1.x1 - line1.x0) (line1.y1 - line1.y0)
              (line2.x1 - line2.x0) (line2.y1 - line2.y0) ∧
           0 ≤ cross_product (line2.x0 - line1.x0) (line2.y0 - line1.y0)
              (line2.x1 - line2.x0) (line2.y1 - line2.y0) ∧
           cross_product (line2.x0 - line1.x0) (line2.y0 - line1.y0)
              (line2.x1 - line2.x0) (line2.y1 - line2.y0) * 2 ^ 40 ≤
           cross_product (line1.x1 - line1.x0) (line1.y1 - line1.y0)
              (line2.x1 - line2.x0) (line2.y1 - line2.y0) * (2 ^ 40 - 1)) ∨
          (cross_product (line1.x1 - line1.x0) (line1.y1 - line1.y0)
              (line2.x1 - line2.x0) (line2.y1 - line2.y0) < 0 ∧
           cross_product (line2.x0 - line1.x0) (line2.y0 - line1.y0)
              (line2.x1 - line2.x0) (line2.y1 - line2.y0) ≤ 0 ∧
           (-cross_product (line2.x0 - line1.x0) (line2.y0 - line1.y0)
              (line2.x1 - line2.x0) (line2.y1 - line2.y0)) * 2 ^ 40 ≤
           (-cross_product (line1.x1 - line1.x0) (line1.y1 - line1.y0)
              (line2.x1 - line2.x0) (line2.y1 - line2.y0)) * (2 ^ 40 - 1)))
    (h2 : (0 < cross_product (line1.x1 - line1.x0) (line1.y1 - line1.y0)
              (line2.x1 - line2.x0) (line2.y1 - line2.y0) ∧
           0 ≤ cross_product (line2.x0 - line1.x0) (line2.y0 - line1.y0)
              (line1.x1 - line1.x0) (line1.y1 - line1.y0) ∧
           cross_product (line2.x0 - line1.x0) (line2.y0 - line1.y0)
              (line1.x1 - line1.x0) (line1.y1 - line1.y0) * 2 ^ 40 ≤
           cross_product (line1.x1 - line1.x0) (line1.y1 - line1.y0)
              (line2.x1 - line2.x0) (line2.y1 - line2.y0) * (2 ^ 40 - 1)) ∨
          (cross_product (line1.x1 - line1.x0) (line1.y1 - line1.y0)
              (line2.x1 - line2.x0) (line2.y1 - line2.y0) < 0 ∧
           cross_product (line2.x0 - line1.x0) (line2.y0 - line1.y0)
              (line1.x1 - line1.x0) (line1.y1 - line1.y0) ≤ 0 ∧
           (-cross_product (line2.x0 - line1.x0) (line2.y0 - line1.y0)
              (line1.x1 - line1.x0) (line1.y1 - line1.y0)) * 2 ^ 40 ≤
           (-cross_product (line1.x1 - line1.x0) (line1.y1 - line1.y0)
              (line2.x1 - line2.x0) (line2.y1 - line2.y0)) * (2 ^ 40 - 1))) :
    lines_intersect line1 line2 = true := by
  have hne : cross_product (line1.x1 - line1.x0) (line1.y1 - line1.y0)
      (line2.x1 - line2.x0) (line2.y1 - line2.y0) ≠ 0 := by
    rcases h1 with ⟨h, -⟩ | ⟨h, -⟩ <;> omega
  obtain ⟨a1, a2⟩ := lambda_in_range _ _ h1
  obtain ⟨b1, b2⟩ := lambda_in_range _ _ h2
  unfold lines_intersect
  simp only [hne, if_false, a1, a2, b1, b2, Bool.and_self]

/-- An edge from `(x0, y0)` to `(x1, y0)` crosses the left edge of the box,
which runs from `(rx, ry + h)` down to `(rx, ry)`. -/
theorem lines_intersect_bottom_left (x0 x1 y0 rx ry h : Int)
    (h1 : x0 ≤ rx) (h2 : rx < x1) (h3 : ry < y0) (h4 : y0 < ry + h)
    (bx : x1 - x0 ≤ 2 ^ 40) (bh : h ≤ 2 ^ 40) :
    lines_intersect ⟨x0, y0, x1, y0⟩ ⟨rx, ry + h, rx, ry⟩ = true := by
  apply lines_intersect_of_params
  · right
    simp only [cross_product, sub_self, zero_mul, mul_zero, sub_zero]
    have hh : 0 < h := by omega
    have hL : 0 < x1 - x0 := by omega
    have e := ratio_helper (rx - x0) (x1 - x0) h (by omega) bx hh
    refine ⟨?_, ?_, ?_⟩
    · have := mul_pos hL hh
      have e2 : (x1 - x0) * (ry - (ry + h)) = -((x1 - x0) * h) := by ring
      rw [e2]; omega
    · have : 0 ≤ (rx - x0) * h := mul_nonneg (by omega) (le_of_lt hh)
      have e2 : (rx - x0) * (ry - (ry + h)) = -((rx - x0) * h) := by ring
      rw [e2]; omega
    · have e2 : -((rx - x0) * (ry - (ry + h))) = (rx - x0) * h := by ring
      have e3 : -((x1 - x0) * (ry - (ry + h))) = (x1 - x0) * h := by ring
      rw [e2, e3]; exact e
  · right
    simp only [cross_product, sub_self, zero_mul, mul_zero, sub_zero, zero_sub]
    have hh : 0 < h := by omega
    have hL : 0 < x1 - x0 := by omega
    have e := ratio_helper (ry + h - y0) h (x1 - x0) (by omega) bh hL
    refine ⟨?_, ?_, ?_⟩
    · have := mul_pos hL hh
      have e2 : (x1 - x0) * (ry - (ry + h)) = -((x1 - x0) * h) := by ring
      rw [e2]; omega
    · have : 0 ≤ (ry + h - y0) * (x1 - x0) := mul_nonneg (by omega) (le_of_lt hL)
      omega
    · have e3 : -((x1 - x0) * (ry - (ry + h))) = h * (x1 - x0) := by ring
      rw [e3, neg_neg]; exact e

/-- An edge from `(x0, y1)` down to `(x0, y0)` crosses the bottom edge of the
box, which runs from `(rx, ry)` to `(rx + w, ry)`. -/
theorem lines_intersect_left_bottom (x0 y0 y1 rx ry w : Int)
    (h1 : rx < x0) (h2 : x0 < rx + w) (h3 : y0 < ry) (h4 : ry < y1)
    (by1 : y1 - y0 ≤ 2 ^ 40) (bw : w ≤ 2 ^ 40) :
    lines_intersect ⟨x0, y1, x0, y0⟩ ⟨rx, ry, rx + w, ry⟩ = true := by
  apply lines_intersect_of_params
  · left
    simp only [cross_product, sub_self, zero_mul, mul_zero, sub_zero, zero_sub]
    have hw : 0 < w := by omega
    have hL : 0 < y1 - y0 := by omega
    have e := ratio_helper (y1 - ry) (y1 - y0) w (by omega) by1 hw
    refine ⟨?_, ?_, ?_⟩
    · have := mul_pos hL hw
      have e2 : -((y0 - y1) * (rx + w - rx)) = (y1 - y0) * w := by ring
      rw [e2]; exact this
    · have : 0 ≤ (y1 - ry) * w := mul_nonneg (by omega) (le_of_lt hw)
      have e2 : -((ry - y1) * (rx + w - rx)) = (y1 - ry) * w := by ring
      rw [e2]; exact this
    · have e2 : -((ry - y1) * (rx + w - rx)) = (y1 - ry) * w := by ring
      have e3 : -((y0 - y1) * (rx + w - rx)) = (y1 - y0) * w := by ring
      rw [e2, e3]; exact e
  · left
    simp only [cross_product, sub_self, zero_mul, mul_zero, sub_zero, zero_sub]
    have hw : 0 < w := by omega
    have hL : 0 < y1 - y0 := by omega
    have e := ratio_helper (x0 - rx) w (y1 - y0) (by omega) bw hL
    refine ⟨?_, ?_, ?_⟩
    · have := mul_pos hL hw
      have e2 : -((y0 - y1) * (rx + w - rx)) = (y1 - y0) * w := by ring
      rw [e2]; exact this
    · have : 0 ≤ (x0 - rx) * (y1 - y0) := mul_nonneg (by omega) (le_of_lt hL)
      have e2 : (rx - x0) * (y0 - y1) = (x0 - rx) * (y1 - y0) := by ring
      rw [e2]; exact this
    · have e2 : (rx - x0) * (y0 - y1) = (x0 - rx) * (y1 - y0) := by ring
      have e3 : -((y0 - y1) * (rx + w - rx)) = w * (y1 - y0) := by ring
      rw [e2, e3]; exact e

theorem collide_rectangle_polygon (x0 x1 y0 y1 rx ry w h x y : Int)
    (hx : x0 < x1) (hy : y0 < y1)
    (bx : x1 - x0 ≤ 2 ^ 40) (bY : y1 - y0 ≤ 2 ^ 40) (bw : w ≤ 2 ^ 40) (bh : h ≤ 2 ^ 40)
    (hbox : rx ≤ x ∧ x < rx + w ∧ ry ≤ y ∧ y < ry + h)
    (hpoly : x0 ≤ x ∧ x < x1 ∧ y0 ≤ y ∧ y < y1) :
    collide_polygon_rectangle 4 [x0, x1, x1, x0] [y0, y0, y1, y1] rx ry w h
      = some COLLISION := by
  have hr : List.range (4 : Int).toNat = [0, 1, 2, 3] := by decide
  have h3 : ((4 : Int) - 1).toNat = 3 := by decide
  unfold collide_polygon_rectangle
  rw [if_neg (by decide), hr, h3]
  by_cases c1 : x0 ≤ rx ∧ y0 ≤ ry
  · have hp : point_in_polygon rx ry 4 [x0, x1, x1, x0] [y0, y0, y1, y1] = true := by
      rw [point_in_polygon_rectangle _ _ _ _ _ _ hx hy, decide_eq_true_eq]
      omega
    rw [hp]
    split_ifs <;> first | rfl | (exfalso; simp_all)
  · by_cases c2 : rx ≤ x0 ∧ ry ≤ y0
    · have hp : point_in_rectangle (arr [x0, x1, x1, x0] 0) (arr [y0, y0, y1, y1] 0) rx ry w h
          = true := by
        unfold point_in_rectangle
        rw [point_in_polygon_rectangle _ _ _ _ _ _ (by omega) (by omega), decide_eq_true_eq]
        simp only [arr, List.getD_cons_zero]
        omega
      rw [hp]
      split_ifs <;> first | rfl | (exfalso; simp_all)
    · have he : collide_edges [x0, x1, x1, x0] [y0, y0, y1, y1] rx ry w h [0, 1, 2, 3] 3
          = true := by
        by_cases c3 : x0 < rx
        · have hl := lines_intersect_bottom_left x0 x1 y0 rx ry h (by omega) (by omega)
            (by omega) (by omega) bx bh
          simp only [collide_edges, rectangle_lines, arr, List.getD_cons_zero,
            List.getD_cons_succ, List.any_cons, List.any_nil, hl, Bool.or_true, Bool.or_false,
            Bool.true_or, if_true, ite_self]
        · have hl := lines_intersect_left_bottom x0 y0 y1 rx ry w (by omega) (by omega)
            (by omega) (by omega) bY bw
          simp only [collide_edges, rectangle_lines, arr, List.getD_cons_zero,
            List.getD_cons_succ, List.any_cons, List.any_nil, hl, Bool.or_true, Bool.or_false,
            Bool.true_or, if_true]
      rw [he]
      rfl

theorem find_leaf_of_leaf (depth : Int) (box : lq_rect_t) (polygons : List lq_polygon_t)
    (cnt : Int) (x y : Int) (hin : lq_rect_point_is_in_bounds box x y = true) :
    lq_quadtree_node_find_leaf (.node .null .null .null .null depth box polygons cnt) x y =
      some (.node .null .null .null .null depth box polygons cnt) := by
  rw [lq_quadtree_node_find_leaf]
  simp only [lq_rect_get_quadrant, hin, if_true, FIRST_QUADRANT, SECOND_QUADRANT,
    THIRD_QUADRANT, FOURTH_QUADRANT]
  split_ifs <;> first | rfl | (exfalso; simp_all)

theorem find_leaf_of_children (c0 c1 c2 c3 : lq_quadtree_node_t) (depth : Int)
    (box : lq_rect_t) (polygons : List lq_polygon_t) (cnt : Int) (x y : Int)
    (hin : lq_rect_point_is_in_bounds box x y = true)
    (n0 : c0 ≠ .null) (n1 : c1 ≠ .null) (n2 : c2 ≠ .null) (n3 : c3 ≠ .null) :
    lq_quadtree_node_find_leaf (.node c0 c1 c2 c3 depth box polygons cnt) x y =
      if x < box.left + Int.tdiv box.width 2 then
        if y < box.bottom + Int.tdiv box.height 2 then lq_quadtree_node_find_leaf c2 x y
        else lq_quadtree_node_find_leaf c1 x y
      else
        if y < box.bottom + Int.tdiv box.height 2 then lq_quadtree_node_find_leaf c3 x y
        else lq_quadtree_node_find_leaf c0 x y := by
  rw [lq_quadtree_node_find_leaf]
  simp only [lq_rect_get_quadrant, hin, if_true, FIRST_QUADRANT, SECOND_QUADRANT,
    THIRD_QUADRANT, FOURTH_QUADRANT]
  by_cases hx : x < box.left + Int.tdiv box.width 2 <;>
    by_cases hy : y < box.bottom + Int.tdiv box.height 2 <;>
    simp [hx, hy, n0, n1, n2, n3]

theorem put_fresh_leaf (polygon : lq_polygon_t)
    (hcov : ∀ rx ry w h x y : Int, w ≤ 2 ^ 40 → h ≤ 2 ^ 40 →
      (rx ≤ x ∧ x < rx + w ∧ ry ≤ y ∧ y < ry + h) → contains_point polygon x y = true →
      collide_polygon_rectangle polygon.number_of_points polygon.xs polygon.ys rx ry w h
        = some COLLISION)
    (fuel : Nat) : ∀ (depth : Int) (box : lq_rect_t) (r : lq_quadtree_node_t),
      good_size box.width → good_size box.height → box.width ≤ 2 ^ 40 → box.height ≤ 2 ^ 40 →
      lq_quadtree_node_put_polygon fuel (.node .null .null .null .null depth box [] 0) polygon
        = some r →
      ∀ x y : Int, lq_rect_point_is_in_bounds box x y = true →
        ∃ c0 c1 c2 c3 ldepth lbox polygons,
          lq_quadtree_node_find_leaf r x y =
            some (.node c0 c1 c2 c3 ldepth lbox polygons polygons.length) ∧
          (polygons = [] ∨ polygons = [polygon]) ∧
          (contains_point polygon x y = true → polygons = [polygon]) := by
  induction fuel with
  | zero => intro depth box r _ _ _ _ h; simp [lq_quadtree_node_put_polygon] at h
  | succ fuel ih =>
    intro depth box r hgw hgh bw bh hput x y hin
    have hin2 := (lq_rect_point_is_in_bounds_iff box x y).1 hin
    obtain ⟨collision, hcol, hcase⟩ := put_cases _ _ _ _ _ _ _ _ _ _ _ hput
    rcases hcase with ⟨h0, hr⟩ | ⟨-, -, hr⟩ | ⟨-, hncond, d0, d1, d2, d3, depth1, box1,
      polygons1, cnt1, e0, e1, e2, e3, hpop, hp0, hp1, hp2, hp3, hr⟩
    · subst hr
      refine ⟨_, _, _, _, _, _, [], find_leaf_of_leaf _ _ _ _ _ _ hin, Or.inl rfl, ?_⟩
      intro hc
      have := hcov box.left box.bottom box.width box.height x y bw bh hin2 hc
      rw [this] at hcol
      rw [h0] at hcol
      exact absurd hcol (by decide)
    · subst hr
      refine ⟨_, _, _, _, _, _, [polygon], find_leaf_of_leaf _ _ _ _ _ _ hin, Or.inr rfl, ?_⟩
      intro _; rfl
    · subst hr
      have hbig : 4 < box.width ∧ 4 < box.height := by
        simp only [MIN_SIZE, not_or] at hncond
        omega
      obtain ⟨hdep, hbox, hcs⟩ := populate_children_cases _ _ _ _ _ _ _ _ _ _ _ _ _ _ _ _ hpop
      subst hdep hbox
      rcases hcs with ⟨hc0, -⟩ | ⟨-, -, r4, r5, r0, r1, r2, r3⟩
      · exact absurd rfl hc0
      · obtain ⟨hw2, hgw2⟩ := good_size_half _ hbig.1 hgw
        obtain ⟨hh2, hgh2⟩ := good_size_half _ hbig.2 hgh
        have hb0 := put_node_box _ _ _ _ hp0
        have hb1 := put_node_box _ _ _ _ hp1
        have hb2 := put_node_box _ _ _ _ hp2
        have hb3 := put_node_box _ _ _ _ hp3
        have n0 : e0 ≠ .null := by intro h; rw [h, r0] at hb0; simp [node_box] at hb0
        have n1 : e1 ≠ .null := by intro h; rw [h, r1] at hb1; simp [node_box] at hb1
        have n2 : e2 ≠ .null := by intro h; rw [h, r2] at hb2; simp [node_box] at hb2
        have n3 : e3 ≠ .null := by intro h; rw [h, r3] at hb3; simp [node_box] at hb3
        rw [find_leaf_of_children _ _ _ _ _ _ _ _ _ _ hin n0 n1 n2 n3]
        have step : ∀ (b l : Int) (d e : lq_quadtree_node_t),
            d = .node .null .null .null .null (depth1 + 1)
              ⟨b, l, Int.tdiv box1.height 2, Int.tdiv box1.width 2⟩
              ([] : List lq_polygon_t).reverse (([] : List lq_polygon_t).length) →
            lq_quadtree_node_put_polygon fuel d polygon = some e →
            (l ≤ x ∧ x < l + Int.tdiv box1.width 2 ∧ b ≤ y ∧ y < b + Int.tdiv box1.height 2) →
            ∃ c0 c1 c2 c3 ldepth lbox polygons,
              lq_quadtree_node_find_leaf e x y =
                some (.node c0 c1 c2 c3 ldepth lbox polygons polygons.length) ∧
              (polygons = [] ∨ polygons = [polygon]) ∧
              (contains_point polygon x y = true → polygons = [polygon]) := by
          intro b l d e hd hp hxy
          subst hd
          exact ih (depth1 + 1) ⟨b, l, Int.tdiv box1.height 2, Int.tdiv box1.width 2⟩ e
            hgw2 hgh2 (by simp only; omega) (by simp only; omega) hp x y
            (by rw [lq_rect_point_is_in_bounds_iff]; exact hxy)
        by_cases hx : x < box1.left + Int.tdiv box1.width 2
        · by_cases hy : y < box1.bottom + Int.tdiv box1.height 2
          · rw [if_pos hx, if_pos hy]
            exact step _ _ _ _ r2 hp2 (by omega)
          · rw [if_pos hx, if_neg hy]
            exact step _ _ _ _ r1 hp1 (by omega)
        · by_cases hy : y < box1.bottom + Int.tdiv box1.height 2
          · rw [if_neg hx, if_pos hy]
            exact step _ _ _ _ r3 hp3 (by omega)
          · rw [if_neg hx, if_neg hy]
            exact step _ _ _ _ r0 hp0 (by omega)

theorem int_of_ulong_lt (n : Nat) : int_of_ulong n < 2 ^ 31 := by
  unfold int_of_ulong
  simp only
  have hlt : (n : Int) % 2 ^ 32 < 2 ^ 32 := Int.emod_lt_of_pos _ (by norm_num)
  split_ifs with h
  · exact h
  · omega

theorem quadtree_add_success_in_bounds (qt qt1 : lq_quadtree_t) (id n : Int)
    (xs ys : List Int) (h : quadtree_add qt id n xs ys = some (QUADTREE_SUCCESS, qt1)) :
    add_out_of_bounds (root_box qt) xs ys (List.range n.toNat) = false := by
  unfold quadtree_add at h
  split at h
  · simp at h
  · rename_i c0 c1 c2 c3 depth box polygons cnt hroot
    simp only [root_box, hroot]
    by_cases hb : add_out_of_bounds box xs ys (List.range n.toNat) = true
    · rw [if_pos hb] at h
      simp only [Option.some.injEq, Prod.mk.injEq] at h
      exact absurd h.1 (by decide)
    · simpa using hb

/-! ## Segment intersection -/

/-- A segment of non-zero length intersects itself: the collinear branch of
`lines_intersect` computes `lambda1 = 0`. -/
theorem lines_intersect_self (line : segment)
    (h : line.x0 ≠ line.x1 ∨ line.y0 ≠ line.y1) : lines_intersect line line = true := by
  have hc1 : cross_product (line.x1 - line.x0) (line.y1 - line.y0)
      (line.x1 - line.x0) (line.y1 - line.y0) = 0 := by
    unfold cross_product; ring
  have hc2 : cross_product (line.x0 - line.x0) (line.y0 - line.y0)
      (line.x1 - line.x0) (line.y1 - line.y0) = 0 := by
    unfold cross_product; ring
  have hd : dot_product (line.x0 - line.x0) (line.y0 - line.y0)
      (line.x1 - line.x0) (line.y1 - line.y0) = 0 := by
    unfold dot_product; ring
  have hpos : dot_product (line.x1 - line.x0) (line.y1 - line.y0)
      (line.x1 - line.x0) (line.y1 - line.y0) ≠ 0 := by
    unfold dot_product
    rcases h with h | h
    · have : 0 < (line.x1 - line.x0) * (line.x1 - line.x0) :=
        mul_self_pos.2 (by omega)
      nlinarith [mul_self_nonneg (line.y1 - line.y0)]
    · have : 0 < (line.y1 - line.y0) * (line.y1 - line.y0) :=
        mul_self_pos.2 (by omega)
      nlinarith [mul_self_nonneg (line.x1 - line.x0)]
  have hfrac : round_binary64 ((dot_product (line.x1 - line.x0) (line.y1 - line.y0)
      (line.x1 - line.x0) (line.y1 - line.y0) : Int) : ℚ) ≠ 0 := by
    intro h0
    have := round_binary64_eq_zero _ h0
    exact hpos (by exact_mod_cast this)
  unfold lines_intersect
  simp only [hc1, hc2, hd, if_true, c_double.of_long, c_double.div, c_double.add,
    if_neg hfrac, Int.cast_zero, zero_div, round_binary64_zero, Int.cast_one,
    round_binary64_one, c_double.le]
  simp

/-- Parallel segments that are not collinear never intersect. -/
theorem lines_intersect_parallel (line1 line2 : segment)
    (h1 : cross_product (line1.x1 - line1.x0) (line1.y1 - line1.y0)
      (line2.x1 - line2.x0) (line2.y1 - line2.y0) = 0)
    (h2 : cross_product (line2.x0 - line1.x0) (line2.y0 - line1.y0)
      (line1.x1 - line1.x0) (line1.y1 - line1.y0) ≠ 0) :
    lines_intersect line1 line2 = false := by
  unfold lines_intersect
  simp only [h1, if_true, if_neg h2]

/-! ## Multiplicity of payloads -/

theorem every_payload_list_mono (Q R : List lq_polygon_t → Prop) (hQ : ∀ l, Q l → R l) :
    ∀ node : lq_quadtree_node_t, every_payload_list Q node → every_payload_list R node := by
  intro node
  induction node with
  | null => intro _; trivial
  | node c0 c1 c2 c3 depth box polygons cnt ih0 ih1 ih2 ih3 =>
    intro h
    simp only [every_payload_list] at h ⊢
    exact ⟨hQ _ h.1, ih0 h.2.1, ih1 h.2.2.1, ih2 h.2.2.2.1, ih3 h.2.2.2.2⟩

/-- An insertion adds the payload at most once to each payload list: when
every payload list is, up to order, a sublist of `live` before the call,
every payload list is a sublist of `polygon :: live` after it. -/
theorem put_subperm (live : List lq_polygon_t) (fuel : Nat) :
    ∀ (node : lq_quadtree_node_t) (polygon : lq_polygon_t) (r : lq_quadtree_node_t),
      lq_quadtree_node_put_polygon fuel node polygon = some r →
      every_payload_list (fun l => l.Subperm live) node →
      every_payload_list (fun l => l.Subperm (polygon :: live)) r := by
  induction fuel with
  | zero => intro node polygon r h; simp [lq_quadtree_node_put_polygon] at h
  | succ fuel ih =>
    intro node polygon r h hinv
    have hweak : ∀ n : lq_quadtree_node_t, every_payload_list (fun l => l.Subperm live) n →
        every_payload_list (fun l => l.Subperm (polygon :: live)) n :=
      every_payload_list_mono _ _ (fun l hl => List.Subperm.cons_right polygon hl)
    cases node with
    | null => simp [lq_quadtree_node_put_polygon] at h
    | node c0 c1 c2 c3 depth box polygons cnt =>
      obtain ⟨collision, -, hcase⟩ := put_cases fuel c0 c1 c2 c3 depth box polygons cnt polygon r h
      rcases hcase with ⟨-, hr⟩ | ⟨-, -, hr⟩ | ⟨-, -, d0, d1, d2, d3, depth1, box1, polygons1,
        cnt1, e0, e1, e2, e3, hpop, hp0, hp1, hp2, hp3, hr⟩
      · subst hr; exact hweak _ hinv
      · subst hr
        simp only [every_payload_list] at hinv ⊢
        exact ⟨(List.subperm_cons polygon).2 hinv.1, hweak _ hinv.2.1, hweak _ hinv.2.2.1,
          hweak _ hinv.2.2.2.1, hweak _ hinv.2.2.2.2⟩
      · subst hr
        simp only [every_payload_list] at hinv
        have hd : polygons1.Subperm live ∧
            every_payload_list (fun l => l.Subperm live) d0 ∧
            every_payload_list (fun l => l.Subperm live) d1 ∧
            every_payload_list (fun l => l.Subperm live) d2 ∧
            every_payload_list (fun l => l.Subperm live) d3 := by
          obtain ⟨-, -, hcs⟩ := populate_children_cases _ _ _ _ _ _ _ _ _ _ _ _ _ _ _ _ hpop
          rcases hcs with ⟨-, r0, r1, r2, r3, r4, -⟩ | ⟨-, -, r4, -, r0, r1, r2, r3⟩
          · subst r0 r1 r2 r3 r4
            exact hinv
          · subst r0 r1 r2 r3 r4
            have hrev : polygons.reverse.Subperm live :=
              (List.reverse_perm polygons).subperm.trans hinv.1
            simp only [every_payload_list, and_true]
            exact ⟨List.nil_subperm, hrev, hrev, hrev, hrev⟩
        simp only [every_payload_list]
        exact ⟨List.Subperm.cons_right polygon hd.1, ih _ _ _ hp0 hd.2.1, ih _ _ _ hp1 hd.2.2.1,
          ih _ _ _ hp2 hd.2.2.2.1, ih _ _ _ hp3 hd.2.2.2.2⟩

/-- A removal filters every payload list. -/
theorem remove_subperm (live : List lq_polygon_t) (id : Int) :
    ∀ node : lq_quadtree_node_t, every_payload_list (fun l => l.Subperm live) node →
      every_payload_list (fun l => l.Subperm (live.filter (fun p => decide (p.id ≠ id))))
        (lq_quadtree_node_remove node id) := by
  intro node
  induction node with
  | null => intro _; simp [lq_quadtree_node_remove, every_payload_list]
  | node c0 c1 c2 c3 depth box polygons cnt ih0 ih1 ih2 ih3 =>
    intro h
    simp only [every_payload_list] at h
    unfold lq_quadtree_node_remove
    simp only [every_payload_list]
    refine ⟨?_, ih0 h.2.1, ih1 h.2.2.1, ih2 h.2.2.2.1, ih3 h.2.2.2.2⟩
    rw [(remove_loop_spec id polygons cnt).1]
    exact List.Subperm.filter _ h.1

/-- The payload list of the leaf a descent ends in is one of the payload
lists of the subtree. -/
theorem find_leaf_every (Q : List lq_polygon_t → Prop) (node : lq_quadtree_node_t) (x y : Int) :
    ∀ c0 c1 c2 c3 depth box polygons cnt,
      lq_quadtree_node_find_leaf node x y = some (.node c0 c1 c2 c3 depth box polygons cnt) →
      every_payload_list Q node → Q polygons := by
  induction node with
  | null => intro c0 c1 c2 c3 depth box polygons cnt h; simp [lq_quadtree_node_find_leaf] at h
  | node a0 a1 a2 a3 adepth abox apolygons acnt ih0 ih1 ih2 ih3 =>
    intro c0 c1 c2 c3 depth box polygons cnt h hinv
    simp only [every_payload_list] at hinv
    have here : (some (lq_quadtree_node_t.node a0 a1 a2 a3 adepth abox apolygons acnt) =
          some (.node c0 c1 c2 c3 depth box polygons cnt)) → Q polygons := by
      intro he
      simp only [Option.some.injEq, lq_quadtree_node_t.node.injEq] at he
      obtain ⟨-, -, -, -, -, -, hp, -⟩ := he
      subst hp
      exact hinv.1
    rw [lq_quadtree_node_find_leaf] at h
    split at h
    · simp at h
    · split at h
      · exact ih0 _ _ _ _ _ _ _ _ h hinv.2.1
      · exact here h
    · split at h
      · exact ih1 _ _ _ _ _ _ _ _ h hinv.2.2.1
      · exact here h
    · split at h
      · exact ih2 _ _ _ _ _ _ _ _ h hinv.2.2.2.1
      · exact here h
    · split at h
      · exact ih3 _ _ _ _ _ _ _ _ h hinv.2.2.2.2
      · exact here h

/-- In a reachable tree every payload list is, up to order, a sublist of the
live payloads: no node holds a payload more often than it was inserted. -/
theorem reachable_subperm (qt : lq_quadtree_t) (live : List lq_polygon_t)
    (h : reachable qt live) : every_payload_list (fun l => l.Subperm live) qt.root := by
  induction h with
  | create left bottom width height qt hc =>
    obtain ⟨-, -, hq⟩ := quadtree_create_eq_some _ _ _ _ _ hc
    subst hq
    simp [lq_quadtree_node_new, every_payload_list]
  | add_success qt qt1 live id n xs ys polygon _ hadd hnew ih =>
    rcases quadtree_add_cases _ _ _ _ _ _ _ hadd with ⟨hne, -⟩ | ⟨-, polygon1, hnew1, hput⟩
    · exact absurd rfl hne
    · rw [hnew] at hnew1
      simp only [Option.some.injEq] at hnew1
      subst hnew1
      exact put_subperm live _ _ _ _ hput ih
  | add_failure qt qt1 live id n xs ys code _ hadd hne ih =>
    rcases quadtree_add_cases _ _ _ _ _ _ _ hadd with ⟨-, heq⟩ | ⟨hs, -⟩
    · rw [heq]; exact ih
    · exact absurd hs hne
  | remove qt qt1 live id code _ hrem ih =>
    obtain ⟨-, -, heq⟩ := quadtree_remove_cases _ _ _ _ hrem
    subst heq
    exact remove_subperm live id _ ih

theorem query_ids_eq (x y : Int) (polygons : List lq_polygon_t) :
    query_ids x y polygons =
      (polygons.filter (fun p => contains_point p x y)).map lq_polygon_t.id := by
  induction polygons with
  | nil => rfl
  | cons p rest ih =>
    simp only [query_ids, List.filter_cons, contains_point]
    split
    · simp only [List.map_cons, ih, contains_point]
    · exact ih

/-- The id list of a query is, up to order, a sublist of the ids of the
payloads of the leaf. -/
theorem query_ids_subperm (x y : Int) (polygons live : List lq_polygon_t)
    (h : polygons.Subperm live) :
    (query_ids x y polygons).Subperm (live.map lq_polygon_t.id) := by
  rw [query_ids_eq]
  obtain ⟨l, hp, hs⟩ := h
  exact (((List.filter_sublist polygons).map lq_polygon_t.id).subperm).trans
    ⟨l.map lq_polygon_t.id, hp.map lq_polygon_t.id, hs.map lq_polygon_t.id⟩

/-- The id list of a successful query in a reachable tree is, up to order, a
sublist of the ids of the live payloads. -/
theorem quadtree_query_subperm (qt : lq_quadtree_t) (live : List lq_polygon_t)
    (h : reachable qt live) (x y : Int) (holder result : quadtree_query_result_t)
    (ids : List Int) (hq : quadtree_query qt x y holder = some (QUADTREE_SUCCESS, result))
    (hids : result.ids = some ids) : ids.Subperm (live.map lq_polygon_t.id) := by
  obtain ⟨c0, c1, c2, c3, depth, box, polygons, cnt, hleaf, hres⟩ :=
    quadtree_query_success qt x y holder result QUADTREE_SUCCESS hq rfl
  subst hres
  simp only [Option.some.injEq] at hids
  subst hids
  exact query_ids_subperm x y polygons live
    (find_leaf_every (fun l => l.Subperm live) _ _ _ _ _ _ _ _ _ _ _ hleaf
      (reachable_subperm qt live h))

theorem nodup_of_subperm (l1 l2 : List Int) (h : l1.Subperm l2) (hn : l2.Nodup) :
    l1.Nodup := by
  obtain ⟨l, hp, hs⟩ := h
  exact hp.nodup_iff.1 (hn.sublist hs)

theorem reachable_tree_8_square_twice : reachable tree_8_square_twice [square_5, square_5] :=
  reachable.add_success tree_8_square tree_8_square_twice [square_5] 5 4 [1, 7, 7, 1]
    [1, 1, 7, 7] square_5 reachable_tree_8_square (by decide!) (by decide!)

theorem reachable_tree_8_two_squares :
    reachable tree_8_two_squares [⟨6, 4, [1, 7, 7, 1], [1, 1, 7, 7]⟩, square_5] :=
  reachable.add_success tree_8_square tree_8_two_squares [square_5] 6 4 [1, 7, 7, 1]
    [1, 1, 7, 7] ⟨6, 4, [1, 7, 7, 1], [1, 1, 7, 7]⟩ reachable_tree_8_square (by decide!)
    (by decide!)

/-! ## Rounding up to a power of two -/

/-- The shift loop of `next_power_of_2` counts the binary digits of `n`:
with a budget of at least that many iterations it adds to `shifts` the
number `b` with `2^(b-1) ≤ n < 2^b` (`b = 0` for `n = 0`). -/
theorem next_power_of_2_loop_spec (fuel : Nat) : ∀ (n shifts : Nat), n < 2 ^ fuel →
    ∃ b : Nat, next_power_of_2_loop fuel n shifts = shifts + b ∧ n < 2 ^ b ∧
      (n = 0 → b = 0) ∧ (n ≠ 0 → 1 ≤ b ∧ 2 ^ (b - 1) ≤ n) := by
  induction fuel with
  | zero =>
    intro n shifts hn
    simp only [pow_zero, Nat.lt_one_iff] at hn
    exact ⟨0, by simp [next_power_of_2_loop], by simp [hn], fun _ => rfl,
      fun h => absurd hn h⟩
  | succ fuel ih =>
    intro n shifts hn
    simp only [next_power_of_2_loop]
    by_cases h0 : n = 0
    · exact ⟨0, by simp [h0], by simp [h0], fun _ => rfl, fun h => absurd h0 h⟩
    · rw [if_neg h0]
      have hhalf : n >>> 1 = n / 2 := by
        rw [Nat.shiftRight_eq_div_pow, pow_one]
      have hlt : n >>> 1 < 2 ^ fuel := by
        rw [hhalf]
        rw [pow_succ] at hn
        omega
      obtain ⟨b, hb, hlt2, hz, hnz⟩ := ih (n >>> 1) (shifts + 1) hlt
      rw [hhalf] at hb hlt2 hz hnz
      refine ⟨b + 1, by rw [hhalf, hb]; omega, by rw [pow_succ]; omega, fun h => absurd h h0,
        fun _ => ⟨by omega, ?_⟩⟩
      rw [Nat.add_sub_cancel]
      by_cases hq : n / 2 = 0
      · rw [hz hq, pow_zero]; omega
      · obtain ⟨hb1, hle⟩ := hnz hq
        have hpow : 2 ^ b = 2 ^ (b - 1) * 2 := by
          rw [← pow_succ]
          congr 1
          omega
        rw [hpow]
        omega

/-! ## The right triangle of the unit tests -/

theorem int_wrap_eq (z : Int) (h1 : -(2 ^ 31) ≤ z) (h2 : z < 2 ^ 31) : int_wrap z = z := by
  unfold int_wrap
  simp only
  split_ifs <;> omega

/-- With exact integer arithmetic, `point_in_polygon` on the right triangle
with vertices `(0,0)`, `(a,0)`, `(0,a)` is true exactly for the points with
`x ≥ 0`, `y ≥ 0` and `x + y < a`. -/
theorem point_in_polygon_triangle (a x y : Int) (ha : 0 < a) :
    point_in_polygon x y 3 [0, a, 0] [0, 0, a] = decide (0 ≤ x ∧ 0 ≤ y ∧ x + y < a) := by
  have hr : List.range (3 : Int).toNat = [0, 1, 2] := by decide
  have h3 : ((3 : Int) - 1).toNat = 2 := by decide
  have hdiv : Int.tdiv (a * (y - a)) (-a) = a - y := by
    have : a * (y - a) = (-a) * (a - y) := by ring
    rw [this, Int.mul_tdiv_cancel_left _ (by omega)]
  have hsnd : ∀ (c : Prop) [Decidable c] (u v : Bool) (k : Nat),
      (if c then (u, k) else (v, k)).2 = k := by
    intro c _ u v k
    split <;> rfl
  unfold point_in_polygon
  rw [hr, h3]
  simp only [List.foldl, point_in_polygon_step, arr, List.getD_cons_zero, List.getD_cons_succ,
    sub_self, zero_mul, Int.zero_tdiv, zero_add, sub_zero, zero_sub, add_zero, hsnd, hdiv]
  by_cases a1 : 0 > y <;> by_cases a2 : a > y <;> by_cases a3 : x < 0 <;>
    by_cases a4 : x < a - y <;> simp [a1, a2, a3, a4] <;> omega

/-- With the wrapping `int` arithmetic, `point_in_polygon` on the right
triangle with legs of length `a` is still exact as long as `a * a` fits an
`int`, that is for `a ≤ 46340`. -/
theorem point_in_polygon_int32_triangle (a x y : Int) (ha : 0 < a) (hb : a ≤ 46340) :
    point_in_polygon_int32 x y 3 [0, a, 0] [0, 0, a] = decide (0 ≤ x ∧ 0 ≤ y ∧ x + y < a) := by
  have hr : List.range (3 : Int).toNat = [0, 1, 2] := by decide
  have h3 : ((3 : Int) - 1).toNat = 2 := by decide
  have hdiv : Int.tdiv (a * (y - a)) (-a) = a - y := by
    have : a * (y - a) = (-a) * (a - y) := by ring
    rw [this, Int.mul_tdiv_cancel_left _ (by omega)]
  have hsnd : ∀ (c : Prop) [Decidable c] (u v : Bool) (k : Nat),
      (if c then (u, k) else (v, k)).2 = k := by
    intro c _ u v k
    split <;> rfl
  have e0 : int_wrap 0 = 0 := by decide
  have e1 : int_wrap a = a := int_wrap_eq a (by omega) (by omega)
  have e4 : int_wrap (-a) = -a := int_wrap_eq _ (by omega) (by omega)
  unfold point_in_polygon_int32
  rw [hr, h3]
  simp only [List.foldl, point_in_polygon_int32_step, arr, List.getD_cons_zero,
    List.getD_cons_succ, sub_self, zero_mul, Int.zero_tdiv, zero_add, sub_zero, zero_sub,
    add_zero, hsnd, e0, e1, e4]
  by_cases hy : 0 ≤ y ∧ y < a
  · have e2 : int_wrap (y - a) = y - a := int_wrap_eq _ (by omega) (by omega)
    have hprod : -(2 ^ 31) ≤ a * (y - a) ∧ a * (y - a) < 2 ^ 31 := by
      constructor
      · nlinarith [hy.1, hy.2]
      · nlinarith [hy.1, hy.2]
    have e3 : int_wrap (a * (y - a)) = a * (y - a) := int_wrap_eq _ hprod.1 hprod.2
    have e5 : int_wrap (a - y) = a - y := int_wrap_eq _ (by omega) (by omega)
    simp only [e2, e3, hdiv, e5]
    by_cases a3 : x < 0 <;> by_cases a4 : x < a - y <;>
      simp [hy.1, hy.2, a3, a4, not_lt.2 hy.1] <;> omega
  · by_cases a1 : 0 > y <;> by_cases a2 : a > y <;> simp [a1, a2] <;> omega

/-! ## Subdivision invariants -/

theorem every_node_mono (Q R : lq_quadtree_node_t → Prop)
    (hQ : ∀ n : lq_quadtree_node_t, n ≠ .null → Q n → R n) :
    ∀ node : lq_quadtree_node_t, every_node Q node → every_node R node := by
  intro node
  induction node with
  | null => intro _; trivial
  | node c0 c1 c2 c3 depth box polygons cnt ih0 ih1 ih2 ih3 =>
    intro h
    simp only [every_node] at h ⊢
    exact ⟨hQ _ (by simp) h.1, ih0 h.2.1, ih1 h.2.2.1, ih2 h.2.2.2.1, ih3 h.2.2.2.2⟩

theorem every_node_and (Q R : lq_quadtree_node_t → Prop) :
    ∀ node : lq_quadtree_node_t, every_node Q node → every_node R node →
      every_node (fun n => Q n ∧ R n) node := by
  intro node
  induction node with
  | null => intro _ _; trivial
  | node c0 c1 c2 c3 depth box polygons cnt ih0 ih1 ih2 ih3 =>
    intro h g
    simp only [every_node] at h g ⊢
    exact ⟨⟨h.1, g.1⟩, ih0 h.2.1 g.2.1, ih1 h.2.2.1 g.2.2.1, ih2 h.2.2.2.1 g.2.2.2.1,
      ih3 h.2.2.2.2 g.2.2.2.2⟩

theorem put_node_depth (fuel : Nat) (node : lq_quadtree_node_t) (polygon : lq_polygon_t)
    (r : lq_quadtree_node_t) (h : lq_quadtree_node_put_polygon fuel node polygon = some r) :
    node_depth r = node_depth node ∧ r ≠ .null := by
  cases fuel with
  | zero => simp [lq_quadtree_node_put_polygon] at h
  | succ fuel =>
    cases node with
    | null => simp [lq_quadtree_node_put_polygon] at h
    | node c0 c1 c2 c3 depth box polygons cnt =>
      obtain ⟨collision, -, hcase⟩ := put_cases fuel c0 c1 c2 c3 depth box polygons cnt polygon r h
      rcases hcase with ⟨-, hr⟩ | ⟨-, -, hr⟩ | ⟨-, -, d0, d1, d2, d3, depth1, box1, polygons1,
        cnt1, e0, e1, e2, e3, hpop, -, -, -, -, hr⟩
      · rw [hr]; exact ⟨rfl, by simp⟩
      · rw [hr]; exact ⟨rfl, by simp⟩
      · obtain ⟨hd, -, -⟩ := populate_children_cases _ _ _ _ _ _ _ _ _ _ _ _ _ _ _ _ hpop
        rw [hr, hd]; exact ⟨rfl, by simp⟩

/-- An insertion keeps the subdivision invariant at every node. -/
theorem put_subdivision (fuel : Nat) : ∀ (node : lq_quadtree_node_t) (polygon : lq_polygon_t)
    (r : lq_quadtree_node_t), lq_quadtree_node_put_polygon fuel node polygon = some r →
    every_node subdivision_ok node → every_node subdivision_ok r := by
  induction fuel with
  | zero => intro node polygon r h; simp [lq_quadtree_node_put_polygon] at h
  | succ fuel ih =>
    intro node polygon r h hinv
    cases node with
    | null => simp [lq_quadtree_node_put_polygon] at h
    | node c0 c1 c2 c3 depth box polygons cnt =>
      obtain ⟨collision, -, hcase⟩ := put_cases fuel c0 c1 c2 c3 depth box polygons cnt polygon r h
      rcases hcase with ⟨-, hr⟩ | ⟨-, hcond, hr⟩ | ⟨-, hncond, d0, d1, d2, d3, depth1, box1,
        polygons1, cnt1, e0, e1, e2, e3, hpop, hp0, hp1, hp2, hp3, hr⟩
      · subst hr; exact hinv
      · subst hr
        simp only [every_node, subdivision_ok, is_leaf, has_four_children] at hinv ⊢
        obtain ⟨⟨hdep, hshape⟩, hch⟩ := hinv
        refine ⟨⟨hdep, ?_⟩, hch⟩
        rcases hshape with hl | ⟨hfour, -, hd, hw, hh, -⟩
        · exact Or.inl hl
        · exfalso
          rcases hcond with h1 | h1 | h1 | h1
          · exact hd h1
          · exact absurd h1 (not_le.2 hw)
          · exact absurd h1 (not_le.2 hh)
          · exact hfour.1 h1.1
      · subst hr
        simp only [not_or, not_le] at hncond
        obtain ⟨hd15, hw4, hh4, -⟩ := hncond
        simp only [every_node] at hinv
        obtain ⟨hown, hc0, hc1, hc2, hc3⟩ := hinv
        simp only [subdivision_ok, is_leaf, has_four_children] at hown
        obtain ⟨hdep, hshape⟩ := hown
        obtain ⟨hdepth1, hbox1, hcs⟩ :=
          populate_children_cases _ _ _ _ _ _ _ _ _ _ _ _ _ _ _ _ hpop
        subst hdepth1 hbox1
        have key : polygons1 = [] ∧
            (every_node subdivision_ok d0 ∧ node_depth d0 = some (depth1 + 1)) ∧
            (every_node subdivision_ok d1 ∧ node_depth d1 = some (depth1 + 1)) ∧
            (every_node subdivision_ok d2 ∧ node_depth d2 = some (depth1 + 1)) ∧
            (every_node subdivision_ok d3 ∧ node_depth d3 = some (depth1 + 1)) := by
          have hfresh : ∀ (b : lq_rect_t) (l : List lq_polygon_t) (c : Int),
              every_node subdivision_ok (.node .null .null .null .null (depth1 + 1) b l c) ∧
              node_depth (.node .null .null .null .null (depth1 + 1) b l c)
                = some (depth1 + 1) := by
            intro b l c
            simp only [every_node, subdivision_ok, is_leaf, node_depth, and_true, true_and,
              true_or, MAX_DEPTH]
            simp only [MAX_DEPTH] at hdep hd15
            omega
          rcases hcs with ⟨hne, r0, r1, r2, r3, r4, -⟩ | ⟨-, -, r4, -, r0, r1, r2, r3⟩
          · subst r0 r1 r2 r3 r4
            rcases hshape with hl | ⟨-, hp, -, -, -, n0, n1, n2, n3⟩
            · exact absurd hl.1 hne
            · exact ⟨hp, ⟨hc0, n0⟩, ⟨hc1, n1⟩, ⟨hc2, n2⟩, ⟨hc3, n3⟩⟩
          · subst r0 r1 r2 r3 r4
            exact ⟨rfl, hfresh _ _ _, hfresh _ _ _, hfresh _ _ _, hfresh _ _ _⟩
        obtain ⟨hp, ⟨i0, n0⟩, ⟨i1, n1⟩, ⟨i2, n2⟩, ⟨i3, n3⟩⟩ := key
        have q0 := put_node_depth _ _ _ _ hp0
        have q1 := put_node_depth _ _ _ _ hp1
        have q2 := put_node_depth _ _ _ _ hp2
        have q3 := put_node_depth _ _ _ _ hp3
        simp only [every_node, subdivision_ok, is_leaf, has_four_children]
        refine ⟨⟨hdep, Or.inr ⟨⟨q0.2, q1.2, q2.2, q3.2⟩, hp, hd15, hw4, hh4, ?_, ?_, ?_, ?_⟩⟩,
          ih _ _ _ hp0 i0, ih _ _ _ hp1 i1, ih _ _ _ hp2 i2, ih _ _ _ hp3 i3⟩
        · rw [q0.1, n0]
        · rw [q1.1, n1]
        · rw [q2.1, n2]
        · rw [q3.1, n3]

theorem remove_node_depth (node : lq_quadtree_node_t) (id : Int) :
    node_depth (lq_quadtree_node_remove node id) = node_depth node := by
  cases node <;> simp [lq_quadtree_node_remove, node_depth]

/-- A removal keeps the subdivision invariant at every node. -/
theorem remove_subdivision (id : Int) : ∀ node : lq_quadtree_node_t,
    every_node subdivision_ok node →
      every_node subdivision_ok (lq_quadtree_node_remove node id) := by
  intro node
  induction node with
  | null => intro _; simp [lq_quadtree_node_remove, every_node]
  | node c0 c1 c2 c3 depth box polygons cnt ih0 ih1 ih2 ih3 =>
    intro h
    simp only [every_node] at h
    obtain ⟨hown, h0, h1, h2, h3⟩ := h
    unfold lq_quadtree_node_remove
    simp only [every_node]
    refine ⟨?_, ih0 h0, ih1 h1, ih2 h2, ih3 h3⟩
    simp only [subdivision_ok, is_leaf, has_four_children, remove_eq_null, remove_node_depth,
      ne_eq] at hown ⊢
    refine ⟨hown.1, ?_⟩
    rcases hown.2 with hl | ⟨hfour, hp, hrest⟩
    · exact Or.inl hl
    · refine Or.inr ⟨hfour, ?_, hrest⟩
      rw [(remove_loop_spec id polygons cnt).1, hp]
      rfl

/-- The subdivision invariant holds at every node of a reachable tree. -/
theorem reachable_subdivision (qt : lq_quadtree_t) (live : List lq_polygon_t)
    (h : reachable qt live) : every_node subdivision_ok qt.root := by
  induction h with
  | create left bottom width height qt hc =>
    obtain ⟨-, -, hq⟩ := quadtree_create_eq_some _ _ _ _ _ hc
    subst hq
    simp [every_node, subdivision_ok, is_leaf, MAX_DEPTH]
  | add_success qt qt1 live id n xs ys polygon _ hadd hnew ih =>
    rcases quadtree_add_cases _ _ _ _ _ _ _ hadd with ⟨hne, -⟩ | ⟨-, polygon1, -, hput⟩
    · exact absurd rfl hne
    · exact put_subdivision _ _ _ _ hput ih
  | add_failure qt qt1 live id n xs ys code _ hadd hne ih =>
    rcases quadtree_add_cases _ _ _ _ _ _ _ hadd with ⟨-, heq⟩ | ⟨hs, -⟩
    · rw [heq]; exact ih
    · exact absurd hs hne
  | remove qt qt1 live id code _ hrem ih =>
    obtain ⟨-, -, heq⟩ := quadtree_remove_cases _ _ _ _ hrem
    subst heq
    exact remove_subdivision id _ ih

/-- In a box whose width and height are powers of two greater than 1, every
point of the box lies in exactly one of the four quadrant boxes, the one
that `lq_rect_get_quadrant` names. -/
theorem get_quadrant_tiling (box : lq_rect_t) (x y : Int)
    (hw : ∃ k : Nat, 1 ≤ k ∧ box.width = 2 ^ k) (hh : ∃ k : Nat, 1 ≤ k ∧ box.height = 2 ^ k)
    (hin : lq_rect_point_is_in_bounds box x y = true) :
    ∃ q : Nat, q < 4 ∧ lq_rect_get_quadrant box x y = some q ∧
      ∀ i : Nat, i < 4 →
        (lq_rect_point_is_in_bounds (quadrant_box box i) x y = true ↔ i = q) := by
  have half : ∀ w : Int, (∃ k : Nat, 1 ≤ k ∧ w = 2 ^ k) →
      0 < Int.tdiv w 2 ∧ w = 2 * Int.tdiv w 2 := by
    rintro w ⟨k, hk, rfl⟩
    obtain ⟨j, rfl⟩ : ∃ j, k = j + 1 := ⟨k - 1, by omega⟩
    have hpos : (0 : Int) < 2 ^ j := by positivity
    have : ((2 : Int) ^ (j + 1)).tdiv 2 = 2 ^ j := by
      rw [pow_succ, Int.mul_tdiv_cancel _ (by norm_num)]
    rw [this]
    exact ⟨hpos, by ring⟩
  obtain ⟨hwp, hwe⟩ := half _ hw
  obtain ⟨hhp, hhe⟩ := half _ hh
  have hb := (lq_rect_point_is_in_bounds_iff box x y).1 hin
  unfold lq_rect_get_quadrant
  rw [hin]
  simp only [if_true]
  have cases4 : ∀ i : Nat, i < 4 → i = 0 ∨ i = 1 ∨ i = 2 ∨ i = 3 := by
    intro i hi; omega
  by_cases hx : x < box.left + Int.tdiv box.width 2 <;>
    by_cases hy : y < box.bottom + Int.tdiv box.height 2
  · refine ⟨2, by norm_num, by simp [hx, hy, THIRD_QUADRANT], ?_⟩
    intro i hi
    rcases cases4 i hi with rfl | rfl | rfl | rfl <;>
      simp [lq_rect_point_is_in_bounds_iff, quadrant_box, FIRST_QUADRANT, SECOND_QUADRANT,
        THIRD_QUADRANT] <;> omega
  · refine ⟨1, by norm_num, by simp [hx, hy, SECOND_QUADRANT], ?_⟩
    intro i hi
    rcases cases4 i hi with rfl | rfl | rfl | rfl <;>
      simp [lq_rect_point_is_in_bounds_iff, quadrant_box, FIRST_QUADRANT, SECOND_QUADRANT,
        THIRD_QUADRANT] <;> omega
  · refine ⟨3, by norm_num, by simp [hx, hy, FOURTH_QUADRANT], ?_⟩
    intro i hi
    rcases cases4 i hi with rfl | rfl | rfl | rfl <;>
      simp [lq_rect_point_is_in_bounds_iff, quadrant_box, FIRST_QUADRANT, SECOND_QUADRANT,
        THIRD_QUADRANT] <;> omega
  · refine ⟨0, by norm_num, by simp [hx, hy, FIRST_QUADRANT], ?_⟩
    intro i hi
    rcases cases4 i hi with rfl | rfl | rfl | rfl <;>
      simp [lq_rect_point_is_in_bounds_iff, quadrant_box, FIRST_QUADRANT, SECOND_QUADRANT,
        THIRD_QUADRANT] <;> omega

/-- The tiling property follows from well-formedness and the subdivision
invariant. -/
theorem well_formed_tiling : ∀ node : lq_quadtree_node_t, well_formed node →
    every_node subdivision_ok node → every_node tiling_ok node := by
  intro node
  induction node with
  | null => intro _ _; trivial
  | node c0 c1 c2 c3 depth box polygons cnt ih0 ih1 ih2 ih3 =>
    intro hwf hsub
    simp only [well_formed] at hwf
    obtain ⟨-, hgw, hgh, hch⟩ := hwf
    simp only [every_node] at hsub ⊢
    obtain ⟨hown, s0, s1, s2, s3⟩ := hsub
    rcases hch with hn | ⟨hw4, hh4, b0, b1, b2, b3, w0, w1, w2, w3⟩
    · obtain ⟨r0, r1, r2, r3⟩ := hn
      subst r0 r1 r2 r3
      exact ⟨Or.inl ⟨rfl, rfl, rfl, rfl⟩, trivial, trivial, trivial, trivial⟩
    · refine ⟨?_, ih0 w0 s0, ih1 w1 s1, ih2 w2 s2, ih3 w3 s3⟩
      have pw : ∀ w : Int, 4 < w → good_size w → ∃ k : Nat, 1 ≤ k ∧ w = 2 ^ k := by
        intro w h4 hg
        rcases hg with hg | ⟨k, hk⟩
        · omega
        · refine ⟨k, ?_, hk⟩
          by_contra hcon
          have : k = 0 := by omega
          subst this
          simp at hk
          omega
      have hpw := pw _ hw4 hgw
      have hph := pw _ hh4 hgh
      have even : ∀ w : Int, (∃ k : Nat, 1 ≤ k ∧ w = 2 ^ k) → w % 2 = 0 := by
        rintro w ⟨k, hk, rfl⟩
        obtain ⟨j, rfl⟩ : ∃ j, k = j + 1 := ⟨k - 1, by omega⟩
        rw [pow_succ]
        exact Int.mul_emod_left _ _
      have hdepths : node_depth c0 = some (depth + 1) ∧ node_depth c1 = some (depth + 1) ∧
          node_depth c2 = some (depth + 1) ∧ node_depth c3 = some (depth + 1) := by
        simp only [subdivision_ok, is_leaf, has_four_children] at hown
        rcases hown.2 with hl | ⟨-, -, -, -, -, n0, n1, n2, n3⟩
        · rw [hl.1] at b0
          simp [node_box] at b0
        · exact ⟨n0, n1, n2, n3⟩
      simp only [tiling_ok]
      refine Or.inr ⟨hpw, hph, ⟨even _ hpw, even _ hph⟩, hdepths, ⟨?_, ?_, ?_, ?_⟩, ?_⟩
      · rw [b0]; rfl
      · rw [b1]; rfl
      · rw [b2]; rfl
      · rw [b3]; rfl
      · intro x y hin
        exact get_quadrant_tiling box x y hpw hph hin

/-! ## Steps of the insertion -/

/-- The attach branch of `lq_quadtree_node_put_polygon`. -/
theorem put_attach (fuel : Nat) (c0 c1 c2 c3 : lq_quadtree_node_t) (depth : Int)
    (box : lq_rect_t) (polygons : List lq_polygon_t) (cnt : Int) (polygon : lq_polygon_t)
    (collision : Int)
    (hcol : collide_polygon_rectangle polygon.number_of_points polygon.xs polygon.ys
      box.left box.bottom box.width box.height = some collision)
    (hne : collision ≠ 0)
    (hcond : depth = MAX_DEPTH ∨ box.width ≤ MIN_SIZE ∨ box.height ≤ MIN_SIZE ∨
      (c0 = .null ∧ rectangle_inside_polygon box.left box.bottom box.width box.height
        polygon.number_of_points polygon.xs polygon.ys = true)) :
    lq_quadtree_node_put_polygon (fuel + 1) (.node c0 c1 c2 c3 depth box polygons cnt)
      polygon = some (.node c0 c1 c2 c3 depth box (polygon :: polygons) (cnt + 1)) := by
  have hc : (decide (depth = MAX_DEPTH) || decide (box.width ≤ MIN_SIZE) ||
      decide (box.height ≤ MIN_SIZE) ||
      (decide (c0 = .null) && rectangle_inside_polygon box.left box.bottom box.width
        box.height polygon.number_of_points polygon.xs polygon.ys)) = true := by
    simpa [Bool.or_eq_true, Bool.and_eq_true, decide_eq_true_eq, or_assoc] using hcond
  rw [lq_quadtree_node_put_polygon]
  simp only [hcol, hne, if_false, hc, if_true, lq_quadtree_node_add_polygon]

/-- The branch of `lq_quadtree_node_put_polygon` without collision. -/
theorem put_no_collision (fuel : Nat) (c0 c1 c2 c3 : lq_quadtree_node_t) (depth : Int)
    (box : lq_rect_t) (polygons : List lq_polygon_t) (cnt : Int) (polygon : lq_polygon_t)
    (hcol : collide_polygon_rectangle polygon.number_of_points polygon.xs polygon.ys
      box.left box.bottom box.width box.height = some NO_COLLISION) :
    lq_quadtree_node_put_polygon (fuel + 1) (.node c0 c1 c2 c3 depth box polygons cnt)
      polygon = some (.node c0 c1 c2 c3 depth box polygons cnt) := by
  rw [lq_quadtree_node_put_polygon]
  simp only [hcol, NO_COLLISION, if_true]

/-- The descending branch of `lq_quadtree_node_put_polygon`. -/
theorem put_descend (fuel : Nat) (c0 c1 c2 c3 : lq_quadtree_node_t) (depth : Int)
    (box : lq_rect_t) (polygons : List lq_polygon_t) (cnt : Int) (polygon : lq_polygon_t)
    (collision : Int) (d0 d1 d2 d3 : lq_quadtree_node_t) (depth1 : Int) (box1 : lq_rect_t)
    (polygons1 : List lq_polygon_t) (cnt1 : Int) (e0 e1 e2 e3 : lq_quadtree_node_t)
    (hcol : collide_polygon_rectangle polygon.number_of_points polygon.xs polygon.ys
      box.left box.bottom box.width box.height = some collision)
    (hne : collision ≠ 0)
    (hncond : ¬ (depth = MAX_DEPTH ∨ box.width ≤ MIN_SIZE ∨ box.height ≤ MIN_SIZE ∨
      (c0 = .null ∧ rectangle_inside_polygon box.left box.bottom box.width box.height
        polygon.number_of_points polygon.xs polygon.ys = true)))
    (hpop : lq_quadtree_node_populate_children (.node c0 c1 c2 c3 depth box polygons cnt)
      = some (.node d0 d1 d2 d3 depth1 box1 polygons1 cnt1))
    (hp0 : lq_quadtree_node_put_polygon fuel d0 polygon = some e0)
    (hp1 : lq_quadtree_node_put_polygon fuel d1 polygon = some e1)
    (hp2 : lq_quadtree_node_put_polygon fuel d2 polygon = some e2)
    (hp3 : lq_quadtree_node_put_polygon fuel d3 polygon = some e3) :
    lq_quadtree_node_put_polygon (fuel + 1) (.node c0 c1 c2 c3 depth box polygons cnt)
      polygon = some (.node e0 e1 e2 e3 depth1 box1 polygons1 cnt1) := by
  have hc : (decide (depth = MAX_DEPTH) || decide (box.width ≤ MIN_SIZE) ||
      decide (box.height ≤ MIN_SIZE) ||
      (decide (c0 = .null) && rectangle_inside_polygon box.left box.bottom box.width
        box.height polygon.number_of_points polygon.xs polygon.ys)) = false := by
    rw [← Bool.not_eq_true]
    intro hcon
    apply hncond
    simpa [Bool.or_eq_true, Bool.and_eq_true, decide_eq_true_eq, or_assoc] using hcon
  rw [lq_quadtree_node_put_polygon]
  simp only [hcol, hne, if_false, hc, Bool.false_eq_true, hpop, hp0, hp1, hp2, hp3]

/-- A larger recursion budget does not change the result of an insertion. -/
theorem put_fuel_succ (fuel : Nat) : ∀ (node : lq_quadtree_node_t) (polygon : lq_polygon_t)
    (r : lq_quadtree_node_t), lq_quadtree_node_put_polygon fuel node polygon = some r →
    lq_quadtree_node_put_polygon (fuel + 1) node polygon = some r := by
  induction fuel with
  | zero => intro node polygon r h; simp [lq_quadtree_node_put_polygon] at h
  | succ fuel ih =>
    intro node polygon r h
    cases node with
    | null => simp [lq_quadtree_node_put_polygon] at h
    | node c0 c1 c2 c3 depth box polygons cnt =>
      obtain ⟨collision, hcol, hcase⟩ :=
        put_cases fuel c0 c1 c2 c3 depth box polygons cnt polygon r h
      rcases hcase with ⟨h0, hr⟩ | ⟨hne, hcond, hr⟩ | ⟨hne, hncond, d0, d1, d2, d3, depth1, box1,
        polygons1, cnt1, e0, e1, e2, e3, hpop, hp0, hp1, hp2, hp3, hr⟩
      · subst hr h0
        exact put_no_collision _ _ _ _ _ _ _ _ _ _ hcol
      · subst hr
        rw [lq_quadtree_node_put_polygon]
        have hc : (decide (depth = MAX_DEPTH) || decide (box.width ≤ MIN_SIZE) ||
            decide (box.height ≤ MIN_SIZE) ||
            (decide (c0 = .null) && rectangle_inside_polygon box.left box.bottom box.width
              box.height polygon.number_of_points polygon.xs polygon.ys)) = true := by
          simpa [Bool.or_eq_true, Bool.and_eq_true, decide_eq_true_eq, or_assoc] using hcond
        simp only [hcol, hne, if_false, hc, if_true, lq_quadtree_node_add_polygon]
      · subst hr
        exact put_descend _ _ _ _ _ _ _ _ _ _ collision _ _ _ _ _ _ _ _ _ _ _ _ hcol hne hncond
          hpop (ih _ _ _ hp0) (ih _ _ _ hp1) (ih _ _ _ hp2) (ih _ _ _ hp3)

theorem put_fuel_le (fuel fuel1 : Nat) (hle : fuel ≤ fuel1) (node : lq_quadtree_node_t)
    (polygon : lq_polygon_t) (r : lq_quadtree_node_t)
    (h : lq_quadtree_node_put_polygon fuel node polygon = some r) :
    lq_quadtree_node_put_polygon fuel1 node polygon = some r := by
  induction hle with
  | refl => exact h
  | step _ ih => exact put_fuel_succ _ _ _ _ ih

theorem find_leaf_quadrant_2 (c0 c1 c2 c3 : lq_quadtree_node_t) (depth : Int)
    (box : lq_rect_t) (polygons : List lq_polygon_t) (cnt : Int) (x y : Int)
    (hq : lq_rect_get_quadrant box x y = some 2) (hc : c2 ≠ .null) :
    lq_quadtree_node_find_leaf (.node c0 c1 c2 c3 depth box polygons cnt) x y =
      lq_quadtree_node_find_leaf c2 x y := by
  rw [lq_quadtree_node_find_leaf]
  simp only [hq, hc, ne_eq, not_false_eq_true, if_true]

/-! ## A split that copies a payload into a box it does not collide with -/

theorem leaf_16_notched_split :
    lq_quadtree_node_put_polygon 3 leaf_16_notched small_2 = some leaf_16_split := by
  decide!

theorem notched_insert_shape (qt1 : lq_quadtree_t)
    (hadd : quadtree_add tree_32 1 8 [0, 3, 3, 9, 9, 16, 16, 0] [0, 0, 5, 5, 0, 0, 16, 16]
      = some (QUADTREE_SUCCESS, qt1)) :
    ∃ e0 e1 e3, e0 ≠ .null ∧
      qt1.root = .node e0 e1 leaf_16_notched e3 0 ⟨0, 0, 32, 32⟩ [] 0 := by
  rcases quadtree_add_cases _ _ _ _ _ _ _ hadd with ⟨hne, -⟩ | ⟨-, polygon, hnew, hput⟩
  · exact absurd rfl hne
  · have hp : polygon = notched_1 := by
      have : lq_polygon_node_new 1 8 [0, 3, 3, 9, 9, 16, 16, 0] [0, 0, 5, 5, 0, 0, 16, 16]
          = some notched_1 := by decide
      rw [this] at hnew
      exact (Option.some.inj hnew).symm
    subst hp
    have hfuel : put_fuel tree_32.root = 32 + 1 := by decide
    rw [hfuel] at hput
    obtain ⟨collision, hcol, hcase⟩ := put_cases _ _ _ _ _ _ _ _ _ _ _ hput
    have hcol1 : collide_polygon_rectangle notched_1.number_of_points notched_1.xs
        notched_1.ys 0 0 32 32 = some COLLISION := by decide!
    rw [hcol1] at hcol
    have hc : collision = 1 := (Option.some.inj hcol).symm
    have hrip : rectangle_inside_polygon 0 0 32 32 notched_1.number_of_points
        notched_1.xs notched_1.ys = false := by decide
    rcases hcase with ⟨h0, -⟩ | ⟨-, hcond, -⟩ | ⟨-, -, d0, d1, d2, d3, depth1, box1, polygons1,
      cnt1, e0, e1, e2, e3, hpop, hp0, -, hp2, -, hr⟩
    · rw [hc] at h0; exact absurd h0 (by decide)
    · exfalso
      rcases hcond with h | h | h | ⟨-, h⟩
      · exact absurd h (by decide)
      · exact absurd h (by decide)
      · exact absurd h (by decide)
      · rw [hrip] at h; exact absurd h (by decide)
    · obtain ⟨hdepth, hbox, hcs⟩ := populate_children_cases _ _ _ _ _ _ _ _ _ _ _ _ _ _ _ _ hpop
      rcases hcs with ⟨hnn, -⟩ | ⟨-, -, hpoly, hcnt1, -, -, hd2, -⟩
      · exact absurd rfl hnn
      · have hd2b : d2 = .node .null .null .null .null 1 ⟨0, 0, 16, 16⟩ [] 0 := by
          rw [hd2]; decide
        subst hdepth hbox hpoly hcnt1
        rw [hd2b, put_attach 31 .null .null .null .null 1 ⟨0, 0, 16, 16⟩ [] 0 notched_1
          COLLISION (by decide!) (by decide)
          (Or.inr (Or.inr (Or.inr ⟨rfl, by decide⟩)))] at hp2
        have he2 : e2 = leaf_16_notched := (Option.some.inj hp2).symm
        refine ⟨e0, e1, e3, (put_node_depth _ _ _ _ hp0).2, ?_⟩
        rw [hr, he2]

theorem small_insert_shape (qt1 qt2 : lq_quadtree_t) (e0 e1 e3 : lq_quadtree_node_t)
    (he0 : e0 ≠ .null)
    (hroot : qt1.root = .node e0 e1 leaf_16_notched e3 0 ⟨0, 0, 32, 32⟩ [] 0)
    (hadd : quadtree_add qt1 2 4 [1, 2, 2, 1] [1, 1, 2, 2] = some (QUADTREE_SUCCESS, qt2)) :
    ∃ f0 f1 f3, qt2.root = .node f0 f1 leaf_16_split f3 0 ⟨0, 0, 32, 32⟩ [] 0 := by
  rcases quadtree_add_cases _ _ _ _ _ _ _ hadd with ⟨hne, -⟩ | ⟨-, polygon, hnew, hput⟩
  · exact absurd rfl hne
  · have hp : polygon = small_2 := by
      have : lq_polygon_node_new 2 4 [1, 2, 2, 1] [1, 1, 2, 2] = some small_2 := by decide
      rw [this] at hnew
      exact (Option.some.inj hnew).symm
    subst hp
    rw [hroot, put_fuel_pos] at hput
    obtain ⟨collision, hcol, hcase⟩ := put_cases _ _ _ _ _ _ _ _ _ _ _ hput
    have hcol1 : collide_polygon_rectangle small_2.number_of_points small_2.xs
        small_2.ys 0 0 32 32 = some COLLISION := by decide!
    rw [hcol1] at hcol
    have hc : collision = 1 := (Option.some.inj hcol).symm
    rcases hcase with ⟨h0, -⟩ | ⟨-, hcond, -⟩ | ⟨-, -, d0, d1, d2, d3, depth1, box1, polygons1,
      cnt1, f0, f1, f2, f3, hpop, -, -, hp2, -, hr⟩
    · rw [hc] at h0; exact absurd h0 (by decide)
    · exfalso
      rcases hcond with h | h | h | ⟨h, -⟩
      · exact absurd h (by decide)
      · exact absurd h (by decide)
      · exact absurd h (by decide)
      · exact he0 h
    · obtain ⟨hdepth, hbox, hcs⟩ := populate_children_cases _ _ _ _ _ _ _ _ _ _ _ _ _ _ _ _ hpop
      rcases hcs with ⟨-, -, -, r2, -, r4, r5⟩ | ⟨hn, -⟩
      · subst hdepth hbox r2 r4 r5
        have hbig := put_fuel_le 3
          (max (max (put_fuel e0) (put_fuel e1)) (max (put_fuel leaf_16_notched) (put_fuel e3))
            + (lq_rect_t.mk 0 0 32 32).width.toNat)
          (le_trans (by decide : 3 ≤ 32) (Nat.le_add_left 32 _))
          _ _ _ leaf_16_notched_split
        rw [hbig] at hp2
        have hf2 : f2 = leaf_16_split := (Option.some.inj hp2).symm
        exact ⟨f0, f1, f3, by rw [hr, hf2]⟩
      · exact absurd hn he0

/-! ## Share counters -/

theorem counts_ok_congr (h : share_heap) (total total1 : Nat → Int)
    (heq : ∀ a, total a = total1 a) (hk : counts_ok h total) : counts_ok h total1 := by
  have : total = total1 := funext heq
  rw [← this]
  exact hk

/-- A store to an allocated counter keeps the agreement when the count of
its address changes accordingly. -/
theorem store_counts (h : share_heap) (total total1 : Nat → Int) (a0 : Nat) (k : Int)
    (v : Option Int) (hk : counts_ok h total) (ha : h.counter a0 = some k)
    (hnone : v = none → total1 a0 = 0)
    (hsome : ∀ j : Int, v = some j → j = total1 a0 ∧ 0 < j)
    (hrest : ∀ b : Nat, b ≠ a0 → total1 b = total b) :
    counts_ok (h.store a0 v) total1 := by
  refine ⟨fun a => ?_, fun a hle => ?_⟩
  · by_cases hab : a = a0
    · subst hab
      simp only [share_heap.store, if_true]
      exact ⟨hnone, hsome⟩
    · simp only [share_heap.store, if_neg hab]
      rw [hrest a hab]
      exact hk.1 a
  · have hne : a ≠ a0 := by
      intro hab
      subst hab
      have := hk.2 a hle
      rw [ha] at this
      exact absurd this (by simp)
    simp only [share_heap.store, if_neg hne]
    exact hk.2 a hle

theorem clone_counts (h h1 : share_heap) (c c1 : lq_polygon_node_t) (total : Nat → Int)
    (hc : shares.lq_polygon_node_clone h c = some (h1, c1)) (hk : counts_ok h total) :
    c1 = c ∧ counts_ok h1 (fun a => total a + if a = c.ref_count then 1 else 0) := by
  unfold shares.lq_polygon_node_clone at hc
  cases hcnt : h.counter c.ref_count with
  | none => simp [hcnt] at hc
  | some k =>
    simp only [hcnt, Option.some.injEq, Prod.mk.injEq] at hc
    obtain ⟨hh, hcc⟩ := hc
    subst hh hcc
    refine ⟨rfl, store_counts h total _ c.ref_count k _ hk hcnt (by simp) ?_ ?_⟩
    · intro j hj
      simp only [Option.some.injEq] at hj
      obtain ⟨h1, h2⟩ := (hk.1 c.ref_count).2 k hcnt
      simp only [if_true]
      omega
    · intro b hb
      simp [hb]

theorem free_counts (h h1 : share_heap) (c : lq_polygon_node_t) (total : Nat → Int)
    (hc : shares.lq_polygon_node_free h c = some h1) (hk : counts_ok h total) :
    counts_ok h1 (fun a => total a - if a = c.ref_count then 1 else 0) := by
  unfold shares.lq_polygon_node_free at hc
  cases hcnt : h.counter c.ref_count with
  | none => simp [hcnt] at hc
  | some k =>
    obtain ⟨h1k, h2k⟩ := (hk.1 c.ref_count).2 k hcnt
    simp only [hcnt] at hc
    by_cases hz : k - 1 = 0
    · simp only [hz, if_true, Option.some.injEq] at hc
      subst hc
      refine store_counts h total _ c.ref_count k _ hk hcnt ?_ (by simp) ?_
      · intro _
        simp only [if_true]
        omega
      · intro b hb
        simp [hb]
    · simp only [hz, if_false, Option.some.injEq] at hc
      subst hc
      refine store_counts h total _ c.ref_count k _ hk hcnt (by simp) ?_ ?_
      · intro j hj
        simp only [Option.some.injEq] at hj
        simp only [if_true]
        omega
      · intro b hb
        simp [hb]

/-- The number of list nodes of a list whose counter is at address `a`. -/
theorem countP_cons_ref (a : Nat) (c : lq_polygon_node_t) (l : List lq_polygon_node_t) :
    (((c :: l).countP (fun d => decide (d.ref_count = a)) : Nat) : Int) =
      (l.countP (fun d => decide (d.ref_count = a)) : Int) +
        (if a = c.ref_count then 1 else 0) := by
  rw [List.countP_cons]
  by_cases hac : a = c.ref_count
  · subst hac
    simp
  · have : ¬ c.ref_count = a := fun h => hac h.symm
    simp [hac, this]

theorem add_polygons_counts (cells : List lq_polygon_node_t) :
    ∀ (h h1 : share_heap) (c0 c1 c2 c3 : shares.lq_quadtree_node_t) (depth : Int)
      (box : lq_rect_t) (polygons : List lq_polygon_node_t) (cnt : Int)
      (node1 : shares.lq_quadtree_node_t) (total : Nat → Int),
      shares.lq_quadtree_node_add_polygons h (.node c0 c1 c2 c3 depth box polygons cnt) cells
        = some (h1, node1) →
      counts_ok h total →
      node1 = .node c0 c1 c2 c3 depth box (cells.reverse ++ polygons)
        (cnt + (cells.length : Int)) ∧
      counts_ok h1 (fun a => total a +
        (cells.countP (fun d => decide (d.ref_count = a)) : Int)) := by
  induction cells with
  | nil =>
    intro h h1 c0 c1 c2 c3 depth box polygons cnt node1 total hadd hk
    simp only [shares.lq_quadtree_node_add_polygons, Option.some.injEq, Prod.mk.injEq] at hadd
    obtain ⟨hh, hn⟩ := hadd
    subst hh hn
    exact ⟨by simp, counts_ok_congr _ _ _ (by simp) hk⟩
  | cons c rest ih =>
    intro h h1 c0 c1 c2 c3 depth box polygons cnt node1 total hadd hk
    simp only [shares.lq_quadtree_node_add_polygons] at hadd
    cases hcl : shares.lq_polygon_node_clone h c with
    | none => simp [hcl] at hadd
    | some r =>
      obtain ⟨h2, c2'⟩ := r
      obtain ⟨hcc, hk2⟩ := clone_counts _ _ _ _ total hcl hk
      subst hcc
      simp only [hcl, shares.lq_quadtree_node_add_polygon] at hadd
      obtain ⟨hn, hk3⟩ := ih _ _ _ _ _ _ _ _ _ _ _ _ hadd hk2
      refine ⟨?_, counts_ok_congr _ _ _ ?_ hk3⟩
      · rw [hn]
        simp only [List.reverse_cons, List.append_assoc, List.singleton_append,
          List.length_cons, Nat.cast_add, Nat.cast_one]
        congr 1
        omega
      · intro a
        rw [countP_cons_ref]
        omega

theorem clear_loop_counts (cells : List lq_polygon_node_t) :
    ∀ (h h1 : share_heap) (total : Nat → Int),
      shares.clear_loop h cells = some h1 → counts_ok h total →
      counts_ok h1 (fun a => total a -
        (cells.countP (fun d => decide (d.ref_count = a)) : Int)) := by
  induction cells with
  | nil =>
    intro h h1 total hc hk
    simp only [shares.clear_loop, Option.some.injEq] at hc
    subst hc
    exact counts_ok_congr _ _ _ (by simp) hk
  | cons c rest ih =>
    intro h h1 total hc hk
    simp only [shares.clear_loop] at hc
    cases hf : shares.lq_polygon_node_free h c with
    | none => simp [hf] at hc
    | some h2 =>
      simp only [hf] at hc
      have hk2 := free_counts _ _ _ total hf hk
      refine counts_ok_congr _ _ _ ?_ (ih _ _ _ hc hk2)
      intro a
      rw [countP_cons_ref]
      omega

theorem payload_tree_eq_null (node : shares.lq_quadtree_node_t) :
    shares.payload_tree node = .null ↔ node = .null := by
  cases node <;> simp [shares.payload_tree]

theorem countP_reverse_ref (a : Nat) (l : List lq_polygon_node_t) :
    l.reverse.countP (fun d => decide (d.ref_count = a)) =
      l.countP (fun d => decide (d.ref_count = a)) :=
  (List.reverse_perm l).countP_eq _

/-- The split of a node with list nodes: nothing happens at a node with a
first child; otherwise every list node is cloned once for each of the four
children and freed once with the list of the node, so that the count of its
address rises by three.  The payloads move as in the first embedding. -/
theorem shares_populate_cases (h h1 : share_heap) (c0 c1 c2 c3 : shares.lq_quadtree_node_t)
    (depth : Int) (box : lq_rect_t) (polygons : List lq_polygon_node_t) (cnt : Int)
    (node1 : shares.lq_quadtree_node_t) (total : Nat → Int)
    (hpop : shares.lq_quadtree_node_populate_children h
      (.node c0 c1 c2 c3 depth box polygons cnt) = some (h1, node1))
    (hk : counts_ok h total) :
    (c0 ≠ .null ∧ h1 = h ∧ node1 = .node c0 c1 c2 c3 depth box polygons cnt) ∨
    (c0 = .null ∧ cnt = (polygons.length : Int) ∧
      node1 = .node
        (.node .null .null .null .null (depth + 1)
          ⟨box.bottom + Int.tdiv box.height 2, box.left + Int.tdiv box.width 2,
           Int.tdiv box.height 2, Int.tdiv box.width 2⟩ polygons.reverse polygons.length)
        (.node .null .null .null .null (depth + 1)
          ⟨box.bottom + Int.tdiv box.height 2, box.left,
           Int.tdiv box.height 2, Int.tdiv box.width 2⟩ polygons.reverse polygons.length)
        (.node .null .null .null .null (depth + 1)
          ⟨box.bottom, box.left,
           Int.tdiv box.height 2, Int.tdiv box.width 2⟩ polygons.reverse polygons.length)
        (.node .null .null .null .null (depth + 1)
          ⟨box.bottom, box.left + Int.tdiv box.width 2,
           Int.tdiv box.height 2, Int.tdiv box.width 2⟩ polygons.reverse polygons.length)
        depth box [] 0 ∧
      counts_ok h1 (fun a => total a +
        3 * (polygons.countP (fun d => decide (d.ref_count = a)) : Int))) := by
  unfold shares.lq_quadtree_node_populate_children at hpop
  simp only at hpop
  by_cases hc : c0 = .null
  · right
    simp only [hc, ne_eq, not_true_eq_false, if_false, shares.lq_quadtree_node_new] at hpop
    cases ha0 : shares.lq_quadtree_node_add_polygons h
        (.node .null .null .null .null (depth + 1)
          ⟨box.bottom + Int.tdiv box.height 2, box.left + Int.tdiv box.width 2,
           Int.tdiv box.height 2, Int.tdiv box.width 2⟩ [] 0) polygons with
    | none => simp [ha0] at hpop
    | some r0 =>
      obtain ⟨g0, n0⟩ := r0
      obtain ⟨e0, k0⟩ := add_polygons_counts _ _ _ _ _ _ _ _ _ _ _ _ total ha0 hk
      simp only [ha0] at hpop
      cases ha1 : shares.lq_quadtree_node_add_polygons g0
          (.node .null .null .null .null (depth + 1)
            ⟨box.bottom + Int.tdiv box.height 2, box.left,
             Int.tdiv box.height 2, Int.tdiv box.width 2⟩ [] 0) polygons with
      | none => simp [ha1] at hpop
      | some r1 =>
        obtain ⟨g1, n1⟩ := r1
        obtain ⟨e1, k1⟩ := add_polygons_counts _ _ _ _ _ _ _ _ _ _ _ _ _ ha1 k0
        simp only [ha1] at hpop
        cases ha2 : shares.lq_quadtree_node_add_polygons g1
            (.node .null .null .null .null (depth + 1)
              ⟨box.bottom, box.left,
               Int.tdiv box.height 2, Int.tdiv box.width 2⟩ [] 0) polygons with
        | none => simp [ha2] at hpop
        | some r2 =>
          obtain ⟨g2, n2⟩ := r2
          obtain ⟨e2, k2⟩ := add_polygons_counts _ _ _ _ _ _ _ _ _ _ _ _ _ ha2 k1
          simp only [ha2] at hpop
          cases ha3 : shares.lq_quadtree_node_add_polygons g2
              (.node .null .null .null .null (depth + 1)
                ⟨box.bottom, box.left + Int.tdiv box.width 2,
                 Int.tdiv box.height 2, Int.tdiv box.width 2⟩ [] 0) polygons with
          | none => simp [ha3] at hpop
          | some r3 =>
            obtain ⟨g3, n3⟩ := r3
            obtain ⟨e3, k3⟩ := add_polygons_counts _ _ _ _ _ _ _ _ _ _ _ _ _ ha3 k2
            simp only [ha3, shares.lq_quadtree_node_clear_polygons] at hpop
            cases hcl : shares.clear_loop g3 polygons with
            | none => simp [hcl] at hpop
            | some g4 =>
              have k4 := clear_loop_counts _ _ _ _ hcl k3
              simp only [hcl] at hpop
              by_cases hcnt : cnt = (polygons.length : Int)
              · simp only [hcnt, if_true, Option.some.injEq, Prod.mk.injEq] at hpop
                obtain ⟨hh, hn⟩ := hpop
                subst hh
                refine ⟨hc, hcnt, ?_, counts_ok_congr _ _ _ ?_ k4⟩
                · rw [← hn, e0, e1, e2, e3]
                  simp
                · intro a
                  omega
              · simp [hcnt] at hpop
  · left
    simp only [hc, ne_eq, not_false_eq_true, if_true, Option.some.injEq, Prod.mk.injEq] at hpop
    exact ⟨hc, hpop.1.symm, hpop.2.symm⟩

/-- The three branches of `lq_quadtree_node_put_polygon` on list nodes. -/
theorem shares_put_cases (fuel : Nat) (h h1 : share_heap)
    (c0 c1 c2 c3 : shares.lq_quadtree_node_t) (depth : Int) (box : lq_rect_t)
    (polygons : List lq_polygon_node_t) (cnt : Int) (polygon : lq_polygon_node_t)
    (r : shares.lq_quadtree_node_t)
    (hput : shares.lq_quadtree_node_put_polygon (fuel + 1) h
      (.node c0 c1 c2 c3 depth box polygons cnt) polygon = some (h1, r)) :
    ∃ collision, collide_polygon_rectangle polygon.p.number_of_points polygon.p.xs
        polygon.p.ys box.left box.bottom box.width box.height = some collision ∧
      ((collision = 0 ∧ h1 = h ∧ r = .node c0 c1 c2 c3 depth box polygons cnt) ∨
       (collision ≠ 0 ∧
        (depth = MAX_DEPTH ∨ box.width ≤ MIN_SIZE ∨ box.height ≤ MIN_SIZE ∨
          (c0 = .null ∧ rectangle_inside_polygon box.left box.bottom box.width box.height
              polygon.p.number_of_points polygon.p.xs polygon.p.ys = true)) ∧
        ∃ clone, shares.lq_polygon_node_clone h polygon = some (h1, clone) ∧
          r = .node c0 c1 c2 c3 depth box (clone :: polygons) (cnt + 1)) ∨
       (collision ≠ 0 ∧
        ¬ (depth = MAX_DEPTH ∨ box.width ≤ MIN_SIZE ∨ box.height ≤ MIN_SIZE ∨
          (c0 = .null ∧ rectangle_inside_polygon box.left box.bottom box.width box.height
              polygon.p.number_of_points polygon.p.xs polygon.p.ys = true)) ∧
        ∃ g d0 d1 d2 d3 depth1 box1 polygons1 cnt1 g0 e0 g1 e1 g2 e2 e3,
          shares.lq_quadtree_node_populate_children h
              (.node c0 c1 c2 c3 depth box polygons cnt)
            = some (g, .node d0 d1 d2 d3 depth1 box1 polygons1 cnt1) ∧
          shares.lq_quadtree_node_put_polygon fuel g d0 polygon = some (g0, e0) ∧
          shares.lq_quadtree_node_put_polygon fuel g0 d1 polygon = some (g1, e1) ∧
          shares.lq_quadtree_node_put_polygon fuel g1 d2 polygon = some (g2, e2) ∧
          shares.lq_quadtree_node_put_polygon fuel g2 d3 polygon = some (h1, e3) ∧
          r = .node e0 e1 e2 e3 depth1 box1 polygons1 cnt1)) := by
  rw [shares.lq_quadtree_node_put_polygon] at hput
  split at hput
  · exact absurd hput (by simp)
  · rename_i collision hc
    refine ⟨collision, hc, ?_⟩
    by_cases h0 : collision = 0
    · left
      simp only [h0, if_true, Option.some.injEq, Prod.mk.injEq] at hput
      exact ⟨h0, hput.1.symm, hput.2.symm⟩
    · right
      simp only [h0, if_false] at hput
      split at hput
      · rename_i hcond
        left
        refine ⟨h0, ?_, ?_⟩
        · simpa [Bool.or_eq_true, Bool.and_eq_true, decide_eq_true_eq, or_assoc] using hcond
        · cases hcl : shares.lq_polygon_node_clone h polygon with
          | none => simp [hcl] at hput
          | some rc =>
            obtain ⟨g, clone⟩ := rc
            simp only [hcl, shares.lq_quadtree_node_add_polygon, Option.some.injEq,
              Prod.mk.injEq] at hput
            exact ⟨clone, by rw [hput.1], hput.2.symm⟩
      · rename_i hcond
        right
        refine ⟨h0, ?_, ?_⟩
        · simpa [Bool.or_eq_true, Bool.and_eq_true, decide_eq_true_eq, or_assoc] using hcond
        · split at hput
          · rename_i g d0 d1 d2 d3 depth1 box1 polygons1 cnt1 hpop
            cases hp0 : shares.lq_quadtree_node_put_polygon fuel g d0 polygon with
            | none => simp [hp0] at hput
            | some r0 =>
              obtain ⟨g0, e0⟩ := r0
              simp only [hp0] at hput
              cases hp1 : shares.lq_quadtree_node_put_polygon fuel g0 d1 polygon with
              | none => simp [hp1] at hput
              | some r1 =>
                obtain ⟨g1, e1⟩ := r1
                simp only [hp1] at hput
                cases hp2 : shares.lq_quadtree_node_put_polygon fuel g1 d2 polygon with
                | none => simp [hp2] at hput
                | some r2 =>
                  obtain ⟨g2, e2⟩ := r2
                  simp only [hp2] at hput
                  cases hp3 : shares.lq_quadtree_node_put_polygon fuel g2 d3 polygon with
                  | none => simp [hp3] at hput
                  | some r3 =>
                    obtain ⟨g3, e3⟩ := r3
                    simp only [hp3, Option.some.injEq, Prod.mk.injEq] at hput
                    obtain ⟨hh, hr⟩ := hput
                    subst hh
                    exact ⟨g, d0, d1, d2, d3, depth1, box1, polygons1, cnt1, g0, e0, g1, e1,
                      g2, e2, e3, hpop, hp0, hp1, hp2, hp3, hr.symm⟩
          · exact absurd hput (by simp)

/-- The split of a node with list nodes keeps the counters in agreement
with the number of list nodes, and the payloads move as in the first
embedding. -/
theorem shares_populate_counts (h g : share_heap) (c0 c1 c2 c3 : shares.lq_quadtree_node_t)
    (depth : Int) (box : lq_rect_t) (polygons : List lq_polygon_node_t) (cnt : Int)
    (d0 d1 d2 d3 : shares.lq_quadtree_node_t) (depth1 : Int) (box1 : lq_rect_t)
    (polygons1 : List lq_polygon_node_t) (cnt1 : Int) (extra : Nat → Int)
    (hpop : shares.lq_quadtree_node_populate_children h
      (.node c0 c1 c2 c3 depth box polygons cnt) =
        some (g, .node d0 d1 d2 d3 depth1 box1 polygons1 cnt1))
    (hshape : shares.split_shape (.node c0 c1 c2 c3 depth box polygons cnt))
    (hk : counts_ok h (fun a =>
      (shares.references a (.node c0 c1 c2 c3 depth box polygons cnt) : Int) + extra a)) :
    (shares.split_shape d0 ∧ shares.split_shape d1 ∧ shares.split_shape d2 ∧
      shares.split_shape d3) ∧
    counts_ok g (fun a =>
      ((polygons1.countP (fun d => decide (d.ref_count = a)) : Nat) : Int) +
        ((shares.references a d0 : Int) + ((shares.references a d1 : Int) +
          ((shares.references a d2 : Int) + (shares.references a d3 : Int)))) +
        extra a) ∧
    lq_quadtree_node_populate_children
        (shares.payload_tree (.node c0 c1 c2 c3 depth box polygons cnt)) =
      some (.node (shares.payload_tree d0) (shares.payload_tree d1)
        (shares.payload_tree d2) (shares.payload_tree d3) depth1 box1
        (polygons1.map lq_polygon_node_t.p) cnt1) := by
  simp only [shares.split_shape] at hshape
  obtain ⟨hfirst, s0, s1, s2, s3⟩ := hshape
  rcases shares_populate_cases _ _ _ _ _ _ _ _ _ _ _ _ hpop hk with
    ⟨hc0, hg, hn⟩ | ⟨hc0, hcnt, hn, hkg⟩
  · simp only [shares.lq_quadtree_node_t.node.injEq] at hn
    obtain ⟨r0, r1, r2, r3, r4, r5, r6, r7⟩ := hn
    subst hg r0 r1 r2 r3 r4 r5 r6 r7
    refine ⟨⟨s0, s1, s2, s3⟩, counts_ok_congr _ _ _ ?_ hk, ?_⟩
    · intro a
      simp only [shares.references, Nat.cast_add]
    · simp only [shares.payload_tree]
      exact populate_children_internal _ _ _ _ _ _ _ _
        (fun hcon => hc0 ((payload_tree_eq_null _).1 hcon))
  · obtain ⟨hc1, hc2, hc3⟩ := hfirst hc0
    subst hc0 hc1 hc2 hc3
    simp only [shares.lq_quadtree_node_t.node.injEq] at hn
    obtain ⟨r0, r1, r2, r3, r4, r5, r6, r7⟩ := hn
    subst r0 r1 r2 r3 r4 r5 r6 r7
    refine ⟨by simp [shares.split_shape], counts_ok_congr _ _ _ ?_ hkg, ?_⟩
    · intro a
      simp only [shares.references, countP_reverse_ref, List.countP_nil, Nat.cast_add,
        Nat.cast_zero]
      omega
    · simp only [shares.payload_tree]
      rw [populate_children_leaf, if_pos (by simp [hcnt])]
      simp [List.map_reverse]

/-- An insertion keeps the counters in agreement with the number of list
nodes: every counter changes by the number of list nodes added for its
address.  `extra a` counts the list nodes outside the subtree, among them
the list node of the caller.  The payloads move as in the first
embedding. -/
theorem shares_put_counts (fuel : Nat) :
    ∀ (h h1 : share_heap) (node node1 : shares.lq_quadtree_node_t)
      (polygon : lq_polygon_node_t) (extra : Nat → Int),
      shares.lq_quadtree_node_put_polygon fuel h node polygon = some (h1, node1) →
      shares.split_shape node →
      counts_ok h (fun a => (shares.references a node : Int) + extra a) →
      node1 ≠ .null ∧ shares.split_shape node1 ∧
      counts_ok h1 (fun a => (shares.references a node1 : Int) + extra a) ∧
      lq_quadtree_node_put_polygon fuel (shares.payload_tree node) polygon.p =
        some (shares.payload_tree node1) := by
  induction fuel with
  | zero =>
    intro h h1 node node1 polygon extra hput
    simp [shares.lq_quadtree_node_put_polygon] at hput
  | succ fuel ih =>
    intro h h1 node node1 polygon extra hput hshape hk
    cases node with
    | null => simp [shares.lq_quadtree_node_put_polygon] at hput
    | node c0 c1 c2 c3 depth box polygons cnt =>
      obtain ⟨collision, hcol, hcase⟩ := shares_put_cases _ _ _ _ _ _ _ _ _ _ _ _ _ hput
      rcases hcase with ⟨h0, hh, hr⟩ | ⟨hne, hcond, clone, hcl, hr⟩ |
        ⟨hne, hncond, g, d0, d1, d2, d3, depth1, box1, polygons1, cnt1, g0, e0, g1, e1, g2, e2,
          e3, hpop, hp0, hp1, hp2, hp3, hr⟩
      · subst hh hr h0
        refine ⟨by simp, hshape, hk, ?_⟩
        simp only [shares.payload_tree]
        exact put_no_collision _ _ _ _ _ _ _ _ _ _ hcol
      · subst hr
        obtain ⟨hcc, hk1⟩ := clone_counts _ _ _ _ _ hcl hk
        subst hcc
        refine ⟨by simp, ?_, counts_ok_congr _ _ _ ?_ hk1, ?_⟩
        · simp only [shares.split_shape] at hshape ⊢
          exact hshape
        · intro a
          simp only [shares.references, Nat.cast_add]
          have := countP_cons_ref a clone polygons
          omega
        · simp only [shares.payload_tree, List.map_cons]
          refine put_attach _ _ _ _ _ _ _ _ _ _ collision hcol hne ?_
          rcases hcond with hc | hc | hc | ⟨hc, hrip⟩
          · exact Or.inl hc
          · exact Or.inr (Or.inl hc)
          · exact Or.inr (Or.inr (Or.inl hc))
          · exact Or.inr (Or.inr (Or.inr ⟨(payload_tree_eq_null c0).2 hc, hrip⟩))
      · subst hr
        simp only [shares.split_shape] at hshape
        obtain ⟨hfirst, s0, s1, s2, s3⟩ := hshape
        obtain ⟨⟨t0, t1, t2, t3⟩, hkg, hpopL⟩ :=
          shares_populate_counts _ _ _ _ _ _ _ _ _ _ _ _ _ _ _ _ _ _ extra hpop
            (by simp only [shares.split_shape]; exact ⟨hfirst, s0, s1, s2, s3⟩) hk
        obtain ⟨n0, u0, k0, q0⟩ := ih g g0 d0 e0 polygon
          (fun a => ((polygons1.countP (fun d => decide (d.ref_count = a)) : Nat) : Int) +
            ((shares.references a d1 : Int) + ((shares.references a d2 : Int) +
              (shares.references a d3 : Int))) + extra a)
          hp0 t0 (counts_ok_congr _ _ _ (by intro a; beta_reduce; omega) hkg)
        obtain ⟨n1, u1, k1, q1⟩ := ih g0 g1 d1 e1 polygon
          (fun a => ((polygons1.countP (fun d => decide (d.ref_count = a)) : Nat) : Int) +
            ((shares.references a e0 : Int) + ((shares.references a d2 : Int) +
              (shares.references a d3 : Int))) + extra a)
          hp1 t1 (counts_ok_congr _ _ _ (by intro a; beta_reduce; omega) k0)
        obtain ⟨n2, u2, k2, q2⟩ := ih g1 g2 d2 e2 polygon
          (fun a => ((polygons1.countP (fun d => decide (d.ref_count = a)) : Nat) : Int) +
            ((shares.references a e0 : Int) + ((shares.references a e1 : Int) +
              (shares.references a d3 : Int))) + extra a)
          hp2 t2 (counts_ok_congr _ _ _ (by intro a; beta_reduce; omega) k1)
        obtain ⟨n3, u3, k3, q3⟩ := ih g2 h1 d3 e3 polygon
          (fun a => ((polygons1.countP (fun d => decide (d.ref_count = a)) : Nat) : Int) +
            ((shares.references a e0 : Int) + ((shares.references a e1 : Int) +
              (shares.references a e2 : Int))) + extra a)
          hp3 t3 (counts_ok_congr _ _ _ (by intro a; beta_reduce; omega) k2)
        refine ⟨by simp, ?_, counts_ok_congr _ _ _ ?_ k3, ?_⟩
        · simp only [shares.split_shape]
          exact ⟨fun hcon => absurd hcon n0, u0, u1, u2, u3⟩
        · intro a
          simp only [shares.references, Nat.cast_add]
          omega
        · have hncondL : ¬ (depth = MAX_DEPTH ∨ box.width ≤ MIN_SIZE ∨ box.height ≤ MIN_SIZE ∨
              (shares.payload_tree c0 = .null ∧
                rectangle_inside_polygon box.left box.bottom box.width box.height
                  polygon.p.number_of_points polygon.p.xs polygon.p.ys = true)) := by
            intro hcon
            apply hncond
            rcases hcon with hc | hc | hc | ⟨hc, hrip⟩
            · exact Or.inl hc
            · exact Or.inr (Or.inl hc)
            · exact Or.inr (Or.inr (Or.inl hc))
            · exact Or.inr (Or.inr (Or.inr ⟨(payload_tree_eq_null c0).1 hc, hrip⟩))
          simp only [shares.payload_tree] at hpopL ⊢
          exact put_descend _ _ _ _ _ _ _ _ _ _ collision _ _ _ _ _ _ _ _ _ _ _ _ hcol hne
            hncondL hpopL q0 q1 q2 q3

theorem shares_remove_loop_counts (id : Int) (cells : List lq_polygon_node_t) :
    ∀ (h h1 : share_heap) (cnt cnt1 : Int) (l1 : List lq_polygon_node_t) (total : Nat → Int),
      shares.remove_loop id h cells cnt = some (h1, l1, cnt1) → counts_ok h total →
      counts_ok h1 (fun a => total a -
        (cells.countP (fun d => decide (d.ref_count = a)) : Int) +
        (l1.countP (fun d => decide (d.ref_count = a)) : Int)) ∧
      remove_loop id (cells.map lq_polygon_node_t.p) cnt =
        (l1.map lq_polygon_node_t.p, cnt1) := by
  induction cells with
  | nil =>
    intro h h1 cnt cnt1 l1 total hr hk
    simp only [shares.remove_loop, Option.some.injEq, Prod.mk.injEq] at hr
    obtain ⟨hh, hl, hc⟩ := hr
    subst hh hl hc
    exact ⟨counts_ok_congr _ _ _ (by simp) hk, by simp [remove_loop]⟩
  | cons c rest ih =>
    intro h h1 cnt cnt1 l1 total hr hk
    simp only [shares.remove_loop] at hr
    by_cases hid : c.p.id = id
    · simp only [hid, if_true] at hr
      cases hf : shares.lq_polygon_node_free h c with
      | none => simp [hf] at hr
      | some h2 =>
        simp only [hf] at hr
        have hk2 := free_counts _ _ _ total hf hk
        obtain ⟨hk3, hsim⟩ := ih _ _ _ _ _ _ hr hk2
        refine ⟨counts_ok_congr _ _ _ ?_ hk3, ?_⟩
        · intro a
          rw [countP_cons_ref]
          omega
        · simp only [List.map_cons, remove_loop, hid, if_true]
          exact hsim
    · simp only [hid, if_false] at hr
      cases hrec : shares.remove_loop id h rest cnt with
      | none => simp [hrec] at hr
      | some r =>
        obtain ⟨h2, l2, c2⟩ := r
        simp only [hrec, Option.some.injEq, Prod.mk.injEq] at hr
        obtain ⟨hh, hl, hc⟩ := hr
        subst hh hl hc
        obtain ⟨hk3, hsim⟩ := ih _ _ _ _ _ _ hrec hk
        refine ⟨counts_ok_congr _ _ _ ?_ hk3, ?_⟩
        · intro a
          rw [countP_cons_ref, countP_cons_ref]
          omega
        · simp only [List.map_cons, remove_loop, hid, if_false, hsim]

/-- A removal keeps the counters in agreement with the number of list
nodes, and the payloads move as in the first embedding. -/
theorem shares_remove_counts (id : Int) : ∀ (node : shares.lq_quadtree_node_t)
    (h h1 : share_heap) (node1 : shares.lq_quadtree_node_t) (extra : Nat → Int),
    shares.lq_quadtree_node_remove h node id = some (h1, node1) →
    shares.split_shape node →
    counts_ok h (fun a => (shares.references a node : Int) + extra a) →
    (node1 = .null ↔ node = .null) ∧ shares.split_shape node1 ∧
    counts_ok h1 (fun a => (shares.references a node1 : Int) + extra a) ∧
    lq_quadtree_node_remove (shares.payload_tree node) id = shares.payload_tree node1 := by
  intro node
  induction node with
  | null =>
    intro h h1 node1 extra hr _ hk
    simp only [shares.lq_quadtree_node_remove, Option.some.injEq, Prod.mk.injEq] at hr
    obtain ⟨hh, hn⟩ := hr
    subst hh hn
    exact ⟨by simp, by simp [shares.split_shape], hk,
      by simp [shares.payload_tree, lq_quadtree_node_remove]⟩
  | node c0 c1 c2 c3 depth box polygons cnt ih0 ih1 ih2 ih3 =>
    intro h h1 node1 extra hr hshape hk
    simp only [shares.split_shape] at hshape
    obtain ⟨hfirst, s0, s1, s2, s3⟩ := hshape
    rw [shares.lq_quadtree_node_remove] at hr
    cases hr0 : shares.lq_quadtree_node_remove h c0 id with
    | none => simp [hr0] at hr
    | some x0 =>
      obtain ⟨g0, r0⟩ := x0
      simp only [hr0] at hr
      cases hr1 : shares.lq_quadtree_node_remove g0 c1 id with
      | none => simp [hr1] at hr
      | some x1 =>
        obtain ⟨g1, r1⟩ := x1
        simp only [hr1] at hr
        cases hr2 : shares.lq_quadtree_node_remove g1 c2 id with
        | none => simp [hr2] at hr
        | some x2 =>
          obtain ⟨g2, r2⟩ := x2
          simp only [hr2] at hr
          cases hr3 : shares.lq_quadtree_node_remove g2 c3 id with
          | none => simp [hr3] at hr
          | some x3 =>
            obtain ⟨g3, r3⟩ := x3
            simp only [hr3] at hr
            cases hrl : shares.remove_loop id g3 polygons cnt with
            | none => simp [hrl] at hr
            | some xl =>
              obtain ⟨g4, l, cnt1⟩ := xl
              simp only [hrl, Option.some.injEq, Prod.mk.injEq] at hr
              obtain ⟨hh, hn⟩ := hr
              subst hh hn
              obtain ⟨n0, u0, k0, q0⟩ := ih0 h g0 r0
                (fun a => ((polygons.countP (fun d => decide (d.ref_count = a)) : Nat) : Int) +
                  ((shares.references a c1 : Int) + ((shares.references a c2 : Int) +
                    (shares.references a c3 : Int))) + extra a)
                hr0 s0 (counts_ok_congr _ _ _
                  (by intro a; simp only [shares.references, Nat.cast_add]; omega) hk)
              obtain ⟨n1, u1, k1, q1⟩ := ih1 g0 g1 r1
                (fun a => ((polygons.countP (fun d => decide (d.ref_count = a)) : Nat) : Int) +
                  ((shares.references a r0 : Int) + ((shares.references a c2 : Int) +
                    (shares.references a c3 : Int))) + extra a)
                hr1 s1 (counts_ok_congr _ _ _ (by intro a; beta_reduce; omega) k0)
              obtain ⟨n2, u2, k2, q2⟩ := ih2 g1 g2 r2
                (fun a => ((polygons.countP (fun d => decide (d.ref_count = a)) : Nat) : Int) +
                  ((shares.references a r0 : Int) + ((shares.references a r1 : Int) +
                    (shares.references a c3 : Int))) + extra a)
                hr2 s2 (counts_ok_congr _ _ _ (by intro a; beta_reduce; omega) k1)
              obtain ⟨n3, u3, k3, q3⟩ := ih3 g2 g3 r3
                (fun a => ((polygons.countP (fun d => decide (d.ref_count = a)) : Nat) : Int) +
                  ((shares.references a r0 : Int) + ((shares.references a r1 : Int) +
                    (shares.references a r2 : Int))) + extra a)
                hr3 s3 (counts_ok_congr _ _ _ (by intro a; beta_reduce; omega) k2)
              obtain ⟨k4, qL⟩ := shares_remove_loop_counts id polygons _ _ _ _ _ _ hrl k3
              refine ⟨by simp, ?_, counts_ok_congr _ _ _ ?_ k4, ?_⟩
              · simp only [shares.split_shape]
                refine ⟨?_, u0, u1, u2, u3⟩
                intro hz
                obtain ⟨z1, z2, z3⟩ := hfirst (n0.1 hz)
                exact ⟨n1.2 z1, n2.2 z2, n3.2 z3⟩
              · intro a
                simp only [shares.references, Nat.cast_add]
                omega
              · simp only [shares.payload_tree]
                rw [lq_quadtree_node_remove]
                simp only [q0, q1, q2, q3, qL]

theorem shares_put_fuel_eq (node : shares.lq_quadtree_node_t) :
    shares.put_fuel node = put_fuel (shares.payload_tree node) := by
  induction node with
  | null => rfl
  | node c0 c1 c2 c3 depth box polygons cnt ih0 ih1 ih2 ih3 =>
    simp only [shares.put_fuel, shares.payload_tree, put_fuel, ih0, ih1, ih2, ih3]

/-- A call of `quadtree_add` keeps the counters in agreement with the number
of list nodes in the tree, and the tree of payloads changes as in the first
embedding. -/
theorem shares_add_counts (h h1 : share_heap) (qt qt1 : shares.lq_quadtree_t) (id n : Int)
    (xs ys : List Int) (code : Int)
    (hadd : shares.quadtree_add h qt id n xs ys = some (code, h1, qt1))
    (hshape : shares.split_shape qt.root)
    (hk : counts_ok h (fun a => (shares.references a qt.root : Int))) :
    shares.split_shape qt1.root ∧
    counts_ok h1 (fun a => (shares.references a qt1.root : Int)) ∧
    quadtree_add ⟨shares.payload_tree qt.root⟩ id n xs ys =
      some (code, ⟨shares.payload_tree qt1.root⟩) := by
  obtain ⟨root⟩ := qt
  unfold shares.quadtree_add at hadd
  cases root with
  | null => simp at hadd
  | node c0 c1 c2 c3 depth box polygons cnt =>
    simp only at hadd hshape hk
    unfold quadtree_add
    simp only [shares.payload_tree]
    by_cases hb : add_out_of_bounds box xs ys (List.range n.toNat) = true
    · simp only [hb, if_true, Option.some.injEq, Prod.mk.injEq] at hadd ⊢
      obtain ⟨hc, hh, hq⟩ := hadd
      subst hc hh hq
      exact ⟨hshape, hk, by simp [shares.payload_tree]⟩
    · simp only [hb, Bool.false_eq_true, if_false] at hadd ⊢
      cases hnew : lq_polygon_node_new id n xs ys with
      | none => simp [hnew] at hadd
      | some p =>
        simp only [hnew] at hadd ⊢
        have hk1 : counts_ok
            ⟨fun b => if b = h.next then some 1 else h.counter b, h.next + 1⟩
            (fun a => (shares.references a (.node c0 c1 c2 c3 depth box polygons cnt) : Int) +
              (if a = (⟨p, h.next⟩ : lq_polygon_node_t).ref_count then 1 else 0)) := by
          refine ⟨fun a => ?_, fun a hle => ?_⟩
          · by_cases ha : a = h.next
            · subst ha
              have hz := (hk.1 h.next).1 (hk.2 _ (le_refl _))
              beta_reduce at hz
              simp only [if_true]
              refine ⟨by simp, ?_⟩
              intro k hk'
              simp only [Option.some.injEq] at hk'
              omega
            · simp only [if_neg ha, add_zero]
              exact hk.1 a
          · simp only at hle
            have ha : a ≠ h.next := by omega
            simp only [if_neg ha]
            exact hk.2 a (by omega)
        cases hput : shares.lq_quadtree_node_put_polygon
            (shares.put_fuel (.node c0 c1 c2 c3 depth box polygons cnt))
            ⟨fun b => if b = h.next then some 1 else h.counter b, h.next + 1⟩
            (.node c0 c1 c2 c3 depth box polygons cnt) ⟨p, h.next⟩ with
        | none => simp [hput] at hadd
        | some r =>
          obtain ⟨h2, root1⟩ := r
          simp only [hput] at hadd
          obtain ⟨-, hs1, hk2, hsim⟩ := shares_put_counts _ _ _ _ _ _ _ hput hshape hk1
          cases hfree : shares.lq_polygon_node_free h2 ⟨p, h.next⟩ with
          | none => simp [hfree] at hadd
          | some h3 =>
            simp only [hfree, Option.some.injEq, Prod.mk.injEq] at hadd
            obtain ⟨hc, hh, hq⟩ := hadd
            subst hc hh hq
            have hk3 := free_counts _ _ _ _ hfree hk2
            rw [shares_put_fuel_eq] at hsim
            simp only [shares.payload_tree] at hsim
            refine ⟨hs1, counts_ok_congr _ _ _ (by intro a; simp only; omega) hk3, ?_⟩
            simp only [hsim]

theorem clone_total (h : share_heap) (c : lq_polygon_node_t) (total : Nat → Int)
    (hk : counts_ok h total) (hpos : 0 < total c.ref_count) :
    ∃ h1, shares.lq_polygon_node_clone h c = some (h1, c) := by
  cases hc : h.counter c.ref_count with
  | none =>
    have := (hk.1 c.ref_count).1 hc
    omega
  | some k =>
    exact ⟨h.store c.ref_count (some (k + 1)), by simp [shares.lq_polygon_node_clone, hc]⟩

theorem free_total (h : share_heap) (c : lq_polygon_node_t) (total : Nat → Int)
    (hk : counts_ok h total) (hpos : 0 < total c.ref_count) :
    ∃ h1, shares.lq_polygon_node_free h c = some h1 := by
  cases hc : h.counter c.ref_count with
  | none =>
    have := (hk.1 c.ref_count).1 hc
    omega
  | some k =>
    by_cases hz : k - 1 = 0
    · exact ⟨h.store c.ref_count none, by simp [shares.lq_polygon_node_free, hc, hz]⟩
    · exact ⟨h.store c.ref_count (some (k - 1)),
        by simp [shares.lq_polygon_node_free, hc, hz]⟩

theorem countP_ref_pos (c : lq_polygon_node_t) (l : List lq_polygon_node_t) (hc : c ∈ l) :
    (0 : Int) < (l.countP (fun d => decide (d.ref_count = c.ref_count)) : Int) := by
  have : 0 < l.countP (fun d => decide (d.ref_count = c.ref_count)) :=
    List.countP_pos_iff.2 ⟨c, hc, by simp⟩
  exact_mod_cast this

theorem add_polygons_total (cells : List lq_polygon_node_t) :
    ∀ (h : share_heap) (c0 c1 c2 c3 : shares.lq_quadtree_node_t) (depth : Int)
      (box : lq_rect_t) (polygons : List lq_polygon_node_t) (cnt : Int) (total : Nat → Int),
      counts_ok h total → (∀ c ∈ cells, 0 < total c.ref_count) →
      ∃ r, shares.lq_quadtree_node_add_polygons h (.node c0 c1 c2 c3 depth box polygons cnt)
        cells = some r := by
  induction cells with
  | nil =>
    intro h c0 c1 c2 c3 depth box polygons cnt total _ _
    exact ⟨(h, .node c0 c1 c2 c3 depth box polygons cnt),
      by simp [shares.lq_quadtree_node_add_polygons]⟩
  | cons c rest ih =>
    intro h c0 c1 c2 c3 depth box polygons cnt total hk hpos
    obtain ⟨h1, hcl⟩ := clone_total h c total hk (hpos c (by simp))
    obtain ⟨-, hk1⟩ := clone_counts _ _ _ _ total hcl hk
    have hpos1 : ∀ d ∈ rest,
        0 < (fun a => total a + if a = c.ref_count then 1 else 0) d.ref_count := by
      intro d hd
      have := hpos d (by simp [hd])
      beta_reduce
      split_ifs <;> omega
    obtain ⟨r, hr⟩ := ih h1 c0 c1 c2 c3 depth box (c :: polygons) (cnt + 1) _ hk1 hpos1
    exact ⟨r, by simp only [shares.lq_quadtree_node_add_polygons, hcl,
      shares.lq_quadtree_node_add_polygon, hr]⟩

/-- One round of cloning a list into a fresh child. -/
theorem add_polygons_round (h : share_heap) (depth : Int) (box : lq_rect_t)
    (polygons : List lq_polygon_node_t) (total : Nat → Int) (hk : counts_ok h total)
    (hle : ∀ a : Nat, (polygons.countP (fun d => decide (d.ref_count = a)) : Int) ≤ total a) :
    ∃ g n, shares.lq_quadtree_node_add_polygons h
        (.node .null .null .null .null depth box [] 0) polygons = some (g, n) ∧
      counts_ok g (fun a => total a +
        (polygons.countP (fun d => decide (d.ref_count = a)) : Int)) := by
  have hpos : ∀ c ∈ polygons, 0 < total c.ref_count := by
    intro c hcm
    have h1 := hle c.ref_count
    have h2 := countP_ref_pos c polygons hcm
    omega
  obtain ⟨⟨g, n⟩, ha⟩ := add_polygons_total polygons h .null .null .null .null depth box [] 0
    total hk hpos
  exact ⟨g, n, ha, (add_polygons_counts _ _ _ _ _ _ _ _ _ _ _ _ total ha hk).2⟩

theorem clear_loop_total (cells : List lq_polygon_node_t) :
    ∀ (h : share_heap) (total : Nat → Int), counts_ok h total →
      (∀ a : Nat, (cells.countP (fun d => decide (d.ref_count = a)) : Int) ≤ total a) →
      ∃ h1, shares.clear_loop h cells = some h1 := by
  induction cells with
  | nil => intro h total _ _; exact ⟨h, rfl⟩
  | cons c rest ih =>
    intro h total hk hle
    have hpos : 0 < total c.ref_count := by
      have h1 := hle c.ref_count
      have h2 := countP_ref_pos c (c :: rest) (by simp)
      omega
    obtain ⟨h1, hf⟩ := free_total h c total hk hpos
    have hk1 := free_counts _ _ _ total hf hk
    obtain ⟨h2, hr⟩ := ih h1 _ hk1 (by
      intro a
      have := hle a
      rw [countP_cons_ref] at this
      omega)
    exact ⟨h2, by simp only [shares.clear_loop, hf, hr]⟩

/-- The split of a node returns when the counters agree with a count that
includes the list nodes of the node and the counter `number_of_polygons` is
the length of its list. -/
theorem shares_populate_total (h : share_heap) (c0 c1 c2 c3 : shares.lq_quadtree_node_t)
    (depth : Int) (box : lq_rect_t) (polygons : List lq_polygon_node_t) (cnt : Int)
    (total : Nat → Int) (hk : counts_ok h total)
    (hle : ∀ a : Nat, (polygons.countP (fun d => decide (d.ref_count = a)) : Int) ≤ total a)
    (hcnt : c0 = .null → cnt = (polygons.length : Int)) :
    ∃ g d0 d1 d2 d3 depth1 box1 polygons1 cnt1,
      shares.lq_quadtree_node_populate_children h (.node c0 c1 c2 c3 depth box polygons cnt)
        = some (g, .node d0 d1 d2 d3 depth1 box1 polygons1 cnt1) := by
  by_cases hc : c0 = .null
  · unfold shares.lq_quadtree_node_populate_children
    simp only [hc, ne_eq, not_true_eq_false, if_false, shares.lq_quadtree_node_new]
    obtain ⟨g0, n0, ha0, k0⟩ := add_polygons_round h (depth + 1)
      ⟨box.bottom + Int.tdiv box.height 2, box.left + Int.tdiv box.width 2,
        Int.tdiv box.height 2, Int.tdiv box.width 2⟩ polygons total hk hle
    obtain ⟨g1, n1, ha1, k1⟩ := add_polygons_round g0 (depth + 1)
      ⟨box.bottom + Int.tdiv box.height 2, box.left,
        Int.tdiv box.height 2, Int.tdiv box.width 2⟩ polygons _ k0
      (fun a => by have := hle a; omega)
    obtain ⟨g2, n2, ha2, k2⟩ := add_polygons_round g1 (depth + 1)
      ⟨box.bottom, box.left, Int.tdiv box.height 2, Int.tdiv box.width 2⟩ polygons _ k1
      (fun a => by have := hle a; omega)
    obtain ⟨g3, n3, ha3, k3⟩ := add_polygons_round g2 (depth + 1)
      ⟨box.bottom, box.left + Int.tdiv box.width 2,
        Int.tdiv box.height 2, Int.tdiv box.width 2⟩ polygons _ k2
      (fun a => by have := hle a; omega)
    obtain ⟨g4, hcl⟩ := clear_loop_total polygons g3 _ k3
      (fun a => by have := hle a; omega)
    simp only [ha0, ha1, ha2, ha3, shares.lq_quadtree_node_clear_polygons, hcl, hcnt hc,
      if_true]
    exact ⟨_, _, _, _, _, _, _, _, _, rfl⟩
  · exact ⟨h, c0, c1, c2, c3, depth, box, polygons, cnt,
      by simp [shares.lq_quadtree_node_populate_children, hc]⟩

theorem shares_put_no_collision (fuel : Nat) (h : share_heap)
    (c0 c1 c2 c3 : shares.lq_quadtree_node_t) (depth : Int) (box : lq_rect_t)
    (polygons : List lq_polygon_node_t) (cnt : Int) (polygon : lq_polygon_node_t)
    (hcol : collide_polygon_rectangle polygon.p.number_of_points polygon.p.xs polygon.p.ys
      box.left box.bottom box.width box.height = some 0) :
    shares.lq_quadtree_node_put_polygon (fuel + 1) h
      (.node c0 c1 c2 c3 depth box polygons cnt) polygon =
        some (h, .node c0 c1 c2 c3 depth box polygons cnt) := by
  rw [shares.lq_quadtree_node_put_polygon]
  simp only [hcol, if_true]

theorem shares_put_attach (fuel : Nat) (h h1 : share_heap)
    (c0 c1 c2 c3 : shares.lq_quadtree_node_t) (depth : Int) (box : lq_rect_t)
    (polygons : List lq_polygon_node_t) (cnt : Int) (polygon : lq_polygon_node_t)
    (collision : Int)
    (hcol : collide_polygon_rectangle polygon.p.number_of_points polygon.p.xs polygon.p.ys
      box.left box.bottom box.width box.height = some collision)
    (hne : collision ≠ 0)
    (hcond : depth = MAX_DEPTH ∨ box.width ≤ MIN_SIZE ∨ box.height ≤ MIN_SIZE ∨
      (c0 = .null ∧ rectangle_inside_polygon box.left box.bottom box.width box.height
        polygon.p.number_of_points polygon.p.xs polygon.p.ys = true))
    (hcl : shares.lq_polygon_node_clone h polygon = some (h1, polygon)) :
    shares.lq_quadtree_node_put_polygon (fuel + 1) h
      (.node c0 c1 c2 c3 depth box polygons cnt) polygon =
        some (h1, .node c0 c1 c2 c3 depth box (polygon :: polygons) (cnt + 1)) := by
  have hc : (decide (depth = MAX_DEPTH) || decide (box.width ≤ MIN_SIZE) ||
      decide (box.height ≤ MIN_SIZE) ||
      (decide (c0 = .null) && rectangle_inside_polygon box.left box.bottom box.width
        box.height polygon.p.number_of_points polygon.p.xs polygon.p.ys)) = true := by
    simpa [Bool.or_eq_true, Bool.and_eq_true, decide_eq_true_eq, or_assoc] using hcond
  rw [shares.lq_quadtree_node_put_polygon]
  simp only [hcol, hne, if_false, hc, if_true, hcl, shares.lq_quadtree_node_add_polygon]

theorem shares_put_descend (fuel : Nat) (h g g0 g1 g2 g3 : share_heap)
    (c0 c1 c2 c3 : shares.lq_quadtree_node_t) (depth : Int) (box : lq_rect_t)
    (polygons : List lq_polygon_node_t) (cnt : Int) (polygon : lq_polygon_node_t)
    (collision : Int) (d0 d1 d2 d3 : shares.lq_quadtree_node_t) (depth1 : Int)
    (box1 : lq_rect_t) (polygons1 : List lq_polygon_node_t) (cnt1 : Int)
    (e0 e1 e2 e3 : shares.lq_quadtree_node_t)
    (hcol : collide_polygon_rectangle polygon.p.number_of_points polygon.p.xs polygon.p.ys
      box.left box.bottom box.width box.height = some collision)
    (hne : collision ≠ 0)
    (hncond : ¬ (depth = MAX_DEPTH ∨ box.width ≤ MIN_SIZE ∨ box.height ≤ MIN_SIZE ∨
      (c0 = .null ∧ rectangle_inside_polygon box.left box.bottom box.width box.height
        polygon.p.number_of_points polygon.p.xs polygon.p.ys = true)))
    (hpop : shares.lq_quadtree_node_populate_children h
      (.node c0 c1 c2 c3 depth box polygons cnt)
      = some (g, .node d0 d1 d2 d3 depth1 box1 polygons1 cnt1))
    (hp0 : shares.lq_quadtree_node_put_polygon fuel g d0 polygon = some (g0, e0))
    (hp1 : shares.lq_quadtree_node_put_polygon fuel g0 d1 polygon = some (g1, e1))
    (hp2 : shares.lq_quadtree_node_put_polygon fuel g1 d2 polygon = some (g2, e2))
    (hp3 : shares.lq_quadtree_node_put_polygon fuel g2 d3 polygon = some (g3, e3)) :
    shares.lq_quadtree_node_put_polygon (fuel + 1) h
      (.node c0 c1 c2 c3 depth box polygons cnt) polygon =
        some (g3, .node e0 e1 e2 e3 depth1 box1 polygons1 cnt1) := by
  have hc : (decide (depth = MAX_DEPTH) || decide (box.width ≤ MIN_SIZE) ||
      decide (box.height ≤ MIN_SIZE) ||
      (decide (c0 = .null) && rectangle_inside_polygon box.left box.bottom box.width
        box.height polygon.p.number_of_points polygon.p.xs polygon.p.ys)) = false := by
    rw [← Bool.not_eq_true]
    intro hcon
    apply hncond
    simpa [Bool.or_eq_true, Bool.and_eq_true, decide_eq_true_eq, or_assoc] using hcon
  rw [shares.lq_quadtree_node_put_polygon]
  simp only [hcol, hne, if_false, hc, Bool.false_eq_true, hpop, hp0, hp1, hp2, hp3]

theorem references_nonneg_list (a : Nat) (c0 c1 c2 c3 : shares.lq_quadtree_node_t)
    (depth : Int) (box : lq_rect_t) (polygons : List lq_polygon_node_t) (cnt : Int) :
    ((polygons.countP (fun d => decide (d.ref_count = a)) : Nat) : Int) ≤
      (shares.references a (.node c0 c1 c2 c3 depth box polygons cnt) : Int) := by
  simp only [shares.references, Nat.cast_add]
  omega

/-- An insertion on list nodes returns whenever the insertion of the first
embedding returns on the tree of payloads, the counters agree with the
number of list nodes and the caller holds a list node of the polygon. -/
theorem shares_put_total (fuel : Nat) :
    ∀ (h : share_heap) (node : shares.lq_quadtree_node_t) (polygon : lq_polygon_node_t)
      (extra : Nat → Int) (r : lq_quadtree_node_t),
      shares.split_shape node →
      counts_ok h (fun a => (shares.references a node : Int) + extra a) →
      (∀ a, 0 ≤ extra a) → 0 < extra polygon.ref_count →
      lq_quadtree_node_put_polygon fuel (shares.payload_tree node) polygon.p = some r →
      ∃ x, shares.lq_quadtree_node_put_polygon fuel h node polygon = some x := by
  induction fuel with
  | zero =>
    intro h node polygon extra r _ _ _ _ hput
    simp [lq_quadtree_node_put_polygon] at hput
  | succ fuel ih =>
    intro h node polygon extra r hshape hk hex hpos hput
    cases node with
    | null => simp [shares.payload_tree, lq_quadtree_node_put_polygon] at hput
    | node c0 c1 c2 c3 depth box polygons cnt =>
      simp only [shares.payload_tree] at hput
      obtain ⟨collision, hcol, hcase⟩ := put_cases _ _ _ _ _ _ _ _ _ _ _ hput
      rcases hcase with ⟨h0, -⟩ | ⟨hne, hcond, -⟩ | ⟨hne, hncond, d0, d1, d2, d3, depth1, box1,
        polygons1, cnt1, e0, e1, e2, e3, hpop, hp0, hp1, hp2, hp3, -⟩
      · subst h0
        exact ⟨_, shares_put_no_collision _ _ _ _ _ _ _ _ _ _ _ hcol⟩
      · have hcond1 : depth = MAX_DEPTH ∨ box.width ≤ MIN_SIZE ∨ box.height ≤ MIN_SIZE ∨
            (c0 = .null ∧ rectangle_inside_polygon box.left box.bottom box.width box.height
              polygon.p.number_of_points polygon.p.xs polygon.p.ys = true) := by
          rcases hcond with hc | hc | hc | ⟨hc, hrip⟩
          · exact Or.inl hc
          · exact Or.inr (Or.inl hc)
          · exact Or.inr (Or.inr (Or.inl hc))
          · exact Or.inr (Or.inr (Or.inr ⟨(payload_tree_eq_null c0).1 hc, hrip⟩))
        obtain ⟨h1, hcl⟩ := clone_total h polygon _ hk (by
          have := hex polygon.ref_count
          omega)
        exact ⟨_, shares_put_attach _ _ _ _ _ _ _ _ _ _ _ _ collision hcol hne hcond1 hcl⟩
      · have hncond1 : ¬ (depth = MAX_DEPTH ∨ box.width ≤ MIN_SIZE ∨ box.height ≤ MIN_SIZE ∨
            (c0 = .null ∧ rectangle_inside_polygon box.left box.bottom box.width box.height
              polygon.p.number_of_points polygon.p.xs polygon.p.ys = true)) := by
          intro hcon
          apply hncond
          rcases hcon with hc | hc | hc | ⟨hc, hrip⟩
          · exact Or.inl hc
          · exact Or.inr (Or.inl hc)
          · exact Or.inr (Or.inr (Or.inl hc))
          · exact Or.inr (Or.inr (Or.inr ⟨(payload_tree_eq_null c0).2 hc, hrip⟩))
        have hcnt : c0 = .null → cnt = (polygons.length : Int) := by
          intro hc
          obtain ⟨-, -, hcs⟩ := populate_children_cases _ _ _ _ _ _ _ _ _ _ _ _ _ _ _ _ hpop
          rcases hcs with ⟨hnn, -⟩ | ⟨-, hl, -⟩
          · exact absurd ((payload_tree_eq_null c0).2 hc) hnn
          · simpa using hl
        obtain ⟨g, f0, f1, f2, f3, fdepth, fbox, fpolygons, fcnt, hpopS⟩ :=
          shares_populate_total h c0 c1 c2 c3 depth box polygons cnt _ hk
            (fun a => by
              have h1 := references_nonneg_list a c0 c1 c2 c3 depth box polygons cnt
              have h2 := hex a
              omega) hcnt
        obtain ⟨⟨t0, t1, t2, t3⟩, hkg, hpopL⟩ :=
          shares_populate_counts _ _ _ _ _ _ _ _ _ _ _ _ _ _ _ _ _ _ extra hpopS hshape hk
        simp only [shares.payload_tree] at hpopL
        rw [hpop] at hpopL
        simp only [Option.some.injEq, lq_quadtree_node_t.node.injEq] at hpopL
        obtain ⟨r0, r1, r2, r3, -, -, -, -⟩ := hpopL
        subst r0 r1 r2 r3
        have nn : ∀ (a : Nat) (n : shares.lq_quadtree_node_t),
            (0 : Int) ≤ (shares.references a n : Int) := fun a n => Int.natCast_nonneg _
        have nl : ∀ (a : Nat), (0 : Int) ≤
            ((fpolygons.countP (fun d => decide (d.ref_count = a)) : Nat) : Int) :=
          fun a => Int.natCast_nonneg _
        obtain ⟨⟨g0, x0⟩, hs0⟩ := ih g f0 polygon
          (fun a => ((fpolygons.countP (fun d => decide (d.ref_count = a)) : Nat) : Int) +
            ((shares.references a f1 : Int) + ((shares.references a f2 : Int) +
              (shares.references a f3 : Int))) + extra a) e0 t0
          (counts_ok_congr _ _ _ (by intro a; beta_reduce; omega) hkg)
          (fun a => by
            have := hex a; have := nl a; have := nn a f1; have := nn a f2; have := nn a f3
            beta_reduce; omega)
          (by
            have := nl polygon.ref_count; have := nn polygon.ref_count f1
            have := nn polygon.ref_count f2; have := nn polygon.ref_count f3
            beta_reduce; omega) hp0
        obtain ⟨-, u0, k0, q0⟩ := shares_put_counts _ _ _ _ _ _
          (fun a => ((fpolygons.countP (fun d => decide (d.ref_count = a)) : Nat) : Int) +
            ((shares.references a f1 : Int) + ((shares.references a f2 : Int) +
              (shares.references a f3 : Int))) + extra a) hs0 t0
          (counts_ok_congr _ _ _ (by intro a; beta_reduce; omega) hkg)
        obtain ⟨⟨g1, x1⟩, hs1⟩ := ih g0 f1 polygon
          (fun a => ((fpolygons.countP (fun d => decide (d.ref_count = a)) : Nat) : Int) +
            ((shares.references a x0 : Int) + ((shares.references a f2 : Int) +
              (shares.references a f3 : Int))) + extra a) e1 t1
          (counts_ok_congr _ _ _ (by intro a; beta_reduce; omega) k0)
          (fun a => by
            have := hex a; have := nl a; have := nn a x0; have := nn a f2; have := nn a f3
            beta_reduce; omega)
          (by
            have := nl polygon.ref_count; have := nn polygon.ref_count x0
            have := nn polygon.ref_count f2; have := nn polygon.ref_count f3
            beta_reduce; omega) hp1
        obtain ⟨-, u1, k1, q1⟩ := shares_put_counts _ _ _ _ _ _
          (fun a => ((fpolygons.countP (fun d => decide (d.ref_count = a)) : Nat) : Int) +
            ((shares.references a x0 : Int) + ((shares.references a f2 : Int) +
              (shares.references a f3 : Int))) + extra a) hs1 t1
          (counts_ok_congr _ _ _ (by intro a; beta_reduce; omega) k0)
        obtain ⟨⟨g2, x2⟩, hs2⟩ := ih g1 f2 polygon
          (fun a => ((fpolygons.countP (fun d => decide (d.ref_count = a)) : Nat) : Int) +
            ((shares.references a x0 : Int) + ((shares.references a x1 : Int) +
              (shares.references a f3 : Int))) + extra a) e2 t2
          (counts_ok_congr _ _ _ (by intro a; beta_reduce; omega) k1)
          (fun a => by
            have := hex a; have := nl a; have := nn a x0; have := nn a x1; have := nn a f3
            beta_reduce; omega)
          (by
            have := nl polygon.ref_count; have := nn polygon.ref_count x0
            have := nn polygon.ref_count x1; have := nn polygon.ref_count f3
            beta_reduce; omega) hp2
        obtain ⟨-, u2, k2, q2⟩ := shares_put_counts _ _ _ _ _ _
          (fun a => ((fpolygons.countP (fun d => decide (d.ref_count = a)) : Nat) : Int) +
            ((shares.references a x0 : Int) + ((shares.references a x1 : Int) +
              (shares.references a f3 : Int))) + extra a) hs2 t2
          (counts_ok_congr _ _ _ (by intro a; beta_reduce; omega) k1)
        obtain ⟨⟨g3, x3⟩, hs3⟩ := ih g2 f3 polygon
          (fun a => ((fpolygons.countP (fun d => decide (d.ref_count = a)) : Nat) : Int) +
            ((shares.references a x0 : Int) + ((shares.references a x1 : Int) +
              (shares.references a x2 : Int))) + extra a) e3 t3
          (counts_ok_congr _ _ _ (by intro a; beta_reduce; omega) k2)
          (fun a => by
            have := hex a; have := nl a; have := nn a x0; have := nn a x1; have := nn a x2
            beta_reduce; omega)
          (by
            have := nl polygon.ref_count; have := nn polygon.ref_count x0
            have := nn polygon.ref_count x1; have := nn polygon.ref_count x2
            beta_reduce; omega) hp3
        exact ⟨_, shares_put_descend _ _ _ _ _ _ _ _ _ _ _ _ _ _ _ _ collision _ _ _ _ _ _ _ _
          _ _ _ _ hcol hne hncond1 hpopS hs0 hs1 hs2 hs3⟩

theorem shares_remove_loop_total (id : Int) (cells : List lq_polygon_node_t) :
    ∀ (h : share_heap) (cnt : Int) (total : Nat → Int), counts_ok h total →
      (∀ a, ((cells.countP (fun d => decide (d.ref_count = a)) : Nat) : Int) ≤ total a) →
      ∃ x, shares.remove_loop id h cells cnt = some x := by
  induction cells with
  | nil =>
    intro h cnt total _ _
    exact ⟨_, rfl⟩
  | cons c rest ih =>
    intro h cnt total hk hle
    have hc := hle c.ref_count
    rw [countP_cons_ref] at hc
    simp only [if_true] at hc
    have hnn : (0 : Int) ≤ ((rest.countP (fun d => decide (d.ref_count = c.ref_count)) : Nat) :
        Int) := Int.natCast_nonneg _
    by_cases hid : c.p.id = id
    · obtain ⟨h2, hf⟩ := free_total h c total hk (by omega)
      have hk2 := free_counts _ _ _ total hf hk
      obtain ⟨x, hx⟩ := ih h2 (cnt - 1) _ hk2 (fun a => by
        have := hle a
        rw [countP_cons_ref] at this
        omega)
      exact ⟨x, by simp only [shares.remove_loop, hid, if_true, hf, hx]⟩
    · obtain ⟨⟨h1, r, cnt1⟩, hx⟩ := ih h cnt total hk (fun a => by
        have := hle a
        rw [countP_cons_ref] at this
        split_ifs at this <;> omega)
      exact ⟨(h1, c :: r, cnt1), by simp only [shares.remove_loop, hid, if_false, hx]⟩

/-- A removal on list nodes returns whenever the counters agree with the
number of list nodes. -/
theorem shares_remove_total (id : Int) : ∀ (node : shares.lq_quadtree_node_t)
    (h : share_heap) (extra : Nat → Int),
    shares.split_shape node →
    counts_ok h (fun a => (shares.references a node : Int) + extra a) →
    (∀ a, 0 ≤ extra a) →
    ∃ x, shares.lq_quadtree_node_remove h node id = some x := by
  intro node
  induction node with
  | null =>
    intro h extra _ _ _
    exact ⟨_, rfl⟩
  | node c0 c1 c2 c3 depth box polygons cnt ih0 ih1 ih2 ih3 =>
    intro h extra hshape hk hex
    simp only [shares.split_shape] at hshape
    obtain ⟨-, s0, s1, s2, s3⟩ := hshape
    have nn : ∀ (a : Nat) (n : shares.lq_quadtree_node_t),
        (0 : Int) ≤ (shares.references a n : Int) := fun a n => Int.natCast_nonneg _
    have nl : ∀ (a : Nat), (0 : Int) ≤
        ((polygons.countP (fun d => decide (d.ref_count = a)) : Nat) : Int) :=
      fun a => Int.natCast_nonneg _
    have hk0 : counts_ok h (fun a => (shares.references a c0 : Int) +
        (((polygons.countP (fun d => decide (d.ref_count = a)) : Nat) : Int) +
          ((shares.references a c1 : Int) + ((shares.references a c2 : Int) +
            (shares.references a c3 : Int))) + extra a)) :=
      counts_ok_congr _ _ _
        (by intro a; simp only [shares.references, Nat.cast_add]; omega) hk
    obtain ⟨⟨g0, r0⟩, hr0⟩ := ih0 h _ s0 hk0 (fun a => by
      have := hex a; have := nl a; have := nn a c1; have := nn a c2; have := nn a c3
      omega)
    obtain ⟨-, -, k0, -⟩ := shares_remove_counts id _ _ _ _ _ hr0 s0 hk0
    have hk1 : counts_ok g0 (fun a => (shares.references a c1 : Int) +
        (((polygons.countP (fun d => decide (d.ref_count = a)) : Nat) : Int) +
          ((shares.references a r0 : Int) + ((shares.references a c2 : Int) +
            (shares.references a c3 : Int))) + extra a)) :=
      counts_ok_congr _ _ _ (by intro a; omega) k0
    obtain ⟨⟨g1, r1⟩, hr1⟩ := ih1 g0 _ s1 hk1 (fun a => by
      have := hex a; have := nl a; have := nn a r0; have := nn a c2; have := nn a c3
      omega)
    obtain ⟨-, -, k1, -⟩ := shares_remove_counts id _ _ _ _ _ hr1 s1 hk1
    have hk2 : counts_ok g1 (fun a => (shares.references a c2 : Int) +
        (((polygons.countP (fun d => decide (d.ref_count = a)) : Nat) : Int) +
          ((shares.references a r0 : Int) + ((shares.references a r1 : Int) +
            (shares.references a c3 : Int))) + extra a)) :=
      counts_ok_congr _ _ _ (by intro a; omega) k1
    obtain ⟨⟨g2, r2⟩, hr2⟩ := ih2 g1 _ s2 hk2 (fun a => by
      have := hex a; have := nl a; have := nn a r0; have := nn a r1; have := nn a c3
      omega)
    obtain ⟨-, -, k2, -⟩ := shares_remove_counts id _ _ _ _ _ hr2 s2 hk2
    have hk3 : counts_ok g2 (fun a => (shares.references a c3 : Int) +
        (((polygons.countP (fun d => decide (d.ref_count = a)) : Nat) : Int) +
          ((shares.references a r0 : Int) + ((shares.references a r1 : Int) +
            (shares.references a r2 : Int))) + extra a)) :=
      counts_ok_congr _ _ _ (by intro a; omega) k2
    obtain ⟨⟨g3, r3⟩, hr3⟩ := ih3 g2 _ s3 hk3 (fun a => by
      have := hex a; have := nl a; have := nn a r0; have := nn a r1; have := nn a r2
      omega)
    obtain ⟨-, -, k3, -⟩ := shares_remove_counts id _ _ _ _ _ hr3 s3 hk3
    obtain ⟨⟨g4, l, cnt1⟩, hrl⟩ := shares_remove_loop_total id polygons g3 cnt _ k3
      (fun a => by
        have := hex a; have := nn a r0; have := nn a r1; have := nn a r2; have := nn a r3
        omega)
    exact ⟨(g4, .node r0 r1 r2 r3 depth box l cnt1),
      by rw [shares.lq_quadtree_node_remove]; simp only [hr0, hr1, hr2, hr3, hrl]⟩

/-- A call of `quadtree_add` on list nodes returns, with the same code,
whenever the call of the first embedding returns on the tree of payloads and
the counters agree with the number of list nodes. -/
theorem shares_add_total (h : share_heap) (qt : shares.lq_quadtree_t) (id n : Int)
    (xs ys : List Int) (code : Int) (q : lq_quadtree_t)
    (hadd : quadtree_add ⟨shares.payload_tree qt.root⟩ id n xs ys = some (code, q))
    (hshape : shares.split_shape qt.root)
    (hk : counts_ok h (fun a => (shares.references a qt.root : Int))) :
    ∃ (h1 : share_heap) (qt1 : shares.lq_quadtree_t),
      shares.quadtree_add h qt id n xs ys = some (code, h1, qt1) := by
  have key : ∃ x, shares.quadtree_add h qt id n xs ys = some x := by
    obtain ⟨root⟩ := qt
    cases root with
    | null => simp [shares.payload_tree, quadtree_add] at hadd
    | node c0 c1 c2 c3 depth box polygons cnt =>
      simp only at hadd hshape hk
      unfold quadtree_add at hadd
      simp only [shares.payload_tree] at hadd
      unfold shares.quadtree_add
      simp only
      by_cases hb : add_out_of_bounds box xs ys (List.range n.toNat) = true
      · exact ⟨(QUADTREE_ERROR_OUT_OF_BOUNDS, h, ⟨.node c0 c1 c2 c3 depth box polygons cnt⟩),
          by simp only [hb, if_true]⟩
      · simp only [hb, Bool.false_eq_true, if_false] at hadd ⊢
        cases hnew : lq_polygon_node_new id n xs ys with
        | none => simp [hnew] at hadd
        | some p =>
          simp only [hnew] at hadd ⊢
          have hk1 : counts_ok
              ⟨fun b => if b = h.next then some 1 else h.counter b, h.next + 1⟩
              (fun a =>
                (shares.references a (.node c0 c1 c2 c3 depth box polygons cnt) : Int) +
                (if a = (⟨p, h.next⟩ : lq_polygon_node_t).ref_count then 1 else 0)) := by
            refine ⟨fun a => ?_, fun a hle => ?_⟩
            · by_cases ha : a = h.next
              · subst ha
                have hz := (hk.1 h.next).1 (hk.2 _ (le_refl _))
                beta_reduce at hz
                simp only [if_true]
                refine ⟨by simp, ?_⟩
                intro k hk'
                simp only [Option.some.injEq] at hk'
                omega
              · simp only [if_neg ha, add_zero]
                exact hk.1 a
            · simp only at hle
              have ha : a ≠ h.next := by omega
              simp only [if_neg ha]
              exact hk.2 a (by omega)
          cases hputL : lq_quadtree_node_put_polygon
              (put_fuel (.node (shares.payload_tree c0) (shares.payload_tree c1)
                (shares.payload_tree c2) (shares.payload_tree c3) depth box
                (polygons.map lq_polygon_node_t.p) cnt))
              (.node (shares.payload_tree c0) (shares.payload_tree c1)
                (shares.payload_tree c2) (shares.payload_tree c3) depth box
                (polygons.map lq_polygon_node_t.p) cnt) p with
          | none => simp [hputL] at hadd
          | some r =>
            have hputL1 : lq_quadtree_node_put_polygon
                (shares.put_fuel (.node c0 c1 c2 c3 depth box polygons cnt))
                (shares.payload_tree (.node c0 c1 c2 c3 depth box polygons cnt))
                (⟨p, h.next⟩ : lq_polygon_node_t).p = some r := by
              rw [shares_put_fuel_eq]
              simpa only [shares.payload_tree] using hputL
            obtain ⟨⟨h2, root1⟩, hput⟩ := shares_put_total _ _ _ ⟨p, h.next⟩ _ r hshape hk1
              (fun a => by split_ifs <;> decide) (by simp) hputL1
            obtain ⟨-, -, hk2, -⟩ := shares_put_counts _ _ _ _ _ _ _ hput hshape hk1
            obtain ⟨h3, hfree⟩ := free_total h2 ⟨p, h.next⟩ _ hk2 (by
              have : (0 : Int) ≤ (shares.references h.next root1 : Int) :=
                Int.natCast_nonneg _
              simp only [if_true]
              omega)
            exact ⟨(QUADTREE_SUCCESS, h3, ⟨root1⟩), by simp only [hput, hfree]⟩
  obtain ⟨⟨code1, h1, qt1⟩, hx⟩ := key
  obtain ⟨-, -, hsim⟩ := shares_add_counts _ _ _ _ _ _ _ _ _ hx hshape hk
  rw [hadd] at hsim
  simp only [Option.some.injEq, Prod.mk.injEq] at hsim
  obtain ⟨hcode, -⟩ := hsim
  subst hcode
  exact ⟨h1, qt1, hx⟩

/-- A call of `quadtree_remove` on list nodes returns whenever the counters
agree with the number of list nodes and the tree has a root. -/
theorem shares_remove_top_total (h : share_heap) (qt : shares.lq_quadtree_t) (id : Int)
    (hroot : qt.root ≠ .null)
    (hshape : shares.split_shape qt.root)
    (hk : counts_ok h (fun a => (shares.references a qt.root : Int))) :
    ∃ (h1 : share_heap) (qt1 : shares.lq_quadtree_t),
      shares.quadtree_remove h qt id = some (QUADTREE_SUCCESS, h1, qt1) := by
  obtain ⟨root⟩ := qt
  cases root with
  | null => exact absurd rfl hroot
  | node c0 c1 c2 c3 depth box polygons cnt =>
    simp only at hshape hk
    obtain ⟨⟨h1, root1⟩, hr⟩ := shares_remove_total id _ h (fun _ => 0) hshape
      (counts_ok_congr _ _ _ (by intro a; simp) hk) (fun _ => le_refl _)
    exact ⟨h1, ⟨root1⟩, by unfold shares.quadtree_remove; simp only [hr]⟩

/-! ## The last column and the last row of a box -/

/-- Truncating division of `a * e` by `d`, for `0 ≤ e ≤ d` and `0 < d`, stays
between 0 and `a`: it is at most `a` when `a` is not negative and at most 0
otherwise. -/
theorem tdiv_scaled_le (a e d : Int) (he : 0 ≤ e) (hed : e ≤ d) (hd : 0 < d) :
    Int.tdiv (a * e) d ≤ max a 0 := by
  by_cases ha : 0 ≤ a
  · have h1 : Int.tdiv (a * e) d = (a * e) / d :=
      Int.tdiv_eq_ediv (mul_nonneg ha he) (le_of_lt hd)
    rw [h1]
    have h2 : a * e ≤ a * d := mul_le_mul_of_nonneg_left hed ha
    have h3 : (a * e) / d ≤ (a * d) / d := Int.ediv_le_ediv hd h2
    rw [Int.mul_ediv_cancel _ (ne_of_gt hd)] at h3
    exact le_trans h3 (le_max_left _ _)
  · have hneg : Int.tdiv (a * e) d = -Int.tdiv ((-a) * e) d := by
      rw [← Int.neg_tdiv, neg_mul, neg_neg]
    have h1 : 0 ≤ Int.tdiv ((-a) * e) d :=
      Int.tdiv_nonneg (mul_nonneg (by omega) he) (le_of_lt hd)
    rw [hneg]
    exact le_trans (by omega) (le_max_right _ _)

/-- The crossing abscissa that `point_in_polygon` computes for an edge that
straddles the line `y = py` is not to the right of both ends of the edge. -/
theorem crossing_le_of_ends_le (xi xj yi yj px py : Int)
    (hcross : decide (yi > py) ≠ decide (yj > py)) (hxi : xi ≤ px) (hxj : xj ≤ px) :
    Int.tdiv ((xj - xi) * (py - yi)) (yj - yi) + xi ≤ px := by
  by_cases h1 : yi > py
  · have h2 : ¬ yj > py := by
      intro h2
      apply hcross
      simp [h1, h2]
    have hrew : Int.tdiv ((xj - xi) * (py - yi)) (yj - yi) =
        Int.tdiv ((xj - xi) * (yi - py)) (yi - yj) := by
      have e1 : (xj - xi) * (py - yi) = -((xj - xi) * (yi - py)) := by ring
      have e2 : yj - yi = -(yi - yj) := by ring
      rw [e1, e2, Int.neg_tdiv, Int.tdiv_neg, neg_neg]
    rw [hrew]
    have := tdiv_scaled_le (xj - xi) (yi - py) (yi - yj) (by omega) (by omega) (by omega)
    rcases le_max_iff.1 (le_refl (max (xj - xi) 0)) with h | h <;> omega
  · have h2 : yj > py := by
      by_contra h2
      apply hcross
      simp [h1, h2]
    have := tdiv_scaled_le (xj - xi) (py - yi) (yj - yi) (by omega) (by omega) (by omega)
    rcases le_max_iff.1 (le_refl (max (xj - xi) 0)) with h | h <;> omega

/-- The loop of `point_in_polygon` leaves `inside` false when no iteration
takes the branch. -/
theorem point_in_polygon_fold_false (px py : Int) (xs ys : List Int) (bound : Nat)
    (hstep : ∀ i j : Nat, i < bound → j < bound →
      point_in_polygon_step px py xs ys (false, j) i = (false, i)) :
    ∀ (l : List Nat) (j : Nat), (∀ i ∈ l, i < bound) → j < bound →
      (l.foldl (point_in_polygon_step px py xs ys) (false, j)).1 = false := by
  intro l
  induction l with
  | nil => intro j _ _; rfl
  | cons i rest ih =>
    intro j hl hj
    rw [List.foldl_cons, hstep i j (hl i (List.mem_cons_self _ _)) hj]
    exact ih i (fun k hk => hl k (List.mem_cons_of_mem _ hk)) (hl i (List.mem_cons_self _ _))

/-- With exact integer arithmetic, `point_in_polygon` is false at every point
that has no vertex to its right. -/
theorem point_in_polygon_right_of_vertices (px py n : Int) (xs ys : List Int)
    (hx : ∀ i : Nat, i < n.toNat → arr xs i ≤ px) :
    point_in_polygon px py n xs ys = false := by
  unfold point_in_polygon
  by_cases hn : n.toNat = 0
  · rw [hn]; rfl
  · refine point_in_polygon_fold_false px py xs ys n.toNat ?_ _ _
      (fun i hi => List.mem_range.1 hi) (by omega)
    intro i j hi hj
    unfold point_in_polygon_step
    simp only
    by_cases hcross : decide (arr ys i > py) ≠ decide (arr ys j > py)
    · have hle := crossing_le_of_ends_le (arr xs i) (arr xs j) (arr ys i) (arr ys j) px py
        hcross (hx i hi) (hx j hj)
      have hd : decide (px < Int.tdiv ((arr xs j - arr xs i) * (py - arr ys i))
          (arr ys j - arr ys i) + arr xs i) = false := by
        simp only [decide_eq_false_iff_not, not_lt]
        exact hle
      rw [hd, Bool.and_false]
      simp
    · have hb : (decide (arr ys i > py) != decide (arr ys j > py)) = false := by
        simpa [bne_iff_ne] using hcross
      rw [hb, Bool.false_and]
      simp

/-- The loop of `point_in_polygon` is false at every point that has no
vertex above it: no edge straddles the line `y = py`. -/
theorem point_in_polygon_above_vertices (px py n : Int) (xs ys : List Int)
    (hy : ∀ i : Nat, i < n.toNat → arr ys i ≤ py) :
    point_in_polygon px py n xs ys = false := by
  unfold point_in_polygon
  by_cases hn : n.toNat = 0
  · rw [hn]; rfl
  · refine point_in_polygon_fold_false px py xs ys n.toNat ?_ _ _
      (fun i hi => List.mem_range.1 hi) (by omega)
    intro i j hi hj
    unfold point_in_polygon_step
    simp only
    have h1 : decide (arr ys i > py) = false := by
      simp only [decide_eq_false_iff_not, not_lt]; exact hy i hi
    have h2 : decide (arr ys j > py) = false := by
      simp only [decide_eq_false_iff_not, not_lt]; exact hy j hj
    rw [h1, h2]
    simp

/-- With exact integer arithmetic, `rectangle_inside_polygon` is false for
every polygon whose vertices lie in the half-open box of the rectangle, and
`point_in_polygon` is false on the last column and on the last row of the
box. -/
theorem rectangle_inside_polygon_of_vertices_in_box (rx ry w h n : Int) (xs ys : List Int)
    (hin : ∀ i : Nat, i < n.toNat →
      rx ≤ arr xs i ∧ arr xs i < rx + w ∧ ry ≤ arr ys i ∧ arr ys i < ry + h) :
    (∀ y : Int, point_in_polygon (rx + w - 1) y n xs ys = false) ∧
    (∀ x : Int, point_in_polygon x (ry + h - 1) n xs ys = false) ∧
    rectangle_inside_polygon rx ry w h n xs ys = false := by
  have hcol : ∀ y : Int, point_in_polygon (rx + w - 1) y n xs ys = false := fun y =>
    point_in_polygon_right_of_vertices _ _ _ _ _ (fun i hi => by have := hin i hi; omega)
  refine ⟨hcol, fun x =>
    point_in_polygon_above_vertices _ _ _ _ _ (fun i hi => by have := hin i hi; omega), ?_⟩
  unfold rectangle_inside_polygon
  rw [hcol ry]
  simp

theorem int_wrap_pred (a : Int) (h1 : -(2 ^ 31) ≤ a - 1) (h2 : a - 1 < 2 ^ 31) :
    int_wrap (int_wrap a - 1) = a - 1 := by
  unfold int_wrap
  simp only
  split_ifs <;> omega

theorem point_in_polygon_int32_fold_false (px py : Int) (xs ys : List Int) (bound : Nat)
    (hstep : ∀ i j : Nat, i < bound → j < bound →
      point_in_polygon_int32_step px py xs ys (false, j) i = (false, i)) :
    ∀ (l : List Nat) (j : Nat), (∀ i ∈ l, i < bound) → j < bound →
      (l.foldl (point_in_polygon_int32_step px py xs ys) (false, j)).1 = false := by
  intro l
  induction l with
  | nil => intro j _ _; rfl
  | cons i rest ih =>
    intro j hl hj
    rw [List.foldl_cons, hstep i j (hl i (List.mem_cons_self _ _)) hj]
    exact ih i (fun k hk => hl k (List.mem_cons_of_mem _ hk)) (hl i (List.mem_cons_self _ _))

/-- Also with wrapping `int` arithmetic, `point_in_polygon` is false at
every point that has no vertex above it: the comparisons `ys[i] > py` are all
false, so no crossing abscissa is computed. -/
theorem point_in_polygon_int32_above_vertices (px py n : Int) (xs ys : List Int)
    (hy : ∀ i : Nat, i < n.toNat → arr ys i ≤ py) :
    point_in_polygon_int32 px py n xs ys = false := by
  unfold point_in_polygon_int32
  by_cases hn : n.toNat = 0
  · rw [hn]; rfl
  · refine point_in_polygon_int32_fold_false px py xs ys n.toNat ?_ _ _
      (fun i hi => List.mem_range.1 hi) (by omega)
    intro i j hi hj
    unfold point_in_polygon_int32_step
    simp only
    have h1 : decide (arr ys i > py) = false := by
      simp only [decide_eq_false_iff_not, not_lt]; exact hy i hi
    have h2 : decide (arr ys j > py) = false := by
      simp only [decide_eq_false_iff_not, not_lt]; exact hy j hj
    rw [h1, h2]
    simp

/-- Also with wrapping `int` arithmetic, `rectangle_inside_polygon` is false
for every polygon whose vertices lie in the half-open box of the rectangle:
the corner `(rx, ry + h - 1)` has no vertex above it. -/
theorem rectangle_inside_polygon_int32_of_vertices_in_box (rx ry w h n : Int)
    (xs ys : List Int) (h1 : -(2 ^ 31) ≤ ry + h - 1) (h2 : ry + h - 1 < 2 ^ 31)
    (hin : ∀ i : Nat, i < n.toNat → arr ys i < ry + h) :
    rectangle_inside_polygon_int32 rx ry w h n xs ys = false := by
  unfold rectangle_inside_polygon_int32
  rw [int_wrap_pred (ry + h) h1 h2]
  rw [point_in_polygon_int32_above_vertices rx (ry + h - 1) n xs ys
    (fun i hi => by have := hin i hi; omega)]
  simp

theorem arr_map_range (xs : List Int) (m i : Nat) (hi : i < m) :
    arr ((List.range m).map (arr xs)) i = arr xs i := by
  unfold arr
  rw [List.getD_eq_getElem?_getD, List.getElem?_map, List.getElem?_range hi]
  simp [List.getD_eq_getElem?_getD]

/-- A polygon whose first vertex lies in the half-open box collides with the
box. -/
theorem collide_of_first_vertex_in_box (n : Int) (xs ys : List Int) (rx ry w h : Int)
    (hn : 0 < n)
    (h0 : rx ≤ arr xs 0 ∧ arr xs 0 < rx + w ∧ ry ≤ arr ys 0 ∧ arr ys 0 < ry + h) :
    collide_polygon_rectangle n xs ys rx ry w h = some COLLISION := by
  unfold collide_polygon_rectangle
  have hn1 : ¬ n ≤ 0 := by omega
  simp only [hn1, if_false]
  by_cases he : collide_edges xs ys rx ry w h (List.range n.toNat) (n - 1).toNat = true
  · simp only [he, if_true]
  · have hr : point_in_rectangle (arr xs 0) (arr ys 0) rx ry w h = true := by
      unfold point_in_rectangle
      rw [point_in_polygon_rectangle _ _ rx (rx + w) ry (ry + h) (by omega) (by omega)]
      exact decide_eq_true h0
    simp only [he, Bool.false_eq_true, if_false, hr, if_true]

/-- An insertion into a leaf that is not at the subdivision limit splits the
leaf when all vertices of the polygon lie in the half-open box of the leaf:
the polygon collides with the box and `rectangle_inside_polygon` is false, so
`lq_quadtree_node_put_polygon` takes the branch that populates the
children. -/
theorem put_splits_enclosing_leaf (fuel : Nat) (depth : Int) (box : lq_rect_t)
    (polygons : List lq_polygon_t) (cnt : Int) (polygon : lq_polygon_t)
    (r : lq_quadtree_node_t)
    (hd : depth ≠ MAX_DEPTH) (hw : MIN_SIZE < box.width) (hh : MIN_SIZE < box.height)
    (hin : ∀ i : Nat, i < polygon.number_of_points.toNat →
      box.left ≤ arr polygon.xs i ∧ arr polygon.xs i < box.left + box.width ∧
      box.bottom ≤ arr polygon.ys i ∧ arr polygon.ys i < box.bottom + box.height)
    (hput : lq_quadtree_node_put_polygon fuel (.node .null .null .null .null depth box
      polygons cnt) polygon = some r) :
    has_four_children r ∧ node_polygons r = [] ∧ node_box r = some box ∧
    collide_polygon_rectangle polygon.number_of_points polygon.xs polygon.ys
      box.left box.bottom box.width box.height = some COLLISION ∧
    rectangle_inside_polygon box.left box.bottom box.width box.height
      polygon.number_of_points polygon.xs polygon.ys = false := by
  have hrip := (rectangle_inside_polygon_of_vertices_in_box box.left box.bottom box.width
    box.height polygon.number_of_points polygon.xs polygon.ys hin).2.2
  cases fuel with
  | zero => simp [lq_quadtree_node_put_polygon] at hput
  | succ fuel =>
    obtain ⟨collision, hcol, hcase⟩ := put_cases _ _ _ _ _ _ _ _ _ _ _ hput
    have hn : 0 < polygon.number_of_points := by
      by_contra hn
      unfold collide_polygon_rectangle at hcol
      simp [not_lt.1 hn] at hcol
    have hc := collide_of_first_vertex_in_box polygon.number_of_points polygon.xs polygon.ys
      box.left box.bottom box.width box.height hn (hin 0 (by omega))
    rw [hc] at hcol
    have hcv : collision = COLLISION := (Option.some.inj hcol).symm
    rcases hcase with ⟨h0, -⟩ | ⟨-, hcond, -⟩ | ⟨-, -, d0, d1, d2, d3, depth1, box1,
      polygons1, cnt1, e0, e1, e2, e3, hpop, hp0, hp1, hp2, hp3, hr⟩
    · rw [hcv] at h0
      exact absurd h0 (by decide)
    · exfalso
      rcases hcond with hc1 | hc1 | hc1 | ⟨-, hc1⟩
      · exact hd hc1
      · exact absurd hc1 (not_le.2 hw)
      · exact absurd hc1 (not_le.2 hh)
      · rw [hrip] at hc1
        exact absurd hc1 (by decide)
    · obtain ⟨-, hbox, hcs⟩ := populate_children_cases _ _ _ _ _ _ _ _ _ _ _ _ _ _ _ _ hpop
      rcases hcs with ⟨hnn, -⟩ | ⟨-, -, hl, -⟩
      · exact absurd rfl hnn
      · subst hr
        refine ⟨⟨(put_node_depth _ _ _ _ hp0).2, (put_node_depth _ _ _ _ hp1).2,
          (put_node_depth _ _ _ _ hp2).2, (put_node_depth _ _ _ _ hp3).2⟩, ?_, ?_, hc, hrip⟩
        · simpa [node_polygons] using hl
        · simp [node_box, hbox]

/-- The first successful `quadtree_add` after `quadtree_create` splits the
root when the stored width and height of the root exceed 4: the root has four
children afterwards and holds no payload itself. -/
theorem first_add_splits_root (left bottom width height : Int) (qt qt1 : lq_quadtree_t)
    (id n : Int) (xs ys : List Int)
    (hc : quadtree_create left bottom width height = some qt)
    (hw : 4 < (root_box qt).width) (hh : 4 < (root_box qt).height)
    (hadd : quadtree_add qt id n xs ys = some (QUADTREE_SUCCESS, qt1)) :
    has_four_children qt1.root ∧ node_polygons qt1.root = [] ∧
    rectangle_inside_polygon (root_box qt).left (root_box qt).bottom (root_box qt).width
      (root_box qt).height n ((List.range n.toNat).map (arr xs))
      ((List.range n.toNat).map (arr ys)) = false := by
  have hin := quadtree_add_success_in_bounds qt qt1 id n xs ys hadd
  obtain ⟨-, -, hqt⟩ := quadtree_create_eq_some _ _ _ _ _ hc
  rcases quadtree_add_cases qt qt1 id n xs ys _ hadd with ⟨hne, -⟩ | ⟨-, polygon, hnew, hput⟩
  · exact absurd rfl hne
  · have hp : polygon = ⟨id, n, (List.range n.toNat).map (arr xs),
        (List.range n.toNat).map (arr ys)⟩ := by
      unfold lq_polygon_node_new at hnew
      split at hnew
      · simp at hnew
      · exact (Option.some.inj hnew).symm
    subst hp
    subst hqt
    simp only [root_box] at hw hh hin hput ⊢
    generalize int_of_ulong (next_power_of_2 width.toNat) = W at hw hin hput ⊢
    generalize int_of_ulong (next_power_of_2 height.toNat) = H at hh hin hput ⊢
    have hv : ∀ i : Nat, i < n.toNat →
        left ≤ arr ((List.range n.toNat).map (arr xs)) i ∧
        arr ((List.range n.toNat).map (arr xs)) i < left + W ∧
        bottom ≤ arr ((List.range n.toNat).map (arr ys)) i ∧
        arr ((List.range n.toNat).map (arr ys)) i < bottom + H := by
      intro i hi
      rw [arr_map_range xs _ _ hi, arr_map_range ys _ _ hi]
      have hb : lq_rect_point_is_in_bounds ⟨bottom, left, H, W⟩ (arr xs i) (arr ys i) =
          true := by
        by_contra hb
        have : add_out_of_bounds ⟨bottom, left, H, W⟩ xs ys (List.range n.toNat) = true :=
          (add_out_of_bounds_eq_true _ _ _ _).2 ⟨i, List.mem_range.2 hi, by simpa using hb⟩
        rw [hin] at this
        exact absurd this (by decide)
      exact (lq_rect_point_is_in_bounds_iff _ _ _).1 hb
    have hd : (0 : Int) ≠ MAX_DEPTH := by decide
    have hw1 : MIN_SIZE < W := hw
    have hh1 : MIN_SIZE < H := hh
    obtain ⟨h4, hl, -, -, hrip⟩ := put_splits_enclosing_leaf _ 0 ⟨bottom, left, H, W⟩ [] 0
      ⟨id, n, (List.range n.toNat).map (arr xs), (List.range n.toNat).map (arr ys)⟩ qt1.root
      hd hw1 hh1 hv hput
    exact ⟨h4, hl, hrip⟩

/-- The crossing abscissa that `point_in_polygon` computes for an edge that
straddles the line `y = py` is not to the left of both ends of the edge. -/
theorem crossing_ge_of_ends_ge (xi xj yi yj px py : Int)
    (hcross : decide (yi > py) ≠ decide (yj > py)) (hxi : px ≤ xi) (hxj : px ≤ xj) :
    px ≤ Int.tdiv ((xj - xi) * (py - yi)) (yj - yi) + xi := by
  have h := crossing_le_of_ends_le (-xi) (-xj) yi yj (-px) py hcross (by omega) (by omega)
  have e : (-xj - -xi) * (py - yi) = -((xj - xi) * (py - yi)) := by ring
  rw [e, Int.neg_tdiv] at h
  omega

theorem mul_small_bounds (a e : Int) (ha1 : -(2 ^ 15) ≤ a) (ha2 : a ≤ 2 ^ 15)
    (he1 : -(2 ^ 15) ≤ e) (he2 : e ≤ 2 ^ 15) :
    -(2 ^ 31) ≤ a * e ∧ a * e < 2 ^ 31 := by
  have h1 : |a * e| ≤ 2 ^ 15 * 2 ^ 15 := by
    rw [abs_mul]
    exact mul_le_mul (abs_le.2 ⟨ha1, ha2⟩) (abs_le.2 ⟨he1, he2⟩) (abs_nonneg _) (by norm_num)
  have h2 := abs_le.1 h1
  constructor
  · have : -((2 : Int) ^ 31) ≤ -(2 ^ 15 * 2 ^ 15) := by norm_num
    exact le_trans this h2.1
  · have : (2 : Int) ^ 15 * 2 ^ 15 < 2 ^ 31 := by norm_num
    exact lt_of_le_of_lt h2.2 this

/-- One iteration of the loop of `point_in_polygon` gives the same result
with wrapping `int` arithmetic as with exact integers when the coordinates of
the two vertices are at most `2^14` in absolute value. -/
theorem point_in_polygon_int32_step_eq (px py : Int) (xs ys : List Int) (st : Bool × Nat)
    (i : Nat)
    (hi : -(2 ^ 14) ≤ arr xs i ∧ arr xs i ≤ 2 ^ 14 ∧ -(2 ^ 14) ≤ arr ys i ∧ arr ys i ≤ 2 ^ 14)
    (hj : -(2 ^ 14) ≤ arr xs st.2 ∧ arr xs st.2 ≤ 2 ^ 14 ∧
      -(2 ^ 14) ≤ arr ys st.2 ∧ arr ys st.2 ≤ 2 ^ 14) :
    point_in_polygon_int32_step px py xs ys st i = point_in_polygon_step px py xs ys st i := by
  unfold point_in_polygon_int32_step point_in_polygon_step
  simp only
  by_cases hcross : decide (arr ys i > py) ≠ decide (arr ys st.2 > py)
  · have hpy : -(2 ^ 15) ≤ py - arr ys i ∧ py - arr ys i ≤ 2 ^ 15 := by
      by_cases h1 : arr ys i > py
      · have h2 : ¬ arr ys st.2 > py := by
          intro h2
          apply hcross
          simp [h1, h2]
        omega
      · have h2 : arr ys st.2 > py := by
          by_contra h2
          apply hcross
          simp [h1, h2]
        omega
    have w1 : int_wrap (arr xs st.2 - arr xs i) = arr xs st.2 - arr xs i :=
      int_wrap_eq _ (by omega) (by omega)
    have w2 : int_wrap (py - arr ys i) = py - arr ys i := int_wrap_eq _ (by omega) (by omega)
    have w3 : int_wrap (arr ys st.2 - arr ys i) = arr ys st.2 - arr ys i :=
      int_wrap_eq _ (by omega) (by omega)
    have hm := mul_small_bounds (arr xs st.2 - arr xs i) (py - arr ys i) (by omega) (by omega)
      hpy.1 hpy.2
    have w4 : int_wrap ((arr xs st.2 - arr xs i) * (py - arr ys i)) =
        (arr xs st.2 - arr xs i) * (py - arr ys i) := int_wrap_eq _ hm.1 hm.2
    have hle := crossing_le_of_ends_le (arr xs i) (arr xs st.2) (arr ys i) (arr ys st.2)
      (max (arr xs i) (arr xs st.2)) py hcross (le_max_left _ _) (le_max_right _ _)
    have hge := crossing_ge_of_ends_ge (arr xs i) (arr xs st.2) (arr ys i) (arr ys st.2)
      (min (arr xs i) (arr xs st.2)) py hcross (min_le_left _ _) (min_le_right _ _)
    have hmax : max (arr xs i) (arr xs st.2) ≤ 2 ^ 14 := max_le hi.2.1 hj.2.1
    have hmin : -(2 ^ 14) ≤ min (arr xs i) (arr xs st.2) := le_min hi.1 hj.1
    have w5 : int_wrap (Int.tdiv ((arr xs st.2 - arr xs i) * (py - arr ys i))
        (arr ys st.2 - arr ys i)) =
        Int.tdiv ((arr xs st.2 - arr xs i) * (py - arr ys i)) (arr ys st.2 - arr ys i) :=
      int_wrap_eq _ (by omega) (by omega)
    have w6 : int_wrap (Int.tdiv ((arr xs st.2 - arr xs i) * (py - arr ys i))
        (arr ys st.2 - arr ys i) + arr xs i) =
        Int.tdiv ((arr xs st.2 - arr xs i) * (py - arr ys i)) (arr ys st.2 - arr ys i)
          + arr xs i :=
      int_wrap_eq _ (by omega) (by omega)
    rw [w1, w2, w3, w4, w5, w6]
  · have hb : (decide (arr ys i > py) != decide (arr ys st.2 > py)) = false := by
      simpa [bne_iff_ne] using hcross
    rw [hb, Bool.false_and, Bool.false_and]

/-- With wrapping `int` arithmetic `point_in_polygon` returns what it returns
with exact integers when the coordinates of all vertices are at most `2^14`
in absolute value: no operation overflows, whatever the point. -/
theorem point_in_polygon_int32_eq_of_small (px py n : Int) (xs ys : List Int)
    (hsmall : ∀ i : Nat, i < n.toNat →
      -(2 ^ 14) ≤ arr xs i ∧ arr xs i ≤ 2 ^ 14 ∧ -(2 ^ 14) ≤ arr ys i ∧ arr ys i ≤ 2 ^ 14) :
    point_in_polygon_int32 px py n xs ys = point_in_polygon px py n xs ys := by
  unfold point_in_polygon_int32 point_in_polygon
  by_cases hn : n.toNat = 0
  · rw [hn]; rfl
  · have key : ∀ (l : List Nat) (st : Bool × Nat), (∀ i ∈ l, i < n.toNat) → st.2 < n.toNat →
        l.foldl (point_in_polygon_int32_step px py xs ys) st =
          l.foldl (point_in_polygon_step px py xs ys) st := by
      intro l
      induction l with
      | nil => intro st _ _; rfl
      | cons i rest ih =>
        intro st hl hst
        have hi := hl i (List.mem_cons_self _ _)
        rw [List.foldl_cons, List.foldl_cons,
          point_in_polygon_int32_step_eq px py xs ys st i (hsmall i hi) (hsmall st.2 hst)]
        refine ih _ (fun k hk => hl k (List.mem_cons_of_mem _ hk)) ?_
        unfold point_in_polygon_step
        simp only
        split_ifs <;> exact hi
    rw [key _ _ (fun i hi => List.mem_range.1 hi) (by simp only; omega)]

/-- With wrapping `int` arithmetic and vertices of coordinates at most `2^14`
in absolute value, `point_in_polygon` is false on the last column of a box
that holds all vertices. -/
theorem point_in_polygon_int32_last_column (rx ry w h n : Int) (xs ys : List Int)
    (hsmall : ∀ i : Nat, i < n.toNat →
      -(2 ^ 14) ≤ arr xs i ∧ arr xs i ≤ 2 ^ 14 ∧ -(2 ^ 14) ≤ arr ys i ∧ arr ys i ≤ 2 ^ 14)
    (hin : ∀ i : Nat, i < n.toNat →
      rx ≤ arr xs i ∧ arr xs i < rx + w ∧ ry ≤ arr ys i ∧ arr ys i < ry + h) (y : Int) :
    point_in_polygon_int32 (rx + w - 1) y n xs ys = false := by
  rw [point_in_polygon_int32_eq_of_small _ _ _ _ _ hsmall]
  exact (rectangle_inside_polygon_of_vertices_in_box rx ry w h n xs ys hin).1 y

/-! ## List nodes, their `next` pointers and the assertions on them -/

theorem tdiv_two_bounds (w : Int) (hw : 0 < w) : 0 ≤ Int.tdiv w 2 ∧ Int.tdiv w 2 ≤ w := by
  rw [Int.tdiv_eq_ediv (le_of_lt hw) (by norm_num)]
  omega

/-- On a box that fits, the bounds check with `int` arithmetic is the bounds
check with exact integers. -/
theorem int32_in_bounds_of_fits (box : lq_rect_t) (hf : fits box) (x y : Int) :
    int32.lq_rect_point_is_in_bounds box x y = lq_rect_point_is_in_bounds box x y := by
  obtain ⟨h1, h2, h3, h4, h5, h6⟩ := hf
  unfold int32.lq_rect_point_is_in_bounds lq_rect_point_is_in_bounds
  rw [int_wrap_eq _ (by omega) h5, int_wrap_eq _ (by omega) h6]

/-- A box of `int` fields with positive sides that the bounds check with
`int` arithmetic finds a point in, fits: had `left + width` overflowed, the
wrapped sum would lie below `left`. -/
theorem int32_fits_of_in_bounds (box : lq_rect_t) (hb : int_box box) (hw : 0 < box.width)
    (hh : 0 < box.height) (x y : Int)
    (hin : int32.lq_rect_point_is_in_bounds box x y = true) : fits box := by
  obtain ⟨⟨l1, l2⟩, ⟨b1, b2⟩, ⟨w1, w2⟩, ⟨h1, h2⟩⟩ := hb
  unfold int32.lq_rect_point_is_in_bounds at hin
  have hcond : ¬ ((decide (x < box.left) || decide (int_wrap (box.left + box.width) ≤ x)) ||
      (decide (y < box.bottom) || decide (int_wrap (box.bottom + box.height) ≤ y))) = true := by
    intro hc
    rw [if_pos hc] at hin
    exact absurd hin (by decide)
  simp only [Bool.or_eq_true, decide_eq_true_eq, not_or, not_lt, not_le] at hcond
  obtain ⟨⟨hx1, hx2⟩, hy1, hy2⟩ := hcond
  unfold int_wrap at hx2 hy2
  simp only at hx2 hy2
  refine ⟨l1, b1, hw, hh, ?_, ?_⟩
  · split_ifs at hx2 <;> omega
  · split_ifs at hy2 <;> omega

/-- On a box that fits, the quadrant computed with `int` arithmetic is the
quadrant computed with exact integers. -/
theorem int32_get_quadrant_of_fits (box : lq_rect_t) (hf : fits box) (x y : Int) :
    int32.lq_rect_get_quadrant box x y = lq_rect_get_quadrant box x y := by
  have hin := int32_in_bounds_of_fits box hf x y
  obtain ⟨h1, h2, h3, h4, h5, h6⟩ := hf
  have tw := tdiv_two_bounds _ h3
  have th := tdiv_two_bounds _ h4
  unfold int32.lq_rect_get_quadrant lq_rect_get_quadrant
  rw [hin]
  simp only
  rw [int_wrap_eq (box.left + Int.tdiv box.width 2) (by omega) (by omega),
    int_wrap_eq (box.bottom + Int.tdiv box.height 2) (by omega) (by omega)]

/-- The four quarters of a box that fits and is split fit. -/
theorem fits_quarters (box : lq_rect_t) (hf : fits box) (hw : 4 < box.width)
    (hh : 4 < box.height) :
    fits ⟨box.bottom + Int.tdiv box.height 2, box.left + Int.tdiv box.width 2,
      Int.tdiv box.height 2, Int.tdiv box.width 2⟩ ∧
    fits ⟨box.bottom + Int.tdiv box.height 2, box.left,
      Int.tdiv box.height 2, Int.tdiv box.width 2⟩ ∧
    fits ⟨box.bottom, box.left, Int.tdiv box.height 2, Int.tdiv box.width 2⟩ ∧
    fits ⟨box.bottom, box.left + Int.tdiv box.width 2,
      Int.tdiv box.height 2, Int.tdiv box.width 2⟩ := by
  obtain ⟨h1, h2, h3, h4, h5, h6⟩ := hf
  have ew : Int.tdiv box.width 2 = box.width / 2 :=
    Int.tdiv_eq_ediv (le_of_lt h3) (by norm_num)
  have eh : Int.tdiv box.height 2 = box.height / 2 :=
    Int.tdiv_eq_ediv (le_of_lt h4) (by norm_num)
  simp only [fits, ew, eh]
  refine ⟨⟨?_, ?_, ?_, ?_, ?_, ?_⟩, ⟨?_, ?_, ?_, ?_, ?_, ?_⟩, ⟨?_, ?_, ?_, ?_, ?_, ?_⟩,
    ⟨?_, ?_, ?_, ?_, ?_, ?_⟩⟩ <;> omega

/-- On a well-formed subtree whose box fits, the descent with `int`
arithmetic is the descent with exact integers. -/
theorem int32_find_leaf_of_fits (node : lq_quadtree_node_t) :
    well_formed node → ∀ box, node_box node = some box → fits box → ∀ x y : Int,
      int32.lq_quadtree_node_find_leaf node x y = lq_quadtree_node_find_leaf node x y := by
  induction node with
  | null => intro h; exact absurd h (by simp [well_formed])
  | node a0 a1 a2 a3 adepth abox apolygons acnt ih0 ih1 ih2 ih3 =>
    intro hwf box hbox hf x y
    simp only [node_box, Option.some.injEq] at hbox
    subst hbox
    simp only [well_formed] at hwf
    obtain ⟨-, -, -, hch⟩ := hwf
    rw [int32.lq_quadtree_node_find_leaf, lq_quadtree_node_find_leaf,
      int32_get_quadrant_of_fits abox hf]
    have e0 : a0 ≠ .null → int32.lq_quadtree_node_find_leaf a0 x y =
        lq_quadtree_node_find_leaf a0 x y := by
      intro hne
      rcases hch with ⟨h0, -⟩ | ⟨hw4, hh4, b0, -, -, -, w0, -, -, -⟩
      · exact absurd h0 hne
      · exact ih0 w0 _ b0 (fits_quarters abox hf hw4 hh4).1 x y
    have e1 : a1 ≠ .null → int32.lq_quadtree_node_find_leaf a1 x y =
        lq_quadtree_node_find_leaf a1 x y := by
      intro hne
      rcases hch with ⟨-, h1, -⟩ | ⟨hw4, hh4, -, b1, -, -, -, w1, -, -⟩
      · exact absurd h1 hne
      · exact ih1 w1 _ b1 (fits_quarters abox hf hw4 hh4).2.1 x y
    have e2 : a2 ≠ .null → int32.lq_quadtree_node_find_leaf a2 x y =
        lq_quadtree_node_find_leaf a2 x y := by
      intro hne
      rcases hch with ⟨-, -, h2, -⟩ | ⟨hw4, hh4, -, -, b2, -, -, -, w2, -⟩
      · exact absurd h2 hne
      · exact ih2 w2 _ b2 (fits_quarters abox hf hw4 hh4).2.2.1 x y
    have e3 : a3 ≠ .null → int32.lq_quadtree_node_find_leaf a3 x y =
        lq_quadtree_node_find_leaf a3 x y := by
      intro hne
      rcases hch with ⟨-, -, -, h3⟩ | ⟨hw4, hh4, -, -, -, b3, -, -, -, w3⟩
      · exact absurd h3 hne
      · exact ih3 w3 _ b3 (fits_quarters abox hf hw4 hh4).2.2.2 x y
    cases lq_rect_get_quadrant abox x y with
    | none => rfl
    | some q =>
      rcases q with _ | _ | _ | q
      · show (if a0 ≠ .null then _ else _) = (if a0 ≠ .null then _ else _)
        by_cases hne : a0 ≠ .null
        · rw [if_pos hne, if_pos hne, e0 hne]
        · rw [if_neg hne, if_neg hne]
      · show (if a1 ≠ .null then _ else _) = (if a1 ≠ .null then _ else _)
        by_cases hne : a1 ≠ .null
        · rw [if_pos hne, if_pos hne, e1 hne]
        · rw [if_neg hne, if_neg hne]
      · show (if a2 ≠ .null then _ else _) = (if a2 ≠ .null then _ else _)
        by_cases hne : a2 ≠ .null
        · rw [if_pos hne, if_pos hne, e2 hne]
        · rw [if_neg hne, if_neg hne]
      · show (if a3 ≠ .null then _ else _) = (if a3 ≠ .null then _ else _)
        by_cases hne : a3 ≠ .null
        · rw [if_pos hne, if_pos hne, e3 hne]
        · rw [if_neg hne, if_neg hne]

theorem int32_populate_children_internal (c0 c1 c2 c3 : lq_quadtree_node_t) (depth : Int)
    (box : lq_rect_t) (polygons : List lq_polygon_t) (cnt : Int) (h : c0 ≠ .null) :
    int32.lq_quadtree_node_populate_children (.node c0 c1 c2 c3 depth box polygons cnt)
      = some (.node c0 c1 c2 c3 depth box polygons cnt) := by
  simp [int32.lq_quadtree_node_populate_children, h]

theorem int32_populate_children_leaf (c1 c2 c3 : lq_quadtree_node_t) (depth : Int)
    (box : lq_rect_t) (polygons : List lq_polygon_t) (cnt : Int) :
    int32.lq_quadtree_node_populate_children (.node .null c1 c2 c3 depth box polygons cnt)
      = if cnt = (polygons.length : Int) then
          some (.node
            (.node .null .null .null .null (int_wrap (depth + 1))
              ⟨int_wrap (box.bottom + Int.tdiv box.height 2),
               int_wrap (box.left + Int.tdiv box.width 2),
               Int.tdiv box.height 2, Int.tdiv box.width 2⟩ polygons.reverse polygons.length)
            (.node .null .null .null .null (int_wrap (depth + 1))
              ⟨int_wrap (box.bottom + Int.tdiv box.height 2), box.left,
               Int.tdiv box.height 2, Int.tdiv box.width 2⟩ polygons.reverse polygons.length)
            (.node .null .null .null .null (int_wrap (depth + 1))
              ⟨box.bottom, box.left,
               Int.tdiv box.height 2, Int.tdiv box.width 2⟩ polygons.reverse polygons.length)
            (.node .null .null .null .null (int_wrap (depth + 1))
              ⟨box.bottom, int_wrap (box.left + Int.tdiv box.width 2),
               Int.tdiv box.height 2, Int.tdiv box.width 2⟩ polygons.reverse polygons.length)
            depth box [] 0)
        else none := by
  simp [int32.lq_quadtree_node_populate_children, lq_quadtree_node_new, add_polygons_eq,
    lq_quadtree_node_clear_polygons]

theorem int32_put_cases (fuel : Nat) (c0 c1 c2 c3 : lq_quadtree_node_t) (depth : Int)
    (box : lq_rect_t) (polygons : List lq_polygon_t) (cnt : Int) (polygon : lq_polygon_t)
    (r : lq_quadtree_node_t)
    (h : int32.lq_quadtree_node_put_polygon (fuel + 1)
          (.node c0 c1 c2 c3 depth box polygons cnt) polygon = some r) :
    ∃ collision, int32.collide_polygon_rectangle polygon.number_of_points polygon.xs
        polygon.ys box.left box.bottom box.width box.height = some collision ∧
      ((collision = 0 ∧ r = .node c0 c1 c2 c3 depth box polygons cnt) ∨
       (collision ≠ 0 ∧
        (depth = MAX_DEPTH ∨ box.width ≤ MIN_SIZE ∨ box.height ≤ MIN_SIZE ∨
          (c0 = .null ∧ rectangle_inside_polygon_int32 box.left box.bottom box.width
              box.height polygon.number_of_points polygon.xs polygon.ys = true)) ∧
        r = .node c0 c1 c2 c3 depth box (polygon :: polygons) (cnt + 1)) ∨
       (collision ≠ 0 ∧
        ¬ (depth = MAX_DEPTH ∨ box.width ≤ MIN_SIZE ∨ box.height ≤ MIN_SIZE ∨
          (c0 = .null ∧ rectangle_inside_polygon_int32 box.left box.bottom box.width
              box.height polygon.number_of_points polygon.xs polygon.ys = true)) ∧
        ∃ d0 d1 d2 d3 depth1 box1 polygons1 cnt1 e0 e1 e2 e3,
          int32.lq_quadtree_node_populate_children (.node c0 c1 c2 c3 depth box polygons cnt)
            = some (.node d0 d1 d2 d3 depth1 box1 polygons1 cnt1) ∧
          int32.lq_quadtree_node_put_polygon fuel d0 polygon = some e0 ∧
          int32.lq_quadtree_node_put_polygon fuel d1 polygon = some e1 ∧
          int32.lq_quadtree_node_put_polygon fuel d2 polygon = some e2 ∧
          int32.lq_quadtree_node_put_polygon fuel d3 polygon = some e3 ∧
          r = .node e0 e1 e2 e3 depth1 box1 polygons1 cnt1)) := by
  rw [int32.lq_quadtree_node_put_polygon] at h
  split at h
  · exact absurd h (by simp)
  · rename_i collision hc
    refine ⟨collision, hc, ?_⟩
    by_cases h0 : collision = 0
    · left
      simp only [h0, if_true, Option.some.injEq] at h
      exact ⟨h0, h.symm⟩
    · right
      simp only [h0, if_false] at h
      split at h
      · rename_i hcond
        left
        refine ⟨h0, ?_, ?_⟩
        · simpa [Bool.or_eq_true, Bool.and_eq_true, decide_eq_true_eq, or_assoc] using hcond
        · simp only [lq_quadtree_node_add_polygon, Option.some.injEq] at h
          exact h.symm
      · rename_i hcond
        right
        refine ⟨h0, ?_, ?_⟩
        · simpa [Bool.or_eq_true, Bool.and_eq_true, decide_eq_true_eq, or_assoc] using hcond
        · split at h
          · rename_i d0 d1 d2 d3 depth1 box1 polygons1 cnt1 hpop
            cases hp0 : int32.lq_quadtree_node_put_polygon fuel d0 polygon with
            | none => simp [hp0] at h
            | some e0 =>
              cases hp1 : int32.lq_quadtree_node_put_polygon fuel d1 polygon with
              | none => simp [hp0, hp1] at h
              | some e1 =>
                cases hp2 : int32.lq_quadtree_node_put_polygon fuel d2 polygon with
                | none => simp [hp0, hp1, hp2] at h
                | some e2 =>
                  cases hp3 : int32.lq_quadtree_node_put_polygon fuel d3 polygon with
                  | none => simp [hp0, hp1, hp2, hp3] at h
                  | some e3 =>
                    simp only [hp0, hp1, hp2, hp3, Option.some.injEq] at h
                    exact ⟨d0, d1, d2, d3, depth1, box1, polygons1, cnt1, e0, e1, e2, e3,
                      hpop, hp0, hp1, hp2, hp3, h.symm⟩
          · exact absurd h (by simp)

theorem int32_populate_children_cases (c0 c1 c2 c3 : lq_quadtree_node_t) (depth : Int)
    (box : lq_rect_t) (polygons : List lq_polygon_t) (cnt : Int)
    (d0 d1 d2 d3 : lq_quadtree_node_t) (depth1 : Int) (box1 : lq_rect_t)
    (polygons1 : List lq_polygon_t) (cnt1 : Int)
    (h : int32.lq_quadtree_node_populate_children (.node c0 c1 c2 c3 depth box polygons cnt)
          = some (.node d0 d1 d2 d3 depth1 box1 polygons1 cnt1)) :
    depth1 = depth ∧ box1 = box ∧
    ((c0 ≠ .null ∧ d0 = c0 ∧ d1 = c1 ∧ d2 = c2 ∧ d3 = c3 ∧ polygons1 = polygons ∧ cnt1 = cnt) ∨
     (c0 = .null ∧ cnt = (polygons.length : Int) ∧ polygons1 = [] ∧ cnt1 = 0 ∧
      d0 = .node .null .null .null .null (int_wrap (depth + 1))
              ⟨int_wrap (box.bottom + Int.tdiv box.height 2),
               int_wrap (box.left + Int.tdiv box.width 2),
               Int.tdiv box.height 2, Int.tdiv box.width 2⟩ polygons.reverse polygons.length ∧
      d1 = .node .null .null .null .null (int_wrap (depth + 1))
              ⟨int_wrap (box.bottom + Int.tdiv box.height 2), box.left,
               Int.tdiv box.height 2, Int.tdiv box.width 2⟩ polygons.reverse polygons.length ∧
      d2 = .node .null .null .null .null (int_wrap (depth + 1))
              ⟨box.bottom, box.left,
               Int.tdiv box.height 2, Int.tdiv box.width 2⟩ polygons.reverse polygons.length ∧
      d3 = .node .null .null .null .null (int_wrap (depth + 1))
              ⟨box.bottom, int_wrap (box.left + Int.tdiv box.width 2),
               Int.tdiv box.height 2, Int.tdiv box.width 2⟩ polygons.reverse
                polygons.length)) := by
  by_cases hc : c0 = .null
  · subst hc
    rw [int32_populate_children_leaf] at h
    by_cases hcnt : cnt = (polygons.length : Int)
    · simp only [hcnt, if_true, Option.some.injEq, lq_quadtree_node_t.node.injEq] at h
      obtain ⟨h0, h1, h2, h3, h4, h5, h6, h7⟩ := h
      exact ⟨h4.symm, h5.symm, Or.inr ⟨rfl, hcnt, h6.symm, h7.symm, h0.symm, h1.symm, h2.symm,
        h3.symm⟩⟩
    · simp [hcnt] at h
  · rw [int32_populate_children_internal _ _ _ _ _ _ _ _ hc] at h
    simp only [Option.some.injEq, lq_quadtree_node_t.node.injEq] at h
    obtain ⟨h0, h1, h2, h3, h4, h5, h6, h7⟩ := h
    exact ⟨h4.symm, h5.symm, Or.inl ⟨hc, h0.symm, h1.symm, h2.symm, h3.symm, h6.symm, h7.symm⟩⟩

theorem int32_put_node_box (fuel : Nat) (node : lq_quadtree_node_t) (polygon : lq_polygon_t)
    (r : lq_quadtree_node_t)
    (h : int32.lq_quadtree_node_put_polygon fuel node polygon = some r) :
    node_box r = node_box node := by
  cases fuel with
  | zero => simp [int32.lq_quadtree_node_put_polygon] at h
  | succ fuel =>
    cases node with
    | null => simp [int32.lq_quadtree_node_put_polygon] at h
    | node c0 c1 c2 c3 depth box polygons cnt =>
      obtain ⟨collision, -, hcase⟩ :=
        int32_put_cases fuel c0 c1 c2 c3 depth box polygons cnt polygon r h
      rcases hcase with ⟨-, hr⟩ | ⟨-, -, hr⟩ | ⟨-, -, d0, d1, d2, d3, depth1, box1, polygons1,
        cnt1, e0, e1, e2, e3, hpop, -, -, -, -, hr⟩
      · rw [hr]
      · rw [hr]; rfl
      · rw [hr]
        have := (int32_populate_children_cases _ _ _ _ _ _ _ _ _ _ _ _ _ _ _ _ hpop).2.1
        simp [node_box, this]

/-- An insertion with `int` arithmetic adds no payload but the inserted
one. -/
theorem int32_put_payloads (fuel : Nat) :
    ∀ (node : lq_quadtree_node_t) (polygon : lq_polygon_t) (r : lq_quadtree_node_t),
      int32.lq_quadtree_node_put_polygon fuel node polygon = some r →
      ∀ q ∈ payloads r, q = polygon ∨ q ∈ payloads node := by
  induction fuel with
  | zero => intro node polygon r h; simp [int32.lq_quadtree_node_put_polygon] at h
  | succ fuel ih =>
    intro node polygon r h q hq
    cases node with
    | null => simp [int32.lq_quadtree_node_put_polygon] at h
    | node c0 c1 c2 c3 depth box polygons cnt =>
      obtain ⟨collision, -, hcase⟩ :=
        int32_put_cases fuel c0 c1 c2 c3 depth box polygons cnt polygon r h
      rcases hcase with ⟨-, hr⟩ | ⟨-, -, hr⟩ | ⟨-, -, d0, d1, d2, d3, depth1, box1, polygons1,
        cnt1, e0, e1, e2, e3, hpop, hp0, hp1, hp2, hp3, hr⟩
      · subst hr; exact Or.inr hq
      · subst hr
        simp only [payloads, List.cons_append, List.mem_cons] at hq
        rcases hq with hq | hq
        · exact Or.inl hq
        · exact Or.inr (by simpa [payloads] using hq)
      · subst hr
        have hd : ∀ q, (q ∈ polygons1 ∨ q ∈ payloads d0 ∨ q ∈ payloads d1 ∨ q ∈ payloads d2 ∨
            q ∈ payloads d3) → q ∈ payloads (.node c0 c1 c2 c3 depth box polygons cnt) := by
          intro q hq
          obtain ⟨-, -, hcs⟩ := int32_populate_children_cases _ _ _ _ _ _ _ _ _ _ _ _ _ _ _ _ hpop
          rcases hcs with ⟨-, r0, r1, r2, r3, r4, -⟩ | ⟨-, -, r4, -, r0, r1, r2, r3⟩
          · subst r0 r1 r2 r3 r4
            simpa [payloads] using hq
          · subst r0 r1 r2 r3 r4
            simp only [payloads, List.append_nil, List.mem_reverse, List.not_mem_nil, false_or,
              or_self] at hq
            simp [payloads, hq]
        simp only [payloads, List.mem_append] at hq
        rcases hq with hq | hq | hq | hq | hq
        · exact Or.inr (hd q (Or.inl hq))
        · rcases ih d0 polygon e0 hp0 q hq with h1 | h1
          · exact Or.inl h1
          · exact Or.inr (hd q (Or.inr (Or.inl h1)))
        · rcases ih d1 polygon e1 hp1 q hq with h1 | h1
          · exact Or.inl h1
          · exact Or.inr (hd q (Or.inr (Or.inr (Or.inl h1))))
        · rcases ih d2 polygon e2 hp2 q hq with h1 | h1
          · exact Or.inl h1
          · exact Or.inr (hd q (Or.inr (Or.inr (Or.inr (Or.inl h1)))))
        · rcases ih d3 polygon e3 hp3 q hq with h1 | h1
          · exact Or.inl h1
          · exact Or.inr (hd q (Or.inr (Or.inr (Or.inr (Or.inr h1)))))

/-- The four child boxes that the split with `int` arithmetic computes for a
box that fits are its four exact quarters. -/
theorem int32_quarters_of_fits (box : lq_rect_t) (hf : fits box) :
    int_wrap (box.left + Int.tdiv box.width 2) = box.left + Int.tdiv box.width 2 ∧
    int_wrap (box.bottom + Int.tdiv box.height 2) = box.bottom + Int.tdiv box.height 2 := by
  obtain ⟨h1, h2, h3, h4, h5, h6⟩ := hf
  have tw := tdiv_two_bounds _ h3
  have th := tdiv_two_bounds _ h4
  exact ⟨int_wrap_eq _ (by omega) (by omega), int_wrap_eq _ (by omega) (by omega)⟩

/-- An insertion with `int` arithmetic keeps a subtree well formed when the
box of its root fits or is too small to be split. -/
theorem int32_put_well_formed (fuel : Nat) :
    ∀ (node : lq_quadtree_node_t) (polygon : lq_polygon_t) (r : lq_quadtree_node_t),
      int32.lq_quadtree_node_put_polygon fuel node polygon = some r →
      well_formed node →
      (∀ box, node_box node = some box → 4 < box.width → 4 < box.height → fits box) →
      well_formed r := by
  induction fuel with
  | zero => intro node polygon r h; simp [int32.lq_quadtree_node_put_polygon] at h
  | succ fuel ih =>
    intro node polygon r h hwf hfit
    cases node with
    | null => simp [int32.lq_quadtree_node_put_polygon] at h
    | node c0 c1 c2 c3 depth box polygons cnt =>
      obtain ⟨collision, -, hcase⟩ :=
        int32_put_cases fuel c0 c1 c2 c3 depth box polygons cnt polygon r h
      rcases hcase with ⟨-, hr⟩ | ⟨-, -, hr⟩ | ⟨-, hncond, d0, d1, d2, d3, depth1, box1,
        polygons1, cnt1, e0, e1, e2, e3, hpop, hp0, hp1, hp2, hp3, hr⟩
      · subst hr; exact hwf
      · subst hr
        simp only [well_formed] at hwf ⊢
        obtain ⟨hcnt, hgw, hgh, hch⟩ := hwf
        refine ⟨?_, hgw, hgh, hch⟩
        simp [hcnt]
      · subst hr
        simp only [well_formed] at hwf
        obtain ⟨hcnt, hgw, hgh, hch⟩ := hwf
        have hbig : 4 < box.width ∧ 4 < box.height := by
          simp only [MIN_SIZE, not_or] at hncond
          omega
        have hf : fits box := hfit box rfl hbig.1 hbig.2
        obtain ⟨f0, f1, f2, f3⟩ := fits_quarters box hf hbig.1 hbig.2
        obtain ⟨qx, qy⟩ := int32_quarters_of_fits box hf
        obtain ⟨hdep, hbox, hcs⟩ :=
          int32_populate_children_cases _ _ _ _ _ _ _ _ _ _ _ _ _ _ _ _ hpop
        subst hdep hbox
        have hb0 := int32_put_node_box _ _ _ _ hp0
        have hb1 := int32_put_node_box _ _ _ _ hp1
        have hb2 := int32_put_node_box _ _ _ _ hp2
        have hb3 := int32_put_node_box _ _ _ _ hp3
        rcases hcs with ⟨hc0, r0, r1, r2, r3, r4, r5⟩ | ⟨hc0, -, r4, r5, r0, r1, r2, r3⟩
        · subst r0 r1 r2 r3 r4 r5
          rcases hch with ⟨hn, -⟩ | ⟨hw4, hh4, b0, b1, b2, b3, w0, w1, w2, w3⟩
          · exact absurd hn hc0
          · simp only [well_formed]
            refine ⟨hcnt, hgw, hgh, Or.inr ⟨hw4, hh4, ?_, ?_, ?_, ?_,
              ih _ _ _ hp0 w0 (fun b hb _ _ => by rw [b0] at hb; cases hb; exact f0),
              ih _ _ _ hp1 w1 (fun b hb _ _ => by rw [b1] at hb; cases hb; exact f1),
              ih _ _ _ hp2 w2 (fun b hb _ _ => by rw [b2] at hb; cases hb; exact f2),
              ih _ _ _ hp3 w3 (fun b hb _ _ => by rw [b3] at hb; cases hb; exact f3)⟩⟩
            · rw [hb0]; exact b0
            · rw [hb1]; exact b1
            · rw [hb2]; exact b2
            · rw [hb3]; exact b3
        · have hgw2 := (good_size_half _ hbig.1 hgw).2
          have hgh2 := (good_size_half _ hbig.2 hgh).2
          have wl : ∀ (d b l : Int), well_formed (.node .null .null .null .null d
              ⟨b, l, Int.tdiv box1.height 2, Int.tdiv box1.width 2⟩ polygons.reverse
                polygons.length) := by
            intro d b l
            simp [well_formed, hgw2, hgh2]
          subst r0 r1 r2 r3 r4 r5
          rw [qx, qy] at hp0 hb0
          rw [qy] at hp1 hb1
          rw [qx] at hp3 hb3
          simp only [well_formed]
          refine ⟨by simp, hgw, hgh, Or.inr ⟨hbig.1, hbig.2, ?_, ?_, ?_, ?_,
            ih _ _ _ hp0 (wl _ _ _) (fun b hb _ _ => by cases hb; exact f0),
            ih _ _ _ hp1 (wl _ _ _) (fun b hb _ _ => by cases hb; exact f1),
            ih _ _ _ hp2 (wl _ _ _) (fun b hb _ _ => by cases hb; exact f2),
            ih _ _ _ hp3 (wl _ _ _) (fun b hb _ _ => by cases hb; exact f3)⟩⟩
          · rw [hb0]; rfl
          · rw [hb1]; rfl
          · rw [hb2]; rfl
          · rw [hb3]; rfl

theorem int32_add_out_of_bounds_eq_true (box : lq_rect_t) (xs ys : List Int) (l : List Nat) :
    int32.add_out_of_bounds box xs ys l = true ↔
      ∃ i ∈ l, int32.lq_rect_point_is_in_bounds box (arr xs i) (arr ys i) = false := by
  induction l with
  | nil => simp [int32.add_out_of_bounds]
  | cons i rest ih =>
    simp only [int32.add_out_of_bounds, List.mem_cons, exists_eq_or_imp]
    by_cases hb : int32.lq_rect_point_is_in_bounds box (arr xs i) (arr ys i) = true
    · simp [hb, ih]
    · simp at hb
      simp [hb]

theorem is_int_of_ulong (n : Nat) : is_int (int_of_ulong n) := by
  refine ⟨?_, int_of_ulong_lt n⟩
  unfold int_of_ulong
  simp only
  have h0 : 0 ≤ (n : Int) % 2 ^ 32 := Int.emod_nonneg _ (by norm_num)
  have hlt : (n : Int) % 2 ^ 32 < 2 ^ 32 := Int.emod_lt_of_pos _ (by norm_num)
  split_ifs <;> omega

theorem int_box_of_create (left bottom width height : Int) (hl : is_int left)
    (hb : is_int bottom) :
    int_box (root_box ⟨.node .null .null .null .null 0
      ⟨bottom, left, int_of_ulong (next_power_of_2 height.toNat),
        int_of_ulong (next_power_of_2 width.toNat)⟩ [] 0⟩) := by
  unfold root_box
  simp only
  unfold int_box
  simp only
  refine ⟨hl, hb, ?_, ?_⟩
  · exact is_int_of_ulong (next_power_of_2 width.toNat)
  · exact is_int_of_ulong (next_power_of_2 height.toNat)

theorem int32_collide_some (n : Int) (xs ys : List Int) (rx ry w h : Int) (hn : 0 < n) :
    ∃ c, int32.collide_polygon_rectangle n xs ys rx ry w h = some c := by
  unfold int32.collide_polygon_rectangle
  rw [if_neg (by omega)]
  split_ifs <;> exact ⟨_, rfl⟩

theorem int32_collide_positive (n : Int) (xs ys : List Int) (rx ry w h c : Int)
    (hc : int32.collide_polygon_rectangle n xs ys rx ry w h = some c) : 0 < n := by
  by_contra hn
  unfold int32.collide_polygon_rectangle at hc
  rw [if_pos (by omega)] at hc
  exact absurd hc (by simp)

/-- The insertion with `int` arithmetic returns on every well-formed subtree
for every polygon with a positive vertex count, within the recursion budget
that `quadtree_add` passes. -/
theorem int32_put_total (fuel : Nat) :
    ∀ (node : lq_quadtree_node_t) (polygon : lq_polygon_t),
      well_formed node → 0 < polygon.number_of_points → put_fuel node ≤ fuel →
      ∃ r, int32.lq_quadtree_node_put_polygon fuel node polygon = some r := by
  induction fuel with
  | zero =>
    intro node polygon hwf _ hfuel
    cases node with
    | null => exact absurd hwf (by simp [well_formed])
    | node c0 c1 c2 c3 depth box polygons cnt => rw [put_fuel_pos] at hfuel; omega
  | succ fuel ih =>
    intro node polygon hwf hn hfuel
    cases node with
    | null => exact absurd hwf (by simp [well_formed])
    | node c0 c1 c2 c3 depth box polygons cnt =>
      obtain ⟨collision, hcol⟩ := int32_collide_some polygon.number_of_points polygon.xs
        polygon.ys box.left box.bottom box.width box.height hn
      rw [int32.lq_quadtree_node_put_polygon]
      simp only [hcol]
      by_cases h0 : collision = 0
      · exact ⟨_, by rw [if_pos h0]⟩
      · rw [if_neg h0]
        split_ifs with hcond
        · exact ⟨_, rfl⟩
        · have hbig : 4 < box.width ∧ 4 < box.height := by
            simp only [Bool.or_eq_true, decide_eq_true_eq, MIN_SIZE, not_or] at hcond
            omega
          simp only [well_formed] at hwf
          obtain ⟨hcnt, hgw, hgh, hch⟩ := hwf
          rw [put_fuel_pos] at hfuel
          by_cases hc0 : c0 = .null
          · subst hc0
            rw [int32_populate_children_leaf, if_pos hcnt]
            simp only
            obtain ⟨hw2, hgw2⟩ := good_size_half _ hbig.1 hgw
            obtain ⟨-, hgh2⟩ := good_size_half _ hbig.2 hgh
            have hfresh : ∀ (d b l : Int),
                ∃ r, int32.lq_quadtree_node_put_polygon fuel
                  (.node .null .null .null .null d
                    ⟨b, l, Int.tdiv box.height 2, Int.tdiv box.width 2⟩ polygons.reverse
                    polygons.length) polygon = some r := by
              intro d b l
              apply ih _ _ _ hn
              · rw [put_fuel_pos]
                simp only [put_fuel, Nat.max_self, Nat.zero_add]
                omega
              · have := well_formed_leaf d
                  ⟨b, l, Int.tdiv box.height 2, Int.tdiv box.width 2⟩ polygons.reverse hgw2 hgh2
                simpa using this
            obtain ⟨e0, he0⟩ := hfresh (int_wrap (depth + 1))
              (int_wrap (box.bottom + Int.tdiv box.height 2))
              (int_wrap (box.left + Int.tdiv box.width 2))
            obtain ⟨e1, he1⟩ := hfresh (int_wrap (depth + 1))
              (int_wrap (box.bottom + Int.tdiv box.height 2)) box.left
            obtain ⟨e2, he2⟩ := hfresh (int_wrap (depth + 1)) box.bottom box.left
            obtain ⟨e3, he3⟩ := hfresh (int_wrap (depth + 1)) box.bottom
              (int_wrap (box.left + Int.tdiv box.width 2))
            simp only [he0, he1, he2, he3]
            exact ⟨_, rfl⟩
          · rw [int32_populate_children_internal _ _ _ _ _ _ _ _ hc0]
            simp only
            rcases hch with ⟨hn0, -⟩ | ⟨-, -, -, -, -, -, w0, w1, w2, w3⟩
            · exact absurd hn0 hc0
            · obtain ⟨e0, he0⟩ := ih c0 polygon w0 hn (by omega)
              obtain ⟨e1, he1⟩ := ih c1 polygon w1 hn (by omega)
              obtain ⟨e2, he2⟩ := ih c2 polygon w2 hn (by omega)
              obtain ⟨e3, he3⟩ := ih c3 polygon w3 hn (by omega)
              simp only [he0, he1, he2, he3]
              exact ⟨_, rfl⟩

theorem int32_quadtree_add_cases (qt qt1 : lq_quadtree_t) (id n : Int) (xs ys : List Int)
    (code : Int) (h : int32.quadtree_add qt id n xs ys = some (code, qt1)) :
    (code = QUADTREE_ERROR_OUT_OF_BOUNDS ∧ qt1 = qt ∧
      int32.add_out_of_bounds (root_box qt) xs ys (List.range n.toNat) = true) ∨
    (code = QUADTREE_SUCCESS ∧
      int32.add_out_of_bounds (root_box qt) xs ys (List.range n.toNat) = false ∧
      ∃ polygon, lq_polygon_node_new id n xs ys = some polygon ∧
        int32.lq_quadtree_node_put_polygon (put_fuel qt.root) qt.root polygon =
          some qt1.root) := by
  unfold int32.quadtree_add at h
  split at h
  · simp at h
  · rename_i c0 c1 c2 c3 depth box polygons cnt hroot
    simp only [root_box, hroot]
    split at h
    · rename_i hb
      simp only [Option.some.injEq, Prod.mk.injEq] at h
      left
      exact ⟨h.1.symm, h.2.symm, hb⟩
    · rename_i hb
      split at h
      · exact absurd h (by simp)
      · rename_i polygon hnew
        split at h
        · simp at h
        · rename_i root hput
          simp only [Option.some.injEq, Prod.mk.injEq] at h
          right
          refine ⟨h.1.symm, by simpa using hb, polygon, hnew, ?_⟩
          rw [← h.2]
          exact hput

/-- A call of `quadtree_add` with `int` arithmetic and a positive vertex
count returns on every well-formed tree: with `QUADTREE_ERROR_OUT_OF_BOUNDS`
when the vertex loop finds a vertex out of bounds, with `QUADTREE_SUCCESS`
otherwise. -/
theorem int32_quadtree_add_total (qt : lq_quadtree_t) (id n : Int) (xs ys : List Int)
    (hwf : well_formed qt.root) (hn : 0 < n) :
    ∃ qt1, int32.quadtree_add qt id n xs ys =
      some (if int32.add_out_of_bounds (root_box qt) xs ys (List.range n.toNat) = true
        then QUADTREE_ERROR_OUT_OF_BOUNDS else QUADTREE_SUCCESS, qt1) := by
  obtain ⟨root⟩ := qt
  cases root with
  | null => exact absurd hwf (by simp [well_formed])
  | node c0 c1 c2 c3 depth box polygons cnt =>
    simp only [root_box]
    by_cases hin : int32.add_out_of_bounds box xs ys (List.range n.toNat) = true
    · exact ⟨⟨.node c0 c1 c2 c3 depth box polygons cnt⟩,
        by simp only [int32.quadtree_add, hin, if_true]⟩
    · have hnew : lq_polygon_node_new id n xs ys =
          some ⟨id, n, (List.range n.toNat).map (arr xs), (List.range n.toNat).map (arr ys)⟩ := by
        unfold lq_polygon_node_new
        rw [if_neg (by omega)]
      obtain ⟨r, hr⟩ := int32_put_total _ _ ⟨id, n, (List.range n.toNat).map (arr xs),
        (List.range n.toNat).map (arr ys)⟩ hwf hn (le_refl _)
      exact ⟨⟨r⟩, by simp only [int32.quadtree_add, hin, hnew, hr, Bool.false_eq_true,
        if_false]⟩

/-- Every tree that the calls with `int` arithmetic reach is well formed, its
root box has `int` fields, and every payload in it is live. -/
theorem int32_reachable_invariant (qt : lq_quadtree_t) (live : List lq_polygon_t)
    (h : int32.reachable qt live) :
    well_formed qt.root ∧ int_box (root_box qt) ∧ ∀ q ∈ payloads qt.root, q ∈ live := by
  induction h with
  | create left bottom width height qt hl hb _ _ hc =>
    obtain ⟨hw, hp⟩ := quadtree_create_well_formed _ _ _ _ _ hc
    obtain ⟨-, -, hq⟩ := quadtree_create_eq_some _ _ _ _ _ hc
    refine ⟨hw, ?_, by simp [hp]⟩
    subst hq
    exact int_box_of_create left bottom width height hl hb
  | add_success qt qt1 live id n xs ys polygon _ hadd hnew ih =>
    obtain ⟨hwf, hib, hpay⟩ := ih
    rcases int32_quadtree_add_cases _ _ _ _ _ _ _ hadd with ⟨hc, -⟩ | ⟨-, hin, polygon1, hnew1,
      hput⟩
    · exact absurd hc (by decide)
    · rw [hnew] at hnew1
      simp only [Option.some.injEq] at hnew1
      subst hnew1
      obtain ⟨root⟩ := qt
      cases root with
      | null => exact absurd hwf (by simp [well_formed])
      | node c0 c1 c2 c3 depth box polygons cnt =>
        simp only [root_box] at hin hib
        simp only at hput hwf hpay
        have hfit : ∀ b, node_box (.node c0 c1 c2 c3 depth box polygons cnt) = some b →
            4 < b.width → 4 < b.height → fits b := by
          intro b hb hw4 hh4
          simp only [node_box, Option.some.injEq] at hb
          subst hb
          obtain ⟨collision, hcol, -⟩ := int32_put_cases _ _ _ _ _ _ _ _ _ _ _
            (by rw [put_fuel_pos] at hput; exact hput)
          have hn := int32_collide_positive _ _ _ _ _ _ _ _ hcol
          have hpn : polygon.number_of_points = n := by
            unfold lq_polygon_node_new at hnew
            split at hnew
            · simp at hnew
            · rw [← Option.some.inj hnew]
          rw [hpn] at hn
          have h0 : int32.lq_rect_point_is_in_bounds box (arr xs 0) (arr ys 0) = true := by
            by_contra hb0
            have : int32.add_out_of_bounds box xs ys (List.range n.toNat) = true :=
              (int32_add_out_of_bounds_eq_true _ _ _ _).2
                ⟨0, List.mem_range.2 (by omega), by simpa using hb0⟩
            rw [hin] at this
            exact absurd this (by decide)
          exact int32_fits_of_in_bounds box hib (by omega) (by omega) _ _ h0
        have hwf1 := int32_put_well_formed _ _ _ _ hput hwf hfit
        have hbox1 := int32_put_node_box _ _ _ _ hput
        refine ⟨hwf1, ?_, ?_⟩
        · have : root_box qt1 = box := by
            unfold root_box
            cases hr1 : qt1.root with
            | null => rw [hr1] at hwf1; exact absurd hwf1 (by simp [well_formed])
            | node a0 a1 a2 a3 adepth abox apolygons acnt =>
              rw [hr1] at hbox1
              simpa [node_box] using hbox1
          rw [this]
          exact hib
        · intro q hq
          rcases int32_put_payloads _ _ _ _ hput q hq with h1 | h1
          · simp [h1]
          · exact List.mem_cons_of_mem _ (hpay q h1)
  | add_failure qt qt1 live id n xs ys code _ hadd hne ih =>
    rcases int32_quadtree_add_cases _ _ _ _ _ _ _ hadd with ⟨-, heq, -⟩ | ⟨hs, -⟩
    · rw [heq]; exact ih
    · exact absurd hs hne
  | remove qt qt1 live id code _ hrem ih =>
    obtain ⟨hwf, hib, hpay⟩ := ih
    obtain ⟨-, -, heq⟩ := quadtree_remove_cases _ _ _ _ hrem
    subst heq
    refine ⟨remove_well_formed _ _ hwf, ?_, ?_⟩
    · have hb := remove_node_box qt.root id
      have : root_box ⟨lq_quadtree_node_remove qt.root id⟩ = root_box qt := by
        obtain ⟨root⟩ := qt
        cases root <;> simp [root_box, lq_quadtree_node_remove]
      rw [this]
      exact hib
    · intro q hq
      rw [remove_payloads] at hq
      rw [List.mem_filter]
      exact ⟨hpay q hq.1, by simpa using hq.2⟩

theorem int32_find_leaf_payloads (node : lq_quadtree_node_t) (x y : Int) :
    ∀ c0 c1 c2 c3 depth box polygons cnt,
      int32.lq_quadtree_node_find_leaf node x y =
        some (.node c0 c1 c2 c3 depth box polygons cnt) →
      ∀ q ∈ polygons, q ∈ payloads node := by
  induction node with
  | null =>
    intro c0 c1 c2 c3 depth box polygons cnt h
    simp [int32.lq_quadtree_node_find_leaf] at h
  | node a0 a1 a2 a3 adepth abox apolygons acnt ih0 ih1 ih2 ih3 =>
    intro c0 c1 c2 c3 depth box polygons cnt h q hq
    have here : ∀ {n : lq_quadtree_node_t},
        (some (lq_quadtree_node_t.node a0 a1 a2 a3 adepth abox apolygons acnt) =
          some (.node c0 c1 c2 c3 depth box polygons cnt)) →
        q ∈ payloads (.node a0 a1 a2 a3 adepth abox apolygons acnt) := by
      intro _ he
      simp only [Option.some.injEq, lq_quadtree_node_t.node.injEq] at he
      obtain ⟨-, -, -, -, -, -, hp, -⟩ := he
      subst hp
      simp [payloads, hq]
    rw [int32.lq_quadtree_node_find_leaf] at h
    split at h
    · simp at h
    · split at h
      · have := ih0 _ _ _ _ _ _ _ _ h q hq
        simp [payloads, this]
      · exact here (n := a0) h
    · split at h
      · have := ih1 _ _ _ _ _ _ _ _ h q hq
        simp [payloads, this]
      · exact here (n := a0) h
    · split at h
      · have := ih2 _ _ _ _ _ _ _ _ h q hq
        simp [payloads, this]
      · exact here (n := a0) h
    · split at h
      · have := ih3 _ _ _ _ _ _ _ _ h q hq
        simp [payloads, this]
      · exact here (n := a0) h

theorem int32_query_ids_eq (x y : Int) (polygons : List lq_polygon_t) :
    int32.query_ids x y polygons =
      (polygons.filter
        (fun p => point_in_polygon_int32 x y p.number_of_points p.xs p.ys)).map
        lq_polygon_t.id := by
  induction polygons with
  | nil => rfl
  | cons p rest ih =>
    simp only [int32.query_ids, List.filter_cons]
    split
    · simp only [List.map_cons, ih]
    · exact ih

theorem int32_query_ids_length_le (x y : Int) (polygons : List lq_polygon_t) :
    (int32.query_ids x y polygons).length ≤ polygons.length := by
  rw [int32_query_ids_eq, List.length_map]
  exact List.length_filter_le _ _

theorem int32_quadtree_query_success (qt : lq_quadtree_t) (x y : Int)
    (holder result : quadtree_query_result_t) (code : Int)
    (h : int32.quadtree_query qt x y holder = some (code, result))
    (hc : code = QUADTREE_SUCCESS) :
    ∃ c0 c1 c2 c3 depth box polygons cnt,
      int32.lq_quadtree_node_find_leaf qt.root x y =
        some (.node c0 c1 c2 c3 depth box polygons cnt) ∧
      result = ⟨((int32.query_ids x y polygons).length : Int),
        some (int32.query_ids x y polygons)⟩ := by
  unfold int32.quadtree_query at h
  split at h
  · simp at h
  · rename_i a0 a1 a2 a3 adepth abox apolygons acnt hroot
    split at h
    · simp only [Option.some.injEq, Prod.mk.injEq] at h
      rw [hc] at h
      exact absurd h.1 (by decide)
    · unfold int32.lq_quadtree_node_query at h
      simp only at h
      rw [hroot]
      split at h
      · rename_i c0 c1 c2 c3 depth box polygons cnt hleaf
        split at h
        · simp only [Option.some.injEq, Prod.mk.injEq] at h
          exact ⟨c0, c1, c2, c3, depth, box, polygons, cnt, hleaf, h.2.symm⟩
        · simp at h
      · simp at h

/-- A query with `int` arithmetic whose descent ends in a node with a
payload list no longer than its counter returns `QUADTREE_SUCCESS` with the
ids of the payloads of that list that pass `point_in_polygon`. -/
theorem int32_quadtree_query_of_leaf (qt : lq_quadtree_t) (x y : Int)
    (holder : quadtree_query_result_t) (c0 c1 c2 c3 : lq_quadtree_node_t) (depth : Int)
    (box : lq_rect_t) (polygons : List lq_polygon_t) (cnt : Int)
    (hin : int32.lq_rect_point_is_in_bounds (root_box qt) x y = true)
    (hleaf : int32.lq_quadtree_node_find_leaf qt.root x y =
      some (.node c0 c1 c2 c3 depth box polygons cnt))
    (hlen : ((int32.query_ids x y polygons).length : Int) ≤ cnt) :
    int32.quadtree_query qt x y holder =
      some (QUADTREE_SUCCESS, ⟨((int32.query_ids x y polygons).length : Int),
        some (int32.query_ids x y polygons)⟩) := by
  obtain ⟨root⟩ := qt
  cases root with
  | null => simp [int32.lq_quadtree_node_find_leaf] at hleaf
  | node a0 a1 a2 a3 adepth abox apolygons acnt =>
    simp only [root_box] at hin
    simp only at hleaf
    simp only [int32.quadtree_query, hin, Bool.not_true, Bool.false_eq_true, if_false,
      int32.lq_quadtree_node_query, hleaf, hlen, if_true, lq_quadtree_query_result_reset]

/-- In a well-formed subtree the descent ends in a leaf. -/
theorem find_leaf_is_leaf (node : lq_quadtree_node_t) :
    well_formed node → ∀ (x y : Int) (l : lq_quadtree_node_t),
      lq_quadtree_node_find_leaf node x y = some l → is_leaf l := by
  induction node with
  | null => intro h; exact absurd h (by simp [well_formed])
  | node a0 a1 a2 a3 adepth abox apolygons acnt ih0 ih1 ih2 ih3 =>
    intro hwf x y l hl
    simp only [well_formed] at hwf
    obtain ⟨-, -, -, hch⟩ := hwf
    rw [lq_quadtree_node_find_leaf] at hl
    rcases hch with ⟨h0, h1, h2, h3⟩ | ⟨-, -, b0, b1, b2, b3, w0, w1, w2, w3⟩
    · subst h0 h1 h2 h3
      have hres : l = .node .null .null .null .null adepth abox apolygons acnt := by
        split at hl
        · simp at hl
        all_goals
          simp only [ne_eq, not_true_eq_false, if_false, Option.some.injEq] at hl
          exact hl.symm
      rw [hres]
      simp [is_leaf]
    · have n0 : a0 ≠ .null := by intro h; simp [h, node_box] at b0
      have n1 : a1 ≠ .null := by intro h; simp [h, node_box] at b1
      have n2 : a2 ≠ .null := by intro h; simp [h, node_box] at b2
      have n3 : a3 ≠ .null := by intro h; simp [h, node_box] at b3
      split at hl
      · simp at hl
      · rw [if_pos n0] at hl; exact ih0 w0 x y l hl
      · rw [if_pos n1] at hl; exact ih1 w1 x y l hl
      · rw [if_pos n2] at hl; exact ih2 w2 x y l hl
      · rw [if_pos n3] at hl; exact ih3 w3 x y l hl

/-- In a well-formed subtree whose box fits when it is large enough to have
been split, the descent with `int` arithmetic from a point that the bounds
check with `int` arithmetic accepts ends in a leaf whose counter is the length
of its payload list. -/
theorem int32_find_leaf_of_fits_or_small (node : lq_quadtree_node_t) (box : lq_rect_t)
    (hwf : well_formed node) (hbox : node_box node = some box)
    (hfit : 4 < box.width → 4 < box.height → fits box)
    (x y : Int) (hin : int32.lq_rect_point_is_in_bounds box x y = true) :
    ∃ depth lbox polygons,
      int32.lq_quadtree_node_find_leaf node x y =
        some (.node .null .null .null .null depth lbox polygons polygons.length) := by
  cases node with
  | null => exact absurd hwf (by simp [well_formed])
  | node a0 a1 a2 a3 adepth abox apolygons acnt =>
    simp only [node_box, Option.some.injEq] at hbox
    subst hbox
    have hwf0 := hwf
    simp only [well_formed] at hwf
    obtain ⟨hcnt, -, -, hch⟩ := hwf
    rcases hch with ⟨h0, h1, h2, h3⟩ | ⟨hw4, hh4, -⟩
    · subst h0 h1 h2 h3 hcnt
      refine ⟨adepth, abox, apolygons, ?_⟩
      rw [int32.lq_quadtree_node_find_leaf]
      unfold int32.lq_rect_get_quadrant
      rw [if_pos hin]
      simp only [FIRST_QUADRANT, SECOND_QUADRANT, THIRD_QUADRANT, FOURTH_QUADRANT]
      split_ifs <;> first
        | exact absurd rfl ‹lq_quadtree_node_t.null ≠ lq_quadtree_node_t.null›
        | rfl
    · have hf : fits abox := hfit hw4 hh4
      have hin1 : lq_rect_point_is_in_bounds abox x y = true := by
        rw [← int32_in_bounds_of_fits abox hf]; exact hin
      obtain ⟨c0, c1, c2, c3, depth, lbox, polygons, hleaf⟩ :=
        find_leaf_well_formed _ hwf0 x y abox rfl hin1
      have hl := find_leaf_is_leaf _ hwf0 x y _ hleaf
      simp only [is_leaf] at hl
      obtain ⟨l0, l1, l2, l3⟩ := hl
      subst l0 l1 l2 l3
      exact ⟨depth, lbox, polygons, by rw [int32_find_leaf_of_fits _ hwf0 abox rfl hf]; exact hleaf⟩

/-- In a well-formed tree whose root box has `int` fields, the descent with
`int` arithmetic from a point that the bounds check with `int` arithmetic
accepts ends in a leaf whose counter is the length of its payload list. -/
theorem int32_find_leaf_well_formed (node : lq_quadtree_node_t) (box : lq_rect_t)
    (hwf : well_formed node) (hbox : node_box node = some box) (hib : int_box box)
    (x y : Int) (hin : int32.lq_rect_point_is_in_bounds box x y = true) :
    ∃ depth lbox polygons,
      int32.lq_quadtree_node_find_leaf node x y =
        some (.node .null .null .null .null depth lbox polygons polygons.length) :=
  int32_find_leaf_of_fits_or_small node box hwf hbox
    (fun hw4 hh4 => int32_fits_of_in_bounds box hib (by omega) (by omega) x y hin) x y hin

/-- For a tree whose root box fits, `quadtree_add` with `int` arithmetic
returns `QUADTREE_ERROR_OUT_OF_BOUNDS` exactly when some vertex lies outside
the half-open box stored at the root; and whenever it returns that code, fit
or not, the tree is the tree before the call. -/
theorem int32_add_out_of_bounds_iff_vertex_outside (c0 c1 c2 c3 : lq_quadtree_node_t)
    (depth : Int) (box : lq_rect_t) (polygons : List lq_polygon_t) (number_of_polygons : Int)
    (id n : Int) (xs ys : List Int) :
    (fits box →
      ((∃ qt1, int32.quadtree_add ⟨.node c0 c1 c2 c3 depth box polygons number_of_polygons⟩
            id n xs ys = some (QUADTREE_ERROR_OUT_OF_BOUNDS, qt1)) ↔
        ∃ i : Nat, (i : Int) < n ∧
          ¬ (box.left ≤ arr xs i ∧ arr xs i < box.left + box.width ∧
             box.bottom ≤ arr ys i ∧ arr ys i < box.bottom + box.height))) ∧
    (∀ qt1, int32.quadtree_add ⟨.node c0 c1 c2 c3 depth box polygons number_of_polygons⟩
          id n xs ys = some (QUADTREE_ERROR_OUT_OF_BOUNDS, qt1) →
        qt1 = ⟨.node c0 c1 c2 c3 depth box polygons number_of_polygons⟩) := by
  have hcode : ∀ qt1, int32.quadtree_add
      ⟨.node c0 c1 c2 c3 depth box polygons number_of_polygons⟩ id n xs ys =
        some (QUADTREE_ERROR_OUT_OF_BOUNDS, qt1) →
      qt1 = ⟨.node c0 c1 c2 c3 depth box polygons number_of_polygons⟩ ∧
      int32.add_out_of_bounds box xs ys (List.range n.toNat) = true := by
    intro qt1 h
    rcases int32_quadtree_add_cases _ _ _ _ _ _ _ h with ⟨-, hq, hb⟩ | ⟨hc, -⟩
    · exact ⟨hq, by simpa [root_box] using hb⟩
    · exact absurd hc (by decide)
  refine ⟨fun hf => ?_, fun qt1 h => (hcode qt1 h).1⟩
  have key : (int32.add_out_of_bounds box xs ys (List.range n.toNat) = true) ↔
      ∃ i : Nat, (i : Int) < n ∧
        ¬ (box.left ≤ arr xs i ∧ arr xs i < box.left + box.width ∧
           box.bottom ≤ arr ys i ∧ arr ys i < box.bottom + box.height) := by
    rw [int32_add_out_of_bounds_eq_true]
    constructor
    · rintro ⟨i, hi, hb⟩
      refine ⟨i, ?_, ?_⟩
      · rw [List.mem_range] at hi; omega
      · rw [int32_in_bounds_of_fits box hf] at hb
        rw [← lq_rect_point_is_in_bounds_iff]; simp [hb]
    · rintro ⟨i, hi, hb⟩
      refine ⟨i, ?_, ?_⟩
      · rw [List.mem_range]; omega
      · rw [int32_in_bounds_of_fits box hf]
        rw [← lq_rect_point_is_in_bounds_iff] at hb; simpa using hb
  rw [← key]
  constructor
  · rintro ⟨qt1, h⟩
    exact (hcode qt1 h).2
  · intro hb
    exact ⟨⟨.node c0 c1 c2 c3 depth box polygons number_of_polygons⟩,
      by simp only [int32.quadtree_add, hb, if_true]⟩

/-- For a tree whose root box fits, `quadtree_query` with `int` arithmetic
returns `QUADTREE_ERROR_OUT_OF_BOUNDS` exactly when the point lies outside the
half-open box stored at the root. -/
theorem int32_query_out_of_bounds_iff (c0 c1 c2 c3 : lq_quadtree_node_t)
    (depth : Int) (box : lq_rect_t) (polygons : List lq_polygon_t) (number_of_polygons : Int)
    (hwf : well_formed (.node c0 c1 c2 c3 depth box polygons number_of_polygons))
    (hf : fits box) (x y : Int) (holder : quadtree_query_result_t) :
    (∃ result, int32.quadtree_query ⟨.node c0 c1 c2 c3 depth box polygons number_of_polygons⟩
        x y holder = some (QUADTREE_ERROR_OUT_OF_BOUNDS, result)) ↔
      ¬ (box.left ≤ x ∧ x < box.left + box.width ∧
         box.bottom ≤ y ∧ y < box.bottom + box.height) := by
  rw [← lq_rect_point_is_in_bounds_iff, ← int32_in_bounds_of_fits box hf]
  constructor
  · rintro ⟨result, hr⟩ hb
    obtain ⟨ldepth, lbox, lpolygons, hleaf⟩ :=
      int32_find_leaf_of_fits_or_small _ box hwf rfl (fun _ _ => hf) x y hb
    have hq := int32_quadtree_query_of_leaf
      ⟨.node c0 c1 c2 c3 depth box polygons number_of_polygons⟩ x y holder _ _ _ _ _ _ _ _
      hb hleaf (by exact_mod_cast int32_query_ids_length_le x y lpolygons)
    rw [hq] at hr
    simp only [Option.some.injEq, Prod.mk.injEq] at hr
    exact absurd hr.1 (by decide)
  · intro hb
    have hb2 : int32.lq_rect_point_is_in_bounds box x y = false := by simpa using hb
    exact ⟨holder, by simp [int32.quadtree_query, hb2]⟩

/-- In every tree that the calls with `int` arithmetic reach, a query at a
point that the bounds check accepts returns `QUADTREE_SUCCESS` with an id
list whose length is `number_of_ids`. -/
theorem int32_query_in_bounds_success (qt : lq_quadtree_t) (live : List lq_polygon_t)
    (h : int32.reachable qt live) (x y : Int) (holder : quadtree_query_result_t)
    (hin : int32.lq_rect_point_is_in_bounds (root_box qt) x y = true) :
    ∃ ids : List Int, int32.quadtree_query qt x y holder =
      some (QUADTREE_SUCCESS, ⟨(ids.length : Int), some ids⟩) := by
  obtain ⟨hwf, hib, -⟩ := int32_reachable_invariant qt live h
  obtain ⟨root⟩ := qt
  cases root with
  | null => exact absurd hwf (by simp [well_formed])
  | node c0 c1 c2 c3 depth box polygons cnt =>
    simp only [root_box] at hin hib
    obtain ⟨ldepth, lbox, lpolygons, hleaf⟩ :=
      int32_find_leaf_well_formed _ box hwf rfl hib x y hin
    exact ⟨int32.query_ids x y lpolygons, int32_quadtree_query_of_leaf _ x y holder _ _ _ _ _ _
      _ _ hin hleaf (by exact_mod_cast int32_query_ids_length_le x y lpolygons)⟩

theorem is_int_small (z : Int) (h1 : -(2 ^ 31) ≤ z) (h2 : z < 2 ^ 31) : is_int z := ⟨h1, h2⟩

/-- The 8 by 8 tree that holds the square with corners (1,1) and (7,7) is
also the tree that the calls with `int` arithmetic build. -/
theorem int32_reachable_tree_8_square : int32.reachable tree_8_square [square_5] :=
  int32.reachable.add_success tree_8 tree_8_square [] 5 4 [1, 7, 7, 1] [1, 1, 7, 7] square_5
    (int32.reachable.create 0 0 8 8 tree_8 (is_int_small 0 (by norm_num) (by norm_num))
      (is_int_small 0 (by norm_num) (by norm_num)) (is_int_small 8 (by norm_num) (by norm_num))
      (is_int_small 8 (by norm_num) (by norm_num)) (by decide!)) (by decide!) (by decide!)

/-! ## Structural invariants of the trees built with `int` arithmetic -/

/-- An insertion with `int` arithmetic adds the payload at most once to each
payload list. -/
theorem int32_put_subperm (live : List lq_polygon_t) (fuel : Nat) :
    ∀ (node : lq_quadtree_node_t) (polygon : lq_polygon_t) (r : lq_quadtree_node_t),
      int32.lq_quadtree_node_put_polygon fuel node polygon = some r →
      every_payload_list (fun l => l.Subperm live) node →
      every_payload_list (fun l => l.Subperm (polygon :: live)) r := by
  induction fuel with
  | zero => intro node polygon r h; simp [int32.lq_quadtree_node_put_polygon] at h
  | succ fuel ih =>
    intro node polygon r h hinv
    have hweak : ∀ n : lq_quadtree_node_t, every_payload_list (fun l => l.Subperm live) n →
        every_payload_list (fun l => l.Subperm (polygon :: live)) n :=
      every_payload_list_mono _ _ (fun l hl => List.Subperm.cons_right polygon hl)
    cases node with
    | null => simp [int32.lq_quadtree_node_put_polygon] at h
    | node c0 c1 c2 c3 depth box polygons cnt =>
      obtain ⟨collision, -, hcase⟩ :=
        int32_put_cases fuel c0 c1 c2 c3 depth box polygons cnt polygon r h
      rcases hcase with ⟨-, hr⟩ | ⟨-, -, hr⟩ | ⟨-, -, d0, d1, d2, d3, depth1, box1, polygons1,
        cnt1, e0, e1, e2, e3, hpop, hp0, hp1, hp2, hp3, hr⟩
      · subst hr; exact hweak _ hinv
      · subst hr
        simp only [every_payload_list] at hinv ⊢
        exact ⟨(List.subperm_cons polygon).2 hinv.1, hweak _ hinv.2.1, hweak _ hinv.2.2.1,
          hweak _ hinv.2.2.2.1, hweak _ hinv.2.2.2.2⟩
      · subst hr
        simp only [every_payload_list] at hinv
        have hd : polygons1.Subperm live ∧
            every_payload_list (fun l => l.Subperm live) d0 ∧
            every_payload_list (fun l => l.Subperm live) d1 ∧
            every_payload_list (fun l => l.Subperm live) d2 ∧
            every_payload_list (fun l => l.Subperm live) d3 := by
          obtain ⟨-, -, hcs⟩ :=
            int32_populate_children_cases _ _ _ _ _ _ _ _ _ _ _ _ _ _ _ _ hpop
          rcases hcs with ⟨-, r0, r1, r2, r3, r4, -⟩ | ⟨-, -, r4, -, r0, r1, r2, r3⟩
          · subst r0 r1 r2 r3 r4
            exact hinv
          · subst r0 r1 r2 r3 r4
            have hrev : polygons.reverse.Subperm live :=
              (List.reverse_perm polygons).subperm.trans hinv.1
            simp only [every_payload_list, and_true]
            exact ⟨List.nil_subperm, hrev, hrev, hrev, hrev⟩
        simp only [every_payload_list]
        exact ⟨List.Subperm.cons_right polygon hd.1, ih _ _ _ hp0 hd.2.1, ih _ _ _ hp1 hd.2.2.1,
          ih _ _ _ hp2 hd.2.2.2.1, ih _ _ _ hp3 hd.2.2.2.2⟩

/-- The payload list of the leaf a descent with `int` arithmetic ends in is
one of the payload lists of the subtree. -/
theorem int32_find_leaf_every (Q : List lq_polygon_t → Prop) (node : lq_quadtree_node_t)
    (x y : Int) :
    ∀ c0 c1 c2 c3 depth box polygons cnt,
      int32.lq_quadtree_node_find_leaf node x y =
        some (.node c0 c1 c2 c3 depth box polygons cnt) →
      every_payload_list Q node → Q polygons := by
  induction node with
  | null =>
    intro c0 c1 c2 c3 depth box polygons cnt h
    simp [int32.lq_quadtree_node_find_leaf] at h
  | node a0 a1 a2 a3 adepth abox apolygons acnt ih0 ih1 ih2 ih3 =>
    intro c0 c1 c2 c3 depth box polygons cnt h hinv
    simp only [every_payload_list] at hinv
    have here : (some (lq_quadtree_node_t.node a0 a1 a2 a3 adepth abox apolygons acnt) =
          some (.node c0 c1 c2 c3 depth box polygons cnt)) → Q polygons := by
      intro he
      simp only [Option.some.injEq, lq_quadtree_node_t.node.injEq] at he
      obtain ⟨-, -, -, -, -, -, hp, -⟩ := he
      subst hp
      exact hinv.1
    rw [int32.lq_quadtree_node_find_leaf] at h
    split at h
    · simp at h
    · split at h
      · exact ih0 _ _ _ _ _ _ _ _ h hinv.2.1
      · exact here h
    · split at h
      · exact ih1 _ _ _ _ _ _ _ _ h hinv.2.2.1
      · exact here h
    · split at h
      · exact ih2 _ _ _ _ _ _ _ _ h hinv.2.2.2.1
      · exact here h
    · split at h
      · exact ih3 _ _ _ _ _ _ _ _ h hinv.2.2.2.2
      · exact here h

/-- In a tree that the calls with `int` arithmetic reach, every payload list
is, up to order, a sublist of the live payloads. -/
theorem int32_reachable_subperm (qt : lq_quadtree_t) (live : List lq_polygon_t)
    (h : int32.reachable qt live) : every_payload_list (fun l => l.Subperm live) qt.root := by
  induction h with
  | create left bottom width height qt _ _ _ _ hc =>
    obtain ⟨-, -, hq⟩ := quadtree_create_eq_some _ _ _ _ _ hc
    subst hq
    simp [lq_quadtree_node_new, every_payload_list]
  | add_success qt qt1 live id n xs ys polygon _ hadd hnew ih =>
    rcases int32_quadtree_add_cases _ _ _ _ _ _ _ hadd with ⟨hc, -⟩ | ⟨-, -, polygon1, hnew1,
      hput⟩
    · exact absurd hc (by decide)
    · rw [hnew] at hnew1
      simp only [Option.some.injEq] at hnew1
      subst hnew1
      exact int32_put_subperm live _ _ _ _ hput ih
  | add_failure qt qt1 live id n xs ys code _ hadd hne ih =>
    rcases int32_quadtree_add_cases _ _ _ _ _ _ _ hadd with ⟨-, heq, -⟩ | ⟨hs, -⟩
    · rw [heq]; exact ih
    · exact absurd hs hne
  | remove qt qt1 live id code _ hrem ih =>
    obtain ⟨-, -, heq⟩ := quadtree_remove_cases _ _ _ _ hrem
    subst heq
    exact remove_subperm live id _ ih

/-- The id list of a successful query with `int` arithmetic is, up to order,
a sublist of the ids of the live payloads: an id is reported at most as often
as it is live, and no id twice when the live ids are pairwise different. -/
theorem int32_quadtree_query_subperm (qt : lq_quadtree_t) (live : List lq_polygon_t)
    (h : int32.reachable qt live) (x y : Int) (holder result : quadtree_query_result_t)
    (ids : List Int)
    (hq : int32.quadtree_query qt x y holder = some (QUADTREE_SUCCESS, result))
    (hids : result.ids = some ids) :
    ids.Subperm (live.map lq_polygon_t.id) ∧
    ((live.map lq_polygon_t.id).Nodup → ids.Nodup) := by
  obtain ⟨c0, c1, c2, c3, depth, box, polygons, cnt, hleaf, hres⟩ :=
    int32_quadtree_query_success qt x y holder result QUADTREE_SUCCESS hq rfl
  subst hres
  simp only [Option.some.injEq] at hids
  subst hids
  have hsub : polygons.Subperm live :=
    int32_find_leaf_every (fun l => l.Subperm live) _ _ _ _ _ _ _ _ _ _ _ hleaf
      (int32_reachable_subperm qt live h)
  have hres : (int32.query_ids x y polygons).Subperm (live.map lq_polygon_t.id) := by
    rw [int32_query_ids_eq]
    obtain ⟨l, hp, hs⟩ := hsub
    exact (((List.filter_sublist polygons).map lq_polygon_t.id).subperm).trans
      ⟨l.map lq_polygon_t.id, hp.map lq_polygon_t.id, hs.map lq_polygon_t.id⟩
  exact ⟨hres, fun hn => nodup_of_subperm _ _ hres hn⟩


theorem int32_put_node_depth (fuel : Nat) (node : lq_quadtree_node_t) (polygon : lq_polygon_t)
    (r : lq_quadtree_node_t)
    (h : int32.lq_quadtree_node_put_polygon fuel node polygon = some r) :
    node_depth r = node_depth node ∧ r ≠ .null := by
  cases fuel with
  | zero => simp [int32.lq_quadtree_node_put_polygon] at h
  | succ fuel =>
    cases node with
    | null => simp [int32.lq_quadtree_node_put_polygon] at h
    | node c0 c1 c2 c3 depth box polygons cnt =>
      obtain ⟨collision, -, hcase⟩ :=
        int32_put_cases fuel c0 c1 c2 c3 depth box polygons cnt polygon r h
      rcases hcase with ⟨-, hr⟩ | ⟨-, -, hr⟩ | ⟨-, -, d0, d1, d2, d3, depth1, box1, polygons1,
        cnt1, e0, e1, e2, e3, hpop, -, -, -, -, hr⟩
      · rw [hr]; exact ⟨rfl, by simp⟩
      · rw [hr]; exact ⟨rfl, by simp⟩
      · obtain ⟨hd, -, -⟩ := int32_populate_children_cases _ _ _ _ _ _ _ _ _ _ _ _ _ _ _ _ hpop
        rw [hr, hd]; exact ⟨rfl, by simp⟩

/-- An insertion with `int` arithmetic keeps the subdivision invariant at
every node: the depth counter `depth + 1` of a new child does not leave the
range of `int`, since a node that is split has a depth from 0 to 14. -/
theorem int32_put_subdivision (fuel : Nat) :
    ∀ (node : lq_quadtree_node_t) (polygon : lq_polygon_t) (r : lq_quadtree_node_t),
      int32.lq_quadtree_node_put_polygon fuel node polygon = some r →
      every_node (fun n => subdivision_ok n ∧ depth_nonneg n) node →
      every_node (fun n => subdivision_ok n ∧ depth_nonneg n) r := by
  induction fuel with
  | zero => intro node polygon r h; simp [int32.lq_quadtree_node_put_polygon] at h
  | succ fuel ih =>
    intro node polygon r h hinv
    cases node with
    | null => simp [int32.lq_quadtree_node_put_polygon] at h
    | node c0 c1 c2 c3 depth box polygons cnt =>
      obtain ⟨collision, -, hcase⟩ :=
        int32_put_cases fuel c0 c1 c2 c3 depth box polygons cnt polygon r h
      rcases hcase with ⟨-, hr⟩ | ⟨-, hcond, hr⟩ | ⟨-, hncond, d0, d1, d2, d3, depth1, box1,
        polygons1, cnt1, e0, e1, e2, e3, hpop, hp0, hp1, hp2, hp3, hr⟩
      · subst hr; exact hinv
      · subst hr
        simp only [every_node, subdivision_ok, is_leaf, has_four_children, depth_nonneg]
          at hinv ⊢
        obtain ⟨⟨⟨hdep, hshape⟩, hnn⟩, hch⟩ := hinv
        refine ⟨⟨⟨hdep, ?_⟩, hnn⟩, hch⟩
        rcases hshape with hl | ⟨hfour, -, hd, hw, hh, -⟩
        · exact Or.inl hl
        · exfalso
          rcases hcond with h1 | h1 | h1 | h1
          · exact hd h1
          · exact absurd h1 (not_le.2 hw)
          · exact absurd h1 (not_le.2 hh)
          · exact hfour.1 h1.1
      · subst hr
        simp only [not_or, not_le] at hncond
        obtain ⟨hd15, hw4, hh4, -⟩ := hncond
        simp only [every_node] at hinv
        obtain ⟨⟨hown, hnn⟩, hc0, hc1, hc2, hc3⟩ := hinv
        simp only [subdivision_ok, is_leaf, has_four_children] at hown
        simp only [depth_nonneg] at hnn
        obtain ⟨hdep, hshape⟩ := hown
        obtain ⟨hdepth1, hbox1, hcs⟩ :=
          int32_populate_children_cases _ _ _ _ _ _ _ _ _ _ _ _ _ _ _ _ hpop
        subst hdepth1 hbox1
        have hwrap : int_wrap (depth1 + 1) = depth1 + 1 := by
          simp only [MAX_DEPTH] at hdep
          exact int_wrap_eq _ (by omega) (by omega)
        have key : polygons1 = [] ∧
            (every_node (fun n => subdivision_ok n ∧ depth_nonneg n) d0 ∧
              node_depth d0 = some (depth1 + 1)) ∧
            (every_node (fun n => subdivision_ok n ∧ depth_nonneg n) d1 ∧
              node_depth d1 = some (depth1 + 1)) ∧
            (every_node (fun n => subdivision_ok n ∧ depth_nonneg n) d2 ∧
              node_depth d2 = some (depth1 + 1)) ∧
            (every_node (fun n => subdivision_ok n ∧ depth_nonneg n) d3 ∧
              node_depth d3 = some (depth1 + 1)) := by
          have hfresh : ∀ (b : lq_rect_t) (l : List lq_polygon_t) (c : Int),
              every_node (fun n => subdivision_ok n ∧ depth_nonneg n)
                (.node .null .null .null .null (depth1 + 1) b l c) ∧
              node_depth (.node .null .null .null .null (depth1 + 1) b l c)
                = some (depth1 + 1) := by
            intro b l c
            simp only [every_node, subdivision_ok, is_leaf, node_depth, and_true, true_and,
              true_or, MAX_DEPTH, depth_nonneg]
            simp only [MAX_DEPTH] at hdep hd15
            omega
          rcases hcs with ⟨hne, r0, r1, r2, r3, r4, -⟩ | ⟨-, -, r4, -, r0, r1, r2, r3⟩
          · subst r0 r1 r2 r3 r4
            rcases hshape with hl | ⟨-, hp, -, -, -, n0, n1, n2, n3⟩
            · exact absurd hl.1 hne
            · exact ⟨hp, ⟨hc0, n0⟩, ⟨hc1, n1⟩, ⟨hc2, n2⟩, ⟨hc3, n3⟩⟩
          · rw [hwrap] at r0 r1 r2 r3
            subst r0 r1 r2 r3 r4
            exact ⟨rfl, hfresh _ _ _, hfresh _ _ _, hfresh _ _ _, hfresh _ _ _⟩
        obtain ⟨hp, ⟨i0, n0⟩, ⟨i1, n1⟩, ⟨i2, n2⟩, ⟨i3, n3⟩⟩ := key
        have q0 := int32_put_node_depth _ _ _ _ hp0
        have q1 := int32_put_node_depth _ _ _ _ hp1
        have q2 := int32_put_node_depth _ _ _ _ hp2
        have q3 := int32_put_node_depth _ _ _ _ hp3
        simp only [every_node, subdivision_ok, is_leaf, has_four_children, depth_nonneg]
        refine ⟨⟨⟨hdep, Or.inr ⟨⟨q0.2, q1.2, q2.2, q3.2⟩, hp, hd15, hw4, hh4, ?_, ?_, ?_, ?_⟩⟩,
          hnn⟩, ih _ _ _ hp0 i0, ih _ _ _ hp1 i1, ih _ _ _ hp2 i2, ih _ _ _ hp3 i3⟩
        · rw [q0.1, n0]
        · rw [q1.1, n1]
        · rw [q2.1, n2]
        · rw [q3.1, n3]

/-- A removal keeps the depths. -/
theorem remove_depth_nonneg (id : Int) : ∀ node : lq_quadtree_node_t,
    every_node depth_nonneg node → every_node depth_nonneg (lq_quadtree_node_remove node id) := by
  intro node
  induction node with
  | null => intro _; simp [lq_quadtree_node_remove, every_node]
  | node c0 c1 c2 c3 depth box polygons cnt ih0 ih1 ih2 ih3 =>
    intro h
    simp only [every_node] at h
    obtain ⟨hown, h0, h1, h2, h3⟩ := h
    unfold lq_quadtree_node_remove
    simp only [every_node]
    exact ⟨hown, ih0 h0, ih1 h1, ih2 h2, ih3 h3⟩

theorem every_node_of_and (Q R : lq_quadtree_node_t → Prop) :
    ∀ node : lq_quadtree_node_t, every_node (fun n => Q n ∧ R n) node →
      every_node Q node ∧ every_node R node := by
  intro node
  induction node with
  | null => intro _; exact ⟨trivial, trivial⟩
  | node c0 c1 c2 c3 depth box polygons cnt ih0 ih1 ih2 ih3 =>
    intro h
    simp only [every_node] at h ⊢
    obtain ⟨⟨hq, hr⟩, h0, h1, h2, h3⟩ := h
    exact ⟨⟨hq, (ih0 h0).1, (ih1 h1).1, (ih2 h2).1, (ih3 h3).1⟩,
      ⟨hr, (ih0 h0).2, (ih1 h1).2, (ih2 h2).2, (ih3 h3).2⟩⟩

/-- The subdivision invariant holds at every node of a tree that the calls
with `int` arithmetic reach, and no depth is negative. -/
theorem int32_reachable_subdivision (qt : lq_quadtree_t) (live : List lq_polygon_t)
    (h : int32.reachable qt live) :
    every_node (fun n => subdivision_ok n ∧ depth_nonneg n) qt.root := by
  induction h with
  | create left bottom width height qt _ _ _ _ hc =>
    obtain ⟨-, -, hq⟩ := quadtree_create_eq_some _ _ _ _ _ hc
    subst hq
    simp [every_node, subdivision_ok, is_leaf, MAX_DEPTH, depth_nonneg, lq_quadtree_node_new]
  | add_success qt qt1 live id n xs ys polygon _ hadd hnew ih =>
    rcases int32_quadtree_add_cases _ _ _ _ _ _ _ hadd with ⟨hc, -⟩ | ⟨-, -, polygon1, -, hput⟩
    · exact absurd hc (by decide)
    · exact int32_put_subdivision _ _ _ _ hput ih
  | add_failure qt qt1 live id n xs ys code _ hadd hne ih =>
    rcases int32_quadtree_add_cases _ _ _ _ _ _ _ hadd with ⟨-, heq, -⟩ | ⟨hs, -⟩
    · rw [heq]; exact ih
    · exact absurd hs hne
  | remove qt qt1 live id code _ hrem ih =>
    obtain ⟨-, -, heq⟩ := quadtree_remove_cases _ _ _ _ hrem
    subst heq
    obtain ⟨h1, h2⟩ := every_node_of_and _ _ _ ih
    exact every_node_and _ _ _ (remove_subdivision id _ h1) (remove_depth_nonneg id _ h2)

/-- The structural invariants of the first embedding hold in every tree that
the calls with `int` arithmetic reach: the tree is well formed; every node has
a depth from 0 to 15 and is a leaf or has four children one level deeper, an
empty payload list, a depth below 15 and sides above 4; the boxes of the
children tile the box of their parent; and every payload list is, up to
order, a sublist of the live payloads. -/
theorem int32_reachable_structure (qt : lq_quadtree_t) (live : List lq_polygon_t)
    (h : int32.reachable qt live) :
    well_formed qt.root ∧
    every_node subdivision_ok qt.root ∧
    every_node (fun n => (has_four_children n ∧ node_polygons n = []) ∨ is_leaf n) qt.root ∧
    every_node tiling_ok qt.root ∧
    every_payload_list (fun l => l.Subperm live) qt.root := by
  have hwf := (int32_reachable_invariant qt live h).1
  have hsub := (every_node_of_and _ _ _ (int32_reachable_subdivision qt live h)).1
  refine ⟨hwf, hsub, ?_, well_formed_tiling _ hwf hsub, int32_reachable_subperm qt live h⟩
  refine every_node_mono _ _ ?_ _ hsub
  intro n hnn hn
  cases n with
  | null => exact absurd rfl hnn
  | node c0 c1 c2 c3 depth box polygons cnt =>
    simp only [subdivision_ok] at hn
    rcases hn.2 with hl | ⟨hfour, hp, -⟩
    · exact Or.inr hl
    · exact Or.inl ⟨hfour, by simpa [node_polygons] using hp⟩

theorem int32_later_without_add_no_id (k : Int) (qt qt2 : lq_quadtree_t)
    (h : int32.later_without_add k qt qt2) (h0 : ∀ q ∈ payloads qt.root, q.id ≠ k) :
    ∀ q ∈ payloads qt2.root, q.id ≠ k := by
  induction h with
  | refl => exact h0
  | add qt1 qt2 id n xs ys code _ hid hadd ih =>
    rcases int32_quadtree_add_cases _ _ _ _ _ _ _ hadd with ⟨-, heq, -⟩ | ⟨-, -, polygon, hnew,
      hput⟩
    · rw [heq]; exact ih
    · intro q hq
      rcases int32_put_payloads _ _ _ _ hput q hq with h1 | h1
      · rw [h1, polygon_node_new_id _ _ _ _ _ hnew]; exact hid
      · exact ih q h1
  | remove qt1 qt2 id code _ hrem ih =>
    obtain ⟨-, -, heq⟩ := quadtree_remove_cases _ _ _ _ hrem
    subst heq
    intro q hq
    rw [remove_payloads] at hq
    exact ih q hq.1

/-- After `quadtree_remove(k)` on any tree, and as long as no `quadtree_add`
under id `k` follows, the id list of every successful `quadtree_query` does
not contain `k`, with the `int` arithmetic of the machine as well. -/
theorem int32_removed_id_absent (qt qt1 qt2 : lq_quadtree_t) (k code : Int)
    (hrem : quadtree_remove qt k = some (code, qt1))
    (hlater : int32.later_without_add k qt1 qt2)
    (x y : Int) (holder result : quadtree_query_result_t) (ids : List Int)
    (hq : int32.quadtree_query qt2 x y holder = some (QUADTREE_SUCCESS, result))
    (hids : result.ids = some ids) :
    k ∉ ids := by
  obtain ⟨-, -, heq⟩ := quadtree_remove_cases _ _ _ _ hrem
  have h1 : ∀ q ∈ payloads qt1.root, q.id ≠ k := by
    subst heq
    intro q hq
    rw [remove_payloads] at hq
    exact hq.2
  have h2 := int32_later_without_add_no_id k qt1 qt2 hlater h1
  intro hk
  obtain ⟨c0, c1, c2, c3, depth, box, polygons, cnt, hleaf, hres⟩ :=
    int32_quadtree_query_success qt2 x y holder result _ hq rfl
  subst hres
  simp only [Option.some.injEq] at hids
  subst hids
  rw [int32_query_ids_eq, List.mem_map] at hk
  obtain ⟨p, hp, hid⟩ := hk
  rw [List.mem_filter] at hp
  exact h2 p (int32_find_leaf_payloads _ _ _ _ _ _ _ _ _ _ _ hleaf p hp.1) hid

/-! ## Agreement of the two embeddings on small boxes -/

theorem long_wrap_eq (z : Int) (h1 : -(2 ^ 63) ≤ z) (h2 : z < 2 ^ 63) :
    int32.long_wrap z = z := by
  unfold int32.long_wrap
  simp only
  by_cases hz : 0 ≤ z
  · have : z % 2 ^ 64 = z := Int.emod_eq_of_lt hz (by omega)
    rw [this, if_pos h2]
  · have h3 : (z + 2 ^ 64) % 2 ^ 64 = z + 2 ^ 64 := Int.emod_eq_of_lt (by omega) (by omega)
    have h4 : z % 2 ^ 64 = z + 2 ^ 64 := by
      rw [← h3, Int.add_emod_self]
    rw [h4, if_neg (by omega)]
    omega

theorem mul_bounds_16 (a e : Int) (ha1 : -(2 ^ 16) ≤ a) (ha2 : a ≤ 2 ^ 16)
    (he1 : -(2 ^ 16) ≤ e) (he2 : e ≤ 2 ^ 16) :
    -(2 ^ 32) ≤ a * e ∧ a * e ≤ 2 ^ 32 := by
  have h1 : |a * e| ≤ 2 ^ 16 * 2 ^ 16 := by
    rw [abs_mul]
    exact mul_le_mul (abs_le.2 ⟨ha1, ha2⟩) (abs_le.2 ⟨he1, he2⟩) (abs_nonneg _) (by norm_num)
  have h2 := abs_le.1 h1
  constructor
  · have : -((2 : Int) ^ 32) ≤ -(2 ^ 16 * 2 ^ 16) := by norm_num
    exact le_trans this h2.1
  · have : (2 : Int) ^ 16 * 2 ^ 16 ≤ 2 ^ 32 := by norm_num
    exact le_trans h2.2 this

/-- The products of `lines_intersect` do not leave the range of `long` when
their arguments are at most `2^16` in absolute value. -/
theorem int32_products_eq (a b c d : Int)
    (ha : -(2 ^ 16) ≤ a ∧ a ≤ 2 ^ 16) (hb : -(2 ^ 16) ≤ b ∧ b ≤ 2 ^ 16)
    (hc : -(2 ^ 16) ≤ c ∧ c ≤ 2 ^ 16) (hd : -(2 ^ 16) ≤ d ∧ d ≤ 2 ^ 16) :
    int32.cross_product a b c d = cross_product a b c d ∧
    int32.dot_product a b c d = dot_product a b c d := by
  have h1 := mul_bounds_16 a d ha.1 ha.2 hd.1 hd.2
  have h2 := mul_bounds_16 b c hb.1 hb.2 hc.1 hc.2
  have h3 := mul_bounds_16 a c ha.1 ha.2 hc.1 hc.2
  have h4 := mul_bounds_16 b d hb.1 hb.2 hd.1 hd.2
  unfold int32.cross_product int32.dot_product cross_product dot_product
  rw [long_wrap_eq (a * d) (by omega) (by omega), long_wrap_eq (b * c) (by omega) (by omega),
    long_wrap_eq (a * c) (by omega) (by omega), long_wrap_eq (b * d) (by omega) (by omega),
    long_wrap_eq (a * d - b * c) (by omega) (by omega),
    long_wrap_eq (a * c + b * d) (by omega) (by omega)]
  exact ⟨rfl, rfl⟩

/-- On two segments whose ends have coordinates from `-2^14` to `2^14`,
`lines_intersect` with `int` arithmetic is `lines_intersect` with exact
integers. -/
theorem int32_lines_intersect_eq (line1 line2 : segment)
    (h1 : -(2 ^ 14) ≤ line1.x0 ∧ line1.x0 ≤ 2 ^ 14 ∧ -(2 ^ 14) ≤ line1.y0 ∧ line1.y0 ≤ 2 ^ 14 ∧
      -(2 ^ 14) ≤ line1.x1 ∧ line1.x1 ≤ 2 ^ 14 ∧ -(2 ^ 14) ≤ line1.y1 ∧ line1.y1 ≤ 2 ^ 14)
    (h2 : -(2 ^ 14) ≤ line2.x0 ∧ line2.x0 ≤ 2 ^ 14 ∧ -(2 ^ 14) ≤ line2.y0 ∧ line2.y0 ≤ 2 ^ 14 ∧
      -(2 ^ 14) ≤ line2.x1 ∧ line2.x1 ≤ 2 ^ 14 ∧ -(2 ^ 14) ≤ line2.y1 ∧ line2.y1 ≤ 2 ^ 14) :
    int32.lines_intersect line1 line2 = lines_intersect line1 line2 := by
  obtain ⟨a1, a2, a3, a4, a5, a6, a7, a8⟩ := h1
  obtain ⟨b1, b2, b3, b4, b5, b6, b7, b8⟩ := h2
  have w1 : int_wrap (line1.x1 - line1.x0) = line1.x1 - line1.x0 :=
    int_wrap_eq _ (by omega) (by omega)
  have w2 : int_wrap (line1.y1 - line1.y0) = line1.y1 - line1.y0 :=
    int_wrap_eq _ (by omega) (by omega)
  have w3 : int_wrap (line2.x1 - line2.x0) = line2.x1 - line2.x0 :=
    int_wrap_eq _ (by omega) (by omega)
  have w4 : int_wrap (line2.y1 - line2.y0) = line2.y1 - line2.y0 :=
    int_wrap_eq _ (by omega) (by omega)
  have w5 : int_wrap (line2.x0 - line1.x0) = line2.x0 - line1.x0 :=
    int_wrap_eq _ (by omega) (by omega)
  have w6 : int_wrap (line2.y0 - line1.y0) = line2.y0 - line1.y0 :=
    int_wrap_eq _ (by omega) (by omega)
  have p : ∀ a b c d : Int, (-(2 ^ 16) ≤ a ∧ a ≤ 2 ^ 16) → (-(2 ^ 16) ≤ b ∧ b ≤ 2 ^ 16) →
      (-(2 ^ 16) ≤ c ∧ c ≤ 2 ^ 16) → (-(2 ^ 16) ≤ d ∧ d ≤ 2 ^ 16) →
      int32.cross_product a b c d = cross_product a b c d ∧
      int32.dot_product a b c d = dot_product a b c d := int32_products_eq
  have c1 := (p (line1.x1 - line1.x0) (line1.y1 - line1.y0) (line2.x1 - line2.x0)
    (line2.y1 - line2.y0) (by omega) (by omega) (by omega) (by omega))
  have c2 := (p (line2.x0 - line1.x0) (line2.y0 - line1.y0) (line1.x1 - line1.x0)
    (line1.y1 - line1.y0) (by omega) (by omega) (by omega) (by omega))
  have c3 := (p (line1.x1 - line1.x0) (line1.y1 - line1.y0) (line1.x1 - line1.x0)
    (line1.y1 - line1.y0) (by omega) (by omega) (by omega) (by omega))
  have c4 := (p (line2.x0 - line1.x0) (line2.y0 - line1.y0) (line2.x1 - line2.x0)
    (line2.y1 - line2.y0) (by omega) (by omega) (by omega) (by omega))
  unfold int32.lines_intersect lines_intersect
  simp only [w1, w2, w3, w4, w5, w6, c1.1, c1.2, c2.1, c2.2, c3.1, c3.2, c4.1, c4.2]

theorem small_box_wraps (box : lq_rect_t) (hb : small_box box) :
    int_wrap (box.left + box.width) = box.left + box.width ∧
    int_wrap (box.bottom + box.height) = box.bottom + box.height ∧
    int_wrap (box.left + box.width - 1) = box.left + box.width - 1 ∧
    int_wrap (box.bottom + box.height - 1) = box.bottom + box.height - 1 := by
  obtain ⟨h1, h2, h3, h4, h5, h6⟩ := hb
  exact ⟨int_wrap_eq _ (by omega) (by omega), int_wrap_eq _ (by omega) (by omega),
    int_wrap_eq _ (by omega) (by omega), int_wrap_eq _ (by omega) (by omega)⟩

/-- The edge loop of `collide_polygon_rectangle` on a small box and small
vertices. -/
theorem int32_collide_edges_eq (xs ys : List Int) (box : lq_rect_t) (hb : small_box box)
    (m : Nat)
    (hv : ∀ i : Nat, i < m →
      -(2 ^ 14) ≤ arr xs i ∧ arr xs i ≤ 2 ^ 14 ∧ -(2 ^ 14) ≤ arr ys i ∧ arr ys i ≤ 2 ^ 14) :
    ∀ (l : List Nat) (old : Nat), (∀ i ∈ l, i < m) → old < m →
      int32.collide_edges xs ys box.left box.bottom box.width box.height l old =
        collide_edges xs ys box.left box.bottom box.width box.height l old := by
  obtain ⟨w1, w2, -, -⟩ := small_box_wraps box hb
  obtain ⟨h1, h2, h3, h4, h5, h6⟩ := hb
  intro l
  induction l with
  | nil => intro old _ _; rfl
  | cons i rest ih =>
    intro old hl hold
    have hi := hv i (hl i (List.mem_cons_self _ _))
    have ho := hv old hold
    have hline : ∀ rl ∈ rectangle_lines box.left box.bottom box.width box.height,
        int32.lines_intersect ⟨arr xs old, arr ys old, arr xs i, arr ys i⟩ rl =
          lines_intersect ⟨arr xs old, arr ys old, arr xs i, arr ys i⟩ rl := by
      intro rl hrl
      apply int32_lines_intersect_eq
      · exact ⟨ho.1, ho.2.1, ho.2.2.1, ho.2.2.2, hi.1, hi.2.1, hi.2.2.1, hi.2.2.2⟩
      · simp only [rectangle_lines, List.mem_cons, List.mem_singleton, List.not_mem_nil,
          or_false] at hrl
        rcases hrl with e | e | e | e <;> subst e <;> simp only <;>
          exact ⟨by omega, by omega, by omega, by omega, by omega, by omega, by omega, by omega⟩
    have hrect : int32.rectangle_lines box.left box.bottom box.width box.height =
        rectangle_lines box.left box.bottom box.width box.height := by
      simp only [int32.rectangle_lines, rectangle_lines, w1, w2]
    have hany : (int32.rectangle_lines box.left box.bottom box.width box.height).any
        (fun rl => int32.lines_intersect ⟨arr xs old, arr ys old, arr xs i, arr ys i⟩ rl) =
        (rectangle_lines box.left box.bottom box.width box.height).any
        (fun rl => lines_intersect ⟨arr xs old, arr ys old, arr xs i, arr ys i⟩ rl) := by
      rw [hrect]
      simp only [rectangle_lines, List.any_cons, List.any_nil, Bool.or_false]
      rw [hline _ (by simp [rectangle_lines]), hline _ (by simp [rectangle_lines]),
        hline _ (by simp [rectangle_lines]), hline _ (by simp [rectangle_lines])]
    simp only [int32.collide_edges, collide_edges]
    rw [hany, ih i (fun k hk => hl k (List.mem_cons_of_mem _ hk)) (hl i (List.mem_cons_self _ _))]

/-- The test `point_in_rectangle` on a small box. -/
theorem int32_point_in_rectangle_eq (px py : Int) (box : lq_rect_t) (hb : small_box box) :
    int32.point_in_rectangle px py box.left box.bottom box.width box.height =
      point_in_rectangle px py box.left box.bottom box.width box.height := by
  obtain ⟨w1, w2, -, -⟩ := small_box_wraps box hb
  obtain ⟨h1, h2, h3, h4, h5, h6⟩ := hb
  unfold int32.point_in_rectangle point_in_rectangle
  rw [w1, w2]
  apply point_in_polygon_int32_eq_of_small
  intro i hi
  have hi4 : i < 4 := by simpa using hi
  have : i = 0 ∨ i = 1 ∨ i = 2 ∨ i = 3 := by omega
  rcases this with e | e | e | e <;> subst e <;> simp only [arr, List.getD_cons_zero,
    List.getD_cons_succ] <;> exact ⟨by omega, by omega, by omega, by omega⟩

/-- The test `collide_polygon_rectangle` of a small payload and a small
box. -/
theorem int32_collide_eq (p : lq_polygon_t) (hp : small_polygon p) (box : lq_rect_t)
    (hb : small_box box) :
    int32.collide_polygon_rectangle p.number_of_points p.xs p.ys box.left box.bottom box.width
        box.height =
      collide_polygon_rectangle p.number_of_points p.xs p.ys box.left box.bottom box.width
        box.height := by
  unfold int32.collide_polygon_rectangle collide_polygon_rectangle
  by_cases hn : p.number_of_points ≤ 0
  · simp only [hn, if_true]
  · simp only [hn, if_false]
    rw [int32_collide_edges_eq p.xs p.ys box hb p.number_of_points.toNat hp _ _
        (fun i hi => List.mem_range.1 hi) (by omega),
      int32_point_in_rectangle_eq _ _ box hb,
      point_in_polygon_int32_eq_of_small _ _ _ _ _ hp]

/-- The test `rectangle_inside_polygon` of a small box and a small
payload. -/
theorem int32_rectangle_inside_polygon_eq (p : lq_polygon_t) (hp : small_polygon p)
    (box : lq_rect_t) (hb : small_box box) :
    rectangle_inside_polygon_int32 box.left box.bottom box.width box.height p.number_of_points
        p.xs p.ys =
      rectangle_inside_polygon box.left box.bottom box.width box.height p.number_of_points
        p.xs p.ys := by
  obtain ⟨w1, w2, w3, w4⟩ := small_box_wraps box hb
  unfold rectangle_inside_polygon_int32 rectangle_inside_polygon
  rw [w1, w2, w3, w4]
  simp only [point_in_polygon_int32_eq_of_small _ _ _ _ _ hp]

theorem small_box_quarters (box : lq_rect_t) (hb : small_box box) :
    small_box ⟨box.bottom + Int.tdiv box.height 2, box.left + Int.tdiv box.width 2,
      Int.tdiv box.height 2, Int.tdiv box.width 2⟩ ∧
    small_box ⟨box.bottom + Int.tdiv box.height 2, box.left,
      Int.tdiv box.height 2, Int.tdiv box.width 2⟩ ∧
    small_box ⟨box.bottom, box.left, Int.tdiv box.height 2, Int.tdiv box.width 2⟩ ∧
    small_box ⟨box.bottom, box.left + Int.tdiv box.width 2,
      Int.tdiv box.height 2, Int.tdiv box.width 2⟩ := by
  obtain ⟨h1, h2, h3, h4, h5, h6⟩ := hb
  have tw : 0 ≤ Int.tdiv box.width 2 ∧ Int.tdiv box.width 2 ≤ box.width := by
    rcases eq_or_lt_of_le h3 with e | e
    · rw [← e]; exact ⟨by decide, by decide⟩
    · exact tdiv_two_bounds _ e
  have th : 0 ≤ Int.tdiv box.height 2 ∧ Int.tdiv box.height 2 ≤ box.height := by
    rcases eq_or_lt_of_le h4 with e | e
    · rw [← e]; exact ⟨by decide, by decide⟩
    · exact tdiv_two_bounds _ e
  have two : Int.tdiv box.width 2 + Int.tdiv box.width 2 ≤ box.width := by
    have := Int.tdiv_add_tmod box.width 2
    have := Int.tmod_nonneg 2 h3
    omega
  have twh : Int.tdiv box.height 2 + Int.tdiv box.height 2 ≤ box.height := by
    have := Int.tdiv_add_tmod box.height 2
    have := Int.tmod_nonneg 2 h4
    omega
  unfold small_box
  simp only
  refine ⟨⟨?_, ?_, ?_, ?_, ?_, ?_⟩, ⟨?_, ?_, ?_, ?_, ?_, ?_⟩, ⟨?_, ?_, ?_, ?_, ?_, ?_⟩,
    ⟨?_, ?_, ?_, ?_, ?_, ?_⟩⟩ <;> omega

/-- The split of a small node. -/
theorem int32_populate_children_eq (node : lq_quadtree_node_t) (hs : small_node node) :
    int32.lq_quadtree_node_populate_children node = lq_quadtree_node_populate_children node := by
  cases node with
  | null => rfl
  | node c0 c1 c2 c3 depth box polygons cnt =>
    obtain ⟨hb, hd0, hd1⟩ := hs
    obtain ⟨h1, h2, h3, h4, h5, h6⟩ := hb
    have tw : 0 ≤ Int.tdiv box.width 2 ∧ Int.tdiv box.width 2 ≤ box.width := by
      rcases eq_or_lt_of_le h3 with e | e
      · rw [← e]; exact ⟨by decide, by decide⟩
      · exact tdiv_two_bounds _ e
    have th : 0 ≤ Int.tdiv box.height 2 ∧ Int.tdiv box.height 2 ≤ box.height := by
      rcases eq_or_lt_of_le h4 with e | e
      · rw [← e]; exact ⟨by decide, by decide⟩
      · exact tdiv_two_bounds _ e
    have w1 : int_wrap (box.left + Int.tdiv box.width 2) = box.left + Int.tdiv box.width 2 :=
      int_wrap_eq _ (by omega) (by omega)
    have w2 : int_wrap (box.bottom + Int.tdiv box.height 2) =
        box.bottom + Int.tdiv box.height 2 := int_wrap_eq _ (by omega) (by omega)
    have w3 : int_wrap (depth + 1) = depth + 1 := by
      simp only [MAX_DEPTH] at hd1
      exact int_wrap_eq _ (by omega) (by omega)
    unfold int32.lq_quadtree_node_populate_children lq_quadtree_node_populate_children
    simp only [w1, w2, w3]

/-- The children that the split of a small node creates are small when the
depth of the node is below `MAX_DEPTH`. -/
theorem populate_children_small (c0 c1 c2 c3 : lq_quadtree_node_t) (depth : Int)
    (box : lq_rect_t) (polygons : List lq_polygon_t) (cnt : Int)
    (d0 d1 d2 d3 : lq_quadtree_node_t) (depth1 : Int) (box1 : lq_rect_t)
    (polygons1 : List lq_polygon_t) (cnt1 : Int)
    (h : lq_quadtree_node_populate_children (.node c0 c1 c2 c3 depth box polygons cnt)
          = some (.node d0 d1 d2 d3 depth1 box1 polygons1 cnt1))
    (hs : every_node small_node (.node c0 c1 c2 c3 depth box polygons cnt))
    (hd : depth ≠ MAX_DEPTH) :
    small_node (.node d0 d1 d2 d3 depth1 box1 polygons1 cnt1) ∧
    every_node small_node d0 ∧ every_node small_node d1 ∧ every_node small_node d2 ∧
    every_node small_node d3 := by
  obtain ⟨e1, e2, hcs⟩ := populate_children_cases _ _ _ _ _ _ _ _ _ _ _ _ _ _ _ _ h
  subst e1 e2
  simp only [every_node] at hs
  obtain ⟨hown, s0, s1, s2, s3⟩ := hs
  refine ⟨hown, ?_⟩
  rcases hcs with ⟨-, r0, r1, r2, r3, -, -⟩ | ⟨-, -, -, -, r0, r1, r2, r3⟩
  · subst r0 r1 r2 r3
    exact ⟨s0, s1, s2, s3⟩
  · subst r0 r1 r2 r3
    obtain ⟨hb, hd0, hd1⟩ := hown
    obtain ⟨q0, q1, q2, q3⟩ := small_box_quarters box1 hb
    have hdep : 0 ≤ depth1 + 1 ∧ depth1 + 1 ≤ MAX_DEPTH := by
      simp only [MAX_DEPTH] at hd hd1 ⊢
      omega
    simp only [every_node, small_node, and_true]
    exact ⟨⟨q0, hdep⟩, ⟨q1, hdep⟩, ⟨q2, hdep⟩, ⟨q3, hdep⟩⟩

/-- On a tree of small nodes, the insertion of a small payload with `int`
arithmetic is the insertion with exact integers: no operation overflows. -/
theorem int32_put_eq (polygon : lq_polygon_t) (hp : small_polygon polygon) (fuel : Nat) :
    ∀ node : lq_quadtree_node_t, every_node small_node node →
      int32.lq_quadtree_node_put_polygon fuel node polygon =
        lq_quadtree_node_put_polygon fuel node polygon := by
  induction fuel with
  | zero => intro node _; simp [int32.lq_quadtree_node_put_polygon, lq_quadtree_node_put_polygon]
  | succ fuel ih =>
    intro node hs
    cases node with
    | null => simp [int32.lq_quadtree_node_put_polygon, lq_quadtree_node_put_polygon]
    | node c0 c1 c2 c3 depth box polygons cnt =>
      have hown : small_node (.node c0 c1 c2 c3 depth box polygons cnt) := by
        simp only [every_node] at hs
        exact hs.1
      rw [int32.lq_quadtree_node_put_polygon, lq_quadtree_node_put_polygon]
      rw [int32_collide_eq polygon hp box hown.1,
        int32_rectangle_inside_polygon_eq polygon hp box hown.1,
        int32_populate_children_eq _ hown]
      cases hcol : collide_polygon_rectangle polygon.number_of_points polygon.xs polygon.ys
          box.left box.bottom box.width box.height with
      | none => rfl
      | some collision =>
        simp only
        by_cases h0 : collision = 0
        · simp only [h0, if_true]
        · simp only [h0, if_false]
          by_cases hcond : (depth = MAX_DEPTH || box.width ≤ MIN_SIZE || box.height ≤ MIN_SIZE ||
              (c0 = .null &&
               rectangle_inside_polygon box.left box.bottom box.width box.height
                 polygon.number_of_points polygon.xs polygon.ys)) = true
          · simp only [hcond, if_true]
          · simp only [hcond, if_false]
            have hd : depth ≠ MAX_DEPTH := by
              intro hd
              apply hcond
              simp [hd]
            cases hpop : lq_quadtree_node_populate_children
                (.node c0 c1 c2 c3 depth box polygons cnt) with
            | none => rfl
            | some r =>
              cases r with
              | null => rfl
              | node d0 d1 d2 d3 depth1 box1 polygons1 cnt1 =>
                obtain ⟨-, t0, t1, t2, t3⟩ :=
                  populate_children_small _ _ _ _ _ _ _ _ _ _ _ _ _ _ _ _ hpop hs hd
                simp only [ih d0 t0, ih d1 t1, ih d2 t2, ih d3 t3]

/-- An insertion keeps every node small. -/
theorem put_small (fuel : Nat) : ∀ (node : lq_quadtree_node_t) (polygon : lq_polygon_t)
    (r : lq_quadtree_node_t), lq_quadtree_node_put_polygon fuel node polygon = some r →
    every_node small_node node → every_node small_node r := by
  induction fuel with
  | zero => intro node polygon r h; simp [lq_quadtree_node_put_polygon] at h
  | succ fuel ih =>
    intro node polygon r h hs
    cases node with
    | null => simp [lq_quadtree_node_put_polygon] at h
    | node c0 c1 c2 c3 depth box polygons cnt =>
      obtain ⟨collision, -, hcase⟩ := put_cases fuel c0 c1 c2 c3 depth box polygons cnt polygon r h
      rcases hcase with ⟨-, hr⟩ | ⟨-, -, hr⟩ | ⟨-, hncond, d0, d1, d2, d3, depth1, box1,
        polygons1, cnt1, e0, e1, e2, e3, hpop, hp0, hp1, hp2, hp3, hr⟩
      · subst hr; exact hs
      · subst hr
        simp only [every_node, small_node] at hs ⊢
        exact hs
      · subst hr
        simp only [not_or] at hncond
        obtain ⟨hown, t0, t1, t2, t3⟩ :=
          populate_children_small _ _ _ _ _ _ _ _ _ _ _ _ _ _ _ _ hpop hs hncond.1
        simp only [every_node]
        exact ⟨hown, ih _ _ _ hp0 t0, ih _ _ _ hp1 t1, ih _ _ _ hp2 t2, ih _ _ _ hp3 t3⟩

/-- A removal keeps every node small. -/
theorem remove_small (id : Int) : ∀ node : lq_quadtree_node_t,
    every_node small_node node → every_node small_node (lq_quadtree_node_remove node id) := by
  intro node
  induction node with
  | null => intro _; simp [lq_quadtree_node_remove, every_node]
  | node c0 c1 c2 c3 depth box polygons cnt ih0 ih1 ih2 ih3 =>
    intro h
    simp only [every_node] at h
    obtain ⟨hown, h0, h1, h2, h3⟩ := h
    unfold lq_quadtree_node_remove
    simp only [every_node]
    exact ⟨hown, ih0 h0, ih1 h1, ih2 h2, ih3 h3⟩

/-- The bounds check on a small box. -/
theorem int32_in_bounds_eq (box : lq_rect_t) (hb : small_box box) (x y : Int) :
    int32.lq_rect_point_is_in_bounds box x y = lq_rect_point_is_in_bounds box x y := by
  obtain ⟨w1, w2, -, -⟩ := small_box_wraps box hb
  unfold int32.lq_rect_point_is_in_bounds lq_rect_point_is_in_bounds
  rw [w1, w2]

/-- The quadrant of a point in a small box. -/
theorem int32_get_quadrant_eq (box : lq_rect_t) (hb : small_box box) (x y : Int) :
    int32.lq_rect_get_quadrant box x y = lq_rect_get_quadrant box x y := by
  have hin := int32_in_bounds_eq box hb x y
  obtain ⟨h1, h2, h3, h4, h5, h6⟩ := hb
  have tw : 0 ≤ Int.tdiv box.width 2 ∧ Int.tdiv box.width 2 ≤ box.width := by
    rcases eq_or_lt_of_le h3 with e | e
    · rw [← e]; exact ⟨by decide, by decide⟩
    · exact tdiv_two_bounds _ e
  have th : 0 ≤ Int.tdiv box.height 2 ∧ Int.tdiv box.height 2 ≤ box.height := by
    rcases eq_or_lt_of_le h4 with e | e
    · rw [← e]; exact ⟨by decide, by decide⟩
    · exact tdiv_two_bounds _ e
  have w1 : int_wrap (box.left + Int.tdiv box.width 2) = box.left + Int.tdiv box.width 2 :=
    int_wrap_eq _ (by omega) (by omega)
  have w2 : int_wrap (box.bottom + Int.tdiv box.height 2) =
      box.bottom + Int.tdiv box.height 2 := int_wrap_eq _ (by omega) (by omega)
  unfold int32.lq_rect_get_quadrant lq_rect_get_quadrant
  simp only [hin, w1, w2]

/-- The descent in a tree of small nodes. -/
theorem int32_find_leaf_eq (node : lq_quadtree_node_t) (x y : Int) :
    every_node small_node node →
      int32.lq_quadtree_node_find_leaf node x y = lq_quadtree_node_find_leaf node x y := by
  induction node with
  | null => intro _; rfl
  | node a0 a1 a2 a3 adepth abox apolygons acnt ih0 ih1 ih2 ih3 =>
    intro hs
    simp only [every_node] at hs
    obtain ⟨hown, s0, s1, s2, s3⟩ := hs
    rw [int32.lq_quadtree_node_find_leaf, lq_quadtree_node_find_leaf,
      int32_get_quadrant_eq abox hown.1, ih0 s0, ih1 s1, ih2 s2, ih3 s3]

theorem int32_add_out_of_bounds_eq (box : lq_rect_t) (hb : small_box box) (xs ys : List Int) :
    ∀ l : List Nat, int32.add_out_of_bounds box xs ys l = add_out_of_bounds box xs ys l := by
  intro l
  induction l with
  | nil => rfl
  | cons i rest ih =>
    simp only [int32.add_out_of_bounds, add_out_of_bounds, int32_in_bounds_eq box hb, ih]

/-- A payload that `quadtree_add` accepts for a small root box is small. -/
theorem small_polygon_of_in_bounds (box : lq_rect_t) (hb : small_box box) (id n : Int)
    (xs ys : List Int) (polygon : lq_polygon_t)
    (hin : add_out_of_bounds box xs ys (List.range n.toNat) = false)
    (hnew : lq_polygon_node_new id n xs ys = some polygon) : small_polygon polygon := by
  unfold lq_polygon_node_new at hnew
  split at hnew
  · simp at hnew
  · simp only [Option.some.injEq] at hnew
    subst hnew
    intro i hi
    simp only at hi ⊢
    rw [arr_map_range xs _ i hi, arr_map_range ys _ i hi]
    have hb1 : lq_rect_point_is_in_bounds box (arr xs i) (arr ys i) = true := by
      by_contra hcon
      have : add_out_of_bounds box xs ys (List.range n.toNat) = true :=
        (add_out_of_bounds_eq_true _ _ _ _).2 ⟨i, List.mem_range.2 hi, by simpa using hcon⟩
      rw [hin] at this
      exact absurd this (by decide)
    have := (lq_rect_point_is_in_bounds_iff box _ _).1 hb1
    obtain ⟨h1, h2, h3, h4, h5, h6⟩ := hb
    omega

/-- On a tree of small nodes `quadtree_add` with `int` arithmetic is
`quadtree_add` with exact integers. -/
theorem int32_quadtree_add_eq (qt : lq_quadtree_t) (hs : every_node small_node qt.root)
    (id n : Int) (xs ys : List Int) :
    int32.quadtree_add qt id n xs ys = quadtree_add qt id n xs ys := by
  obtain ⟨root⟩ := qt
  cases root with
  | null => rfl
  | node c0 c1 c2 c3 depth box polygons cnt =>
    have hown : small_node (.node c0 c1 c2 c3 depth box polygons cnt) := by
      simp only [every_node] at hs
      exact hs.1
    unfold int32.quadtree_add quadtree_add
    simp only [int32_add_out_of_bounds_eq box hown.1]
    cases hout : add_out_of_bounds box xs ys (List.range n.toNat) with
    | true => rfl
    | false =>
      simp only [Bool.false_eq_true, if_false]
      cases hnew : lq_polygon_node_new id n xs ys with
      | none => rfl
      | some polygon =>
        simp only
        rw [int32_put_eq polygon
          (small_polygon_of_in_bounds box hown.1 id n xs ys polygon hout hnew) _ _ hs]

theorem int32_query_ids_eq_of_small (x y : Int) (polygons : List lq_polygon_t)
    (h : ∀ q ∈ polygons, small_polygon q) :
    int32.query_ids x y polygons = query_ids x y polygons := by
  induction polygons with
  | nil => rfl
  | cons p rest ih =>
    simp only [int32.query_ids, query_ids,
      point_in_polygon_int32_eq_of_small _ _ _ _ _ (h p (List.mem_cons_self _ _)),
      ih (fun q hq => h q (List.mem_cons_of_mem _ hq))]

/-- On a tree of small nodes that holds small payloads `quadtree_query` with
`int` arithmetic is `quadtree_query` with exact integers. -/
theorem int32_quadtree_query_eq (qt : lq_quadtree_t) (hs : every_node small_node qt.root)
    (hp : ∀ q ∈ payloads qt.root, small_polygon q) (x y : Int)
    (holder : quadtree_query_result_t) :
    int32.quadtree_query qt x y holder = quadtree_query qt x y holder := by
  obtain ⟨root⟩ := qt
  cases root with
  | null => rfl
  | node c0 c1 c2 c3 depth box polygons cnt =>
    have hown : small_node (.node c0 c1 c2 c3 depth box polygons cnt) := by
      simp only [every_node] at hs
      exact hs.1
    unfold int32.quadtree_query quadtree_query
    simp only [int32_in_bounds_eq box hown.1]
    cases hin : lq_rect_point_is_in_bounds box x y with
    | false => rfl
    | true =>
      simp only [Bool.not_true, Bool.false_eq_true, if_false]
      unfold int32.lq_quadtree_node_query lq_quadtree_node_query
      simp only [int32_find_leaf_eq _ x y hs]
      cases hleaf : lq_quadtree_node_find_leaf (.node c0 c1 c2 c3 depth box polygons cnt) x y with
      | none => rfl
      | some leaf =>
        cases leaf with
        | null => rfl
        | node a0 a1 a2 a3 adepth abox apolygons acnt =>
          simp only
          rw [int32_query_ids_eq_of_small x y apolygons
            (fun q hq => hp q (find_leaf_payloads _ _ _ _ _ _ _ _ _ _ _ hleaf q hq))]

theorem root_box_of_node_box (qt qt1 : lq_quadtree_t)
    (h : node_box qt1.root = node_box qt.root) : root_box qt1 = root_box qt := by
  obtain ⟨r⟩ := qt
  obtain ⟨r1⟩ := qt1
  cases r <;> cases r1 <;> simp_all [node_box, root_box]

/-- Every tree with a small root box that the calls with `int` arithmetic
reach is a tree that the calls with exact integers reach, with the same live
payloads: in such a tree no operation of an insert has overflowed.  All its
nodes and payloads are small. -/
theorem int32_reachable_small (qt : lq_quadtree_t) (live : List lq_polygon_t)
    (h : int32.reachable qt live) :
    small_box (root_box qt) →
      reachable qt live ∧ every_node small_node qt.root ∧
        ∀ q ∈ payloads qt.root, small_polygon q := by
  induction h with
  | create left bottom width height qt _ _ _ _ hc =>
    intro hb
    refine ⟨reachable.create _ _ _ _ _ hc, ?_, ?_⟩
    · obtain ⟨-, -, hq⟩ := quadtree_create_eq_some _ _ _ _ _ hc
      subst hq
      simp only [root_box] at hb
      simp only [every_node, small_node, MAX_DEPTH, and_true]
      exact ⟨hb, by decide, by decide⟩
    · obtain ⟨-, -, hq⟩ := quadtree_create_eq_some _ _ _ _ _ hc
      subst hq
      simp [payloads]
  | add_success qt qt1 live id n xs ys polygon _ hadd hnew ih =>
    intro hb
    rcases int32_quadtree_add_cases _ _ _ _ _ _ _ hadd with ⟨hc, -⟩ | ⟨-, hin, polygon1, hnew1,
      hput⟩
    · exact absurd hc (by decide)
    · rw [hnew] at hnew1
      simp only [Option.some.injEq] at hnew1
      subst hnew1
      have hbox := root_box_of_node_box qt qt1 (int32_put_node_box _ _ _ _ hput)
      rw [hbox] at hb
      obtain ⟨hr, hs, hp⟩ := ih hb
      have hadd1 : quadtree_add qt id n xs ys = some (QUADTREE_SUCCESS, qt1) := by
        rw [← int32_quadtree_add_eq qt hs]; exact hadd
      rw [int32_add_out_of_bounds_eq _ hb] at hin
      have hsp : small_polygon polygon :=
        small_polygon_of_in_bounds _ hb id n xs ys polygon hin hnew
      rw [int32_put_eq polygon hsp _ _ hs] at hput
      refine ⟨reachable.add_success _ _ _ _ _ _ _ _ hr hadd1 hnew, put_small _ _ _ _ hput hs, ?_⟩
      intro q hq
      rcases put_payloads _ _ _ _ hput q hq with h1 | h1
      · rw [h1]; exact hsp
      · exact hp q h1
  | add_failure qt qt1 live id n xs ys code _ hadd hne ih =>
    intro hb
    rcases int32_quadtree_add_cases _ _ _ _ _ _ _ hadd with ⟨-, heq, -⟩ | ⟨hs, -⟩
    · subst heq
      obtain ⟨hr, hs, hp⟩ := ih hb
      refine ⟨reachable.add_failure _ _ _ id n xs ys code hr ?_ hne, hs, hp⟩
      rw [← int32_quadtree_add_eq _ hs]; exact hadd
    · exact absurd hs hne
  | remove qt qt1 live id code _ hrem ih =>
    intro hb
    obtain ⟨-, -, heq⟩ := quadtree_remove_cases _ _ _ _ hrem
    have hbox : root_box qt1 = root_box qt := by
      apply root_box_of_node_box
      rw [heq]
      exact remove_node_box _ _
    rw [hbox] at hb
    obtain ⟨hr, hs, hp⟩ := ih hb
    refine ⟨reachable.remove _ _ _ _ _ hr hrem, ?_, ?_⟩
    · rw [heq]; exact remove_small id _ hs
    · intro q hq
      rw [heq] at hq
      exact hp q ((remove_payloads _ _ _).1 hq).1

/-! ## The claims -/

/-- C1 (the failing input): after `quadtree_create(0, 0, 2^30, 2^30)` the
`quadtree_add` of the triangle with vertices `(2^29, 2^29 - 1)`,
`(2^29 - 1, 2^30 - 1)`, `(2^29, 2^29 - 2)` under id 7 returns
`QUADTREE_SUCCESS`, the point `(2^29 - 1, 2^29)` is in bounds and
`point_in_polygon` holds for it and the triangle, yet `quadtree_query` at
that point succeeds with an empty id list: `collide_polygon_rectangle`
reports no collision of the triangle with the upper left quarter of the
root. -/
theorem query_misses_inserted_polygon :
    ∃ qt1 : lq_quadtree_t,
      quadtree_create 0 0 (2 ^ 30) (2 ^ 30) = some tree_big ∧
      lq_polygon_node_new 7 3 [2 ^ 29, 2 ^ 29 - 1, 2 ^ 29]
        [2 ^ 29 - 1, 2 ^ 30 - 1, 2 ^ 29 - 2] = some sliver_7 ∧
      quadtree_add tree_big 7 3 [2 ^ 29, 2 ^ 29 - 1, 2 ^ 29]
        [2 ^ 29 - 1, 2 ^ 30 - 1, 2 ^ 29 - 2] = some (QUADTREE_SUCCESS, qt1) ∧
      reachable qt1 [sliver_7] ∧
      lq_rect_point_is_in_bounds (root_box qt1) (2 ^ 29 - 1) (2 ^ 29) = true ∧
      point_in_polygon (2 ^ 29 - 1) (2 ^ 29) sliver_7.number_of_points sliver_7.xs
        sliver_7.ys = true ∧
      collide_polygon_rectangle sliver_7.number_of_points sliver_7.xs sliver_7.ys
        0 (2 ^ 29) (2 ^ 29) (2 ^ 29) = some NO_COLLISION ∧
      quadtree_query qt1 (2 ^ 29 - 1) (2 ^ 29) quadtree_query_result_allocate =
        some (QUADTREE_SUCCESS, ⟨0, some []⟩) := by
  have hcreate : quadtree_create 0 0 (2 ^ 30) (2 ^ 30) = some tree_big := by decide!
  have hnew : lq_polygon_node_new 7 3 [2 ^ 29, 2 ^ 29 - 1, 2 ^ 29]
      [2 ^ 29 - 1, 2 ^ 30 - 1, 2 ^ 29 - 2] = some sliver_7 := by decide!
  obtain ⟨qt1, hadd⟩ := quadtree_add_total tree_big 7 3 [2 ^ 29, 2 ^ 29 - 1, 2 ^ 29]
    [2 ^ 29 - 1, 2 ^ 30 - 1, 2 ^ 29 - 2]
    (quadtree_create_well_formed _ _ _ _ _ hcreate).1 (by decide) (by decide!)
  obtain ⟨e0, e2, e3, hroot⟩ := sliver_insert_misses_child_1 qt1 hadd
  have hbox : root_box qt1 = ⟨0, 0, 2 ^ 30, 2 ^ 30⟩ := by
    unfold root_box; rw [hroot]
  have hin : lq_rect_point_is_in_bounds (root_box qt1) (2 ^ 29 - 1) (2 ^ 29) = true := by
    rw [hbox]; decide!
  have hleaf : lq_quadtree_node_find_leaf qt1.root (2 ^ 29 - 1) (2 ^ 29) =
      some tree_big_child_1 := by
    rw [hroot, find_leaf_quadrant_1 _ _ _ _ _ _ _ _ _ _ (by decide!) (by decide)]
    decide!
  refine ⟨qt1, hcreate, hnew, hadd,
    reachable.add_success _ _ _ _ _ _ _ _ (reachable.create _ _ _ _ _ hcreate) hadd hnew,
    hin, by decide!, by decide!, ?_⟩
  exact quadtree_query_of_leaf qt1 _ _ _ _ _ _ _ _ _ _ _ hin hleaf (by decide)

/-- C2: query soundness.  In every tree reached from `quadtree_create` by
calls of `quadtree_add` and `quadtree_remove`, all with the `int` arithmetic of
the machine, every id in the id list of a successful `quadtree_query` at
`(x, y)` is the id of a payload that was inserted successfully, has not been
removed since, and for which `point_in_polygon`, as the machine computes it,
is true at `(x, y)`. -/
theorem query_sound (qt : lq_quadtree_t) (live : List lq_polygon_t)
    (h : int32.reachable qt live)
    (x y : Int) (holder result : quadtree_query_result_t) (ids : List Int)
    (hq : int32.quadtree_query qt x y holder = some (QUADTREE_SUCCESS, result))
    (hids : result.ids = some ids) :
    ∀ k ∈ ids, ∃ polygon ∈ live, polygon.id = k ∧
      point_in_polygon_int32 x y polygon.number_of_points polygon.xs polygon.ys = true := by
  intro k hk
  obtain ⟨c0, c1, c2, c3, depth, box, polygons, cnt, hleaf, hres⟩ :=
    int32_quadtree_query_success qt x y holder result _ hq rfl
  subst hres
  simp only [Option.some.injEq] at hids
  subst hids
  rw [int32_query_ids_eq, List.mem_map] at hk
  obtain ⟨p, hp, hid⟩ := hk
  rw [List.mem_filter] at hp
  exact ⟨p, (int32_reachable_invariant qt live h).2.2 p
    (int32_find_leaf_payloads _ _ _ _ _ _ _ _ _ _ _ hleaf p hp.1), hid, hp.2⟩

/-- Witness of C2: the query at (3, 3) in the 8 by 8 tree holding the square
under id 5 reports 5, the id of the live square, which contains (3, 3). -/
theorem query_sound_witness :
    int32.quadtree_query tree_8_square 3 3 quadtree_query_result_allocate =
      some (QUADTREE_SUCCESS, ⟨1, some [5]⟩) ∧
    ∃ polygon ∈ [square_5], polygon.id = 5 ∧
      point_in_polygon_int32 3 3 polygon.number_of_points polygon.xs polygon.ys = true :=
  ⟨by decide!,
   query_sound tree_8_square [square_5] int32_reachable_tree_8_square 3 3
    quadtree_query_result_allocate ⟨1, some [5]⟩ [5] (by decide!) rfl 5 (by simp)⟩

/-- C3 (the failing inputs): after `quadtree_create(2147483640, 0, 8, 8)` the
root box is `(2147483640, 0, 8, 8)`; every vertex of the square with corners
(2147483641, 1) and (2147483643, 3) lies in the half-open box
`[2147483640, 2147483648) x [0, 8)`, but `left + width` is `2^31`, which does
not fit an `int` and wraps to `-2^31`, so the test
`rect->left + rect->width <= x` succeeds and `quadtree_add` returns
`QUADTREE_ERROR_OUT_OF_BOUNDS`.  After `quadtree_create(-1, 0, 2^30 + 1, 1)`
the stored width is `-2^31` and the stored box holds no point; `left + width`
wraps to `2^31 - 1` and `quadtree_add` of a polygon with the vertices (0,0),
(1,0), (2,0) returns `QUADTREE_SUCCESS`. -/
theorem add_out_of_bounds_box_wraps :
    quadtree_create 2147483640 0 8 8 =
      some ⟨.node .null .null .null .null 0 ⟨0, 2147483640, 8, 8⟩ [] 0⟩ ∧
    add_out_of_bounds ⟨0, 2147483640, 8, 8⟩ [2147483641, 2147483643, 2147483643, 2147483641]
      [1, 1, 3, 3] (List.range 4) = false ∧
    (2147483640 : Int) + 8 = 2 ^ 31 ∧ int_wrap (2147483640 + 8) = -(2 ^ 31) ∧
    int32.quadtree_add ⟨.node .null .null .null .null 0 ⟨0, 2147483640, 8, 8⟩ [] 0⟩ 7 4
        [2147483641, 2147483643, 2147483643, 2147483641] [1, 1, 3, 3] =
      some (QUADTREE_ERROR_OUT_OF_BOUNDS,
        ⟨.node .null .null .null .null 0 ⟨0, 2147483640, 8, 8⟩ [] 0⟩) ∧
    quadtree_create (-1) 0 (2 ^ 30 + 1) 1 =
      some ⟨.node .null .null .null .null 0 ⟨0, -1, 1, -(2 ^ 31)⟩ [] 0⟩ ∧
    add_out_of_bounds ⟨0, -1, 1, -(2 ^ 31)⟩ [0, 1, 2] [0, 0, 0] (List.range 3) = true ∧
    int_wrap (-1 + -(2 ^ 31)) = 2 ^ 31 - 1 ∧
    (int32.quadtree_add ⟨.node .null .null .null .null 0 ⟨0, -1, 1, -(2 ^ 31)⟩ [] 0⟩ 7 3
        [0, 1, 2] [0, 0, 0]).map (fun r => r.1) = some QUADTREE_SUCCESS := by
  refine ⟨by decide!, by decide, by decide, by decide, by decide!, by decide!, by decide,
    by decide, by decide!⟩

/-- C4 (the failing inputs): in the tree of
`quadtree_create(2147483640, 0, 8, 8)` the point (2147483644, 1) lies in the
half-open box `[2147483640, 2147483648) x [0, 8)` stored at the root, but
`left + width` wraps to `-2^31` and `quadtree_query` returns
`QUADTREE_ERROR_OUT_OF_BOUNDS`.  In the tree of
`quadtree_create(-1, 0, 2^30 + 1, 1)`, whose stored width is `-2^31`, the
point (0, 0) lies outside the stored box, but `left + width` wraps to
`2^31 - 1` and `quadtree_query` returns `QUADTREE_SUCCESS` with no id. -/
theorem query_out_of_bounds_box_wraps :
    quadtree_create 2147483640 0 8 8 =
      some ⟨.node .null .null .null .null 0 ⟨0, 2147483640, 8, 8⟩ [] 0⟩ ∧
    ((2147483640 : Int) ≤ 2147483644 ∧ (2147483644 : Int) < 2147483640 + 8 ∧
      (0 : Int) ≤ 1 ∧ (1 : Int) < 0 + 8) ∧
    int_wrap (2147483640 + 8) = -(2 ^ 31) ∧
    int32.quadtree_query ⟨.node .null .null .null .null 0 ⟨0, 2147483640, 8, 8⟩ [] 0⟩
        2147483644 1 quadtree_query_result_allocate =
      some (QUADTREE_ERROR_OUT_OF_BOUNDS, quadtree_query_result_allocate) ∧
    quadtree_create (-1) 0 (2 ^ 30 + 1) 1 =
      some ⟨.node .null .null .null .null 0 ⟨0, -1, 1, -(2 ^ 31)⟩ [] 0⟩ ∧
    ¬ ((-1 : Int) ≤ 0 ∧ (0 : Int) < -1 + -(2 ^ 31) ∧ (0 : Int) ≤ 0 ∧ (0 : Int) < 0 + 1) ∧
    int_wrap (-1 + -(2 ^ 31)) = 2 ^ 31 - 1 ∧
    int32.quadtree_query ⟨.node .null .null .null .null 0 ⟨0, -1, 1, -(2 ^ 31)⟩ [] 0⟩ 0 0
        quadtree_query_result_allocate =
      some (QUADTREE_SUCCESS, ⟨0, some []⟩) := by
  refine ⟨by decide!, by decide, by decide, by decide!, by decide!, by decide, by decide,
    by decide!⟩

/-- C5: after `quadtree_remove(k)` on any tree, and as long as no
`quadtree_add` under id `k` follows, the id list of every successful
`quadtree_query` does not contain `k`. -/
theorem removed_id_not_reported (qt qt1 qt2 : lq_quadtree_t) (k code : Int)
    (hrem : quadtree_remove qt k = some (code, qt1))
    (hlater : later_without_add k qt1 qt2)
    (x y : Int) (holder result : quadtree_query_result_t) (ids : List Int)
    (hq : quadtree_query qt2 x y holder = some (QUADTREE_SUCCESS, result))
    (hids : result.ids = some ids) :
    k ∉ ids := by
  obtain ⟨-, -, heq⟩ := quadtree_remove_cases _ _ _ _ hrem
  have h1 : ∀ q ∈ payloads qt1.root, q.id ≠ k := by
    subst heq
    intro q hq
    rw [remove_payloads] at hq
    exact hq.2
  have h2 := later_without_add_no_id k qt1 qt2 hlater h1
  intro hk
  obtain ⟨p, hp, hid, -⟩ := quadtree_query_ids qt2 x y holder result ids hq hids k hk
  exact h2 p hp hid

/-- Witness of C5: the square is added once more under id 6 to the 8 by 8
tree that holds it under id 5; after `quadtree_remove(5)` the query at (3, 3)
reports 6 and not 5. -/
theorem removed_id_not_reported_witness :
    quadtree_remove tree_8_two_squares 5 = some (QUADTREE_SUCCESS, tree_8_one_left) ∧
    quadtree_query tree_8_one_left 3 3 quadtree_query_result_allocate =
      some (QUADTREE_SUCCESS, ⟨1, some [6]⟩) ∧
    (5 : Int) ∉ [(6 : Int)] :=
  ⟨by decide!, by decide!,
   removed_id_not_reported tree_8_two_squares tree_8_one_left tree_8_one_left 5
    QUADTREE_SUCCESS (by decide!) (later_without_add.refl _) 3 3
    quadtree_query_result_allocate ⟨1, some [6]⟩ [6] (by decide!) rfl⟩

/-- C6: `quadtree_remove(id)` returns `QUADTREE_SUCCESS` on every tree; the
tree after the call has the same nodes, boxes, depths and children, each
payload list being the old one with exactly the references of payload id
`id` deleted, in the original order; and when no reference has that id the
tree is unchanged. -/
theorem remove_filters_payloads (c0 c1 c2 c3 : lq_quadtree_node_t) (depth : Int)
    (box : lq_rect_t) (polygons : List lq_polygon_t) (number_of_polygons : Int) (id : Int) :
    ∃ root, quadtree_remove ⟨.node c0 c1 c2 c3 depth box polygons number_of_polygons⟩ id
        = some (QUADTREE_SUCCESS, ⟨root⟩) ∧
      removed_from id (.node c0 c1 c2 c3 depth box polygons number_of_polygons) root ∧
      (∀ q ∈ payloads root, q.id ≠ id) ∧
      ((∀ q ∈ payloads (.node c0 c1 c2 c3 depth box polygons number_of_polygons), q.id ≠ id) →
        root = .node c0 c1 c2 c3 depth box polygons number_of_polygons) := by
  refine ⟨lq_quadtree_node_remove (.node c0 c1 c2 c3 depth box polygons number_of_polygons) id,
    rfl, remove_removed_from _ _, ?_, remove_no_match _ _⟩
  intro q hq
  rw [remove_payloads] at hq
  exact hq.2

/-- C7 (evaluation at the failing input): `quadtree_create(0, 0, 2^30 + 1, 1)`
returns a tree whose root box has the width `-2147483648`, whereas
`next_power_of_2(2^30 + 1)` is `2147483648`. -/
theorem create_width_wraps :
    quadtree_create 0 0 (2 ^ 30 + 1) 1 =
      some ⟨.node .null .null .null .null 0 ⟨0, 0, 1, -2147483648⟩ [] 0⟩ ∧
    next_power_of_2 (2 ^ 30 + 1) = 2147483648 := by
  decide!

/-- C8 (the failing input): after `quadtree_create(0, 0, 10, 10)` the insert of
the triangle (10,0), (1,0), (1,1), whose first vertex lies outside the
caller-supplied region `[0, 10) x [0, 10)`, returns `QUADTREE_SUCCESS`, with
exact integers and with the `int` arithmetic of the machine: the root stores
the box `(0, 0, 16, 16)` and the vertex loop checks against that box. -/
theorem add_outside_requested_region_succeeds :
    ((quadtree_create 0 0 10 10).bind (fun qt =>
        (quadtree_add qt 5 3 [10, 1, 1] [0, 0, 1]).map (fun r => r.1))) =
      some QUADTREE_SUCCESS ∧
    ¬ ((0 : Int) ≤ 10 ∧ (10 : Int) < 0 + 10 ∧ (0 : Int) ≤ 0 ∧ (0 : Int) < 0 + 10) ∧
    quadtree_create 0 0 10 10 =
      some ⟨.node .null .null .null .null 0 ⟨0, 0, 16, 16⟩ [] 0⟩ ∧
    ((quadtree_create 0 0 10 10).bind (fun qt =>
        (int32.quadtree_add qt 5 3 [10, 1, 1] [0, 0, 1]).map (fun r => r.1))) =
      some QUADTREE_SUCCESS := by
  refine ⟨by decide!, by decide, by decide!, by decide!⟩

/-- C9 (evaluation at the failing input): in the tree of
`quadtree_create(0, 0, 8, 8)`, a query at (1, 1) succeeds and leaves the
holder with `number_of_ids = 0` and an empty id list; the following query at
(-1, 0) with that holder returns `QUADTREE_ERROR_OUT_OF_BOUNDS` and the
holder still has `number_of_ids = 0` and its id list. -/
theorem query_out_of_bounds_keeps_holder :
    quadtree_create 0 0 8 8 = some tree_8 ∧
    quadtree_query tree_8 1 1 quadtree_query_result_allocate =
      some (QUADTREE_SUCCESS, ⟨0, some []⟩) ∧
    quadtree_query tree_8 (-1) 0 ⟨0, some []⟩ =
      some (QUADTREE_ERROR_OUT_OF_BOUNDS, ⟨0, some []⟩) := by
  decide!

/-- C10: in a freshly created tree, after one successful `quadtree_add` under
id `k` of the axis-aligned rectangle with vertices `(x0,y0)`, `(x1,y0)`,
`(x1,y1)`, `(x0,y1)`, `x0 < x1` and `y0 < y1`, the query at every in-bounds
point `(x, y)` returns `QUADTREE_SUCCESS` with exactly the list `[k]` when
`x0 <= x < x1` and `y0 <= y < y1`, and with the empty list otherwise. -/
theorem rectangle_query (left bottom width height : Int) (qt0 qt1 : lq_quadtree_t)
    (k x0 x1 y0 y1 : Int)
    (hc : quadtree_create left bottom width height = some qt0) (hx : x0 < x1) (hy : y0 < y1)
    (hadd : quadtree_add qt0 k 4 [x0, x1, x1, x0] [y0, y0, y1, y1]
      = some (QUADTREE_SUCCESS, qt1))
    (x y : Int) (holder : quadtree_query_result_t)
    (hin : lq_rect_point_is_in_bounds (root_box qt1) x y = true) :
    quadtree_query qt1 x y holder =
      some (QUADTREE_SUCCESS,
        if x0 ≤ x ∧ x < x1 ∧ y0 ≤ y ∧ y < y1 then ⟨1, some [k]⟩ else ⟨0, some []⟩) := by
  obtain ⟨-, -, hq0⟩ := quadtree_create_eq_some _ _ _ _ _ hc
  obtain ⟨s, hs⟩ := next_power_of_2_eq_pow width.toNat
  obtain ⟨t, ht⟩ := next_power_of_2_eq_pow height.toNat
  have hW := int_of_ulong_lt (next_power_of_2 width.toNat)
  have hH := int_of_ulong_lt (next_power_of_2 height.toNat)
  have hgW : good_size (int_of_ulong (next_power_of_2 width.toNat)) := by
    rw [hs]; exact good_size_int_of_ulong_pow s
  have hgH : good_size (int_of_ulong (next_power_of_2 height.toNat)) := by
    rw [ht]; exact good_size_int_of_ulong_pow t
  generalize int_of_ulong (next_power_of_2 width.toNat) = W at hq0 hW hgW
  generalize int_of_ulong (next_power_of_2 height.toNat) = H at hq0 hH hgH
  subst hq0
  -- the vertices are in bounds
  have hvert := quadtree_add_success_in_bounds _ _ _ _ _ _ hadd
  have hr : List.range (4 : Int).toNat = [0, 1, 2, 3] := by decide
  simp only [root_box, hr, add_out_of_bounds, arr, List.getD_cons_zero, List.getD_cons_succ]
    at hvert
  have hv0 : lq_rect_point_is_in_bounds ⟨bottom, left, H, W⟩ x0 y0 = true := by
    by_contra hcon
    simp [hcon] at hvert
  have hv2 : lq_rect_point_is_in_bounds ⟨bottom, left, H, W⟩ x1 y1 = true := by
    by_contra hcon
    simp [hcon] at hvert
  rw [lq_rect_point_is_in_bounds_iff] at hv0 hv2
  simp only at hv0 hv2
  -- the stored payload
  rcases quadtree_add_cases _ _ _ _ _ _ _ hadd with ⟨hne, -⟩ | ⟨-, polygon, hnew, hput⟩
  · exact absurd rfl hne
  have hpoly : polygon = ⟨k, 4, [x0, x1, x1, x0], [y0, y0, y1, y1]⟩ := by
    have : lq_polygon_node_new k 4 [x0, x1, x1, x0] [y0, y0, y1, y1] =
        some ⟨k, 4, [x0, x1, x1, x0], [y0, y0, y1, y1]⟩ := by
      unfold lq_polygon_node_new
      rw [if_neg (by decide), hr]
      rfl
    rw [this] at hnew
    exact (Option.some.inj hnew).symm
  subst hpoly
  have hcov : ∀ rx ry w h x y : Int, w ≤ 2 ^ 40 → h ≤ 2 ^ 40 →
      (rx ≤ x ∧ x < rx + w ∧ ry ≤ y ∧ y < ry + h) →
      contains_point ⟨k, 4, [x0, x1, x1, x0], [y0, y0, y1, y1]⟩ x y = true →
      collide_polygon_rectangle 4 [x0, x1, x1, x0] [y0, y0, y1, y1] rx ry w h
        = some COLLISION := by
    intro rx ry w h x y bw bh hbox hcp
    simp only [contains_point] at hcp
    rw [point_in_polygon_rectangle _ _ _ _ _ _ hx hy, decide_eq_true_eq] at hcp
    exact collide_rectangle_polygon x0 x1 y0 y1 rx ry w h x y hx hy (by omega) (by omega)
      bw bh hbox hcp
  have hbox1 : root_box qt1 = ⟨bottom, left, H, W⟩ := by
    have := put_node_box _ _ _ _ hput
    simp only [node_box] at this
    obtain ⟨root1⟩ := qt1
    cases root1 with
    | null => simp [node_box] at this
    | node a0 a1 a2 a3 adepth abox apolygons acnt =>
      simp only [node_box, Option.some.injEq] at this
      simp [root_box, this]
  rw [hbox1] at hin
  obtain ⟨c0, c1, c2, c3, ldepth, lbox, polygons, hleaf, hshape, hfull⟩ :=
    put_fresh_leaf _ hcov _ 0 ⟨bottom, left, H, W⟩ qt1.root hgW hgH (by simp only; omega)
      (by simp only; omega) hput x y hin
  have hcp : contains_point ⟨k, 4, [x0, x1, x1, x0], [y0, y0, y1, y1]⟩ x y =
      decide (x0 ≤ x ∧ x < x1 ∧ y0 ≤ y ∧ y < y1) := by
    simp only [contains_point]
    exact point_in_polygon_rectangle _ _ _ _ _ _ hx hy
  have hq := quadtree_query_of_leaf qt1 x y holder _ _ _ _ _ _ _ _ (by rw [hbox1]; exact hin)
    hleaf (by exact_mod_cast query_ids_length_le x y polygons)
  rw [hq]
  by_cases hinside : x0 ≤ x ∧ x < x1 ∧ y0 ≤ y ∧ y < y1
  · rw [if_pos hinside]
    have hp := hfull (by rw [hcp]; simpa using hinside)
    subst hp
    have : point_in_polygon x y 4 [x0, x1, x1, x0] [y0, y0, y1, y1] = true := by
      rw [point_in_polygon_rectangle _ _ _ _ _ _ hx hy]; simpa using hinside
    simp [query_ids, this]
  · rw [if_neg hinside]
    have hpf : point_in_polygon x y 4 [x0, x1, x1, x0] [y0, y0, y1, y1] = false := by
      rw [point_in_polygon_rectangle _ _ _ _ _ _ hx hy]; simpa using hinside
    rcases hshape with h | h
    · subst h; simp [query_ids]
    · subst h; simp [query_ids, hpf]

/-- Witness of C10: `quadtree_create(0, 0, 100, 100)`, the square from 10 to
90 under id 5; the queries at (50,50) and (10,10) return `[5]`, those at
(90,90) and (0,0) return the empty list. -/
theorem rectangle_query_witness :
    ∃ qt0 qt1 : lq_quadtree_t,
      quadtree_create 0 0 100 100 = some qt0 ∧
      quadtree_add qt0 5 4 [10, 90, 90, 10] [10, 10, 90, 90] = some (QUADTREE_SUCCESS, qt1) ∧
      quadtree_query qt1 50 50 quadtree_query_result_allocate =
        some (QUADTREE_SUCCESS, ⟨1, some [5]⟩) ∧
      quadtree_query qt1 10 10 quadtree_query_result_allocate =
        some (QUADTREE_SUCCESS, ⟨1, some [5]⟩) ∧
      quadtree_query qt1 90 90 quadtree_query_result_allocate =
        some (QUADTREE_SUCCESS, ⟨0, some []⟩) ∧
      quadtree_query qt1 0 0 quadtree_query_result_allocate =
        some (QUADTREE_SUCCESS, ⟨0, some []⟩) := by
  have hc : quadtree_create 0 0 100 100 =
      some ⟨.node .null .null .null .null 0 ⟨0, 0, 128, 128⟩ [] 0⟩ := by decide!
  obtain ⟨qt1, hadd⟩ := quadtree_add_total
    ⟨.node .null .null .null .null 0 ⟨0, 0, 128, 128⟩ [] 0⟩ 5 4 [10, 90, 90, 10]
    [10, 10, 90, 90] (quadtree_create_well_formed _ _ _ _ _ hc).1 (by decide) (by decide!)
  have hbox : root_box qt1 = ⟨0, 0, 128, 128⟩ := by
    rcases quadtree_add_cases _ _ _ _ _ _ _ hadd with ⟨hne, -⟩ | ⟨-, polygon, -, hput⟩
    · exact absurd rfl hne
    · have := put_node_box _ _ _ _ hput
      obtain ⟨root1⟩ := qt1
      cases root1 with
      | null => simp [node_box] at this
      | node a0 a1 a2 a3 adepth abox apolygons acnt =>
        simp only [node_box, Option.some.injEq] at this
        simp [root_box, this]
  refine ⟨_, qt1, hc, hadd, ?_, ?_, ?_, ?_⟩
  · exact rectangle_query 0 0 100 100 _ qt1 5 10 90 10 90 hc (by decide) (by decide) hadd
      50 50 _ (by rw [hbox]; decide)
  · exact rectangle_query 0 0 100 100 _ qt1 5 10 90 10 90 hc (by decide) (by decide) hadd
      10 10 _ (by rw [hbox]; decide)
  · exact rectangle_query 0 0 100 100 _ qt1 5 10 90 10 90 hc (by decide) (by decide) hadd
      90 90 _ (by rw [hbox]; decide)
  · exact rectangle_query 0 0 100 100 _ qt1 5 10 90 10 90 hc (by decide) (by decide) hadd
      0 0 _ (by rw [hbox]; decide)

/-- C11 (counterexample): after `quadtree_create(0, 0, 8, 8)` the square with
corners (1,1) and (7,7) is added twice under the same id 5, both calls
returning `QUADTREE_SUCCESS`; the query at the in-bounds point (3, 3)
succeeds and its id list is `[5, 5]`, which contains the id 5 twice. -/
theorem query_reports_duplicate_id :
    reachable tree_8_square_twice [square_5, square_5] ∧
    quadtree_add tree_8_square 5 4 [1, 7, 7, 1] [1, 1, 7, 7] =
      some (QUADTREE_SUCCESS, tree_8_square_twice) ∧
    lq_rect_point_is_in_bounds (root_box tree_8_square_twice) 3 3 = true ∧
    quadtree_query tree_8_square_twice 3 3 quadtree_query_result_allocate =
      some (QUADTREE_SUCCESS, ⟨2, some [5, 5]⟩) ∧
    List.count (5 : Int) [5, 5] = 2 ∧ ¬ ([5, 5] : List Int).Nodup :=
  ⟨reachable_tree_8_square_twice, by decide!, by decide!, by decide!, by decide, by decide⟩

/-- C11 (amended): in every tree reachable from `quadtree_create` by calls of
`quadtree_add` and `quadtree_remove`, the id list of a successful
`quadtree_query` contains every id at most as many times as there are live
payloads (inserted successfully and not removed since) with that id; so it
contains no id more than once when the live payloads have pairwise different
ids. -/
theorem query_id_multiplicity (qt : lq_quadtree_t) (live : List lq_polygon_t)
    (h : reachable qt live) (x y : Int) (holder result : quadtree_query_result_t)
    (ids : List Int) (hq : quadtree_query qt x y holder = some (QUADTREE_SUCCESS, result))
    (hids : result.ids = some ids) :
    (∀ k : Int, ids.count k ≤ (live.map lq_polygon_t.id).count k) ∧
    ((live.map lq_polygon_t.id).Nodup → ids.Nodup) := by
  have hs := quadtree_query_subperm qt live h x y holder result ids hq hids
  exact ⟨fun k => hs.count_le k, fun hn => nodup_of_subperm _ _ hs hn⟩

/-- Witness of C11 (amended): in the 8 by 8 tree that holds the square twice
under id 5, the query at (3, 3) reports the id 5 twice, as often as it is
live. -/
theorem query_id_multiplicity_witness :
    quadtree_query tree_8_square_twice 3 3 quadtree_query_result_allocate =
      some (QUADTREE_SUCCESS, ⟨2, some [5, 5]⟩) ∧
    List.count (5 : Int) [5, 5] ≤
      List.count (5 : Int) ([square_5, square_5].map lq_polygon_t.id) :=
  ⟨by decide!,
   (query_id_multiplicity tree_8_square_twice [square_5, square_5]
      reachable_tree_8_square_twice 3 3 quadtree_query_result_allocate ⟨2, some [5, 5]⟩ [5, 5]
      (by decide!) rfl).1 5⟩

/-- C12: in every tree reachable from `quadtree_create` by calls of
`quadtree_add` and `quadtree_remove` in which the live payloads have pairwise
different ids, the payload list of every node holds every payload at most
once (and no two payloads of the same id), and the id list of every
successful `quadtree_query` contains every id at most once. -/
theorem unique_ids_no_duplicates (qt : lq_quadtree_t) (live : List lq_polygon_t)
    (h : reachable qt live) (hu : (live.map lq_polygon_t.id).Nodup) :
    every_payload_list (fun l => l.Nodup ∧ (l.map lq_polygon_t.id).Nodup) qt.root ∧
    ∀ (x y : Int) (holder result : quadtree_query_result_t) (ids : List Int),
      quadtree_query qt x y holder = some (QUADTREE_SUCCESS, result) →
      result.ids = some ids → ids.Nodup := by
  constructor
  · refine every_payload_list_mono _ _ ?_ _ (reachable_subperm qt live h)
    intro l hl
    have hm : (l.map lq_polygon_t.id).Nodup := by
      obtain ⟨l0, hp, hs⟩ := hl
      exact nodup_of_subperm _ _
        ⟨l0.map lq_polygon_t.id, hp.map lq_polygon_t.id, hs.map lq_polygon_t.id⟩ hu
    exact ⟨List.Nodup.of_map _ hm, hm⟩
  · intro x y holder result ids hq hids
    exact nodup_of_subperm _ _ (quadtree_query_subperm qt live h x y holder result ids hq hids) hu

/-- Witness of C12: the 8 by 8 tree holding the square under the ids 5 and 6;
the query at (3, 3) reports `[6, 5]`. -/
theorem unique_ids_no_duplicates_witness :
    ([6, 5] : List Int).Nodup ∧
    quadtree_query tree_8_two_squares 3 3 quadtree_query_result_allocate =
      some (QUADTREE_SUCCESS, ⟨2, some [6, 5]⟩) ∧
    every_payload_list (fun l => l.Nodup ∧ (l.map lq_polygon_t.id).Nodup)
      tree_8_two_squares.root :=
  ⟨(unique_ids_no_duplicates tree_8_two_squares [⟨6, 4, [1, 7, 7, 1], [1, 1, 7, 7]⟩, square_5]
      reachable_tree_8_two_squares (by decide)).2 3 3 quadtree_query_result_allocate
      ⟨2, some [6, 5]⟩ [6, 5] (by decide!) rfl,
   by decide!,
   (unique_ids_no_duplicates tree_8_two_squares [⟨6, 4, [1, 7, 7, 1], [1, 1, 7, 7]⟩, square_5]
      reachable_tree_8_two_squares (by decide)).1⟩

/-- C13 (counterexample): after `quadtree_create(0, 0, 64, 64)` the
`quadtree_add` of the square with corners (0,0), (64,0), (64,64), (0,64)
under id 1 does not attach the polygon: the payload list of the root is
still empty after the call, and no payload is held anywhere in the tree. -/
theorem add_full_square_not_attached :
    ∃ (code : Int) (qt1 : lq_quadtree_t),
      quadtree_create 0 0 64 64 = some tree_64 ∧
      quadtree_add tree_64 1 4 [0, 64, 64, 0] [0, 0, 64, 64] = some (code, qt1) ∧
      payloads qt1.root = [] :=
  ⟨QUADTREE_ERROR_OUT_OF_BOUNDS, tree_64, by decide!, by decide!, by decide!⟩

/-- C13 (amended): after `quadtree_create(0, 0, 64, 64)` the `quadtree_add`
of the square with corners (0,0), (64,0), (64,64), (0,64) under id 1 returns
`QUADTREE_ERROR_OUT_OF_BOUNDS`, because the vertex (64,0) is outside the
half-open root box, and leaves the tree unchanged: the root remains a leaf
at depth 0 with an empty payload list. -/
theorem add_full_square_out_of_bounds :
    quadtree_create 0 0 64 64 = some tree_64 ∧
    lq_rect_point_is_in_bounds (root_box tree_64) 64 0 = false ∧
    quadtree_add tree_64 1 4 [0, 64, 64, 0] [0, 0, 64, 64] =
      some (QUADTREE_ERROR_OUT_OF_BOUNDS, tree_64) ∧
    tree_64.root = .node .null .null .null .null 0 ⟨0, 0, 64, 64⟩ [] 0 :=
  ⟨by decide!, by decide!, by decide!, rfl⟩

/-- C15 (the failing input): for the triangle with vertices (0,0), (1,0),
(1,2) and the point (0,1), `point_in_polygon` returns true on the vertex
sequence and false on the reversed vertex sequence. -/
theorem point_in_polygon_depends_on_winding :
    point_in_polygon 0 1 3 [0, 1, 1] [0, 0, 2] = true ∧
    point_in_polygon 0 1 3 [0, 1, 1].reverse [0, 0, 2].reverse = false :=
  ⟨by decide, by decide⟩

/-- C16 (the failing input): for the triangle with vertices (0,0), (1,0),
(1,2) and the point (0,1), `point_in_polygon` returns true while the exact
even-odd ray cast of the specification is false: the two edges whose ends
are separated by `py = 1` both cross strictly right of the point, the edge
from (1,0) to (1,2) at abscissa 1 and the edge from (1,2) to (0,0) at
abscissa 1/2, which the truncating division of the code moves to 0. -/
theorem point_in_polygon_differs_from_ray_cast :
    point_in_polygon 0 1 3 [0, 1, 1] [0, 0, 2] = true ∧
    spec_ray_cast 0 1 3 [0, 1, 1] [0, 0, 2] = false ∧
    spec_edge_crosses 0 1 [0, 1, 1] [0, 0, 2] 2 0 = true ∧
    spec_edge_crosses 0 1 [0, 1, 1] [0, 0, 2] 1 2 = true :=
  ⟨by decide, by decide!, by decide!, by decide!⟩

/-- C17 (the failing input): for the segments `((0,0),(7,0))` and
`((7,-1),(7,6))`, whose cross product `c1` is 49, `lines_intersect` returns
true although the exact parameter `cross(d,v)/c1` is 1, so that the exact
test of the specification is false: the second segment passes through the
END of the first.  The three touches named in the claim evaluate as it
says. -/
theorem lines_intersect_touch_at_end :
    cross_product (7 - 0) (0 - 0) (7 - 7) (6 - (-1)) = 49 ∧
    cross_product (7 - 0) ((-1) - 0) (7 - 7) (6 - (-1)) = 49 ∧
    spec_crossing ⟨0, 0, 7, 0⟩ ⟨7, -1, 7, 6⟩ = false ∧
    lines_intersect ⟨0, 0, 7, 0⟩ ⟨7, -1, 7, 6⟩ = true ∧
    lines_intersect ⟨2, 2, 10, 2⟩ ⟨2, 0, 2, 4⟩ = true ∧
    lines_intersect ⟨2, 2, 10, 2⟩ ⟨10, 0, 10, 4⟩ = false ∧
    lines_intersect ⟨2, 2, 10, 2⟩ ⟨10, 2, 20, 10⟩ = false :=
  ⟨by decide, by decide, by decide!, by decide!, by decide!, by decide!, by decide!⟩

/-- C18 (the failing input): the collinear segments `((0,0),(3,0))` and
`((7,0),(3,0))` share the end point (3,0), so the exact parameters are
`lambda1 = 7/3` and `lambda2 = 1` and the closed interval between them meets
`[0, 1]`; `lines_intersect` returns false. -/
theorem lines_intersect_collinear_touch_missed :
    cross_product (3 - 0) (0 - 0) (3 - 7) (0 - 0) = 0 ∧
    spec_collinear_overlap ⟨0, 0, 3, 0⟩ ⟨7, 0, 3, 0⟩ = true ∧
    lines_intersect ⟨0, 0, 3, 0⟩ ⟨7, 0, 3, 0⟩ = false :=
  ⟨by decide, by decide!, by decide!⟩

/-- C19 (the failing input): for the triangle with vertices
`(2^29, 2^29 - 1)`, `(2^29 - 1, 2^30 - 1)`, `(2^29, 2^29 - 2)` and the
rectangle with left 0, bottom `2^29`, width `2^29` and height `2^29`,
`collide_polygon_rectangle` returns `NO_COLLISION` although
`point_in_polygon` is true at the point `(2^29 - 1, 2^29)` of the half-open
rectangle. -/
theorem collide_false_negative :
    collide_polygon_rectangle 3 [2 ^ 29, 2 ^ 29 - 1, 2 ^ 29]
      [2 ^ 29 - 1, 2 ^ 30 - 1, 2 ^ 29 - 2] 0 (2 ^ 29) (2 ^ 29) (2 ^ 29) = some NO_COLLISION ∧
    ((0 : Int) ≤ 2 ^ 29 - 1 ∧ (2 ^ 29 - 1 : Int) < 0 + 2 ^ 29 ∧
      (2 ^ 29 : Int) ≤ 2 ^ 29 ∧ (2 ^ 29 : Int) < 2 ^ 29 + 2 ^ 29) ∧
    point_in_polygon (2 ^ 29 - 1) (2 ^ 29) 3 [2 ^ 29, 2 ^ 29 - 1, 2 ^ 29]
      [2 ^ 29 - 1, 2 ^ 30 - 1, 2 ^ 29 - 2] = true :=
  ⟨by decide!, by decide, by decide!⟩

/-- C20: `rectangle_inside_polygon` returns true exactly when
`point_in_polygon` holds at the four inclusive corners `(rx, ry)`,
`(rx+w-1, ry)`, `(rx, ry+h-1)` and `(rx+w-1, ry+h-1)`; it is true for the
rectangles (1,1,2,2) and (0,5,2,2) against the triangle with vertices (0,0),
(8,0), (0,8). -/
theorem rectangle_inside_polygon_iff_corners :
    (∀ (rx ry w h n : Int) (xs ys : List Int),
      rectangle_inside_polygon rx ry w h n xs ys = true ↔
        (point_in_polygon rx ry n xs ys = true ∧
         point_in_polygon (rx + w - 1) ry n xs ys = true ∧
         point_in_polygon rx (ry + h - 1) n xs ys = true ∧
         point_in_polygon (rx + w - 1) (ry + h - 1) n xs ys = true)) ∧
    rectangle_inside_polygon 1 1 2 2 3 [0, 8, 0] [0, 0, 8] = true ∧
    rectangle_inside_polygon 0 5 2 2 3 [0, 8, 0] [0, 0, 8] = true := by
  refine ⟨?_, by decide, by decide⟩
  intro rx ry w h n xs ys
  unfold rectangle_inside_polygon
  simp only [Bool.and_eq_true, and_assoc]

/-- C21: for every `n` with `0 ≤ n ≤ 2^62`, `next_power_of_2(n)` is the
smallest power of two that is at least `max(1, n)`: it is `2^k` for some
`k ≤ 62`, it is at least `n`, half of it is below `n` when it exceeds 1, and
no smaller power of two is at least `max(1, n)`.  The values of the unit
test: 0 and 1 give 1, 3 gives 4, 5 gives 8, `2^31 - 1` and `2^31` give
`2^31`. -/
theorem next_power_of_2_smallest (n : Nat) (h : n ≤ 2 ^ 62) :
    (∃ k : Nat, k ≤ 62 ∧ next_power_of_2 n = 2 ^ k) ∧
    n ≤ next_power_of_2 n ∧
    (1 < next_power_of_2 n → next_power_of_2 n / 2 < n) ∧
    (∀ j : Nat, max 1 n ≤ 2 ^ j → next_power_of_2 n ≤ 2 ^ j) ∧
    (next_power_of_2 0 = 1 ∧ next_power_of_2 1 = 1 ∧ next_power_of_2 3 = 4 ∧
      next_power_of_2 5 = 8 ∧ next_power_of_2 (2 ^ 31 - 1) = 2 ^ 31 ∧
      next_power_of_2 (2 ^ 31) = 2 ^ 31) := by
  have hex : next_power_of_2 0 = 1 ∧ next_power_of_2 1 = 1 ∧ next_power_of_2 3 = 4 ∧
      next_power_of_2 5 = 8 ∧ next_power_of_2 (2 ^ 31 - 1) = 2 ^ 31 ∧
      next_power_of_2 (2 ^ 31) = 2 ^ 31 := by decide
  by_cases h0 : n = 0
  · subst h0
    refine ⟨⟨0, by omega, by decide⟩, by omega, by decide, ?_, hex⟩
    intro j _
    rw [hex.1]
    exact Nat.one_le_two_pow
  · have hlt : n - 1 < 2 ^ 64 := by
      have : (2 : Nat) ^ 62 < 2 ^ 64 := by norm_num
      omega
    obtain ⟨b, hb, hlt2, hz, hnz⟩ := next_power_of_2_loop_spec 64 (n - 1) 0 hlt
    have hval : next_power_of_2 n = 2 ^ b := by
      unfold next_power_of_2
      rw [if_neg h0, hb, Nat.zero_add, Nat.one_shiftLeft]
    have hb62 : b ≤ 62 := by
      by_contra hcon
      have h1 : n - 1 ≠ 0 := fun h => by rw [hz h] at hcon; omega
      obtain ⟨_, hle⟩ := hnz h1
      have : (2 : Nat) ^ 62 ≤ 2 ^ (b - 1) := Nat.pow_le_pow_right (by norm_num) (by omega)
      omega
    rw [hval]
    refine ⟨⟨b, hb62, rfl⟩, by omega, ?_, ?_, hex⟩
    · intro h1
      have hb0 : b ≠ 0 := fun h => by rw [h] at h1; simp at h1
      have hn1 : n - 1 ≠ 0 := fun h => hb0 (hz h)
      obtain ⟨hb1, hle⟩ := hnz hn1
      have hpow : 2 ^ b = 2 ^ (b - 1) * 2 := by
        rw [← pow_succ]
        congr 1
        omega
      rw [hpow, Nat.mul_div_cancel _ (by norm_num)]
      omega
    · intro j hj
      by_cases hn1 : n - 1 = 0
      · rw [hz hn1, pow_zero]
        exact Nat.one_le_two_pow
      · obtain ⟨hb1, hle⟩ := hnz hn1
        have hjn : n ≤ 2 ^ j := le_trans (le_max_right 1 n) hj
        have hlt3 : 2 ^ (b - 1) < 2 ^ j := by omega
        have hbj : b - 1 < j := (Nat.pow_lt_pow_iff_right (by norm_num)).1 hlt3
        exact Nat.pow_le_pow_right (by norm_num) (by omega)

/-- Witness of C21: `next_power_of_2(5)` is 8, half of which is below 5. -/
theorem next_power_of_2_smallest_witness :
    (5 : Nat) ≤ 2 ^ 62 ∧ (5 : Nat) ≤ next_power_of_2 5 ∧ next_power_of_2 5 / 2 < 5 :=
  ⟨by norm_num, (next_power_of_2_smallest 5 (by norm_num)).2.1,
   (next_power_of_2_smallest 5 (by norm_num)).2.2.1 (by decide)⟩

/-- C22 (the failing input): for the right triangle with `a = 65536` and the
point (1, 0), which satisfies `x ≥ 0`, `y ≥ 0` and `x + y < a`,
`point_in_polygon` returns false on a two's-complement machine: the `int`
product `(xs[j] - xs[i]) * (py - ys[i]) = 65536 * (-65536)` is `-2^32`,
which does not fit an `int` and wraps to 0.  For `a = 8` the points of the
unit test evaluate as the claim says. -/
theorem point_in_polygon_triangle_overflow :
    ((0 : Int) ≤ 1 ∧ (0 : Int) ≤ 0 ∧ (1 : Int) + 0 < 65536) ∧
    (65536 : Int) * (0 - 65536) = -(2 ^ 32) ∧
    int_wrap (65536 * (0 - 65536)) = 0 ∧
    point_in_polygon_int32 1 0 3 [0, 65536, 0] [0, 0, 65536] = false ∧
    (point_in_polygon_int32 0 0 3 [0, 8, 0] [0, 0, 8] = true ∧
     point_in_polygon_int32 0 4 3 [0, 8, 0] [0, 0, 8] = true ∧
     point_in_polygon_int32 4 0 3 [0, 8, 0] [0, 0, 8] = true ∧
     point_in_polygon_int32 3 4 3 [0, 8, 0] [0, 0, 8] = true ∧
     point_in_polygon_int32 4 3 3 [0, 8, 0] [0, 0, 8] = true ∧
     point_in_polygon_int32 4 4 3 [0, 8, 0] [0, 0, 8] = false ∧
     point_in_polygon_int32 0 8 3 [0, 8, 0] [0, 0, 8] = false ∧
     point_in_polygon_int32 8 0 3 [0, 8, 0] [0, 0, 8] = false ∧
     point_in_polygon_int32 (-1) (-1) 3 [0, 8, 0] [0, 0, 8] = false) := by
  refine ⟨by decide, by decide, by decide, by decide, ?_⟩
  decide

/-- C23: in a well-formed tree whose root box has `int` fields,
`quadtree_query` with the `int` arithmetic of the machine succeeds exactly at
the points `(x, y)` that its bounds check accepts (at every other point it
returns `QUADTREE_ERROR_OUT_OF_BOUNDS` and leaves the holder as it is).  At
such a point the descent `lq_quadtree_node_find_leaf` from the root ends in a
leaf, the call returns `QUADTREE_SUCCESS`, and the id list is, in list order,
the ids of exactly those payloads in the payload list of that leaf for which
`point_in_polygon(x, y, payload)`, as the machine computes it, is true;
`number_of_ids` is the length of that list.  The result is determined by the
payload list of that leaf alone. -/
theorem query_reads_one_leaf (qt : lq_quadtree_t) (hwf : well_formed qt.root)
    (hbox : int_box (root_box qt)) (x y : Int) (holder : quadtree_query_result_t) :
    (int32.lq_rect_point_is_in_bounds (root_box qt) x y = false →
      int32.quadtree_query qt x y holder = some (QUADTREE_ERROR_OUT_OF_BOUNDS, holder)) ∧
    (int32.lq_rect_point_is_in_bounds (root_box qt) x y = true →
      ∃ (depth : Int) (box : lq_rect_t) (polygons : List lq_polygon_t),
        int32.lq_quadtree_node_find_leaf qt.root x y =
          some (.node .null .null .null .null depth box polygons polygons.length) ∧
        int32.quadtree_query qt x y holder =
          some (QUADTREE_SUCCESS,
            ⟨(((polygons.filter
                  (fun p => point_in_polygon_int32 x y p.number_of_points p.xs p.ys)).map
                lq_polygon_t.id).length : Int),
             some ((polygons.filter
                  (fun p => point_in_polygon_int32 x y p.number_of_points p.xs p.ys)).map
                lq_polygon_t.id)⟩)) := by
  obtain ⟨root⟩ := qt
  cases root with
  | null => exact absurd hwf (by simp [well_formed])
  | node a0 a1 a2 a3 adepth abox apolygons acnt =>
    simp only [root_box] at hbox ⊢
    refine ⟨fun hout => ?_, fun hin => ?_⟩
    · simp only [int32.quadtree_query, hout, Bool.not_false, if_true]
    · obtain ⟨depth, lbox, polygons, hleaf⟩ :=
        int32_find_leaf_well_formed _ abox hwf rfl hbox x y hin
      refine ⟨depth, lbox, polygons, hleaf, ?_⟩
      have hq := int32_quadtree_query_of_leaf
        ⟨.node a0 a1 a2 a3 adepth abox apolygons acnt⟩ x y holder _ _ _ _ _ _ _ _ hin hleaf
        (by exact_mod_cast int32_query_ids_length_le x y polygons)
      rw [hq, int32_query_ids_eq]

/-- Witness of C23: the queries at (3, 3) and at (8, 3) in the 8 by 8 tree
that holds the square with corners (1,1) and (7,7) under id 5. -/
theorem query_reads_one_leaf_witness :
    (int32.quadtree_query tree_8_square 8 3 quadtree_query_result_allocate =
      some (QUADTREE_ERROR_OUT_OF_BOUNDS, quadtree_query_result_allocate)) ∧
    ∃ (depth : Int) (box : lq_rect_t) (polygons : List lq_polygon_t),
      int32.lq_quadtree_node_find_leaf tree_8_square.root 3 3 =
        some (.node .null .null .null .null depth box polygons polygons.length) ∧
      int32.quadtree_query tree_8_square 3 3 quadtree_query_result_allocate =
        some (QUADTREE_SUCCESS,
          ⟨(((polygons.filter
                (fun p => point_in_polygon_int32 3 3 p.number_of_points p.xs p.ys)).map
              lq_polygon_t.id).length : Int),
           some ((polygons.filter
                (fun p => point_in_polygon_int32 3 3 p.number_of_points p.xs p.ys)).map
              lq_polygon_t.id)⟩) :=
  ⟨(query_reads_one_leaf tree_8_square
      (int32_reachable_invariant tree_8_square [square_5] int32_reachable_tree_8_square).1
      (int32_reachable_invariant tree_8_square [square_5] int32_reachable_tree_8_square).2.1
      8 3 quadtree_query_result_allocate).1 (by decide!),
   (query_reads_one_leaf tree_8_square
      (int32_reachable_invariant tree_8_square [square_5] int32_reachable_tree_8_square).1
      (int32_reachable_invariant tree_8_square [square_5] int32_reachable_tree_8_square).2.1
      3 3 quadtree_query_result_allocate).2 (by decide!)⟩

/-- C24: in every tree reachable from `quadtree_create` by calls of
`quadtree_add` and `quadtree_remove`, every node either has all four
children and an empty payload list, or has no children at all. -/
theorem internal_nodes_hold_no_payloads (qt : lq_quadtree_t) (live : List lq_polygon_t)
    (h : reachable qt live) :
    every_node (fun n => (has_four_children n ∧ node_polygons n = []) ∨ is_leaf n)
      qt.root := by
  refine every_node_mono _ _ ?_ _ (reachable_subdivision qt live h)
  intro n hnn hn
  cases n with
  | null => exact absurd rfl hnn
  | node c0 c1 c2 c3 depth box polygons cnt =>
    simp only [subdivision_ok] at hn
    rcases hn.2 with hl | ⟨hfour, hp, -⟩
    · exact Or.inr hl
    · exact Or.inl ⟨hfour, hp⟩

/-- Witness of C24: the 8 by 8 tree that holds the square with corners (1,1)
and (7,7). -/
theorem internal_nodes_hold_no_payloads_witness :
    every_node (fun n => (has_four_children n ∧ node_polygons n = []) ∨ is_leaf n)
      tree_8_square.root :=
  internal_nodes_hold_no_payloads tree_8_square [square_5] reachable_tree_8_square

/-- C25: in every tree reachable from `quadtree_create` by calls of
`quadtree_add` and `quadtree_remove`, every node has a depth of at most 15,
and no node with depth 15, or width at most 4, or height at most 4 has
children. -/
theorem subdivision_limit (qt : lq_quadtree_t) (live : List lq_polygon_t)
    (h : reachable qt live) :
    every_node (fun n => ∀ (depth : Int) (box : lq_rect_t),
        node_depth n = some depth → node_box n = some box →
        depth ≤ 15 ∧ ((depth = 15 ∨ box.width ≤ 4 ∨ box.height ≤ 4) → is_leaf n))
      qt.root := by
  refine every_node_mono _ _ ?_ _ (reachable_subdivision qt live h)
  intro n _ hn depth box hd hb
  cases n with
  | null => simp [node_depth] at hd
  | node c0 c1 c2 c3 ndepth nbox polygons cnt =>
    simp only [node_depth, node_box, Option.some.injEq] at hd hb
    subst hd hb
    simp only [subdivision_ok, MAX_DEPTH, MIN_SIZE] at hn
    refine ⟨hn.1, ?_⟩
    intro hlim
    rcases hn.2 with hl | ⟨-, -, hd, hw, hh, -⟩
    · exact hl
    · exfalso
      rcases hlim with h1 | h1 | h1
      · exact hd h1
      · omega
      · omega

/-- Witness of C25: the root of the 8 by 8 tree that holds the square with
corners (1,1) and (7,7) has depth 0, and its children, 4 wide, are leaves. -/
theorem subdivision_limit_witness :
    every_node (fun n => ∀ (depth : Int) (box : lq_rect_t),
        node_depth n = some depth → node_box n = some box →
        depth ≤ 15 ∧ ((depth = 15 ∨ box.width ≤ 4 ∨ box.height ≤ 4) → is_leaf n))
      tree_8_square.root :=
  subdivision_limit tree_8_square [square_5] reachable_tree_8_square

/-- C26: in every tree reachable from `quadtree_create` by calls of
`quadtree_add` and `quadtree_remove`, every node with children has a width
and a height that are powers of two, hence even; its children 0 to 3 are one
level deeper and have the boxes `(l + w/2, b + h/2)`, `(l, b + h/2)`,
`(l, b)`, `(l + w/2, b)` of size `(w/2, h/2)`; and every point of its
half-open box lies in the half-open box of exactly one child, the one whose
index `lq_rect_get_quadrant` returns. -/
theorem quadrant_tiling (qt : lq_quadtree_t) (live : List lq_polygon_t)
    (h : reachable qt live) :
    every_node tiling_ok qt.root ∧
    ∀ box : lq_rect_t,
      quadrant_box box 0 =
        ⟨box.bottom + Int.tdiv box.height 2, box.left + Int.tdiv box.width 2,
         Int.tdiv box.height 2, Int.tdiv box.width 2⟩ ∧
      quadrant_box box 1 =
        ⟨box.bottom + Int.tdiv box.height 2, box.left,
         Int.tdiv box.height 2, Int.tdiv box.width 2⟩ ∧
      quadrant_box box 2 =
        ⟨box.bottom, box.left, Int.tdiv box.height 2, Int.tdiv box.width 2⟩ ∧
      quadrant_box box 3 =
        ⟨box.bottom, box.left + Int.tdiv box.width 2,
         Int.tdiv box.height 2, Int.tdiv box.width 2⟩ :=
  ⟨well_formed_tiling _ (reachable_invariant qt live h).1 (reachable_subdivision qt live h),
   fun _ => ⟨rfl, rfl, rfl, rfl⟩⟩

/-- Witness of C26: the 8 by 8 tree that holds the square with corners (1,1)
and (7,7); its root has four children 4 wide and 4 high. -/
theorem quadrant_tiling_witness : every_node tiling_ok tree_8_square.root :=
  (quadrant_tiling tree_8_square [square_5] reachable_tree_8_square).1

/-- C27 (counterexample): after `quadtree_create(0, 0, 32, 32)`, the notched
square `notched_1` is inserted and attached to the lower left child of the
root, a leaf with the box `[0,16) x [0,16)`; the insert of the small square
`small_2` splits that leaf and then its lower left child, and the split of
the latter gives the new child with the box `[4,8) x [0,4)` a reference to
`notched_1`, although `collide_polygon_rectangle` of `notched_1` and that
box is `NO_COLLISION`: this child is the leaf of the point (5, 1)
afterwards. -/
theorem split_copies_every_payload :
    ∃ qt1 qt2 : lq_quadtree_t,
      quadtree_create 0 0 32 32 = some tree_32 ∧
      quadtree_add tree_32 1 8 [0, 3, 3, 9, 9, 16, 16, 0] [0, 0, 5, 5, 0, 0, 16, 16]
        = some (QUADTREE_SUCCESS, qt1) ∧
      quadtree_add qt1 2 4 [1, 2, 2, 1] [1, 1, 2, 2] = some (QUADTREE_SUCCESS, qt2) ∧
      lq_quadtree_node_find_leaf qt1.root 5 1 = some leaf_16_notched ∧
      lq_quadtree_node_find_leaf qt2.root 5 1 = some leaf_4_notched ∧
      (∃ d0 d1 d2, lq_quadtree_node_populate_children
          (.node .null .null .null .null 2 ⟨0, 0, 8, 8⟩ [notched_1] 1)
        = some (.node d0 d1 d2 leaf_4_notched 2 ⟨0, 0, 8, 8⟩ [] 0)) ∧
      collide_polygon_rectangle notched_1.number_of_points notched_1.xs notched_1.ys
        4 0 4 4 = some NO_COLLISION := by
  have hcreate : quadtree_create 0 0 32 32 = some tree_32 := by decide
  obtain ⟨qt1, hadd1⟩ := quadtree_add_total tree_32 1 8 [0, 3, 3, 9, 9, 16, 16, 0]
    [0, 0, 5, 5, 0, 0, 16, 16] (quadtree_create_well_formed _ _ _ _ _ hcreate).1 (by decide)
    (by decide)
  obtain ⟨e0, e1, e3, he0, hroot1⟩ := notched_insert_shape qt1 hadd1
  have hreach : reachable qt1 [notched_1] :=
    reachable.add_success _ _ _ _ _ _ _ _ (reachable.create _ _ _ _ _ hcreate) hadd1
      (by decide)
  have hbox1 : root_box qt1 = ⟨0, 0, 32, 32⟩ := by
    unfold root_box; rw [hroot1]
  obtain ⟨qt2, hadd2⟩ := quadtree_add_total qt1 2 4 [1, 2, 2, 1] [1, 1, 2, 2]
    (reachable_invariant qt1 _ hreach).1 (by decide)
    (by rw [hbox1]; decide)
  obtain ⟨f0, f1, f3, hroot2⟩ := small_insert_shape qt1 qt2 e0 e1 e3 he0 hroot1 hadd2
  refine ⟨qt1, qt2, hcreate, hadd1, hadd2, ?_, ?_,
    ⟨.node .null .null .null .null 3 ⟨4, 4, 4, 4⟩ [notched_1] 1,
     .node .null .null .null .null 3 ⟨4, 0, 4, 4⟩ [notched_1] 1,
     .node .null .null .null .null 3 ⟨0, 0, 4, 4⟩ [notched_1] 1, by decide⟩, by decide!⟩
  · rw [hroot1, find_leaf_quadrant_2 _ _ _ _ _ _ _ _ _ _ (by decide) (by decide)]
    decide
  · rw [hroot2, find_leaf_quadrant_2 _ _ _ _ _ _ _ _ _ _ (by decide) (by decide)]
    decide

/-- C27 (amended): the split of a leaf gives each of the four new children a
reference to every payload of the leaf, in reverse list order, whether or
not the payload collides with the box of the child, and leaves the payload
list of the split node empty; the children are leaves one level deeper with
the four quadrant boxes. -/
theorem split_gives_children_all_payloads (depth : Int) (box : lq_rect_t)
    (polygons : List lq_polygon_t) :
    lq_quadtree_node_populate_children
        (.node .null .null .null .null depth box polygons polygons.length) =
      some (.node
        (.node .null .null .null .null (depth + 1) (quadrant_box box 0)
          polygons.reverse polygons.length)
        (.node .null .null .null .null (depth + 1) (quadrant_box box 1)
          polygons.reverse polygons.length)
        (.node .null .null .null .null (depth + 1) (quadrant_box box 2)
          polygons.reverse polygons.length)
        (.node .null .null .null .null (depth + 1) (quadrant_box box 3)
          polygons.reverse polygons.length)
        depth box [] 0) := by
  rw [populate_children_leaf, if_pos rfl]
  rfl

/-- C31 (the failing input): the triangle with vertices (0,0), (0,65535),
(65535,0) has all vertices in the half-open box `[0,65536) x [0,65536)`, the
box of the root after `quadtree_create(0, 0, 65536, 65536)`, and
`quadtree_add` finds no vertex out of bounds.  At the point (65535, 65534) of
the last column of the box `point_in_polygon` returns true on a
two's-complement machine: for the edge from (0,65535) to (65535,0) the `int`
product `(xs[j] - xs[i]) * (py - ys[i]) = -65535 * 65534` does not fit an
`int` and wraps to 196606, the quotient by 65535 is 3 and the crossing is put
at `x = 65538`, to the right of the point.  With exact integers the same
call is false.  `rectangle_inside_polygon` is false for this input with
either arithmetic. -/
theorem point_in_polygon_last_column_overflow :
    quadtree_create 0 0 65536 65536 =
      some ⟨.node .null .null .null .null 0 ⟨0, 0, 65536, 65536⟩ [] 0⟩ ∧
    add_out_of_bounds ⟨0, 0, 65536, 65536⟩ [0, 0, 65535] [0, 65535, 0] (List.range 3) = false ∧
    ((0 : Int) - 65535) * (65534 - 0) = -4294770690 ∧
    int_wrap (((0 : Int) - 65535) * (65534 - 0)) = 196606 ∧
    Int.tdiv 196606 (65535 - 0) + 65535 = 65538 ∧
    point_in_polygon_int32 (0 + 65536 - 1) 65534 3 [0, 0, 65535] [0, 65535, 0] = true ∧
    point_in_polygon (0 + 65536 - 1) 65534 3 [0, 0, 65535] [0, 65535, 0] = false ∧
    rectangle_inside_polygon_int32 0 0 65536 65536 3 [0, 0, 65535] [0, 65535, 0] = false ∧
    rectangle_inside_polygon 0 0 65536 65536 3 [0, 0, 65535] [0, 65535, 0] = false := by
  refine ⟨by decide, by decide, by decide, by decide, by decide, by decide, by decide,
    by decide, by decide⟩

end LQ
